import Mathlib

/-! NFFS: hash index, inode tree, files, and the flash and kernel layers under them

A shallow embedding of `libs/nffs/src/nffs_hash.c`, of the directory, reference count,
unlink, filename, data length, seek and read parts of `libs/nffs/src/nffs_inode.c`, of
the validation and block size functions of `libs/nffs/src/nffs_misc.c`, of
`nffs_dir_open`, `nffs_dir_read` and `nffs_dir_close` of `libs/nffs/src/nffs_dir.c`, of
the flash access, copy and format functions of `libs/ffs/src` (`ffs_flash.c`,
`ffs_format.c`), of the mutex and the scheduler of `libs/os/src` (`os_mutex.c`,
`os_sched.c`), and of `ll_adv_set_adv_params` of
`net/nimble/controller/src/ll_adv.c`.

Conventions of the embedding

* A C pointer to an entry is a natural number (its address); a nullable pointer
  is an `Option Nat`.  The fields of the object behind a pointer are read from a
  heap, a function from addresses to records.
* A BSD `SLIST` is the Lean list of the addresses of its nodes, head first.  The
  link fields (`nhe_next`, `nie_sibling_next`) are the successor in that list.
* Machine integers are naturals; a truncating store is written with `%`.
* A C function that returns an `int` status is a function to a `Res`: `ok v` for
  a return of 0 with outputs `v`, `err rc` for a nonzero return, `abort` for a
  failed `assert` or a wild pointer access.  A function that changes the globals
  takes the state and returns the `Res` together with the state it leaves: the
  state is there on an error return too, because the C globals keep whatever was
  done before the `return rc`.
* Functions of this repository that the sources at hand do not hold (the flash
  layer `nffs_flash.c`, the CRC, the garbage collector, the block functions of
  `nffs_block.c`, the inode cache, the path lookup, the pool allocator, the flash
  driver and the headers of `libs/ffs` and `libs/os`, the context switch, the
  headers `nimble/ble.h` and `controller/ll_adv.h`) are modelled from the spec or
  taken as parameters; each such definition says so.
* A `while` loop whose number of iterations is not a function of a list at hand
  is a recursion on a bound that the caller computes from the state; that the
  bound is enough, so that a larger one gives the same result, is proved for each
  such loop.  The loop of `nffs_inode_read`, whose iterations are decided by the
  cache functions that are parameters, takes the bound as an argument.
-/

namespace Nffs

/-! ## Constants of `nffs_priv.h` -/

abbrev NFFS_HASH_SIZE : Nat := 256

def NFFS_ID_DIR_MIN : Nat := 0
def NFFS_ID_DIR_MAX : Nat := 0x10000000
def NFFS_ID_FILE_MIN : Nat := 0x10000000
def NFFS_ID_FILE_MAX : Nat := 0x80000000
def NFFS_ID_BLOCK_MIN : Nat := 0x80000000
def NFFS_ID_BLOCK_MAX : Nat := 0xffffffff

def NFFS_ID_ROOT_DIR : Nat := 0
def NFFS_ID_NONE : Nat := 0xffffffff

def NFFS_INODE_MAGIC : Nat := 0x925f8bc0

def NFFS_SHORT_FILENAME_LEN : Nat := 3

def NFFS_FLASH_BUF_SZ : Nat := 256

/-- The macro `NFFS_INODE_FILENAME_BUF_SZ` of nffs_inode.c: half of the flash buffer. -/
def NFFS_INODE_FILENAME_BUF_SZ : Nat := NFFS_FLASH_BUF_SZ / 2

/-- The value of `sizeof (struct nffs_disk_inode)`: four 32-bit words, two bytes and a
16-bit CRC. -/
def NFFS_DISK_INODE_SZ : Nat := 20

/-! ## Object ids (`nffs_hash.c`, lines 29-51) -/

def nffs_hash_id_is_dir (id : Nat) : Bool :=
  decide (id ≥ NFFS_ID_DIR_MIN) && decide (id < NFFS_ID_DIR_MAX)

def nffs_hash_id_is_file (id : Nat) : Bool :=
  decide (id ≥ NFFS_ID_FILE_MIN) && decide (id < NFFS_ID_FILE_MAX)

def nffs_hash_id_is_inode (id : Nat) : Bool :=
  nffs_hash_id_is_dir id || nffs_hash_id_is_file id

def nffs_hash_id_is_block (id : Nat) : Bool :=
  decide (id ≥ NFFS_ID_BLOCK_MIN) && decide (id < NFFS_ID_BLOCK_MAX)

/-! ## Singly linked lists of `os/queue.h` -/

/-- The macro `SLIST_INSERT_HEAD`: the element becomes the first node. -/
def SLIST_INSERT_HEAD (head : List Nat) (elm : Nat) : List Nat :=
  elm :: head

/-- The macro `SLIST_REMOVE`: if the first node is `elm` the head is dropped, otherwise
the list is walked until the node whose successor is `elm` and that successor is
unlinked.  When `elm` is not in the list the walk runs off the end and dereferences
NULL, which is `none`. -/
def SLIST_REMOVE : List Nat → Nat → Option (List Nat)
  | [], _ => none
  | first :: rest, elm =>
    if first = elm then some rest
    else
      match SLIST_REMOVE rest elm with
      | none => none
      | some rest' => some (first :: rest')

/-- The macro `SLIST_INSERT_AFTER`, with the node `slistelm` given by the number `k` of
nodes of the list up to and including it. -/
def SLIST_INSERT_AFTER (head : List Nat) (k : Nat) (elm : Nat) : List Nat :=
  head.take k ++ elm :: head.drop k

/-! ## The hash table (`nffs_hash.c`) -/

/-- The `struct nffs_hash_entry` without its link field. -/
structure nffs_hash_entry where
  nhe_id : Nat
  nhe_flash_loc : Nat
deriving DecidableEq, Repr

/-- The array `nffs_hash` of `NFFS_HASH_SIZE` list heads. -/
abbrev nffs_hash_table := Fin NFFS_HASH_SIZE → List Nat

def nffs_hash_fn (id : Nat) : Fin NFFS_HASH_SIZE :=
  ⟨id % NFFS_HASH_SIZE, Nat.mod_lt id (by decide)⟩

/-- The `SLIST_FOREACH` loop of `nffs_hash_find`.  `visited` are the nodes already
passed (so `prev` is its last node, and `prev == NULL` means `visited = []`), `rest`
the nodes from `entry` on.  On a hit the result is the entry and the new chain. -/
def nffs_hash_find_loop (mem : Nat → nffs_hash_entry) (id : Nat) :
    List Nat → List Nat → Option (Nat × List Nat)
  | _, [] => none
  | visited, entry :: rest =>
    if (mem entry).nhe_id = id then
      if visited ≠ [] then
        -- prev->next = entry->next; SLIST_INSERT_HEAD(list, entry)
        some (entry, SLIST_INSERT_HEAD (visited ++ rest) entry)
      else
        some (entry, entry :: rest)
    else
      nffs_hash_find_loop mem id (visited ++ [entry]) rest

/-- The function `nffs_hash_find`: the entry found (NULL is `none`) and the table
afterwards. -/
def nffs_hash_find (mem : Nat → nffs_hash_entry) (tbl : nffs_hash_table) (id : Nat) :
    Option Nat × nffs_hash_table :=
  let idx := nffs_hash_fn id
  match nffs_hash_find_loop mem id [] (tbl idx) with
  | none => (none, tbl)
  | some (entry, list) => (some entry, Function.update tbl idx list)

/-- The function `nffs_hash_insert`.  The entry must not be linked in the table. -/
def nffs_hash_insert (mem : Nat → nffs_hash_entry) (tbl : nffs_hash_table) (entry : Nat) :
    nffs_hash_table :=
  let idx := nffs_hash_fn (mem entry).nhe_id
  Function.update tbl idx (SLIST_INSERT_HEAD (tbl idx) entry)

/-- The function `nffs_hash_remove`; `none` when `SLIST_REMOVE` runs off the chain. -/
def nffs_hash_remove (mem : Nat → nffs_hash_entry) (tbl : nffs_hash_table) (entry : Nat) :
    Option nffs_hash_table :=
  let idx := nffs_hash_fn (mem entry).nhe_id
  match SLIST_REMOVE (tbl idx) entry with
  | none => none
  | some list => some (Function.update tbl idx list)

/-- The table left by a successful `nffs_hash_init`: every list head is `SLIST_INIT`ed. -/
def nffs_hash_init : nffs_hash_table := fun _ => []

/-- The states of the index: the table after `nffs_hash_init`, followed by any number
of `nffs_hash_insert` (of an entry that is not linked), `nffs_hash_remove` (of an entry
that is linked), `nffs_hash_find`, and of changes to the heap that keep the id of every
linked entry. -/
inductive nffs_hash_reachable : (Nat → nffs_hash_entry) → nffs_hash_table → Prop
  | init (mem : Nat → nffs_hash_entry) : nffs_hash_reachable mem nffs_hash_init
  | insert (mem : Nat → nffs_hash_entry) (tbl : nffs_hash_table) (entry : Nat) :
      nffs_hash_reachable mem tbl → (∀ i, entry ∉ tbl i) →
      nffs_hash_reachable mem (nffs_hash_insert mem tbl entry)
  | remove (mem : Nat → nffs_hash_entry) (tbl tbl' : nffs_hash_table) (entry : Nat) :
      nffs_hash_reachable mem tbl → nffs_hash_remove mem tbl entry = some tbl' →
      nffs_hash_reachable mem tbl'
  | find (mem : Nat → nffs_hash_entry) (tbl : nffs_hash_table) (id : Nat) :
      nffs_hash_reachable mem tbl → nffs_hash_reachable mem (nffs_hash_find mem tbl id).2
  | heap (mem mem' : Nat → nffs_hash_entry) (tbl : nffs_hash_table) :
      nffs_hash_reachable mem tbl →
      (∀ i, ∀ e ∈ tbl i, (mem' e).nhe_id = (mem e).nhe_id) →
      nffs_hash_reachable mem' tbl

/-- The invariant of the index: an entry is linked in the bucket of its id, and in no
chain twice. -/
def nffs_hash_inv (mem : Nat → nffs_hash_entry) (tbl : nffs_hash_table) : Prop :=
  (∀ i, ∀ e ∈ tbl i, nffs_hash_fn (mem e).nhe_id = i) ∧ (∀ i, (tbl i).Nodup)

/-! ## Results, memory and the file system state -/

/-- What a call of a C function with an `int` status comes to: a return of 0 with its
outputs, the return of a nonzero status, or no return at all (a failed `assert`, a NULL
dereference, an array index out of bounds). -/
inductive Res (α : Type) where
  | ok (v : α)
  | err (rc : Nat)
  | abort
deriving DecidableEq, Repr

/-- Modelled from the spec: the error codes of `nffs/nffs.h`, which is not part of the
sources; the spec lists them as distinct nonzero integer codes. -/
def NFFS_ECORRUPT : Nat := 1

/-- Modelled from the spec: see `NFFS_ECORRUPT`. -/
def NFFS_EFLASH_ERROR : Nat := 2

/-- Modelled from the spec: see `NFFS_ECORRUPT`. -/
def NFFS_ERANGE : Nat := 3

/-- Modelled from the spec: see `NFFS_ECORRUPT`. -/
def NFFS_EFULL : Nat := 8

/-- Modelled from the spec: see `NFFS_ECORRUPT`. -/
def NFFS_EUNEXP : Nat := 9

/-- Bytes `addr .. addr + len - 1` of a byte-addressed memory. -/
def mem_read (m : Nat → Nat) (addr len : Nat) : List Nat :=
  (List.range len).map (fun i => m (addr + i) % 256)

/-- The memory after storing the bytes `data` from `addr` on.  For the flash device this
is the driver's write to cells that were erased, where what is stored is what was
written. -/
def mem_write (m : Nat → Nat) (addr : Nat) (data : List Nat) : Nat → Nat :=
  fun a => if addr ≤ a ∧ a < addr + data.length then data.getD (a - addr) 0 % 256 else m a

/-- The `struct nffs_area`. -/
structure nffs_area where
  na_offset : Nat
  na_length : Nat
  na_cur : Nat
  na_id : Nat
  na_gc_seq : Nat
deriving DecidableEq, Repr

/-- The `struct nffs_inode_entry`.  The sibling link is the position in the child list
of the parent; the two members of the union are kept apart.  In C the child list of a
directory and the last block of a file share their memory, so reading the child list of a
file entry gives its last block pointer, where it gives the empty list here: the
embedding speaks for the directory functions applied to directories and the file
functions applied to files. -/
structure nffs_inode_entry where
  nie_hash_entry : nffs_hash_entry
  nie_child_list : List Nat
  nie_last_block_entry : Option Nat
  nie_refcnt : Nat
deriving DecidableEq, Repr

/-- The `struct nffs_inode`.  `ni_filename` holds the bytes that were read into the
array, at most `NFFS_SHORT_FILENAME_LEN` of them. -/
structure nffs_inode where
  ni_inode_entry : Nat
  ni_seq : Nat
  ni_parent : Option Nat
  ni_filename_len : Nat
  ni_filename : List Nat
deriving DecidableEq, Repr

/-- The `struct nffs_disk_inode`. -/
structure nffs_disk_inode where
  ndi_magic : Nat
  ndi_id : Nat
  ndi_seq : Nat
  ndi_parent_id : Nat
  reserved8 : Nat
  ndi_filename_len : Nat
  ndi_crc16 : Nat
deriving DecidableEq, Repr

/-- The `struct nffs_dirent`. -/
structure nffs_dirent where
  nde_inode_entry : Option Nat
deriving DecidableEq, Repr

/-- The `struct nffs_dir`. -/
structure nffs_dir where
  nd_parent_inode_entry : Nat
  nd_dirent : nffs_dirent
deriving DecidableEq, Repr

/-- The `struct nffs_disk_block`. -/
structure nffs_disk_block where
  ndb_magic : Nat
  ndb_id : Nat
  ndb_seq : Nat
  ndb_inode_id : Nat
  ndb_prev_id : Nat
  ndb_data_len : Nat
  ndb_crc16 : Nat
deriving DecidableEq, Repr

/-- The `struct nffs_block`, without the padding member `reserved16`.  `nb_hash_entry` is
the address of the entry the block was decoded from; in the zeroed block that
`nffs_inode_seek` hands out at the end of a file it is 0, the NULL pointer. -/
structure nffs_block where
  nb_hash_entry : Nat
  nb_seq : Nat
  nb_inode_entry : Option Nat
  nb_prev : Option Nat
  nb_data_len : Nat
deriving DecidableEq, Repr

/-- The `struct nffs_seek_info`. -/
structure nffs_seek_info where
  nsi_last_block : nffs_block
  nsi_block_file_off : Nat
  nsi_file_len : Nat
deriving DecidableEq, Repr

/-- The `struct nffs_cache_block` without its link field: the position in the block list
of its cached inode is the link. -/
structure nffs_cache_block where
  ncb_block : nffs_block
  ncb_file_offset : Nat
deriving DecidableEq, Repr

/-- The `struct nffs_cache_inode` without its link field; `nci_block_list` holds the
addresses of the cached blocks, first block first. -/
structure nffs_cache_inode where
  nci_inode : nffs_inode
  nci_block_list : List Nat
  nci_file_size : Nat
deriving DecidableEq, Repr

/-- The globals of the file system and the flash device under it.

* `inodes` is the heap of inode entries, `nffs_hash` the hash table, `nffs_areas` the
  area table (`nffs_num_areas` is its length), `nffs_flash_buf` the static buffer.
  A block entry is a bare `struct nffs_hash_entry`; its address is looked up in the same
  heap, where only the member `nie_hash_entry` means something for it.
* `flash` is the content of the device by absolute offset; `flash_read_fails` and
  `flash_write_fails` say for which (offset, length) the driver reports an error.
* `nffs_inode_unlink_list` is the static list of nffs_inode.c, `nffs_root_dir` and
  `nffs_block_max_data_sz` are the globals of these names, `dirs` is the heap of
  directory handles.
* `nffs_inode_entry_pool` and `nffs_block_entry_pool` are the blocks that are free in the
  two pools, `nffs_cache_inode_list` the inode entries that have a cached inode.
* `nffs_dir_pool` are the blocks that are free in the pool of directory handles.
* `cache_inodes` and `cache_blocks` are the heaps of cached inodes and cached blocks. -/
structure nffs_state where
  inodes : Nat → nffs_inode_entry
  nffs_hash : nffs_hash_table
  nffs_areas : List nffs_area
  nffs_scratch_area_idx : Nat
  nffs_flash_buf : Nat → Nat
  flash : Nat → Nat
  flash_read_fails : Nat → Nat → Bool
  flash_write_fails : Nat → Nat → Bool
  nffs_inode_unlink_list : List Nat := []
  nffs_root_dir : Option Nat := none
  nffs_block_max_data_sz : Nat := 0
  dirs : Nat → nffs_dir := fun _ => { nd_parent_inode_entry := 0, nd_dirent := ⟨none⟩ }
  nffs_inode_entry_pool : List Nat := []
  nffs_block_entry_pool : List Nat := []
  nffs_cache_inode_list : List Nat := []
  nffs_dir_pool : List Nat := []
  cache_inodes : Nat → nffs_cache_inode := fun _ =>
    { nci_inode :=
        { ni_inode_entry := 0, ni_seq := 0, ni_parent := none, ni_filename_len := 0,
          ni_filename := [] }
      nci_block_list := []
      nci_file_size := 0 }
  cache_blocks : Nat → nffs_cache_block := fun _ =>
    { ncb_block :=
        { nb_hash_entry := 0, nb_seq := 0, nb_inode_entry := none, nb_prev := none,
          nb_data_len := 0 }
      ncb_file_offset := 0 }

/-- Modelled from the spec: what a run of the garbage collector of nffs_gc.c, which is
not part of the sources, may leave behind.  It copies live records into the scratch
area, erases the victim, rotates the scratch area and updates the flash location of
every copied object (spec 4.8), looks objects up in the hash table, and copies through
the static buffer (spec 5); object ids, child lists and reference counts are not its
business.  `flash_loc` gives the new `nhe_flash_loc` of the entry at each address. -/
structure nffs_gc_effect where
  nffs_hash : nffs_hash_table
  nffs_areas : List nffs_area
  nffs_scratch_area_idx : Nat
  nffs_flash_buf : Nat → Nat
  flash : Nat → Nat
  flash_loc : Nat → Nat

/-- The state after a run of the garbage collector with the given effect. -/
def nffs_gc_effect.apply (g : nffs_gc_effect) (s : nffs_state) : nffs_state :=
  { s with
    inodes := fun e =>
      { s.inodes e with
        nie_hash_entry :=
          { (s.inodes e).nie_hash_entry with nhe_flash_loc := g.flash_loc e } }
    nffs_hash := g.nffs_hash
    nffs_areas := g.nffs_areas
    nffs_scratch_area_idx := g.nffs_scratch_area_idx
    nffs_flash_buf := g.nffs_flash_buf
    flash := g.flash }

/-- What the embedded functions call but the sources do not hold.

* `crc16_ccitt` is the CRC of `crc16.h` over a byte string.
* `nffs_gc_until space s` is the garbage collector of `nffs_gc.c`: its status with the
  index of the area it freed, and what it did to the state.
* `uninit8` is the value of a byte of a stack frame that the code never assigns (the
  member `reserved8` of a local `struct nffs_disk_inode`). -/
structure nffs_env where
  crc16_ccitt : List Nat → Nat
  nffs_gc_until : Nat → nffs_state → Res Nat × nffs_gc_effect
  uninit8 : Nat

/-- The view of the heap that the hash table works on: the first member of an inode
entry is its hash entry. -/
def nffs_state.hash_mem (s : nffs_state) : Nat → nffs_hash_entry :=
  fun a => (s.inodes a).nie_hash_entry

/-! ## Flash access -/

/-- Modelled from the spec: `nffs_flash_loc` of nffs_flash.c, which is not part of the
sources; a flash location has the area index in the high byte and the area offset in the
low 24 bits. -/
def nffs_flash_loc (area_idx area_offset : Nat) : Nat :=
  (area_idx % 256) * 2 ^ 24 + area_offset % 2 ^ 24

/-- Modelled from the spec: `nffs_flash_loc_expand` of nffs_flash.c, the inverse of
`nffs_flash_loc`: area index and area offset of a 32-bit location. -/
def nffs_flash_loc_expand (flash_loc : Nat) : Nat × Nat :=
  (flash_loc / 2 ^ 24 % 256, flash_loc % 2 ^ 24)

/-- Modelled from the spec: `nffs_flash_read` of nffs_flash.c, which is not part of the
sources (`ffs_flash_read` of libs/ffs is its older form): the area index must be valid, a
span that leaves the area is `NFFS_ERANGE`, a driver error is `NFFS_EFLASH_ERROR`. -/
def nffs_flash_read (s : nffs_state) (area_idx area_offset len : Nat) : Res (List Nat) :=
  match s.nffs_areas[area_idx]? with
  | none => .abort
  | some area =>
    if area_offset + len > area.na_length then .err NFFS_ERANGE
    else if s.flash_read_fails (area.na_offset + area_offset) len then
      .err NFFS_EFLASH_ERROR
    else .ok (mem_read s.flash (area.na_offset + area_offset) len)

/-- Modelled from the spec: `nffs_flash_write` of nffs_flash.c, which is not part of the
sources (`ffs_flash_write` of libs/ffs is its older form): an append must start exactly
at the cursor of the area, a span that leaves the area is `NFFS_ERANGE`, a driver error
is `NFFS_EFLASH_ERROR`, and a successful write advances the cursor to its end. -/
def nffs_flash_write (s : nffs_state) (area_idx area_offset : Nat) (data : List Nat) :
    Res Unit × nffs_state :=
  match s.nffs_areas[area_idx]? with
  | none => (.abort, s)
  | some area =>
    if area_offset ≠ area.na_cur then (.abort, s)
    else if area_offset + data.length > area.na_length then (.err NFFS_ERANGE, s)
    else if s.flash_write_fails (area.na_offset + area_offset) data.length then
      (.err NFFS_EFLASH_ERROR, s)
    else
      (.ok (),
        { s with
          flash := mem_write s.flash (area.na_offset + area_offset) data
          nffs_areas :=
            s.nffs_areas.set area_idx { area with na_cur := area_offset + data.length } })

/-! ## The inode record on flash -/

/-- The four bytes of a little-endian `uint32_t`. -/
def le32 (n : Nat) : List Nat :=
  [n % 256, n / 256 % 256, n / 65536 % 256, n / 16777216 % 256]

/-- The value of four little-endian bytes starting at index `i`. -/
def le32_at (b : List Nat) (i : Nat) : Nat :=
  b.getD i 0 + 256 * b.getD (i + 1) 0 + 65536 * b.getD (i + 2) 0 + 16777216 * b.getD (i + 3) 0

/-- The bytes of a `struct nffs_disk_inode` in memory. -/
def nffs_disk_inode.bytes (d : nffs_disk_inode) : List Nat :=
  le32 d.ndi_magic ++ le32 d.ndi_id ++ le32 d.ndi_seq ++ le32 d.ndi_parent_id ++
    [d.reserved8 % 256, d.ndi_filename_len % 256, d.ndi_crc16 % 256, d.ndi_crc16 / 256 % 256]

/-- The `struct nffs_disk_inode` that `NFFS_DISK_INODE_SZ` bytes of memory hold. -/
def nffs_disk_inode.of_bytes (b : List Nat) : nffs_disk_inode :=
  { ndi_magic := le32_at b 0
    ndi_id := le32_at b 4
    ndi_seq := le32_at b 8
    ndi_parent_id := le32_at b 12
    reserved8 := b.getD 16 0
    ndi_filename_len := b.getD 17 0
    ndi_crc16 := b.getD 18 0 + 256 * b.getD 19 0 }

/-- The function `nffs_inode_read_disk`. -/
def nffs_inode_read_disk (s : nffs_state) (area_idx offset : Nat) : Res nffs_disk_inode :=
  match nffs_flash_read s area_idx offset NFFS_DISK_INODE_SZ with
  | .abort => .abort
  | .err rc => .err rc
  | .ok b =>
    let out_disk_inode := nffs_disk_inode.of_bytes b
    if out_disk_inode.ndi_magic ≠ NFFS_INODE_MAGIC then .err NFFS_EUNEXP
    else .ok out_disk_inode

/-- The function `nffs_inode_write_disk`.  The `ASSERT_IF_TEST` of the CRC is compiled
only into test builds and is left out. -/
def nffs_inode_write_disk (s : nffs_state) (disk_inode : nffs_disk_inode)
    (filename : List Nat) (area_idx area_offset : Nat) : Res Unit × nffs_state :=
  match nffs_flash_write s area_idx area_offset disk_inode.bytes with
  | (.abort, s1) => (.abort, s1)
  | (.err rc, s1) => (.err rc, s1)
  | (.ok _, s1) =>
    if disk_inode.ndi_filename_len ≠ 0 then
      match nffs_flash_write s1 area_idx (area_offset + NFFS_DISK_INODE_SZ)
          (filename.take disk_inode.ndi_filename_len) with
      | (.abort, s2) => (.abort, s2)
      | (.err rc, s2) => (.err rc, s2)
      | (.ok _, s2) => (.ok (), s2)
    else (.ok (), s1)

/-- Modelled from the spec: `nffs_crc_disk_inode_fill` of nffs_crc.c, which is not part
of the sources: the CRC covers the record without its CRC field (the first
`NFFS_DISK_INODE_OFFSET_CRC` = 18 bytes), followed by the filename bytes. -/
def nffs_crc_disk_inode_fill (env : nffs_env) (disk_inode : nffs_disk_inode)
    (filename : List Nat) : nffs_disk_inode :=
  { disk_inode with
    ndi_crc16 :=
      env.crc16_ccitt (disk_inode.bytes.take 18 ++
        (filename.take disk_inode.ndi_filename_len).map (· % 256)) % 65536 }

/-! ## Inodes (`nffs_inode.c`) -/

/-- The function `nffs_hash_find_inode`: the `assert` on the id, then `nffs_hash_find`,
which moves the entry found to the head of its chain. -/
def nffs_hash_find_inode (s : nffs_state) (id : Nat) : Res (Option Nat) × nffs_state :=
  if nffs_hash_id_is_inode id = false then (.abort, s)
  else
    let r := nffs_hash_find s.hash_mem s.nffs_hash id
    (.ok r.1, { s with nffs_hash := r.2 })

/-- The function `nffs_inode_from_entry`. -/
def nffs_inode_from_entry (s : nffs_state) (entry : Nat) : Res nffs_inode × nffs_state :=
  let loc := nffs_flash_loc_expand (s.inodes entry).nie_hash_entry.nhe_flash_loc
  let area_idx := loc.1
  let area_offset := loc.2
  match nffs_inode_read_disk s area_idx area_offset with
  | .abort => (.abort, s)
  | .err rc => (.err rc, s)
  | .ok disk_inode =>
    let parent : Res (Option Nat) × nffs_state :=
      if disk_inode.ndi_parent_id = NFFS_ID_NONE then (.ok none, s)
      else nffs_hash_find_inode s disk_inode.ndi_parent_id
    match parent with
    | (.abort, s1) => (.abort, s1)
    | (.err rc, s1) => (.err rc, s1)
    | (.ok ni_parent, s1) =>
      let ni_filename_len := disk_inode.ndi_filename_len
      let cached_name_len :=
        if ni_filename_len > NFFS_SHORT_FILENAME_LEN then NFFS_SHORT_FILENAME_LEN
        else ni_filename_len
      if cached_name_len ≠ 0 then
        match nffs_flash_read s1 area_idx (area_offset + NFFS_DISK_INODE_SZ)
            cached_name_len with
        | .abort => (.abort, s1)
        | .err rc => (.err rc, s1)
        | .ok ni_filename =>
          (.ok { ni_inode_entry := entry, ni_seq := disk_inode.ndi_seq,
                 ni_parent := ni_parent, ni_filename_len := ni_filename_len,
                 ni_filename := ni_filename }, s1)
      else
        (.ok { ni_inode_entry := entry, ni_seq := disk_inode.ndi_seq,
               ni_parent := ni_parent, ni_filename_len := ni_filename_len,
               ni_filename := [] }, s1)

/-- The function `nffs_inode_parent_id`. -/
def nffs_inode_parent_id (s : nffs_state) (inode : nffs_inode) : Nat :=
  match inode.ni_parent with
  | none => NFFS_ID_NONE
  | some parent => (s.inodes parent).nie_hash_entry.nhe_id

/-- The function `nffs_inode_read_filename_chunk`; the bytes read are its result, the
caller stores them in its buffer.  `filename_offset` is a `uint8_t` parameter. -/
def nffs_inode_read_filename_chunk (s : nffs_state) (inode : nffs_inode)
    (filename_offset len : Nat) : Res (List Nat) :=
  let filename_offset := filename_offset % 256
  if filename_offset + len > inode.ni_filename_len then .abort
  else
    let loc := nffs_flash_loc_expand (s.inodes inode.ni_inode_entry).nie_hash_entry.nhe_flash_loc
    let area_idx := loc.1
    let area_offset := loc.2 + (NFFS_DISK_INODE_SZ + filename_offset)
    nffs_flash_read s area_idx area_offset len

/-- The libc function `strncmp` on two byte buffers: the difference of the first pair of
bytes that differ among the first `n`, 0 if there is none before `n` bytes or before a
NUL in both.  A buffer that ends early reads as NUL. -/
def strncmp : List Nat → List Nat → Nat → Int
  | _, _, 0 => 0
  | s1, s2, n + 1 =>
    let c1 := s1.headD 0
    let c2 := s2.headD 0
    if c1 ≠ c2 then (c1 : Int) - (c2 : Int)
    else if c1 = 0 then 0
    else strncmp s1.tail s2.tail n

/-- The libc function `strlen` on the bytes at a `const char *`: the number of bytes
before the first NUL (the end of the list stands for the terminator). -/
def strlen : List Nat → Nat
  | [] => 0
  | c :: cs => if c = 0 then 0 else strlen cs + 1

/-- The `while (*result == 0 && off < short_len)` loop of
`nffs_inode_filename_cmp_flash`.  `nffs_inode_filename_buf0` is `nffs_flash_buf`,
`nffs_inode_filename_buf1` is `nffs_flash_buf + NFFS_INODE_FILENAME_BUF_SZ`.  The first
argument bounds the number of iterations; `short_len` of them are always enough, since
every iteration advances `off` by at least one. -/
def nffs_inode_filename_cmp_flash_loop (inode1 inode2 : nffs_inode) (short_len : Nat) :
    Nat → Nat → Int → nffs_state → Res Int × nffs_state
  | 0, off, result, s =>
    if result = 0 ∧ off < short_len then (.abort, s) else (.ok result, s)
  | fuel + 1, off, result, s =>
    if result = 0 ∧ off < short_len then
      let rem_len := short_len - off
      let chunk_len :=
        if rem_len > NFFS_INODE_FILENAME_BUF_SZ then NFFS_INODE_FILENAME_BUF_SZ
        else rem_len
      match nffs_inode_read_filename_chunk s inode1 off chunk_len with
      | .abort => (.abort, s)
      | .err rc => (.err rc, s)
      | .ok b0 =>
        let s1 := { s with nffs_flash_buf := mem_write s.nffs_flash_buf 0 b0 }
        match nffs_inode_read_filename_chunk s1 inode2 off chunk_len with
        | .abort => (.abort, s1)
        | .err rc => (.err rc, s1)
        | .ok b1 =>
          let s2 :=
            { s1 with
              nffs_flash_buf := mem_write s1.nffs_flash_buf NFFS_INODE_FILENAME_BUF_SZ b1 }
          let result :=
            strncmp (mem_read s2.nffs_flash_buf 0 chunk_len)
              (mem_read s2.nffs_flash_buf NFFS_INODE_FILENAME_BUF_SZ chunk_len) chunk_len
          nffs_inode_filename_cmp_flash_loop inode1 inode2 short_len fuel (off + chunk_len)
            result s2
    else (.ok result, s)

/-- The function `nffs_inode_filename_cmp_flash`; the value is `*result`. -/
def nffs_inode_filename_cmp_flash (s : nffs_state) (inode1 inode2 : nffs_inode) :
    Res Int × nffs_state :=
  let short_len :=
    if inode1.ni_filename_len < inode2.ni_filename_len then inode1.ni_filename_len
    else inode2.ni_filename_len
  let chunk_len :=
    if short_len ≤ NFFS_SHORT_FILENAME_LEN then short_len else NFFS_SHORT_FILENAME_LEN
  let result := strncmp inode1.ni_filename inode2.ni_filename chunk_len
  match nffs_inode_filename_cmp_flash_loop inode1 inode2 short_len short_len chunk_len
      result s with
  | (.abort, s1) => (.abort, s1)
  | (.err rc, s1) => (.err rc, s1)
  | (.ok result, s1) =>
    if result = 0 then
      (.ok ((inode1.ni_filename_len : Int) - (inode2.ni_filename_len : Int)), s1)
    else (.ok result, s1)

/-- The `SLIST_FOREACH` loop of `nffs_inode_add_child` over the child list from `cur`
on.  The value is the number of nodes passed without a `break`, that is the position
just behind `prev` (0 when `prev == NULL`). -/
def nffs_inode_add_child_loop (child : Nat) (child_inode : nffs_inode) :
    List Nat → nffs_state → Res Nat × nffs_state
  | [], s => (.ok 0, s)
  | cur :: rest, s =>
    if cur = child then (.abort, s)
    else
      match nffs_inode_from_entry s cur with
      | (.abort, s1) => (.abort, s1)
      | (.err rc, s1) => (.err rc, s1)
      | (.ok cur_inode, s1) =>
        match nffs_inode_filename_cmp_flash s1 child_inode cur_inode with
        | (.abort, s2) => (.abort, s2)
        | (.err rc, s2) => (.err rc, s2)
        | (.ok cmp, s2) =>
          if cmp < 0 then (.ok 0, s2)
          else
            match nffs_inode_add_child_loop child child_inode rest s2 with
            | (.ok k, s3) => (.ok (k + 1), s3)
            | r => r

/-- The function `nffs_inode_add_child`. -/
def nffs_inode_add_child (s : nffs_state) (parent child : Nat) : Res Unit × nffs_state :=
  if nffs_hash_id_is_dir (s.inodes parent).nie_hash_entry.nhe_id = false then (.abort, s)
  else
    match nffs_inode_from_entry s child with
    | (.abort, s1) => (.abort, s1)
    | (.err rc, s1) => (.err rc, s1)
    | (.ok child_inode, s1) =>
      match nffs_inode_add_child_loop child child_inode (s1.inodes parent).nie_child_list
          s1 with
      | (.abort, s2) => (.abort, s2)
      | (.err rc, s2) => (.err rc, s2)
      | (.ok prev, s2) =>
        let list := (s2.inodes parent).nie_child_list
        let list' :=
          if prev = 0 then SLIST_INSERT_HEAD list child
          else SLIST_INSERT_AFTER list prev child
        (.ok (),
          { s2 with
            inodes := Function.update s2.inodes parent
              { s2.inodes parent with nie_child_list := list' } })

/-- The function `nffs_inode_remove_child`; it returns nothing, so the only outcomes are
a return and an abort.  `SLIST_REMOVE` of an entry that is not in the list runs off its
end.  The final `SLIST_NEXT(child->ni_inode_entry) = NULL` has no counterpart: an entry
that is in no list has no successor here. -/
def nffs_inode_remove_child (s : nffs_state) (child : nffs_inode) : Res Unit × nffs_state :=
  match child.ni_parent with
  | none => (.abort, s)
  | some parent =>
    if nffs_hash_id_is_dir (s.inodes parent).nie_hash_entry.nhe_id = false then (.abort, s)
    else
      match SLIST_REMOVE (s.inodes parent).nie_child_list child.ni_inode_entry with
      | none => (.abort, s)
      | some list' =>
        (.ok (),
          { s with
            inodes := Function.update s.inodes parent
              { s.inodes parent with nie_child_list := list' } })

/-! ## Space reservation (`nffs_misc.c`) -/

/-- The function `nffs_misc_reserve_space_area`; `available` is a `uint32_t`
difference. -/
def nffs_misc_reserve_space_area (s : nffs_state) (area_idx space : Nat) : Res Nat :=
  match s.nffs_areas[area_idx]? with
  | none => .abort
  | some area =>
    let available := (area.na_length + 2 ^ 32 - area.na_cur % 2 ^ 32) % 2 ^ 32
    if available ≥ space then .ok area.na_cur else .err NFFS_EFULL

/-- The `for` loop of `nffs_misc_reserve_space` over the area indices still to try: the
first area that is not the scratch area and has room. -/
def nffs_misc_reserve_space_loop (s : nffs_state) (space : Nat) :
    List Nat → Option (Nat × Nat)
  | [] => none
  | i :: rest =>
    if i ≠ s.nffs_scratch_area_idx then
      match nffs_misc_reserve_space_area s i space with
      | .ok area_offset => some (i, area_offset)
      | _ => nffs_misc_reserve_space_loop s space rest
    else nffs_misc_reserve_space_loop s space rest

/-- The function `nffs_misc_reserve_space`; `space` is a `uint16_t` parameter.  The
value is `(*out_area_idx, *out_area_offset)`. -/
def nffs_misc_reserve_space (env : nffs_env) (s : nffs_state) (space : Nat) :
    Res (Nat × Nat) × nffs_state :=
  let space := space % 2 ^ 16
  match nffs_misc_reserve_space_loop s space (List.range s.nffs_areas.length) with
  | some r => (.ok r, s)
  | none =>
    match env.nffs_gc_until space s with
    | (.abort, g) => (.abort, g.apply s)
    | (.err rc, g) => (.err rc, g.apply s)
    | (.ok area_idx, g) =>
      match nffs_misc_reserve_space_area (g.apply s) area_idx space with
      | .ok area_offset => (.ok (area_idx, area_offset), g.apply s)
      | _ => (.abort, g.apply s)

/-! ## Rename (`nffs_inode.c`, lines 376-445) -/

/-- The `if (inode.ni_parent != new_parent)` block of `nffs_inode_rename`: the value is
the local `inode` afterwards. -/
def nffs_inode_rename_reparent (s : nffs_state) (inode : nffs_inode)
    (new_parent : Option Nat) : Res nffs_inode × nffs_state :=
  if inode.ni_parent ≠ new_parent then
    let removed : Res Unit × nffs_state :=
      if inode.ni_parent ≠ none then nffs_inode_remove_child s inode else (.ok (), s)
    match removed with
    | (.abort, s1) => (.abort, s1)
    | (.err rc, s1) => (.err rc, s1)
    | (.ok _, s1) =>
      match new_parent with
      | some np =>
        match nffs_inode_add_child s1 np inode.ni_inode_entry with
        | (.abort, s2) => (.abort, s2)
        | (.err rc, s2) => (.err rc, s2)
        | (.ok _, s2) => (.ok { inode with ni_parent := new_parent }, s2)
      | none => (.ok { inode with ni_parent := new_parent }, s1)
  else (.ok inode, s)

/-- The `if (new_filename != NULL) ... else ...` block of `nffs_inode_rename`: the
value is `filename_len`.  With a NULL `new_filename` the old name is read into
`nffs_flash_buf`, and `new_filename` points to that buffer from then on. -/
def nffs_inode_rename_filename (s : nffs_state) (inode_entry : Nat) (inode : nffs_inode)
    (new_filename : Option (List Nat)) : Res Nat × nffs_state :=
  match new_filename with
  | some name => (.ok (strlen name), s)
  | none =>
    let filename_len := inode.ni_filename_len
    let loc := nffs_flash_loc_expand (s.inodes inode_entry).nie_hash_entry.nhe_flash_loc
    match nffs_flash_read s loc.1 (loc.2 + NFFS_DISK_INODE_SZ) filename_len with
    | .abort => (.abort, s)
    | .err rc => (.err rc, s)
    | .ok b => (.ok filename_len, { s with nffs_flash_buf := mem_write s.nffs_flash_buf 0 b })

/-- The bytes at `new_filename` when `nffs_inode_rename` uses them: those of the
argument, or the content of `nffs_flash_buf` at that time if the argument was NULL. -/
def nffs_inode_rename_name_bytes (s : nffs_state) (new_filename : Option (List Nat))
    (filename_len : Nat) : List Nat :=
  match new_filename with
  | some name => name
  | none => mem_read s.nffs_flash_buf 0 filename_len

/-- The function `nffs_inode_rename`.  `new_parent` and `new_filename` may be NULL. -/
def nffs_inode_rename (env : nffs_env) (s : nffs_state) (inode_entry : Nat)
    (new_parent : Option Nat) (new_filename : Option (List Nat)) : Res Unit × nffs_state :=
  match nffs_inode_from_entry s inode_entry with
  | (.abort, s1) => (.abort, s1)
  | (.err rc, s1) => (.err rc, s1)
  | (.ok inode0, s1) =>
    match nffs_inode_rename_reparent s1 inode0 new_parent with
    | (.abort, s2) => (.abort, s2)
    | (.err rc, s2) => (.err rc, s2)
    | (.ok inode, s2) =>
      match nffs_inode_rename_filename s2 inode_entry inode new_filename with
      | (.abort, s3) => (.abort, s3)
      | (.err rc, s3) => (.err rc, s3)
      | (.ok filename_len, s3) =>
        match nffs_misc_reserve_space env s3 (NFFS_DISK_INODE_SZ + filename_len) with
        | (.abort, s4) => (.abort, s4)
        | (.err rc, s4) => (.err rc, s4)
        | (.ok (area_idx, area_offset), s4) =>
          let name := nffs_inode_rename_name_bytes s4 new_filename filename_len
          let disk_inode : nffs_disk_inode :=
            nffs_crc_disk_inode_fill env
              { ndi_magic := NFFS_INODE_MAGIC
                ndi_id := (s4.inodes inode_entry).nie_hash_entry.nhe_id
                ndi_seq := (inode.ni_seq + 1) % 2 ^ 32
                ndi_parent_id := nffs_inode_parent_id s4 inode
                reserved8 := env.uninit8
                ndi_filename_len := filename_len % 256
                ndi_crc16 := 0 } name
          match nffs_inode_write_disk s4 disk_inode name area_idx area_offset with
          | (.abort, s5) => (.abort, s5)
          | (.err rc, s5) => (.err rc, s5)
          | (.ok _, s5) =>
            (.ok (),
              { s5 with
                inodes := Function.update s5.inodes inode_entry
                  { s5.inodes inode_entry with
                    nie_hash_entry :=
                      { (s5.inodes inode_entry).nie_hash_entry with
                        nhe_flash_loc := nffs_flash_loc area_idx area_offset } } })

/-! ## The order on filenames and the reading of a whole filename -/

/-- Lexicographic comparison of two byte strings as unsigned bytes, a proper prefix
before the longer string. -/
def filename_lex : List Nat → List Nat → Ordering
  | [], [] => .eq
  | [], _ :: _ => .lt
  | _ :: _, [] => .gt
  | a :: as, b :: bs =>
    if a < b then .lt else if b < a then .gt else filename_lex as bs

/-- The sign of a C `int` comparison result. -/
def int_sign (r : Int) : Ordering :=
  if r < 0 then .lt else if r = 0 then .eq else .gt

/-- The filename of the record that an inode entry references: the `ndi_filename_len`
bytes behind the header at the entry's flash location, when header and name can be
read. -/
def inode_filename (s : nffs_state) (entry : Nat) : Option (List Nat) :=
  let loc := nffs_flash_loc_expand (s.inodes entry).nie_hash_entry.nhe_flash_loc
  match nffs_inode_read_disk s loc.1 loc.2 with
  | .ok disk_inode =>
    match nffs_flash_read s loc.1 (loc.2 + NFFS_DISK_INODE_SZ) disk_inode.ndi_filename_len with
    | .ok name => some name
    | _ => none
  | _ => none

/-- The filename of an entry is readable and is a C string: it holds no NUL byte. -/
def has_filename (s : nffs_state) (entry : Nat) (name : List Nat) : Prop :=
  inode_filename s entry = some name ∧ 0 ∉ name

/-- The first entry's filename is not greater than the second's. -/
def filename_le (s : nffs_state) (a b : Nat) : Prop :=
  ∃ na nb, inode_filename s a = some na ∧ inode_filename s b = some nb ∧
    filename_lex na nb ≠ .gt

/-- The first entry's filename is smaller than the second's. -/
def filename_lt (s : nffs_state) (a b : Nat) : Prop :=
  ∃ na nb, inode_filename s a = some na ∧ inode_filename s b = some nb ∧
    filename_lex na nb = .lt

/-- The second state has the heap, the area table, the flash content and the driver of
the first; the hash table and the static buffer may differ. -/
def same_flash (s s' : nffs_state) : Prop :=
  s'.inodes = s.inodes ∧ s'.nffs_areas = s.nffs_areas ∧ s'.flash = s.flash ∧
    s'.flash_read_fails = s.flash_read_fails

/-- The second state has the hash entries (id and flash location of every entry), the
area table, the flash content and the driver of the first; child lists, reference
counts, the hash table and the static buffer may differ. -/
def same_records (s s' : nffs_state) : Prop :=
  (∀ e, (s'.inodes e).nie_hash_entry = (s.inodes e).nie_hash_entry) ∧
    s'.nffs_areas = s.nffs_areas ∧ s'.nffs_scratch_area_idx = s.nffs_scratch_area_idx ∧
    s'.flash = s.flash ∧ s'.flash_read_fails = s.flash_read_fails ∧
    s'.flash_write_fails = s.flash_write_fails

/-! ## Validation and block size (`nffs_misc.c`) -/

def NFFS_AREA_ID_NONE : Nat := 0xff

def NFFS_BLOCK_MAGIC : Nat := 0x53ba23b9

def NFFS_BLOCK_MAX_DATA_SZ_MAX : Nat := 2048

/-- The value of `sizeof (struct nffs_disk_area)`: five 32-bit words and four bytes. -/
def NFFS_DISK_AREA_SZ : Nat := 24

/-- The value of `sizeof (struct nffs_disk_block)`: five 32-bit words and two 16-bit
words. -/
def NFFS_DISK_BLOCK_SZ : Nat := 24

/-- Modelled from the spec: the error code `NFFS_ENOENT` of `nffs/nffs.h`, which is not
part of the sources; see `NFFS_ECORRUPT`. -/
def NFFS_ENOENT : Nat := 6

/-- The difference of two `uint32_t` values, as the C operator `-` gives it.  The operand
`sizeof ...` has the type `size_t`, which has 32 bits on the microcontrollers the code is
built for. -/
def uint32_sub (a b : Nat) : Nat :=
  (a % 2 ^ 32 + 2 ^ 32 - b % 2 ^ 32) % 2 ^ 32

/-- The function `nffs_misc_validate_root_dir`. -/
def nffs_misc_validate_root_dir (s : nffs_state) : Res Unit × nffs_state :=
  match s.nffs_root_dir with
  | none => (.err NFFS_ECORRUPT, s)
  | some root =>
    if (s.inodes root).nie_hash_entry.nhe_id ≠ NFFS_ID_ROOT_DIR then (.err NFFS_ECORRUPT, s)
    else
      match nffs_inode_from_entry s root with
      | (.abort, s1) => (.abort, s1)
      | (.err rc, s1) => (.err rc, s1)
      | (.ok inode, s1) =>
        if inode.ni_parent ≠ none then (.err NFFS_ECORRUPT, s1) else (.ok (), s1)

/-- The `for` loop of `nffs_misc_validate_scratch` over the areas still to look at. -/
def nffs_misc_validate_scratch_loop (scratch_len : Nat) : List nffs_area → Res Unit
  | [] => .ok ()
  | area :: rest =>
    if area.na_length > scratch_len then .err NFFS_ECORRUPT
    else nffs_misc_validate_scratch_loop scratch_len rest

/-- The function `nffs_misc_validate_scratch`.  It writes no global, so its value is its
status alone; an index behind the end of the area table is a wild read. -/
def nffs_misc_validate_scratch (s : nffs_state) : Res Unit :=
  if s.nffs_scratch_area_idx = NFFS_AREA_ID_NONE then .err NFFS_ECORRUPT
  else
    match s.nffs_areas[s.nffs_scratch_area_idx]? with
    | none => .abort
    | some scratch => nffs_misc_validate_scratch_loop scratch.na_length s.nffs_areas

/-- The function `nffs_misc_area_capacity_one`. -/
def nffs_misc_area_capacity_one (area_length : Nat) : Nat :=
  uint32_sub (uint32_sub area_length NFFS_DISK_AREA_SZ) NFFS_DISK_BLOCK_SZ

/-- The function `nffs_misc_area_capacity_two`. -/
def nffs_misc_area_capacity_two (area_length : Nat) : Nat :=
  uint32_sub (uint32_sub area_length NFFS_DISK_AREA_SZ / 2) NFFS_DISK_BLOCK_SZ

/-- The `for` loop of `nffs_misc_set_max_block_data_len` over the areas still to look
at; the second argument is `smallest_area` so far. -/
def nffs_misc_set_max_block_data_len_loop : List nffs_area → Nat → Nat
  | [], smallest_area => smallest_area
  | area :: rest, smallest_area =>
    nffs_misc_set_max_block_data_len_loop rest
      (if area.na_length < smallest_area then area.na_length else smallest_area)

/-- The function `nffs_misc_set_max_block_data_len`; `min_data_len` is a `uint16_t`
parameter, `smallest_area = -1` is the largest `uint32_t`. -/
def nffs_misc_set_max_block_data_len (s : nffs_state) (min_data_len : Nat) :
    Res Unit × nffs_state :=
  let min_data_len := min_data_len % 2 ^ 16
  let smallest_area := nffs_misc_set_max_block_data_len_loop s.nffs_areas (2 ^ 32 - 1)
  if nffs_misc_area_capacity_one smallest_area < min_data_len then (.err NFFS_ECORRUPT, s)
  else
    let half_smallest := nffs_misc_area_capacity_two smallest_area
    let sz :=
      if half_smallest < NFFS_BLOCK_MAX_DATA_SZ_MAX then half_smallest
      else NFFS_BLOCK_MAX_DATA_SZ_MAX
    let sz := if sz < min_data_len then min_data_len else sz
    (.ok (), { s with nffs_block_max_data_sz := sz })
/-! ## Data blocks (`nffs_priv.h`; the functions of nffs_block.c are not part of the sources) -/

/-- The bytes of a `struct nffs_disk_block` in memory. -/
def nffs_disk_block.bytes (d : nffs_disk_block) : List Nat :=
  le32 d.ndb_magic ++ le32 d.ndb_id ++ le32 d.ndb_seq ++ le32 d.ndb_inode_id ++
    le32 d.ndb_prev_id ++
    [d.ndb_data_len % 256, d.ndb_data_len / 256 % 256, d.ndb_crc16 % 256,
      d.ndb_crc16 / 256 % 256]

/-- The `struct nffs_disk_block` that `NFFS_DISK_BLOCK_SZ` bytes of memory hold. -/
def nffs_disk_block.of_bytes (b : List Nat) : nffs_disk_block :=
  { ndb_magic := le32_at b 0
    ndb_id := le32_at b 4
    ndb_seq := le32_at b 8
    ndb_inode_id := le32_at b 12
    ndb_prev_id := le32_at b 16
    ndb_data_len := b.getD 20 0 + 256 * b.getD 21 0
    ndb_crc16 := b.getD 22 0 + 256 * b.getD 23 0 }

/-- The function `nffs_hash_find_block` of nffs_hash.c. -/
def nffs_hash_find_block (s : nffs_state) (id : Nat) : Res (Option Nat) × nffs_state :=
  if nffs_hash_id_is_block id = false then (.abort, s)
  else
    let r := nffs_hash_find s.hash_mem s.nffs_hash id
    (.ok r.1, { s with nffs_hash := r.2 })

/-- Modelled from the spec: `nffs_block_read_disk` of nffs_block.c, which is not part of
the sources.  It is the counterpart of `nffs_inode_read_disk` for a block record (spec 3:
magic, id, sequence number, owning inode id, previous block id, data length, CRC): the
header is read from flash, another magic is `NFFS_EUNEXP`. -/
def nffs_block_read_disk (s : nffs_state) (area_idx offset : Nat) : Res nffs_disk_block :=
  match nffs_flash_read s area_idx offset NFFS_DISK_BLOCK_SZ with
  | .abort => .abort
  | .err rc => .err rc
  | .ok b =>
    let out_disk_block := nffs_disk_block.of_bytes b
    if out_disk_block.ndb_magic ≠ NFFS_BLOCK_MAGIC then .err NFFS_EUNEXP
    else .ok out_disk_block

/-- Modelled from the spec: `nffs_block_from_hash_entry` of nffs_block.c, which is not
part of the sources.  The block view is decoded on demand (spec 3): the record at the
flash location of the entry is read, the owning inode entry and the entry of the previous
block are resolved by hash lookup of the ids in the record (spec 9), the previous block
of the first block of a file is NULL; an id that does not resolve is structural
corruption, `NFFS_ECORRUPT` (spec 4.4). -/
def nffs_block_from_hash_entry (s : nffs_state) (block_entry : Nat) :
    Res nffs_block × nffs_state :=
  let loc := nffs_flash_loc_expand (s.inodes block_entry).nie_hash_entry.nhe_flash_loc
  match nffs_block_read_disk s loc.1 loc.2 with
  | .abort => (.abort, s)
  | .err rc => (.err rc, s)
  | .ok disk_block =>
    match nffs_hash_find_inode s disk_block.ndb_inode_id with
    | (.abort, s1) => (.abort, s1)
    | (.err rc, s1) => (.err rc, s1)
    | (.ok none, s1) => (.err NFFS_ECORRUPT, s1)
    | (.ok (some inode_entry), s1) =>
      if disk_block.ndb_prev_id ≠ NFFS_ID_NONE then
        match nffs_hash_find_block s1 disk_block.ndb_prev_id with
        | (.abort, s2) => (.abort, s2)
        | (.err rc, s2) => (.err rc, s2)
        | (.ok none, s2) => (.err NFFS_ECORRUPT, s2)
        | (.ok (some prev), s2) =>
          (.ok { nb_hash_entry := block_entry, nb_seq := disk_block.ndb_seq,
                 nb_inode_entry := some inode_entry, nb_prev := some prev,
                 nb_data_len := disk_block.ndb_data_len }, s2)
      else
        (.ok { nb_hash_entry := block_entry, nb_seq := disk_block.ndb_seq,
               nb_inode_entry := some inode_entry, nb_prev := none,
               nb_data_len := disk_block.ndb_data_len }, s1)

/-- Modelled from the spec: `os_memblock_put` of the pool allocator, which is not part of
the sources (spec 1 and 5: fixed-capacity pools): a pool is the list of its free blocks,
and a block that is put back is the first free block. -/
def os_memblock_put (pool : List Nat) (block_addr : Nat) : List Nat :=
  block_addr :: pool

/-- Modelled from the spec: `nffs_block_entry_free` of nffs_block.c, which is not part of
the sources: the counterpart of `nffs_inode_entry_free` for the pool of block entries. -/
def nffs_block_entry_free (s : nffs_state) (entry : Nat) : Res Unit × nffs_state :=
  if nffs_hash_id_is_block (s.inodes entry).nie_hash_entry.nhe_id = false then (.abort, s)
  else
    (.ok (), { s with nffs_block_entry_pool := os_memblock_put s.nffs_block_entry_pool entry })

/-- Modelled from the spec: `nffs_block_delete_from_ram` of nffs_block.c, which is not
part of the sources.  The block entry is freed from RAM (spec 3, lifecycles): it is
decoded, the file that has it as its last block gets the previous block as its last block
(the chain is linked in reverse, spec 4.4, and the loop of
`nffs_inode_delete_blocks_from_ram` runs until the file has no last block), the entry is
removed from the hash table and goes back to its pool. -/
def nffs_block_delete_from_ram (s : nffs_state) (block_entry : Nat) : Res Unit × nffs_state :=
  match nffs_block_from_hash_entry s block_entry with
  | (.abort, s1) => (.abort, s1)
  | (.err rc, s1) => (.err rc, s1)
  | (.ok block, s1) =>
    match block.nb_inode_entry with
    | none => (.abort, s1)
    | some inode_entry =>
      let s2 : nffs_state :=
        if (s1.inodes inode_entry).nie_last_block_entry = some block_entry then
          { s1 with
            inodes := Function.update s1.inodes inode_entry
              { s1.inodes inode_entry with nie_last_block_entry := block.nb_prev } }
        else s1
      match nffs_hash_remove s2.hash_mem s2.nffs_hash block_entry with
      | none => (.abort, s2)
      | some tbl => nffs_block_entry_free { s2 with nffs_hash := tbl } block_entry

/-- Modelled from the spec: `nffs_cache_inode_delete` of nffs_cache.c, which is not part
of the sources: the cache of an inode is dropped when the inode is unlinked (spec 4.5). -/
def nffs_cache_inode_delete (s : nffs_state) (inode_entry : Nat) : nffs_state :=
  { s with nffs_cache_inode_list := s.nffs_cache_inode_list.filter (fun e => e ≠ inode_entry) }
/-! ## Reference counts and unlinking (`nffs_inode.c`, lines 39-57 and 206-374) -/

/-- The number of entries that are linked in the hash table. -/
def nffs_hash_count (tbl : nffs_hash_table) : Nat :=
  ((List.finRange NFFS_HASH_SIZE).map (fun i => (tbl i).length)).sum

/-- The function `nffs_inode_entry_free`. -/
def nffs_inode_entry_free (s : nffs_state) (inode_entry : Option Nat) :
    Res Unit × nffs_state :=
  match inode_entry with
  | none => (.ok (), s)
  | some e =>
    if nffs_hash_id_is_inode (s.inodes e).nie_hash_entry.nhe_id = false then (.abort, s)
    else
      (.ok (), { s with nffs_inode_entry_pool := os_memblock_put s.nffs_inode_entry_pool e })

/-- The `while (inode_entry->nie_last_block_entry != NULL)` loop of
`nffs_inode_delete_blocks_from_ram`.  The first argument bounds the number of
iterations: every iteration that does not leave the loop unlinks an entry from the hash
table, so one more than the number of linked entries is always enough
(`nffs_inode_delete_blocks_from_ram_loop_enough`). -/
def nffs_inode_delete_blocks_from_ram_loop (inode_entry : Nat) :
    Nat → nffs_state → Res Unit × nffs_state
  | 0, s =>
    match (s.inodes inode_entry).nie_last_block_entry with
    | none => (.ok (), s)
    | some _ => (.abort, s)
  | fuel + 1, s =>
    match (s.inodes inode_entry).nie_last_block_entry with
    | none => (.ok (), s)
    | some last_block_entry =>
      match nffs_block_delete_from_ram s last_block_entry with
      | (.abort, s1) => (.abort, s1)
      | (.err rc, s1) => (.err rc, s1)
      | (.ok _, s1) => nffs_inode_delete_blocks_from_ram_loop inode_entry fuel s1

/-- The function `nffs_inode_delete_blocks_from_ram`. -/
def nffs_inode_delete_blocks_from_ram (s : nffs_state) (inode_entry : Nat) :
    Res Unit × nffs_state :=
  if nffs_hash_id_is_file (s.inodes inode_entry).nie_hash_entry.nhe_id = false then
    (.abort, s)
  else
    nffs_inode_delete_blocks_from_ram_loop inode_entry (nffs_hash_count s.nffs_hash + 1) s

/-- The function `nffs_inode_delete_from_ram`. -/
def nffs_inode_delete_from_ram (s : nffs_state) (inode_entry : Nat) : Res Unit × nffs_state :=
  let deleted : Res Unit × nffs_state :=
    if nffs_hash_id_is_file (s.inodes inode_entry).nie_hash_entry.nhe_id then
      nffs_inode_delete_blocks_from_ram s inode_entry
    else (.ok (), s)
  match deleted with
  | (.abort, s1) => (.abort, s1)
  | (.err rc, s1) => (.err rc, s1)
  | (.ok _, s1) =>
    let s2 := nffs_cache_inode_delete s1 inode_entry
    match nffs_hash_remove s2.hash_mem s2.nffs_hash inode_entry with
    | none => (.abort, s2)
    | some tbl => nffs_inode_entry_free { s2 with nffs_hash := tbl } (some inode_entry)

/-- The function `nffs_inode_insert_unlink_list`; it returns nothing, so the only
outcomes are a return and an abort. -/
def nffs_inode_insert_unlink_list (s : nffs_state) (inode_entry : Nat) :
    Res Unit × nffs_state :=
  match nffs_hash_remove s.hash_mem s.nffs_hash inode_entry with
  | none => (.abort, s)
  | some tbl =>
    (.ok (),
      { s with
        nffs_hash := tbl
        nffs_inode_unlink_list := SLIST_INSERT_HEAD s.nffs_inode_unlink_list inode_entry })

/-- The function `nffs_inode_dec_refcnt`. -/
def nffs_inode_dec_refcnt (s : nffs_state) (inode_entry : Nat) : Res Unit × nffs_state :=
  if (s.inodes inode_entry).nie_refcnt > 0 then
    let s1 : nffs_state :=
      { s with
        inodes := Function.update s.inodes inode_entry
          { s.inodes inode_entry with nie_refcnt := (s.inodes inode_entry).nie_refcnt - 1 } }
    if (s1.inodes inode_entry).nie_refcnt = 0 then
      if nffs_hash_id_is_file (s1.inodes inode_entry).nie_hash_entry.nhe_id then
        nffs_inode_delete_from_ram s1 inode_entry
      else nffs_inode_insert_unlink_list s1 inode_entry
    else (.ok (), s1)
  else (.abort, s)

/-- The inner `while (child != NULL)` loop of `nffs_inode_process_unlink_list` over the
children from `child` on; the successor of a child is read before its reference count is
decremented.  `inout_next` is `none` for a NULL pointer and `some v` for a pointer to a
variable that holds `v`. -/
def nffs_inode_process_unlink_list_children :
    List Nat → Option (Option Nat) → nffs_state → Res Unit × Option (Option Nat) × nffs_state
  | [], inout_next, s => (.ok (), inout_next, s)
  | child :: rest, inout_next, s =>
    let child_next := rest.head?
    let inout_next :=
      match inout_next with
      | none => none
      | some v => if v = some child then some child_next else some v
    match nffs_inode_dec_refcnt s child with
    | (.abort, s1) => (.abort, inout_next, s1)
    | (.err rc, s1) => (.err rc, inout_next, s1)
    | (.ok _, s1) => nffs_inode_process_unlink_list_children rest inout_next s1

/-- The outer `while` loop of `nffs_inode_process_unlink_list`.  The first argument
bounds the number of iterations: an entry comes onto the unlink list only when it is
unlinked from the hash table, so the length of the list plus the number of entries in the
hash table is always enough (`nffs_inode_process_unlink_list_loop_enough`). -/
def nffs_inode_process_unlink_list_loop :
    Nat → Option (Option Nat) → nffs_state → Res Unit × Option (Option Nat) × nffs_state
  | 0, inout_next, s =>
    match s.nffs_inode_unlink_list with
    | [] => (.ok (), inout_next, s)
    | _ :: _ => (.abort, inout_next, s)
  | fuel + 1, inout_next, s =>
    match s.nffs_inode_unlink_list with
    | [] => (.ok (), inout_next, s)
    | hash_entry :: unlink_list =>
      if nffs_hash_id_is_dir (s.inodes hash_entry).nie_hash_entry.nhe_id = false then
        (.abort, inout_next, s)
      else
        let s1 : nffs_state := { s with nffs_inode_unlink_list := unlink_list }
        match nffs_inode_process_unlink_list_children (s1.inodes hash_entry).nie_child_list
            inout_next s1 with
        | (.abort, r) => (.abort, r)
        | (.err rc, r) => (.err rc, r)
        | (.ok _, inout_next, s2) =>
          match nffs_inode_entry_free s2 (some hash_entry) with
          | (.abort, s3) => (.abort, inout_next, s3)
          | (.err rc, s3) => (.err rc, inout_next, s3)
          | (.ok _, s3) => nffs_inode_process_unlink_list_loop fuel inout_next s3

/-- The function `nffs_inode_process_unlink_list`. -/
def nffs_inode_process_unlink_list (s : nffs_state) (inout_next : Option (Option Nat)) :
    Res Unit × Option (Option Nat) × nffs_state :=
  nffs_inode_process_unlink_list_loop
    (s.nffs_inode_unlink_list.length + nffs_hash_count s.nffs_hash) inout_next s

/-- The function `nffs_inode_delete_from_disk`; the second component is `*inode`
afterwards (`ni_seq` is a `uint32_t`). -/
def nffs_inode_delete_from_disk (env : nffs_env) (s : nffs_state) (inode : nffs_inode) :
    Res Unit × nffs_inode × nffs_state :=
  match inode.ni_parent with
  | none => (.abort, inode, s)
  | some _ =>
    match nffs_misc_reserve_space env s NFFS_DISK_INODE_SZ with
    | (.abort, s1) => (.abort, inode, s1)
    | (.err rc, s1) => (.err rc, inode, s1)
    | (.ok (area_idx, offset), s1) =>
      let inode := { inode with ni_seq := (inode.ni_seq + 1) % 2 ^ 32 }
      let disk_inode : nffs_disk_inode :=
        nffs_crc_disk_inode_fill env
          { ndi_magic := NFFS_INODE_MAGIC
            ndi_id := (s1.inodes inode.ni_inode_entry).nie_hash_entry.nhe_id
            ndi_seq := inode.ni_seq
            ndi_parent_id := NFFS_ID_NONE
            reserved8 := env.uninit8
            ndi_filename_len := 0
            ndi_crc16 := 0 } []
      match nffs_inode_write_disk s1 disk_inode [] area_idx offset with
      | (.abort, s2) => (.abort, inode, s2)
      | (.err rc, s2) => (.err rc, inode, s2)
      | (.ok _, s2) => (.ok (), inode, s2)

/-- The function `nffs_inode_unlink_from_ram`; `out_next` is as `inout_next` in
`nffs_inode_process_unlink_list_children`. -/
def nffs_inode_unlink_from_ram (s : nffs_state) (inode : nffs_inode)
    (out_next : Option (Option Nat)) : Res Unit × Option (Option Nat) × nffs_state :=
  let removed : Res Unit × nffs_state :=
    if inode.ni_parent ≠ none then nffs_inode_remove_child s inode else (.ok (), s)
  match removed with
  | (.abort, s1) => (.abort, out_next, s1)
  | (.err rc, s1) => (.err rc, out_next, s1)
  | (.ok _, s1) =>
    if nffs_hash_id_is_dir (s1.inodes inode.ni_inode_entry).nie_hash_entry.nhe_id then
      match nffs_inode_insert_unlink_list s1 inode.ni_inode_entry with
      | (.abort, s2) => (.abort, out_next, s2)
      | (.err rc, s2) => (.err rc, out_next, s2)
      | (.ok _, s2) => nffs_inode_process_unlink_list s2 out_next
    else
      match nffs_inode_dec_refcnt s1 inode.ni_inode_entry with
      | (.abort, s2) => (.abort, out_next, s2)
      | (.err rc, s2) => (.err rc, out_next, s2)
      | (.ok _, s2) => (.ok (), out_next, s2)

/-- The function `nffs_inode_unlink`; the second component is `*inode` afterwards. -/
def nffs_inode_unlink (env : nffs_env) (s : nffs_state) (inode : nffs_inode) :
    Res Unit × nffs_inode × nffs_state :=
  match nffs_inode_delete_from_disk env s inode with
  | (.abort, r) => (.abort, r)
  | (.err rc, r) => (.err rc, r)
  | (.ok _, inode, s1) =>
    match nffs_inode_unlink_from_ram s1 inode none with
    | (.abort, _, s2) => (.abort, inode, s2)
    | (.err rc, _, s2) => (.err rc, inode, s2)
    | (.ok _, _, s2) => (.ok (), inode, s2)

/-! ## Directory handles (`nffs_dir.c`, lines 74-101) -/

/-- The macro `SLIST_NEXT` for a node of a child list: the node behind `elm`.  A node
that was taken out of the list has no successor (`nffs_inode_remove_child` clears its
link). -/
def SLIST_NEXT : List Nat → Nat → Option Nat
  | [], _ => none
  | first :: rest, elm => if first = elm then rest.head? else SLIST_NEXT rest elm

/-- The function `nffs_dir_read`.  `dir` is the address of the handle; a
`struct nffs_dirent *` is the address of the handle whose member `nd_dirent` it points
to.  The second component is `*out_dirent` afterwards, the argument `out_dirent` is what
it held before.  The successor of the current child is looked up in the child list of
the directory of the handle: this is `SLIST_NEXT(child, nie_sibling_next)` as long as the
child is linked in that list, that is as long as it was not moved to another directory
since the call that returned it. -/
def nffs_dir_read (s : nffs_state) (dir : Nat) (out_dirent : Option Nat) :
    Res Unit × Option Nat × nffs_state :=
  let parent := (s.dirs dir).nd_parent_inode_entry
  let r : Res (Option Nat) × nffs_state :=
    match (s.dirs dir).nd_dirent.nde_inode_entry with
    | none => (.ok (s.inodes parent).nie_child_list.head?, s)
    | some cur =>
      let child := SLIST_NEXT (s.inodes parent).nie_child_list cur
      match nffs_inode_dec_refcnt s cur with
      | (.abort, s1) => (.abort, s1)
      | (.err rc, s1) => (.err rc, s1)
      | (.ok _, s1) => (.ok child, s1)
  match r with
  | (.abort, s1) => (.abort, out_dirent, s1)
  | (.err rc, s1) => (.err rc, out_dirent, s1)
  | (.ok child, s1) =>
    let s2 : nffs_state :=
      { s1 with
        dirs := Function.update s1.dirs dir
          { s1.dirs dir with nd_dirent := { nde_inode_entry := child } } }
    match child with
    | none => (.err NFFS_ENOENT, none, s2)
    | some c =>
      (.ok (), some dir,
        { s2 with
          inodes := Function.update s2.inodes c
            { s2.inodes c with nie_refcnt := ((s2.inodes c).nie_refcnt + 1) % 256 } })
/-! ## A small file system, used to run the functions on concrete input

Area 0 holds six inode records one behind the other; area 1 is the scratch area.

| entry | id         | name | parent | record at | seq |
|-------|------------|------|--------|-----------|-----|
| 100   | 0 (root)   | ""   | none   | 0         | 0   |
| 101   | 0x10000001 | "a"  | 0      | 20        | 5   |
| 102   | 0x10000002 | "c"  | 0      | 41        | 2^32 - 1 |
| 103   | 0x10000003 | "b"  | 0      | 62        | 0   |
| 104   | 1          | "d"  | 0      | 83        | 0   |
| 105   | 0x10000004 | "m"  | 1      | 104       | 0   |

The root directory lists 101, 102 and 104; directory 104 lists 105; entry 103 is in no
child list. -/

/-- The header of an inode record with the given id, sequence number, parent id and
filename length. -/
def ex_header (id seq parent_id filename_len : Nat) : nffs_disk_inode :=
  { ndi_magic := NFFS_INODE_MAGIC, ndi_id := id, ndi_seq := seq, ndi_parent_id := parent_id,
    reserved8 := 0, ndi_filename_len := filename_len, ndi_crc16 := 0 }

/-- The bytes of area 0 from offset 0 to the cursor. -/
def ex_flash_bytes : List Nat :=
  (ex_header 0 0 NFFS_ID_NONE 0).bytes ++
  (ex_header 0x10000001 5 0 1).bytes ++ [97] ++
  (ex_header 0x10000002 0xffffffff 0 1).bytes ++ [99] ++
  (ex_header 0x10000003 0 0 1).bytes ++ [98] ++
  (ex_header 1 0 0 1).bytes ++ [100] ++
  (ex_header 0x10000004 0 1 1).bytes ++ [109]

/-- An inode entry with the given id and area offset in area 0. -/
def ex_entry (id offset : Nat) (children : List Nat) : nffs_inode_entry :=
  { nie_hash_entry := { nhe_id := id, nhe_flash_loc := nffs_flash_loc 0 offset },
    nie_child_list := children, nie_last_block_entry := none, nie_refcnt := 1 }

/-- The heap of the example. -/
def ex_inodes : Nat → nffs_inode_entry := fun a =>
  if a = 100 then ex_entry 0 0 [101, 102, 104]
  else if a = 101 then ex_entry 0x10000001 20 []
  else if a = 102 then ex_entry 0x10000002 41 []
  else if a = 103 then ex_entry 0x10000003 62 []
  else if a = 104 then ex_entry 1 83 [105]
  else if a = 105 then ex_entry 0x10000004 104 []
  else ex_entry NFFS_ID_NONE 0 []

/-- The hash table of the example: the six entries, inserted in the order of their
addresses. -/
def ex_hash : nffs_hash_table :=
  let mem := fun a => (ex_inodes a).nie_hash_entry
  [100, 101, 102, 103, 104, 105].foldl (fun t e => nffs_hash_insert mem t e) nffs_hash_init

/-- The example state, with `len0` the length of area 0 (the cursor of area 0 is 125). -/
def ex_state (len0 : Nat) : nffs_state :=
  { inodes := ex_inodes
    nffs_hash := ex_hash
    nffs_areas :=
      [ { na_offset := 0, na_length := len0, na_cur := 125, na_id := 0, na_gc_seq := 0 },
        { na_offset := 4096, na_length := 4096, na_cur := 24, na_id := 0xff,
          na_gc_seq := 0 } ]
    nffs_scratch_area_idx := 1
    nffs_flash_buf := fun _ => 0
    flash := fun a => ex_flash_bytes.getD a 0xff
    flash_read_fails := fun _ _ => false
    flash_write_fails := fun _ _ => false }

/-- An environment whose garbage collector frees nothing: it reports `NFFS_EFULL` and
leaves the state as it is. -/
def ex_env : nffs_env :=
  { crc16_ccitt := fun _ => 0
    nffs_gc_until := fun _ s =>
      (.err NFFS_EFULL,
        { nffs_hash := s.nffs_hash, nffs_areas := s.nffs_areas,
          nffs_scratch_area_idx := s.nffs_scratch_area_idx,
          nffs_flash_buf := s.nffs_flash_buf, flash := s.flash,
          flash_loc := fun e => (s.inodes e).nie_hash_entry.nhe_flash_loc })
    uninit8 := 0 }

/-- A filename of 135 bytes: 134 times `x`, then the given last byte. -/
def ex_long_name (last : Nat) : List Nat := List.replicate 134 120 ++ [last]

/-- A state with two inode records in area 0 whose names are `ex_long_name 97` (entry
200, record at offset 0) and `ex_long_name 98` (entry 201, record at offset 155). -/
def ex_long_state : nffs_state :=
  { inodes := fun a =>
      if a = 200 then ex_entry 0x10000010 0 [] else ex_entry 0x10000011 155 []
    nffs_hash := nffs_hash_init
    nffs_areas :=
      [ { na_offset := 0, na_length := 4096, na_cur := 310, na_id := 0, na_gc_seq := 0 } ]
    nffs_scratch_area_idx := 0xff
    nffs_flash_buf := fun _ => 0
    flash := fun a =>
      ((ex_header 0x10000010 0 NFFS_ID_NONE 135).bytes ++ ex_long_name 97 ++
        (ex_header 0x10000011 0 NFFS_ID_NONE 135).bytes ++ ex_long_name 98).getD a 0xff
    flash_read_fails := fun _ _ => false
    flash_write_fails := fun _ _ => false }

/-- The `struct nffs_inode` of entry 200 or 201 of `ex_long_state`. -/
def ex_long_inode (entry : Nat) : nffs_inode :=
  { ni_inode_entry := entry, ni_seq := 0, ni_parent := none, ni_filename_len := 135,
    ni_filename := [120, 120, 120] }

/-- An environment whose garbage collector hands out the old scratch area (index 1) as it
is and leaves the byte `0x58` in every cell of the static buffer it copied through. -/
def ex_env_gc : nffs_env :=
  { crc16_ccitt := fun _ => 0
    nffs_gc_until := fun _ s =>
      (.ok 1,
        { nffs_hash := s.nffs_hash, nffs_areas := s.nffs_areas,
          nffs_scratch_area_idx := 0,
          nffs_flash_buf := fun _ => 0x58, flash := s.flash,
          flash_loc := fun e => (s.inodes e).nie_hash_entry.nhe_flash_loc })
    uninit8 := 0 }

/-! ## Small hash tables, used to run the hash functions on concrete input -/

/-- A heap in which every entry has id 261, and the table after inserting the entries at
addresses 1 and then 2. -/
def c6_mem : Nat → nffs_hash_entry := fun a => { nhe_id := 261, nhe_flash_loc := a }

def c6_tbl : nffs_hash_table :=
  nffs_hash_insert c6_mem (nffs_hash_insert c6_mem nffs_hash_init 1) 2

/-- A heap in which the entry at address `a` has id `a`. -/
def c9_mem : Nat → nffs_hash_entry := fun a => { nhe_id := a, nhe_flash_loc := 0 }

/-! ## Further example states -/

/-- The example file system with a third area of 40 bytes that holds its area header
only. -/
def ex_small_area_state : nffs_state :=
  { ex_state 4096 with
    nffs_areas :=
      (ex_state 4096).nffs_areas ++
        [ { na_offset := 8192, na_length := 40, na_cur := 24, na_id := 1, na_gc_seq := 0 } ] }

/-- The example file system with its root directory registered in `nffs_root_dir`. -/
def ex_root_state : nffs_state :=
  { ex_state 4096 with nffs_root_dir := some 100 }

/-- The example file system with its root directory registered and an erased flash. -/
def ex_erased_state : nffs_state :=
  { ex_state 4096 with nffs_root_dir := some 100, flash := fun _ => 0xff }

/-- The example file system in which the file "a" (entry 101) is held open: its reference
count is 2. -/
def ex_open_state : nffs_state :=
  { ex_state 4096 with
    inodes := Function.update ex_inodes 101 { ex_inodes 101 with nie_refcnt := 2 } }

/-- The `struct nffs_inode` of entry 101 of the example file system. -/
def ex_inode_a : nffs_inode :=
  { ni_inode_entry := 101, ni_seq := 5, ni_parent := some 100, ni_filename_len := 1,
    ni_filename := [97] }

/-- The `struct nffs_inode` of entry 102 of the example file system, whose record has
the largest sequence number. -/
def ex_inode_c : nffs_inode :=
  { ni_inode_entry := 102, ni_seq := 0xffffffff, ni_parent := some 100, ni_filename_len := 1,
    ni_filename := [99] }

/-- An environment whose garbage collector hands out the old scratch area (index 1) as it
is and has looked up the object with id `0x10000001` in the hash table. -/
def ex_env_gc_find : nffs_env :=
  { crc16_ccitt := fun _ => 0
    nffs_gc_until := fun _ s =>
      (.ok 1,
        { nffs_hash := (nffs_hash_find s.hash_mem s.nffs_hash 0x10000001).2
          nffs_areas := s.nffs_areas
          nffs_scratch_area_idx := 0
          nffs_flash_buf := s.nffs_flash_buf, flash := s.flash,
          flash_loc := fun e => (s.inodes e).nie_hash_entry.nhe_flash_loc })
    uninit8 := 0 }

/-! ## Iterating over a directory -/

/-- The state after `k` calls of `nffs_dir_read` on the handle `dir`, one after the
other, with nothing else done in between. -/
def nffs_dir_read_iter (dir : Nat) : Nat → nffs_state → nffs_state
  | 0, s => s
  | k + 1, s => nffs_dir_read_iter dir k (nffs_dir_read s dir none).2.2

/-- The state `s` with the handle `dir` standing at the child `c` of its directory: the
dirent of the handle refers to `c`, and `c` holds one reference more (for the dirent). -/
def nffs_dir_at (s : nffs_state) (dir : Nat) (c : Option Nat) : nffs_state :=
  match c with
  | none =>
    { s with
      dirs := Function.update s.dirs dir
        { s.dirs dir with nd_dirent := { nde_inode_entry := none } } }
  | some c =>
    { s with
      dirs := Function.update s.dirs dir
        { s.dirs dir with nd_dirent := { nde_inode_entry := some c } }
      inodes := Function.update s.inodes c
        { s.inodes c with nie_refcnt := (s.inodes c).nie_refcnt + 1 } }

/-- The example file system with a directory handle at address 7 that was opened on
the root directory; the open handle is a further reference to the root. -/
def ex_dir_state : nffs_state :=
  { ex_state 4096 with
    inodes := Function.update ex_inodes 100 { ex_inodes 100 with nie_refcnt := 2 }
    dirs := fun _ => { nd_parent_inode_entry := 100, nd_dirent := { nde_inode_entry := none } } }

/-- The child at which a handle is after `j` calls of `nffs_dir_read` that went through
the child list `cs` from its head: none before the first call, then the children in the
order of the list, and none again behind the last. -/
def nffs_dir_pos (cs : List Nat) : Nat → Option Nat
  | 0 => none
  | j + 1 => cs[j]?

/-! ## A directory tree with an open subdirectory

| entry | id         | name | parent | record at | references |
|-------|------------|------|--------|-----------|------------|
| 100   | 0 (root)   | ""   | none   | 0         | 1          |
| 104   | 1          | "d"  | 0      | 20        | 1          |
| 106   | 2          | "e"  | 1      | 41        | 2          |
| 103   | 0x10000003 | "b"  | 2      | 62        | 1          |
| 105   | 0x10000004 | "m"  | 1      | 83        | 1          |

The root lists 104, directory 104 lists 106 and 105, directory 106 lists 103.  Directory
106 is held open by a directory handle, which is its second reference. -/

/-- The heap of the directory tree. -/
def ex_tree_inodes : Nat → nffs_inode_entry := fun a =>
  if a = 100 then ex_entry 0 0 [104]
  else if a = 104 then ex_entry 1 20 [106, 105]
  else if a = 106 then { ex_entry 2 41 [103] with nie_refcnt := 2 }
  else if a = 103 then ex_entry 0x10000003 62 []
  else if a = 105 then ex_entry 0x10000004 83 []
  else ex_entry NFFS_ID_NONE 0 []

/-- The state of the directory tree; the handle at address 7 is open on directory 106. -/
def ex_tree_state : nffs_state :=
  { inodes := ex_tree_inodes
    nffs_hash :=
      [100, 104, 106, 103, 105].foldl
        (fun t e => nffs_hash_insert (fun a => (ex_tree_inodes a).nie_hash_entry) t e)
        nffs_hash_init
    nffs_areas :=
      [ { na_offset := 0, na_length := 4096, na_cur := 104, na_id := 0, na_gc_seq := 0 },
        { na_offset := 4096, na_length := 4096, na_cur := 24, na_id := 0xff,
          na_gc_seq := 0 } ]
    nffs_scratch_area_idx := 1
    nffs_flash_buf := fun _ => 0
    flash := fun a =>
      ((ex_header 0 0 NFFS_ID_NONE 0).bytes ++
        (ex_header 1 0 0 1).bytes ++ [100] ++
        (ex_header 2 0 1 1).bytes ++ [101] ++
        (ex_header 0x10000003 0 2 1).bytes ++ [98] ++
        (ex_header 0x10000004 0 1 1).bytes ++ [109]).getD a 0xff
    flash_read_fails := fun _ _ => false
    flash_write_fails := fun _ _ => false
    nffs_root_dir := some 100
    dirs := fun _ => { nd_parent_inode_entry := 106, nd_dirent := { nde_inode_entry := none } } }

/-- The `struct nffs_inode` of directory 104 of the directory tree. -/
def ex_tree_inode_d : nffs_inode :=
  { ni_inode_entry := 104, ni_seq := 0, ni_parent := some 100, ni_filename_len := 1,
    ni_filename := [100] }

/-! ## Well-formed block chains -/

/-- The header of a block record with the given id, owner, previous block and data
length. -/
def ex_block_header (id inode_id prev_id data_len : Nat) : nffs_disk_block :=
  { ndb_magic := NFFS_BLOCK_MAGIC, ndb_id := id, ndb_seq := 0, ndb_inode_id := inode_id,
    ndb_prev_id := prev_id, ndb_data_len := data_len, ndb_crc16 := 0 }

/-- The heap of the file with two blocks. -/
def ex_blocks_inodes : Nat → nffs_inode_entry := fun a =>
  if a = 100 then ex_entry 0 0 [101]
  else if a = 101 then { ex_entry 0x10000001 20 [] with nie_last_block_entry := some 201 }
  else if a = 200 then ex_entry 0x80000000 41 []
  else if a = 201 then ex_entry 0x80000001 67 []
  else ex_entry NFFS_ID_NONE 0 []

/-- The state of the file with two blocks. -/
def ex_blocks_state : nffs_state :=
  { inodes := ex_blocks_inodes
    nffs_hash :=
      [100, 101, 200, 201].foldl
        (fun t e => nffs_hash_insert (fun a => (ex_blocks_inodes a).nie_hash_entry) t e)
        nffs_hash_init
    nffs_areas :=
      [ { na_offset := 0, na_length := 4096, na_cur := 92, na_id := 0, na_gc_seq := 0 },
        { na_offset := 4096, na_length := 4096, na_cur := 24, na_id := 0xff,
          na_gc_seq := 0 } ]
    nffs_scratch_area_idx := 1
    nffs_flash_buf := fun _ => 0
    flash := fun a =>
      ((ex_header 0 0 NFFS_ID_NONE 0).bytes ++
        (ex_header 0x10000001 0 0 1).bytes ++ [97] ++
        (ex_block_header 0x80000000 0x10000001 NFFS_ID_NONE 2).bytes ++ [104, 105] ++
        (ex_block_header 0x80000001 0x10000001 0x80000000 1).bytes ++ [33]).getD a 0xff
    flash_read_fails := fun _ _ => false
    flash_write_fails := fun _ _ => false
    nffs_root_dir := some 100 }
/-! ## Filenames, file sizes, seeking and reading (`nffs_inode.c`, lines 110-135, 485-512 and 701-849) -/

/-- The function `nffs_inode_read_filename`.  `out_name` is the memory at the pointer of
this name, `out_full_len` the value of the variable that the pointer of this name refers
to; the second and third component are the two afterwards.  `max_len` is a `size_t`,
`read_len` an `int`: with `max_len` 0 it is -1, the `assert` of
`nffs_inode_read_filename_chunk` holds, 2^32 - 1 bytes are asked from the flash layer,
and the store to `out_name[-1]` that follows a read lies before the buffer. -/
def nffs_inode_read_filename (s : nffs_state) (inode_entry max_len : Nat)
    (out_name : Nat → Nat) (out_full_len : Nat) :
    Res Unit × (Nat → Nat) × Nat × nffs_state :=
  match nffs_inode_from_entry s inode_entry with
  | (.abort, s1) => (.abort, out_name, out_full_len, s1)
  | (.err rc, s1) => (.err rc, out_name, out_full_len, s1)
  | (.ok inode, s1) =>
    if max_len % 2 ^ 32 = 0 then
      let loc := nffs_flash_loc_expand (s1.inodes inode_entry).nie_hash_entry.nhe_flash_loc
      match nffs_flash_read s1 loc.1 (loc.2 + NFFS_DISK_INODE_SZ) (2 ^ 32 - 1) with
      | .err rc => (.err rc, out_name, out_full_len, s1)
      | _ => (.abort, out_name, out_full_len, s1)
    else
      let read_len :=
        if max_len % 2 ^ 32 > inode.ni_filename_len then inode.ni_filename_len
        else max_len % 2 ^ 32 - 1
      match nffs_inode_read_filename_chunk s1 inode 0 read_len with
      | .abort => (.abort, out_name, out_full_len, s1)
      | .err rc => (.err rc, out_name, out_full_len, s1)
      | .ok b =>
        let out_name := mem_write out_name 0 b
        (.ok (), mem_write out_name read_len [0], out_full_len, s1)

/-- The `while (cur != NULL)` loop of `nffs_inode_calc_data_length`; the second component
of the value is `*out_len` afterwards, a `uint32_t`.  The first argument bounds the number
of iterations: every block but the first is found in the hash table, so in a chain that
does not run into itself there are at most as many blocks as the table has entries, and
one more. -/
def nffs_inode_calc_data_length_loop :
    Nat → Option Nat → Nat → nffs_state → Res Unit × Nat × nffs_state
  | 0, cur, out_len, s =>
    match cur with
    | none => (.ok (), out_len, s)
    | some _ => (.abort, out_len, s)
  | fuel + 1, cur, out_len, s =>
    match cur with
    | none => (.ok (), out_len, s)
    | some cur =>
      match nffs_block_from_hash_entry s cur with
      | (.abort, s1) => (.abort, out_len, s1)
      | (.err rc, s1) => (.err rc, out_len, s1)
      | (.ok block, s1) =>
        nffs_inode_calc_data_length_loop fuel block.nb_prev
          ((out_len + block.nb_data_len) % 2 ^ 32) s1

/-- The function `nffs_inode_calc_data_length`; the second component of the value is
`*out_len` afterwards. -/
def nffs_inode_calc_data_length (s : nffs_state) (inode_entry : Nat) (out_len : Nat) :
    Res Unit × Nat × nffs_state :=
  if nffs_hash_id_is_file (s.inodes inode_entry).nie_hash_entry.nhe_id = false then
    (.abort, out_len, s)
  else
    nffs_inode_calc_data_length_loop (nffs_hash_count s.nffs_hash + 1)
      (s.inodes inode_entry).nie_last_block_entry 0 s

/-- The functions of nffs_cache.c and nffs_block.c that `nffs_inode_seek` and
`nffs_inode_read` call; the two files are not part of the sources.

* `nffs_cache_inode_ensure s inode_entry` gives the address of the cached inode of the
  file (in the heap `cache_inodes` of the state it leaves), or the error.
* `nffs_cache_seek s cache_inode to` gives the address of a cached block of that cached
  inode (in the heap `cache_blocks`), or the error.
* `nffs_block_read_data s block offset length` gives the `length` bytes of the data of
  the block from `offset` on, or the error. -/
structure nffs_cache_env where
  nffs_cache_inode_ensure : nffs_state → Nat → Res Nat × nffs_state
  nffs_cache_seek : nffs_state → Nat → Nat → Res Nat × nffs_state
  nffs_block_read_data : nffs_state → nffs_block → Nat → Nat → Res (List Nat)

/-- The `while (1)` loop of `nffs_inode_seek`; `seek_end` and `file_size` stand for
`seek_end` and `cache_inode->nci_file_size`.  A NULL `cur_entry` is dereferenced by
`nffs_block_from_hash_entry`.  The first argument bounds the number of iterations, as in
`nffs_inode_calc_data_length_loop`. -/
def nffs_inode_seek_loop (seek_end file_size : Nat) :
    Nat → Option Nat → Nat → nffs_state → Res nffs_seek_info × nffs_state
  | 0, _, _, s => (.abort, s)
  | fuel + 1, cur_entry, cur_offset, s =>
    match cur_entry with
    | none => (.abort, s)
    | some cur_entry =>
      match nffs_block_from_hash_entry s cur_entry with
      | (.abort, s1) => (.abort, s1)
      | (.err rc, s1) => (.err rc, s1)
      | (.ok block, s1) =>
        let block_start := uint32_sub cur_offset block.nb_data_len
        if seek_end > block_start then
          (.ok { nsi_last_block := block, nsi_block_file_off := block_start,
                 nsi_file_len := file_size }, s1)
        else nffs_inode_seek_loop seek_end file_size fuel block.nb_prev block_start s1

/-- The function `nffs_inode_seek`; `offset` and `length` are `uint32_t` parameters, the
value is `*out_seek_info`. -/
def nffs_inode_seek (cenv : nffs_cache_env) (s : nffs_state) (inode_entry offset length : Nat) :
    Res nffs_seek_info × nffs_state :=
  let offset := offset % 2 ^ 32
  let length := length % 2 ^ 32
  if length = 0 then (.abort, s)
  else if nffs_hash_id_is_file (s.inodes inode_entry).nie_hash_entry.nhe_id = false then
    (.abort, s)
  else
    match cenv.nffs_cache_inode_ensure s inode_entry with
    | (.abort, s1) => (.abort, s1)
    | (.err rc, s1) => (.err rc, s1)
    | (.ok cache_inode, s1) =>
      let nci_file_size := (s1.cache_inodes cache_inode).nci_file_size
      if offset > nci_file_size then (.err NFFS_ERANGE, s1)
      else if offset = nci_file_size then
        (.ok { nsi_last_block :=
                 { nb_hash_entry := 0, nb_seq := 0, nb_inode_entry := none, nb_prev := none,
                   nb_data_len := 0 }
               nsi_block_file_off := 0
               nsi_file_len := nci_file_size }, s1)
      else
        let seek_end := (offset + length) % 2 ^ 32
        nffs_inode_seek_loop seek_end nci_file_size (nffs_hash_count s1.nffs_hash + 1)
          (s1.inodes inode_entry).nie_last_block_entry nci_file_size s1

/-- Modelled from the spec: `os_memblock_get` of the pool allocator, which is not part of
the sources (spec 1 and 5: fixed-capacity pools): the first free block of the pool is
handed out, NULL when no block is free. -/
def os_memblock_get (pool : List Nat) : Option Nat × List Nat :=
  match pool with
  | [] => (none, [])
  | block :: rest => (some block, rest)

/-- The function `nffs_dir_alloc`.  A zeroed `struct nffs_dir` has a NULL
`nd_parent_inode_entry`, the address 0. -/
def nffs_dir_alloc (s : nffs_state) : Option Nat × nffs_state :=
  match os_memblock_get s.nffs_dir_pool with
  | (none, pool) => (none, { s with nffs_dir_pool := pool })
  | (some dir, pool) =>
    (some dir,
      { s with
        nffs_dir_pool := pool
        dirs := Function.update s.dirs dir
          { nd_parent_inode_entry := 0, nd_dirent := { nde_inode_entry := none } } })

/-- The function `nffs_dir_free`; `os_memblock_put` of the model does not fail. -/
def nffs_dir_free (s : nffs_state) (dir : Option Nat) : Res Unit × nffs_state :=
  match dir with
  | none => (.ok (), s)
  | some dir => (.ok (), { s with nffs_dir_pool := os_memblock_put s.nffs_dir_pool dir })

/-- Modelled from the spec: the error code `NFFS_ENOMEM` of `nffs/nffs.h`, which is not
part of the sources; see `NFFS_ECORRUPT`. -/
def NFFS_ENOMEM : Nat := 7

/-- The function `nffs_dir_open`.  `nffs_path_find_inode_entry` of nffs_path.c, which is
not part of the sources, is a parameter: for a path it gives the entry found or the
error, and the state it leaves; the entry is stored in `dir->nd_parent_inode_entry`.
`out_dir` is the value of `*out_dir` before the call, the second component of the value
is `*out_dir` afterwards. -/
def nffs_dir_open
    (nffs_path_find_inode_entry : nffs_state → List Nat → Res Nat × nffs_state)
    (s : nffs_state) (path : List Nat) (out_dir : Option Nat) :
    Res Unit × Option Nat × nffs_state :=
  match nffs_dir_alloc s with
  | (none, s1) => (.err NFFS_ENOMEM, out_dir, s1)
  | (some dir, s1) =>
    match nffs_path_find_inode_entry s1 path with
    | (.abort, s2) => (.abort, out_dir, s2)
    | (.err rc, s2) => (.err rc, out_dir, s2)
    | (.ok inode_entry, s2) =>
      let s3 : nffs_state :=
        { s2 with
          dirs := Function.update s2.dirs dir
            { s2.dirs dir with nd_parent_inode_entry := inode_entry } }
      let s4 : nffs_state :=
        { s3 with
          inodes := Function.update s3.inodes inode_entry
            { s3.inodes inode_entry with
              nie_refcnt := ((s3.inodes inode_entry).nie_refcnt + 1) % 256 } }
      (.ok (), some dir,
        { s4 with
          dirs := Function.update s4.dirs dir
            { s4.dirs dir with nd_dirent := { nde_inode_entry := none } } })
/-! ## The older flash file system: flash access and formatting (`libs/ffs/src/ffs_flash.c`, `libs/ffs/src/ffs_format.c`)

The header `ffs_priv.h` and the flash driver are not part of the sources.  The members of
`struct ffs_sector_info` are taken to be `uint32_t`, as those of `struct nffs_area` in
`nffs_priv.h`; sector ids are `uint16_t` (the parameters of this name), so a table of
sectors has at most 2^16 entries.  The driver is a device that answers each call
depending on the calls made so far. -/

/-- A call of the flash driver: `flash_read(buf, addr, len)`, `flash_write(data, addr,
len)` with the `len` bytes that `data` points to, or `flash_erase_sector(addr)`. -/
inductive flash_op where
  | flash_read (addr len : Nat)
  | flash_write (data : List Nat) (addr len : Nat)
  | flash_erase_sector (addr : Nat)
deriving DecidableEq, Repr

/-- The `struct ffs_sector_info`: physical offset, length and append cursor. -/
structure ffs_sector_info where
  fsi_offset : Nat
  fsi_length : Nat
  fsi_cur : Nat
deriving DecidableEq, Repr

/-- The globals of libs/ffs that the embedded functions use, and the flash device.
`ffs_sectors` is the table of sectors (`ffs_num_sectors` is its length); `flash_ops` are
the calls of the driver so far, the first call first. -/
structure ffs_state where
  ffs_sectors : List ffs_sector_info
  ffs_scratch_sector_id : Nat
  ffs_next_id : Nat
  ffs_root_dir : Option Nat
  flash_ops : List flash_op

/-- What the embedded functions of libs/ffs call but the sources do not hold.

* `flash_read ops addr len` is the status of a driver read after the calls `ops` and the
  bytes it stores in the buffer; `flash_write ops data addr len` and
  `flash_erase_sector ops addr` are the status of a driver write and of an erase.
* `ffs_disk_sector` are the bytes of a `struct ffs_disk_sector` after `memset` to 0 and
  `ffs_sector_set_magic` (its length is `sizeof disk_sector`); `ffs_disk_sector_magic_sz`
  is `sizeof disk_sector.fds_magic`.
* `ffs_free_all` and `ffs_new_file` are the functions of these names. -/
structure ffs_env where
  flash_read : List flash_op → Nat → Nat → Nat × List Nat
  flash_write : List flash_op → List Nat → Nat → Nat → Nat
  flash_erase_sector : List flash_op → Nat → Nat
  ffs_disk_sector : List Nat
  ffs_disk_sector_magic_sz : Nat
  ffs_free_all : ffs_state → ffs_state
  ffs_new_file : ffs_state → Option Nat → List Nat → Nat → Nat → Res (Option Nat) × ffs_state

/-- Modelled from the spec: the error code `FFS_ERANGE` of `ffs/ffs.h`, which is not part
of the sources; the spec lists the error codes as distinct nonzero integers. -/
def FFS_ERANGE : Nat := 3

/-- Modelled from the spec: see `FFS_ERANGE`. -/
def FFS_EFLASH_ERROR : Nat := 2

/-- The function `ffs_flash_read`; the value are the bytes read into `data`.
`sector_id` is a `uint16_t`, `offset` and `len` are `uint32_t`, and so is their sum. -/
def ffs_flash_read (env : ffs_env) (s : ffs_state) (sector_id offset len : Nat) :
    Res (List Nat) × ffs_state :=
  let sector_id := sector_id % 2 ^ 16
  let offset := offset % 2 ^ 32
  let len := len % 2 ^ 32
  match s.ffs_sectors[sector_id]? with
  | none => (.abort, s)
  | some sector =>
    if (offset + len) % 2 ^ 32 > sector.fsi_length then (.err FFS_ERANGE, s)
    else
      let addr := (sector.fsi_offset + offset) % 2 ^ 32
      let rc := env.flash_read s.flash_ops addr len
      let s1 := { s with flash_ops := s.flash_ops ++ [flash_op.flash_read addr len] }
      if rc.1 ≠ 0 then (.err rc.1, s1) else (.ok rc.2, s1)

/-- The function `ffs_flash_write`; `data` are the bytes at the pointer of this name. -/
def ffs_flash_write (env : ffs_env) (s : ffs_state) (sector_id offset : Nat)
    (data : List Nat) (len : Nat) : Res Unit × ffs_state :=
  let sector_id := sector_id % 2 ^ 16
  let offset := offset % 2 ^ 32
  let len := len % 2 ^ 32
  match s.ffs_sectors[sector_id]? with
  | none => (.abort, s)
  | some sector =>
    if offset < sector.fsi_cur then (.abort, s)
    else if (offset + len) % 2 ^ 32 > sector.fsi_length then (.err FFS_ERANGE, s)
    else
      let addr := (sector.fsi_offset + offset) % 2 ^ 32
      let rc := env.flash_write s.flash_ops (data.take len) addr len
      let s1 :=
        { s with flash_ops := s.flash_ops ++ [flash_op.flash_write (data.take len) addr len] }
      if rc ≠ 0 then (.err FFS_EFLASH_ERROR, s1)
      else
        (.ok (),
          { s1 with
            ffs_sectors :=
              s1.ffs_sectors.set sector_id { sector with fsi_cur := (offset + len) % 2 ^ 32 } })

/-- The function `ffs_format_scratch_sector`: the sector is erased, its cursor is reset,
and of a zeroed `struct ffs_disk_sector` with the magic set only the magic is written at
its start. -/
def ffs_format_scratch_sector (env : ffs_env) (s : ffs_state) (sector_id : Nat) :
    Res Unit × ffs_state :=
  let sector_id := sector_id % 2 ^ 16
  match s.ffs_sectors[sector_id]? with
  | none => (.abort, s)
  | some sector =>
    let rc := env.flash_erase_sector s.flash_ops sector.fsi_offset
    let s1 :=
      { s with flash_ops := s.flash_ops ++ [flash_op.flash_erase_sector sector.fsi_offset] }
    if rc ≠ 0 then (.err rc, s1)
    else
      let s2 :=
        { s1 with ffs_sectors := s1.ffs_sectors.set sector_id { sector with fsi_cur := 0 } }
      match ffs_flash_write env s2 sector_id 0 env.ffs_disk_sector
          env.ffs_disk_sector_magic_sz with
      | (.abort, s3) => (.abort, s3)
      | (.err rc, s3) => (.err rc, s3)
      | (.ok _, s3) => (.ok (), s3)

/-- The function `ffs_format_sector`: the sector is erased, its cursor is reset, and a
zeroed `struct ffs_disk_sector` with the magic set is written at its start. -/
def ffs_format_sector (env : ffs_env) (s : ffs_state) (sector_id : Nat) :
    Res Unit × ffs_state :=
  let sector_id := sector_id % 2 ^ 16
  match s.ffs_sectors[sector_id]? with
  | none => (.abort, s)
  | some sector =>
    let rc := env.flash_erase_sector s.flash_ops sector.fsi_offset
    let s1 :=
      { s with flash_ops := s.flash_ops ++ [flash_op.flash_erase_sector sector.fsi_offset] }
    if rc ≠ 0 then (.err rc, s1)
    else
      let s2 :=
        { s1 with ffs_sectors := s1.ffs_sectors.set sector_id { sector with fsi_cur := 0 } }
      match ffs_flash_write env s2 sector_id 0 env.ffs_disk_sector
          env.ffs_disk_sector.length with
      | (.abort, s3) => (.abort, s3)
      | (.err rc, s3) => (.err rc, s3)
      | (.ok _, s3) => (.ok (), s3)

/-- The member `fsi_length` of `ffs_sectors[i]`. -/
def ffs_sector_length (sectors : List ffs_sector_info) (i : Nat) : Nat :=
  match sectors[i]? with
  | none => 0
  | some sector => sector.fsi_length

/-- The first `for` loop of `ffs_format_full` over the indices still to look at; the
second argument is `ffs_scratch_sector_id` so far. -/
def ffs_format_full_select (sectors : List ffs_sector_info) : List Nat → Nat → Nat
  | [], ffs_scratch_sector_id => ffs_scratch_sector_id
  | i :: rest, ffs_scratch_sector_id =>
    ffs_format_full_select sectors rest
      (if ffs_sector_length sectors i > ffs_sector_length sectors ffs_scratch_sector_id then i
       else ffs_scratch_sector_id)

/-- The second `for` loop of `ffs_format_full` over the indices still to format. -/
def ffs_format_full_sectors (env : ffs_env) : List Nat → ffs_state → Res Unit × ffs_state
  | [], s => (.ok (), s)
  | i :: rest, s =>
    let formatted : Res Unit × ffs_state :=
      if i = s.ffs_scratch_sector_id then ffs_format_scratch_sector env s i
      else ffs_format_sector env s i
    match formatted with
    | (.abort, s1) => (.abort, s1)
    | (.err rc, s1) => (.err rc, s1)
    | (.ok _, s1) => ffs_format_full_sectors env rest s1

/-- The function `ffs_format_full`. -/
def ffs_format_full (env : ffs_env) (s : ffs_state) : Res Unit × ffs_state :=
  let s1 : ffs_state :=
    { s with
      ffs_scratch_sector_id :=
        ffs_format_full_select s.ffs_sectors (List.range' 1 (s.ffs_sectors.length - 1)) 0 }
  match ffs_format_full_sectors env (List.range s1.ffs_sectors.length) s1 with
  | (.abort, s2) => (.abort, s2)
  | (.err rc, s2) => (.err rc, s2)
  | (.ok _, s2) =>
    let s3 := env.ffs_free_all s2
    let s4 : ffs_state := { s3 with ffs_next_id := 0, ffs_root_dir := none }
    match env.ffs_new_file s4 none [] 0 1 with
    | (.abort, s5) => (.abort, s5)
    | (.err rc, s5) => (.err rc, s5)
    | (.ok file, s5) => (.ok (), { s5 with ffs_root_dir := file })
/-! ## The mutex of the kernel (`libs/os/src/os_mutex.c`, `libs/os/src/os_sched.c`, `pkg/os/src/os_time.c`)

The headers of libs/os that declare `struct os_task`, `struct os_mutex`, `os_error_t`
and the constants of the scheduler are not part of the sources.  The members that the
embedded functions use are kept; the width of the counter `mu_level` is a parameter. -/

/-- The members of `struct os_task` that the scheduler and the mutex use.  The links
`t_os_list` and `t_obj_list` are the positions in the lists of the state. -/
structure os_task where
  t_prio : Nat
  t_state : Nat
  t_flags : Nat
  t_next_wakeup : Nat
  t_mutex : Option Nat
deriving DecidableEq, Repr

/-- The `struct os_mutex`: `mu_head` is the list of the tasks that wait for the mutex,
first task first. -/
structure os_mutex where
  mu_head : List Nat
  mu_prio : Nat
  mu_level : Nat
  mu_owner : Option Nat
deriving DecidableEq, Repr

/-- The globals of the kernel: `tasks` and `mutexes` are the heaps of tasks and of
mutexes. -/
structure os_state where
  g_os_started : Nat
  g_current_task : Option Nat
  g_os_run_list : List Nat
  g_os_sleep_list : List Nat
  g_os_time : Nat
  tasks : Nat → os_task
  mutexes : Nat → os_mutex

/-- What the embedded functions of the kernel depend on but the sources do not hold.

* `mu_level_bits` is the width in bits of the unsigned member `mu_level`.
* `os_arch_ctx_sw next_t s` and `os_arch_ctx_sw_isr next_t s` are the state in which the
  calling task runs again after the context switch to `next_t`: what the other tasks did
  in between. -/
structure os_env where
  mu_level_bits : Nat
  os_arch_ctx_sw : Option Nat → os_state → os_state
  os_arch_ctx_sw_isr : Option Nat → os_state → os_state

/-- The values of `os_error_t` that the embedded functions return, from a header that is
not part of the sources: distinct nonzero codes. -/
def OS_EINVAL : Nat := 2

def OS_INVALID_PARM : Nat := 3

def OS_BAD_MUTEX : Nat := 5

def OS_TIMEOUT : Nat := 6

def OS_NOT_STARTED : Nat := 9

/-- The task states, from a header that is not part of the sources: distinct values. -/
def OS_TASK_READY : Nat := 1

def OS_TASK_SLEEP : Nat := 2

/-- The flag of a task that sleeps without a timeout, from a header that is not part of
the sources: one bit. -/
def OS_TASK_FLAG_NO_TIMEOUT : Nat := 1

/-- The timeout that means to wait forever: 0xFFFFFFFF, as the comment of `os_mutex_pend`
has it. -/
def OS_TIMEOUT_NEVER : Nat := 0xffffffff

/-- The macro `OS_TIME_TICK_GT`, from a header that is not part of the sources: the
difference of the two tick counts as a signed 32-bit value is positive. -/
def OS_TIME_TICK_GT (t1 t2 : Nat) : Bool :=
  decide (0 < uint32_sub t1 t2 ∧ uint32_sub t1 t2 < 2 ^ 31)

/-- The macro `TAILQ_REMOVE`.  For a node that is not in the list the macro writes
through stale links, which is `none`. -/
def TAILQ_REMOVE (head : List Nat) (elm : Nat) : Option (List Nat) :=
  if elm ∈ head then some (head.erase elm) else none

/-- The function `os_time_get` of pkg/os/src/os_time.c. -/
def os_time_get (s : os_state) : Nat :=
  s.g_os_time

/-- The `TAILQ_FOREACH` loop of `os_sched_insert` with the insertion that follows it: the
task goes before the first entry of lower priority (a greater `t_prio`), or to the
tail. -/
def os_sched_insert_loop (tasks : Nat → os_task) (t : Nat) : List Nat → List Nat
  | [] => [t]
  | entry :: rest =>
    if (tasks t).t_prio < (tasks entry).t_prio then t :: entry :: rest
    else entry :: os_sched_insert_loop tasks t rest

/-- The function `os_sched_insert`. -/
def os_sched_insert (s : os_state) (t : Nat) : Res Unit × os_state :=
  if (s.tasks t).t_state ≠ OS_TASK_READY then (.err OS_EINVAL, s)
  else (.ok (), { s with g_os_run_list := os_sched_insert_loop s.tasks t s.g_os_run_list })

/-- The function `os_sched_get_current_task`. -/
def os_sched_get_current_task (s : os_state) : Option Nat :=
  s.g_current_task

/-- The function `os_sched_next_task`. -/
def os_sched_next_task (s : os_state) : Option Nat :=
  s.g_os_run_list.head?

/-- The function `os_sched`. -/
def os_sched (env : os_env) (s : os_state) (next_t : Option Nat) (isr : Nat) : os_state :=
  let next_t := if next_t = none then os_sched_next_task s else next_t
  if next_t ≠ os_sched_get_current_task s then
    if isr ≠ 0 then env.os_arch_ctx_sw_isr next_t s else env.os_arch_ctx_sw next_t s
  else s

/-- The `TAILQ_FOREACH` loop of `os_sched_sleep` with the insertion that follows it: the
task goes before the first entry that sleeps without a timeout or wakes up later, or to
the tail. -/
def os_sched_sleep_loop (tasks : Nat → os_task) (t : Nat) : List Nat → List Nat
  | [] => [t]
  | entry :: rest =>
    if (tasks entry).t_flags &&& OS_TASK_FLAG_NO_TIMEOUT ≠ 0 ∨
        OS_TIME_TICK_GT (tasks entry).t_next_wakeup (tasks t).t_next_wakeup = true then
      t :: entry :: rest
    else entry :: os_sched_sleep_loop tasks t rest

/-- The function `os_sched_sleep`; `none` when the task is not in the run list. -/
def os_sched_sleep (s : os_state) (t nticks : Nat) : Option os_state :=
  match TAILQ_REMOVE s.g_os_run_list t with
  | none => none
  | some run_list =>
    let task : os_task :=
      { s.tasks t with
        t_state := OS_TASK_SLEEP
        t_next_wakeup := (os_time_get s + nticks) % 2 ^ 32 }
    if nticks = OS_TIMEOUT_NEVER then
      some
        { s with
          g_os_run_list := run_list
          tasks := Function.update s.tasks t
            { task with t_flags := task.t_flags ||| OS_TASK_FLAG_NO_TIMEOUT }
          g_os_sleep_list := s.g_os_sleep_list ++ [t] }
    else
      let tasks := Function.update s.tasks t task
      some
        { s with
          g_os_run_list := run_list
          tasks := tasks
          g_os_sleep_list := os_sched_sleep_loop tasks t s.g_os_sleep_list }

/-- The function `os_sched_wakeup`; `none` for a failed `assert` or a task that is not in
the list it is removed from.  The status of `os_sched_insert` is not looked at. -/
def os_sched_wakeup (s : os_state) (t : Nat) : Option os_state :=
  let unlinked : Option os_state :=
    match (s.tasks t).t_mutex with
    | none => some s
    | some mu =>
      if (s.mutexes mu).mu_head = [] then none
      else
        match SLIST_REMOVE (s.mutexes mu).mu_head t with
        | none => none
        | some head =>
          some
            { s with
              mutexes := Function.update s.mutexes mu { s.mutexes mu with mu_head := head }
              tasks := Function.update s.tasks t { s.tasks t with t_mutex := none } }
  match unlinked with
  | none => none
  | some s1 =>
    let s2 : os_state :=
      { s1 with
        tasks := Function.update s1.tasks t
          { s1.tasks t with
            t_state := OS_TASK_READY
            t_next_wakeup := 0
            t_flags := (s1.tasks t).t_flags - ((s1.tasks t).t_flags &&& OS_TASK_FLAG_NO_TIMEOUT) } }
    match TAILQ_REMOVE s2.g_os_sleep_list t with
    | none => none
    | some sleep_list => some (os_sched_insert { s2 with g_os_sleep_list := sleep_list } t).2

/-- The function `os_sched_resort`; `none` when a ready task is not in the run list. -/
def os_sched_resort (s : os_state) (t : Nat) : Option os_state :=
  if (s.tasks t).t_state = OS_TASK_READY then
    match TAILQ_REMOVE s.g_os_run_list t with
    | none => none
    | some run_list => some (os_sched_insert { s with g_os_run_list := run_list } t).2
  else some s

/-- The function `os_mutex_init`; a NULL `mu` is `none`. -/
def os_mutex_init (s : os_state) (mu : Option Nat) : Res Unit × os_state :=
  match mu with
  | none => (.err OS_INVALID_PARM, s)
  | some mu =>
    (.ok (),
      { s with
        mutexes := Function.update s.mutexes mu
          { mu_head := [], mu_prio := 0, mu_level := 0, mu_owner := none } })

/-- The function `os_mutex_release`.  The decrement of `mu_level` is that of an unsigned
member of `mu_level_bits` bits; the `abort` is a failed `assert` or a NULL `current`. -/
def os_mutex_release (env : os_env) (s : os_state) (mu : Option Nat) : Res Unit × os_state :=
  if s.g_os_started = 0 then (.err OS_NOT_STARTED, s)
  else
    match mu with
    | none => (.err OS_INVALID_PARM, s)
    | some mu =>
      let current := os_sched_get_current_task s
      if (s.mutexes mu).mu_level = 0 ∨ (s.mutexes mu).mu_owner ≠ current then
        (.err OS_BAD_MUTEX, s)
      else
        let s1 : os_state :=
          { s with
            mutexes := Function.update s.mutexes mu
              { s.mutexes mu with
                mu_level :=
                  ((s.mutexes mu).mu_level + 2 ^ env.mu_level_bits - 1) % 2 ^ env.mu_level_bits } }
        if (s1.mutexes mu).mu_level ≠ 0 then (.ok (), s1)
        else
          match current with
          | none => (.abort, s1)
          | some cur =>
            -- restore the priority of the owner
            let restored : Option os_state :=
              if (s1.tasks cur).t_prio ≠ (s1.mutexes mu).mu_prio then
                os_sched_resort
                  { s1 with
                    tasks := Function.update s1.tasks cur
                      { s1.tasks cur with t_prio := (s1.mutexes mu).mu_prio } } cur
              else some s1
            match restored with
            | none => (.abort, s1)
            | some s2 =>
              -- wake the first task that waits
              let rdy := (s2.mutexes mu).mu_head.head?
              let woken : Option os_state :=
                match rdy with
                | none => some s2
                | some r =>
                  if (s2.tasks r).t_mutex = none then none
                  else
                    let s3 : os_state :=
                      { s2 with
                        tasks := Function.update s2.tasks r { s2.tasks r with t_mutex := none }
                        mutexes := Function.update s2.mutexes mu
                          { s2.mutexes mu with mu_head := (s2.mutexes mu).mu_head.tail } }
                    match os_sched_wakeup s3 r with
                    | none => none
                    | some s4 =>
                      some
                        { s4 with
                          mutexes := Function.update s4.mutexes mu
                            { s4.mutexes mu with
                              mu_level := 1
                              mu_prio := (s4.tasks r).t_prio } }
              match woken with
              | none => (.abort, s2)
              | some s5 =>
                let s6 : os_state :=
                  { s5 with
                    mutexes := Function.update s5.mutexes mu
                      { s5.mutexes mu with mu_owner := rdy } }
                let rdy := os_sched_next_task s6
                if rdy ≠ current then (.ok (), os_sched env s6 rdy 0) else (.ok (), s6)

/-- The number of entries of the list of waiting tasks that the `SLIST_FOREACH` loop of
`os_mutex_pend` passes before its `break`: `last` is the entry at this position, NULL for
0. -/
def os_mutex_pend_loop (tasks : Nat → os_task) (current : Nat) : List Nat → Nat
  | [] => 0
  | entry :: rest =>
    if (tasks current).t_prio < (tasks entry).t_prio then 0
    else os_mutex_pend_loop tasks current rest + 1

/-- The function `os_mutex_pend`; `timeout` is a `uint32_t`.  The increment of `mu_level`
is that of an unsigned member of `mu_level_bits` bits; the `abort` is a NULL `current` or
owner that is dereferenced, or a task that is not in the list it is removed from. -/
def os_mutex_pend (env : os_env) (s : os_state) (mu : Option Nat) (timeout : Nat) :
    Res Unit × os_state :=
  if s.g_os_started = 0 then (.err OS_NOT_STARTED, s)
  else
    match mu with
    | none => (.err OS_INVALID_PARM, s)
    | some mu =>
      let current := os_sched_get_current_task s
      if (s.mutexes mu).mu_level = 0 then
        match current with
        | none => (.abort, s)
        | some cur =>
          (.ok (),
            { s with
              mutexes := Function.update s.mutexes mu
                { s.mutexes mu with
                  mu_owner := current
                  mu_prio := (s.tasks cur).t_prio
                  mu_level := 1 } })
      else if (s.mutexes mu).mu_owner = current then
        (.ok (),
          { s with
            mutexes := Function.update s.mutexes mu
              { s.mutexes mu with
                mu_level := ((s.mutexes mu).mu_level + 1) % 2 ^ env.mu_level_bits } })
      else if timeout % 2 ^ 32 = 0 then (.err OS_TIMEOUT, s)
      else
        match (s.mutexes mu).mu_owner, current with
        | none, _ => (.abort, s)
        | some _, none => (.abort, s)
        | some owner, some cur =>
          -- change the priority of the owner if needed
          let raised : Option os_state :=
            if (s.tasks owner).t_prio > (s.tasks cur).t_prio then
              os_sched_resort
                { s with
                  tasks := Function.update s.tasks owner
                    { s.tasks owner with t_prio := (s.tasks cur).t_prio } } owner
            else some s
          match raised with
          | none => (.abort, s)
          | some s1 =>
            -- link the current task to the tasks that wait, in priority order
            let last := os_mutex_pend_loop s1.tasks cur (s1.mutexes mu).mu_head
            let head :=
              if last ≠ 0 then SLIST_INSERT_AFTER (s1.mutexes mu).mu_head last cur
              else SLIST_INSERT_HEAD (s1.mutexes mu).mu_head cur
            let s2 : os_state :=
              { s1 with
                mutexes := Function.update s1.mutexes mu { s1.mutexes mu with mu_head := head }
                tasks := Function.update s1.tasks cur { s1.tasks cur with t_mutex := some mu } }
            match os_sched_sleep s2 cur (timeout % 2 ^ 32) with
            | none => (.abort, s2)
            | some s3 =>
              let s4 := os_sched env s3 none 0
              if (s4.mutexes mu).mu_owner = current then (.ok (), s4)
              else (.err OS_TIMEOUT, s4)
/-! ## The advertising parameters of the link layer (`net/nimble/controller/src/ll_adv.c`, lines 433-528)

The headers `nimble/ble.h` and `controller/ll_adv.h` are not part of the sources; the
constants of `nimble/hci_common.h` are. -/

/-- The members of `struct ll_adv_sm`, the advertising state machine, without the event
`adv_txdone_ev` whose type is declared in a header that is not part of the sources.  The
arrays are the lists of their bytes, the pointers are NULL or an address. -/
structure ll_adv_sm where
  enabled : Nat
  adv_type : Nat
  adv_len : Nat
  adv_chanmask : Nat
  adv_filter_policy : Nat
  own_addr_type : Nat
  peer_addr_type : Nat
  adv_chan : Nat
  scan_rsp_len : Nat
  adv_pdu_len : Nat
  adv_itvl_min : Nat
  adv_itvl_max : Nat
  adv_itvl_usecs : Nat
  adv_event_start_time : Nat
  adv_pdu_start_time : Nat
  initiator_addr : List Nat
  adv_data : List Nat
  scan_rsp_data : List Nat
  adv_pdu : Option Nat
  scan_rsp_pdu : Option Nat
deriving DecidableEq, Repr

/-- The constants of `controller/ll_adv.h`, which is not part of the sources, that
`ll_adv_set_adv_params` uses: the smallest advertising interval of the connectable and
directed advertising types and that of the other types. -/
structure ll_env where
  BLE_LL_ADV_ITVL_MIN : Nat
  BLE_LL_ADV_ITVL_NONCONN_MIN : Nat

/-- Modelled from the spec: the error codes `BLE_ERR_CMD_DISALLOWED` and
`BLE_ERR_INV_HCI_CMD_PARMS` of `nimble/ble.h`, which is not part of the sources: two
distinct nonzero status codes (the values are those of the Bluetooth specification). -/
def BLE_ERR_CMD_DISALLOWED : Nat := 0x0c

/-- Modelled from the spec: see `BLE_ERR_CMD_DISALLOWED`. -/
def BLE_ERR_INV_HCI_CMD_PARMS : Nat := 0x12

def BLE_HCI_SET_ADV_PARAM_LEN : Nat := 15

def BLE_HCI_ADV_TYPE_ADV_IND : Nat := 0
def BLE_HCI_ADV_TYPE_ADV_DIRECT_IND_HD : Nat := 1
def BLE_HCI_ADV_TYPE_ADV_SCAN_IND : Nat := 2
def BLE_HCI_ADV_TYPE_ADV_NONCONN_IND : Nat := 3
def BLE_HCI_ADV_TYPE_ADV_DIRECT_IND_LD : Nat := 4

def BLE_HCI_ADV_OWN_ADDR_MAX : Nat := 3

def BLE_HCI_ADV_PEER_ADDR_MAX : Nat := 1

def BLE_HCI_ADV_FILT_MAX : Nat := 4

def BLE_HCI_ADV_ITVL_MAX : Nat := 16384

/-- Modelled from the spec: `le16toh` of `nimble/ble.h`, which is not part of the
sources: the 16-bit value whose two bytes are at the pointer, least significant byte
first (spec 3: integers are little-endian). -/
def le16toh (buf : List Nat) : Nat :=
  (buf.getD 0 0 % 256 + 256 * (buf.getD 1 0 % 256)) % 2 ^ 16

/-- The function `ll_adv_set_adv_params`.  `advsm` is the global `g_ll_adv_sm`, the
second component of the value is the global afterwards; `cmd` are the bytes at the
pointer of this name. -/
def ll_adv_set_adv_params (env : ll_env) (advsm : ll_adv_sm) (cmd : List Nat) :
    Res Unit × ll_adv_sm :=
  if advsm.enabled ≠ 0 then (.err BLE_ERR_CMD_DISALLOWED, advsm)
  else
    let adv_itvl_min := le16toh cmd
    let adv_itvl_max := le16toh (cmd.drop 2)
    let adv_type := cmd.getD 4 0 % 256
    if adv_itvl_min > adv_itvl_max ∨ adv_itvl_min = adv_itvl_max then
      (.err BLE_ERR_INV_HCI_CMD_PARMS, advsm)
    else
      let min_itvl :=
        if adv_type = BLE_HCI_ADV_TYPE_ADV_IND ∨ adv_type = BLE_HCI_ADV_TYPE_ADV_DIRECT_IND_HD ∨
            adv_type = BLE_HCI_ADV_TYPE_ADV_DIRECT_IND_LD then
          env.BLE_LL_ADV_ITVL_MIN % 2 ^ 16
        else if adv_type = BLE_HCI_ADV_TYPE_ADV_NONCONN_IND ∨
            adv_type = BLE_HCI_ADV_TYPE_ADV_SCAN_IND then
          env.BLE_LL_ADV_ITVL_NONCONN_MIN % 2 ^ 16
        else 0xFFFF
      if adv_itvl_min < min_itvl ∨ adv_itvl_min > BLE_HCI_ADV_ITVL_MAX then
        (.err BLE_ERR_INV_HCI_CMD_PARMS, advsm)
      else
        let own_addr_type := cmd.getD 5 0 % 256
        let peer_addr_type := cmd.getD 6 0 % 256
        if own_addr_type > BLE_HCI_ADV_OWN_ADDR_MAX ∨
            peer_addr_type > BLE_HCI_ADV_PEER_ADDR_MAX then
          (.err BLE_ERR_INV_HCI_CMD_PARMS, advsm)
        else
          let adv_chanmask := cmd.getD 13 0 % 256
          if adv_chanmask &&& 0xF8 ≠ 0 ∨ adv_chanmask = 0 then
            (.err BLE_ERR_INV_HCI_CMD_PARMS, advsm)
          else
            let adv_filter_policy := cmd.getD 14 0 % 256
            if adv_filter_policy > BLE_HCI_ADV_FILT_MAX then
              (.err BLE_ERR_INV_HCI_CMD_PARMS, advsm)
            else
              (.ok (),
                { advsm with
                  own_addr_type := own_addr_type
                  peer_addr_type := peer_addr_type
                  adv_filter_policy := adv_filter_policy
                  adv_chanmask := adv_chanmask
                  adv_itvl_min := adv_itvl_min
                  adv_itvl_max := adv_itvl_max
                  adv_type := adv_type })

/-! ## Comparing a filename with a name in RAM (`nffs_inode.c`, lines 574-624) -/

/-- The `while (*result == 0 && off < short_len)` loop of `nffs_inode_filename_cmp_ram`;
`name` are the bytes at the pointer of this name, `nffs_inode_filename_buf0` is
`nffs_flash_buf`.  The first argument bounds the number of iterations; `short_len` of
them are always enough, since every iteration advances `off` by at least one. -/
def nffs_inode_filename_cmp_ram_loop (inode : nffs_inode) (name : List Nat) (short_len : Nat) :
    Nat → Nat → Int → nffs_state → Res Int × nffs_state
  | 0, off, result, s =>
    if result = 0 ∧ off < short_len then (.abort, s) else (.ok result, s)
  | fuel + 1, off, result, s =>
    if result = 0 ∧ off < short_len then
      let rem_len := short_len - off
      let chunk_len :=
        if rem_len > NFFS_INODE_FILENAME_BUF_SZ then NFFS_INODE_FILENAME_BUF_SZ
        else rem_len
      match nffs_inode_read_filename_chunk s inode off chunk_len with
      | .abort => (.abort, s)
      | .err rc => (.err rc, s)
      | .ok b0 =>
        let s1 := { s with nffs_flash_buf := mem_write s.nffs_flash_buf 0 b0 }
        let result := strncmp (mem_read s1.nffs_flash_buf 0 chunk_len) (name.drop off) chunk_len
        nffs_inode_filename_cmp_ram_loop inode name short_len fuel (off + chunk_len) result s1
    else (.ok result, s)

/-- The function `nffs_inode_filename_cmp_ram`; the value is `*result`.  `name_len` is an
`int` that is not negative. -/
def nffs_inode_filename_cmp_ram (s : nffs_state) (inode : nffs_inode) (name : List Nat)
    (name_len : Nat) : Res Int × nffs_state :=
  let short_len :=
    if name_len < inode.ni_filename_len then name_len else inode.ni_filename_len
  let chunk_len :=
    if short_len ≤ NFFS_SHORT_FILENAME_LEN then short_len else NFFS_SHORT_FILENAME_LEN
  let result := strncmp inode.ni_filename name chunk_len
  match nffs_inode_filename_cmp_ram_loop inode name short_len short_len chunk_len result s with
  | (.abort, s1) => (.abort, s1)
  | (.err rc, s1) => (.err rc, s1)
  | (.ok result, s1) =>
    if result = 0 then (.ok ((inode.ni_filename_len : Int) - (name_len : Int)), s1)
    else (.ok result, s1)

/-! ## Closing a directory handle (nffs_dir.c) -/

/-- The function `nffs_dir_close`; `dir` is `none` for a NULL pointer. -/
def nffs_dir_close (s : nffs_state) (dir : Option Nat) : Res Unit × nffs_state :=
  match dir with
  | none => (.ok (), s)
  | some dir =>
    let r : Res Unit × nffs_state :=
      match (s.dirs dir).nd_dirent.nde_inode_entry with
      | some e => nffs_inode_dec_refcnt s e
      | none => (.ok (), s)
    match r with
    | (.abort, s1) => (.abort, s1)
    | (.err rc, s1) => (.err rc, s1)
    | (.ok _, s1) =>
      match nffs_inode_dec_refcnt s1 (s1.dirs dir).nd_parent_inode_entry with
      | (.abort, s2) => (.abort, s2)
      | (.err rc, s2) => (.err rc, s2)
      | (.ok _, s2) =>
        match nffs_dir_free s2 (some dir) with
        | (.abort, s3) => (.abort, s3)
        | (.err rc, s3) => (.err rc, s3)
        | (.ok _, s3) => (.ok (), s3)

/-! ## Copying between sectors (libs/ffs/src/ffs_flash.c) -/

/-- The `while (len > 0)` loop of `ffs_flash_copy`.  `buf` is the static buffer of 256
bytes: `ffs_flash_read` stores what the driver read at its start, and `ffs_flash_write`
writes its first `chunk_len` bytes.  `offset_from`, `offset_to` and `len` are `uint32_t`.
The first argument bounds the number of rounds. -/
def ffs_flash_copy_loop (env : ffs_env) (sector_id_from sector_id_to : Nat) :
    Nat → List Nat → Nat → Nat → Nat → ffs_state → Res Unit × ffs_state
  | 0, _, _, _, _, s => (.abort, s)
  | fuel + 1, buf, offset_from, offset_to, len, s =>
    if len > 0 then
      let chunk_len := if len > 256 then 256 else len
      match ffs_flash_read env s sector_id_from offset_from chunk_len with
      | (.abort, s1) => (.abort, s1)
      | (.err rc, s1) => (.err rc, s1)
      | (.ok data, s1) =>
        let buf := data ++ buf.drop data.length
        match ffs_flash_write env s1 sector_id_to offset_to buf chunk_len with
        | (.abort, s2) => (.abort, s2)
        | (.err rc, s2) => (.err rc, s2)
        | (.ok _, s2) =>
          ffs_flash_copy_loop env sector_id_from sector_id_to fuel buf
            ((offset_from + chunk_len) % 2 ^ 32) ((offset_to + chunk_len) % 2 ^ 32)
            (len - chunk_len) s2
    else (.ok (), s)

/-- The function `ffs_flash_copy`; `buf` is what the static buffer holds at the call.
Each round takes off `len` the smaller of 256 and `len`, so the loop makes
`(len + 255) / 256` rounds and one more test of `len > 0`. -/
def ffs_flash_copy (env : ffs_env) (s : ffs_state) (buf : List Nat)
    (sector_id_from offset_from sector_id_to offset_to len : Nat) : Res Unit × ffs_state :=
  let sector_id_from := sector_id_from % 2 ^ 16
  let offset_from := offset_from % 2 ^ 32
  let sector_id_to := sector_id_to % 2 ^ 16
  let offset_to := offset_to % 2 ^ 32
  let len := len % 2 ^ 32
  ffs_flash_copy_loop env sector_id_from sector_id_to ((len + 255) / 256 + 1) buf
    offset_from offset_to len s

/-! ## The index and the unlink worklist -/

/-- The invariant of the index and the unlink worklist: the index is well formed (an
entry is linked in the bucket of its id, and in no chain twice), and no entry of the
worklist is linked in a chain of the index. -/
def nffs_unlink_inv (s : nffs_state) : Prop :=
  nffs_hash_inv s.hash_mem s.nffs_hash ∧
  ∀ e ∈ s.nffs_inode_unlink_list, ∀ i, e ∉ s.nffs_hash i

/-- The state `s2` comes from `s` by steps that keep the id of every entry, link nothing
in the index, keep its chains without repetition, take nothing out of the pool of inode
entries, and leave the worklist as it is. -/
def nffs_unlink_quiet (s s2 : nffs_state) : Prop :=
  (∀ e, (s2.hash_mem e).nhe_id = (s.hash_mem e).nhe_id) ∧
  (∀ i, ∀ e ∈ s2.nffs_hash i, e ∈ s.nffs_hash i) ∧
  (∀ i, (s.nffs_hash i).Nodup → (s2.nffs_hash i).Nodup) ∧
  (∀ x ∈ s.nffs_inode_entry_pool, x ∈ s2.nffs_inode_entry_pool) ∧
  s2.nffs_inode_unlink_list = s.nffs_inode_unlink_list

/-- The state `s2` comes from `s` by steps that keep the id of every entry, link nothing
in the index, keep its chains without repetition, take nothing out of the pool of inode
entries, and keep the invariant of the index and the worklist. -/
def nffs_unlink_step (s s2 : nffs_state) : Prop :=
  (∀ e, (s2.hash_mem e).nhe_id = (s.hash_mem e).nhe_id) ∧
  (∀ i, ∀ e ∈ s2.nffs_hash i, e ∈ s.nffs_hash i) ∧
  (∀ i, (s.nffs_hash i).Nodup → (s2.nffs_hash i).Nodup) ∧
  (∀ x ∈ s.nffs_inode_entry_pool, x ∈ s2.nffs_inode_entry_pool) ∧
  (nffs_unlink_inv s → nffs_unlink_inv s2)

/-- The states of the file system that are reached from a state with the index after
`nffs_hash_init` and an empty worklist by any number of: `nffs_hash_insert` of an entry
that is linked in no list (the only link field of the entry is free), `nffs_hash_find`,
`nffs_inode_dec_refcnt` and `nffs_inode_unlink_from_ram` with any arguments and whatever
their outcome, and changes of the rest of the state that keep the index, the worklist and
the id of every entry that is linked in the index. -/
inductive nffs_unlink_reachable : nffs_state → Prop
  | init (s : nffs_state) :
      s.nffs_hash = nffs_hash_init → s.nffs_inode_unlink_list = [] → nffs_unlink_reachable s
  | insert (s : nffs_state) (entry : Nat) :
      nffs_unlink_reachable s → (∀ i, entry ∉ s.nffs_hash i) →
      entry ∉ s.nffs_inode_unlink_list →
      nffs_unlink_reachable
        { s with nffs_hash := nffs_hash_insert s.hash_mem s.nffs_hash entry }
  | find (s : nffs_state) (id : Nat) :
      nffs_unlink_reachable s →
      nffs_unlink_reachable { s with nffs_hash := (nffs_hash_find s.hash_mem s.nffs_hash id).2 }
  | dec_refcnt (s : nffs_state) (inode_entry : Nat) :
      nffs_unlink_reachable s → nffs_unlink_reachable (nffs_inode_dec_refcnt s inode_entry).2
  | unlink_from_ram (s : nffs_state) (inode : nffs_inode) (out_next : Option (Option Nat)) :
      nffs_unlink_reachable s →
      nffs_unlink_reachable (nffs_inode_unlink_from_ram s inode out_next).2.2
  | other (s s2 : nffs_state) :
      nffs_unlink_reachable s → s2.nffs_hash = s.nffs_hash →
      s2.nffs_inode_unlink_list = s.nffs_inode_unlink_list →
      (∀ i, ∀ e ∈ s.nffs_hash i, (s2.hash_mem e).nhe_id = (s.hash_mem e).nhe_id) →
      nffs_unlink_reachable s2

/-! ## The driver calls of a format -/

/-- The calls of the driver that format the sector `i` of the table with a header of
`len` bytes: the erase of the sector, and the write of the first `len` bytes of a zeroed
`struct ffs_disk_sector` with the magic set at the start of the sector. -/
def ffs_format_ops (env : ffs_env) (sectors : List ffs_sector_info) (len i : Nat) :
    List flash_op :=
  match sectors[i]? with
  | none => []
  | some sector =>
    [flash_op.flash_erase_sector sector.fsi_offset,
      flash_op.flash_write (env.ffs_disk_sector.take len) sector.fsi_offset len]

/-- The calls of the driver that format the sectors with the given indices one after the
other, the sector `scratch` as the scratch sector (only the magic of its header is
written) and every other sector as a regular sector (the whole header is written). -/
def ffs_format_full_ops (env : ffs_env) (sectors : List ffs_sector_info) (scratch : Nat) :
    List Nat → List flash_op
  | [] => []
  | i :: rest =>
    ffs_format_ops env sectors
        (if i = scratch then env.ffs_disk_sector_magic_sz else env.ffs_disk_sector.length) i ++
      ffs_format_full_ops env sectors scratch rest

/-! ## Walking a block chain -/

/-- The data length in the block record that an entry references (0 when the record
cannot be read). -/
def nffs_block_data_len (s : nffs_state) (b : Nat) : Nat :=
  match nffs_block_read_disk s
      (nffs_flash_loc_expand (s.inodes b).nie_hash_entry.nhe_flash_loc).1
      (nffs_flash_loc_expand (s.inodes b).nie_hash_entry.nhe_flash_loc).2 with
  | .ok d => d.ndb_data_len
  | _ => 0

/-- The list `chain` is what following the previous-block pointers from `cur` on visits,
the last block of the file first: every block of it can be decoded, the previous block of
each is the next in the list, and the last of the list has no previous block.  The
decoding of a block looks entries up in the hash table, which reorders its chains, so
each block is decoded in the state that the decoding of the block before it leaves. -/
def nffs_block_walk (s : nffs_state) (cur : Option Nat) : List Nat → Prop
  | [] => cur = none
  | b :: rest =>
    cur = some b ∧
    ∃ block s1, nffs_block_from_hash_entry s b = (.ok block, s1) ∧
      nffs_block_walk s1 block.nb_prev rest

/-- Following the previous-block pointers from `cur` on visits the blocks of `pre`, which
can be decoded, and then the block `b`, whose decoding fails with `rc`. -/
def nffs_block_walk_fails (s : nffs_state) (cur : Option Nat) (b rc : Nat) : List Nat → Prop
  | [] => cur = some b ∧ (nffs_block_from_hash_entry s b).1 = .err rc
  | x :: rest =>
    cur = some x ∧
    ∃ block s1, nffs_block_from_hash_entry s x = (.ok block, s1) ∧
      nffs_block_walk_fails s1 block.nb_prev b rc rest

/-- Decoding the blocks of a list one after the other, each of them once, and adding
their data lengths to a 32-bit sum; the first block that cannot be decoded ends it with
its error.  The value is the status, the sum and the state left. -/
def nffs_block_decode_each : List Nat → Nat → nffs_state → Res Unit × Nat × nffs_state
  | [], out_len, s => (.ok (), out_len, s)
  | b :: rest, out_len, s =>
    match nffs_block_from_hash_entry s b with
    | (.abort, s1) => (.abort, out_len, s1)
    | (.err rc, s1) => (.err rc, out_len, s1)
    | (.ok block, s1) =>
      nffs_block_decode_each rest ((out_len + block.nb_data_len) % 2 ^ 32) s1

/-- The test of `nffs_block_walk` by running the decoding of the blocks. -/
def nffs_block_walk_check (s : nffs_state) (cur : Option Nat) : List Nat → Bool
  | [] => decide (cur = none)
  | b :: rest =>
    decide (cur = some b) &&
      match nffs_block_from_hash_entry s b with
      | (.ok block, s1) => nffs_block_walk_check s1 block.nb_prev rest
      | _ => false

/-! ## Nested use of a mutex -/

/-- The state in which the mutex `mu` is held by the task `T` with the nesting level
`level`, no task waits for it, and its saved priority is that of `T`; all else is as in
`s`. -/
def os_mutex_held (s : os_state) (mu T level : Nat) : os_state :=
  { s with
    mutexes := Function.update s.mutexes mu
      { mu_head := [], mu_prio := (s.tasks T).t_prio, mu_level := level, mu_owner := some T } }

/-- The state in which the mutex `mu` is free and no task waits for it, its saved
priority that of `T`; all else is as in `s`. -/
def os_mutex_freed (s : os_state) (mu T : Nat) : os_state :=
  { s with
    mutexes := Function.update s.mutexes mu
      { mu_head := [], mu_prio := (s.tasks T).t_prio, mu_level := 0, mu_owner := none } }

/-- The statuses of `k` consecutive calls of `os_mutex_pend` for the mutex `mu`, and the
state after the last. -/
def os_mutex_pend_times (env : os_env) (mu timeout : Nat) :
    Nat → os_state → List (Res Unit) × os_state
  | 0, s => ([], s)
  | k + 1, s =>
    ((os_mutex_pend env s (some mu) timeout).1 ::
        (os_mutex_pend_times env mu timeout k (os_mutex_pend env s (some mu) timeout).2).1,
      (os_mutex_pend_times env mu timeout k (os_mutex_pend env s (some mu) timeout).2).2)

/-- The statuses of `k` consecutive calls of `os_mutex_release` for the mutex `mu`, and
the state after the last. -/
def os_mutex_release_times (env : os_env) (mu : Nat) :
    Nat → os_state → List (Res Unit) × os_state
  | 0, s => ([], s)
  | k + 1, s =>
    ((os_mutex_release env s (some mu)).1 ::
        (os_mutex_release_times env mu k (os_mutex_release env s (some mu)).2).1,
      (os_mutex_release_times env mu k (os_mutex_release env s (some mu)).2).2)

/-- The invariant of a mutex: the nesting level is 0 exactly when there is no owner. -/
def os_mutex_level_owner (m : os_mutex) : Prop :=
  m.mu_level = 0 ↔ m.mu_owner = none

instance os_mutex_level_owner_decidable (m : os_mutex) : Decidable (os_mutex_level_owner m) :=
  inferInstanceAs (Decidable (m.mu_level = 0 ↔ m.mu_owner = none))
/-! ## Example states for directory handles -/

/-- The example file system with two free directory handles, at the addresses 300 and
301. -/
def ex_pool_state : nffs_state :=
  { ex_state 4096 with nffs_dir_pool := [300, 301] }

/-- A path lookup that finds nothing: it reports `NFFS_ENOENT` and leaves the state as it
is. -/
def ex_path_find_none : nffs_state → List Nat → Res Nat × nffs_state :=
  fun s _ => (.err NFFS_ENOENT, s)

/-! ## An example table of sectors -/

/-- A driver that always succeeds and reads erased cells; the header of a sector has 16
bytes of magic followed by 8 bytes, and the functions that are not embedded do
nothing. -/
def ex_ffs_env : ffs_env :=
  { flash_read := fun _ _ len => (0, List.replicate len 0xff)
    flash_write := fun _ _ _ _ => 0
    flash_erase_sector := fun _ _ => 0
    ffs_disk_sector := List.replicate 16 0x5a ++ List.replicate 8 0
    ffs_disk_sector_magic_sz := 16
    ffs_free_all := fun s => s
    ffs_new_file := fun s _ _ _ _ => (.ok (some 1), s) }

/-- Three sectors of 4096, 8192 and 8192 bytes one behind the other; the cursor of the
first is at 16, and no call of the driver has been made. -/
def ex_ffs_state : ffs_state :=
  { ffs_sectors :=
      [ { fsi_offset := 0, fsi_length := 4096, fsi_cur := 16 },
        { fsi_offset := 4096, fsi_length := 8192, fsi_cur := 16 },
        { fsi_offset := 12288, fsi_length := 8192, fsi_cur := 16 } ]
    ffs_scratch_sector_id := 0
    ffs_next_id := 0
    ffs_root_dir := none
    flash_ops := [] }

/-! ## An example cache -/

/-- A cache for the file with two blocks (`ex_blocks_state`): the cached inode of the
file is at the address 500, with the file size 3 and the two cached blocks 600 (the
block entry 200, file offset 0) and 601 (the block entry 201, file offset 2); a seek
gives the cached block that holds the offset, and the data of a block is read from the
flash behind the header of its record. -/
def ex_cache_env : nffs_cache_env :=
  { nffs_cache_inode_ensure := fun s _ =>
      (.ok 500,
        { s with
          cache_inodes := fun _ =>
            { nci_inode :=
                { ni_inode_entry := 101, ni_seq := 0, ni_parent := some 100,
                  ni_filename_len := 1, ni_filename := [97] }
              nci_block_list := [600, 601]
              nci_file_size := 3 }
          cache_blocks := fun a =>
            if a = 600 then
              { ncb_block :=
                  { nb_hash_entry := 200, nb_seq := 0, nb_inode_entry := some 101,
                    nb_prev := none, nb_data_len := 2 }
                ncb_file_offset := 0 }
            else
              { ncb_block :=
                  { nb_hash_entry := 201, nb_seq := 0, nb_inode_entry := some 101,
                    nb_prev := some 200, nb_data_len := 1 }
                ncb_file_offset := 2 } })
    nffs_cache_seek := fun s _ file_off => (.ok (if file_off < 2 then 600 else 601), s)
    nffs_block_read_data := fun s block offset length =>
      nffs_flash_read s
        (nffs_flash_loc_expand (s.inodes block.nb_hash_entry).nie_hash_entry.nhe_flash_loc).1
        ((nffs_flash_loc_expand
            (s.inodes block.nb_hash_entry).nie_hash_entry.nhe_flash_loc).2
          + NFFS_DISK_BLOCK_SZ + offset)
        length }

/-! ## An example kernel -/

/-- A kernel whose nesting level has 16 bits and whose context switches come back with
the state as it was. -/
def ex_os_env : os_env :=
  { mu_level_bits := 16
    os_arch_ctx_sw := fun _ s => s
    os_arch_ctx_sw_isr := fun _ s => s }

/-- A started kernel with the ready tasks 1 (priority 5, running) and 2 (priority 7), and
mutexes whose memory holds leftovers. -/
def ex_os_state : os_state :=
  { g_os_started := 1
    g_current_task := some 1
    g_os_run_list := [1, 2]
    g_os_sleep_list := []
    g_os_time := 0
    tasks := fun t =>
      { t_prio := if t = 1 then 5 else 7, t_state := OS_TASK_READY, t_flags := 0,
        t_next_wakeup := 0, t_mutex := none }
    mutexes := fun _ => { mu_head := [3], mu_prio := 9, mu_level := 7, mu_owner := some 2 } }
/-! ## A second file with the name of a child of the root -/

/-- The example file system with a seventh record behind the others in area 0, at offset
125: the file with the id 0x10000005, the parent 0 and the name "c", which the file at
the entry 102 has as well.  Its entry 107 is linked in the hash table and is in no child
list. -/
def ex_dup_state : nffs_state :=
  { ex_state 4096 with
    inodes := fun a => if a = 107 then ex_entry 0x10000005 125 [] else ex_inodes a
    nffs_hash :=
      nffs_hash_insert
        (fun a => (if a = 107 then ex_entry 0x10000005 125 [] else ex_inodes a).nie_hash_entry)
        ex_hash 107
    nffs_areas :=
      [ { na_offset := 0, na_length := 4096, na_cur := 146, na_id := 0, na_gc_seq := 0 },
        { na_offset := 4096, na_length := 4096, na_cur := 24, na_id := 0xff,
          na_gc_seq := 0 } ]
    flash := fun a =>
      (ex_flash_bytes ++ (ex_header 0x10000005 0 0 1).bytes ++ [99]).getD a 0xff }

/-! ## An example advertising state -/

/-- The smallest intervals of the Bluetooth specification: 32 units for the connectable
types, 160 units for the others. -/
def ex_ll_env : ll_env :=
  { BLE_LL_ADV_ITVL_MIN := 32, BLE_LL_ADV_ITVL_NONCONN_MIN := 160 }

/-- An advertising state machine that is not enabled, with leftovers in its
parameters. -/
def ex_ll_adv_sm : ll_adv_sm :=
  { enabled := 0, adv_type := 9, adv_len := 0, adv_chanmask := 9, adv_filter_policy := 9,
    own_addr_type := 9, peer_addr_type := 9, adv_chan := 37, scan_rsp_len := 0,
    adv_pdu_len := 0, adv_itvl_min := 9, adv_itvl_max := 9, adv_itvl_usecs := 0,
    adv_event_start_time := 0, adv_pdu_start_time := 0, initiator_addr := [0, 0, 0, 0, 0, 0],
    adv_data := [], scan_rsp_data := [], adv_pdu := none, scan_rsp_pdu := none }

/-- A Set Advertising Parameters command: interval 32 to 64 units, type `ADV_IND`,
public addresses, peer address 1:2:3:4:5:6, all three channels, filter policy 1. -/
def ex_ll_adv_cmd : List Nat := [32, 0, 64, 0, 0, 0, 0, 1, 2, 3, 4, 5, 6, 7, 1]

/-! ## A directory with 255 references -/

/-- The example file system with two free directory handles in which the root directory
holds 255 references, the largest value of the 8-bit field `nie_refcnt`. -/
def ex_full_refcnt_state : nffs_state :=
  { ex_pool_state with
    inodes := Function.update ex_inodes 100 { ex_inodes 100 with nie_refcnt := 255 } }

/-- A path lookup that finds the root directory, the entry at address 100, and leaves the
state as it is. -/
def ex_path_find_root : nffs_state → List Nat → Res Nat × nffs_state :=
  fun s _ => (.ok 100, s)

/-! ## A flash device that stores what is written -/

/-- The cells of the example device after the calls `ops` of the driver: at the start the
cell at an address `a` below 4096 holds `a % 251` and every other cell is erased; a write
stores its bytes, and a read leaves the cells as they are. -/
def ex_flash_image (ops : List flash_op) : Nat → Nat :=
  ops.foldl
    (fun m op =>
      match op with
      | flash_op.flash_write data addr len =>
        fun a => if addr ≤ a ∧ a < addr + len then data.getD (a - addr) 0 % 256 else m a
      | _ => m)
    (fun a => if a < 4096 then a % 251 else 0xff)

/-- A driver that always succeeds and reads the cells of `ex_flash_image`; the rest is as
in `ex_ffs_env`. -/
def ex_copy_env : ffs_env :=
  { ex_ffs_env with
    flash_read := fun ops addr len => (0, mem_read (ex_flash_image ops) addr len) }

/-- A driver whose reads fail with the status 5. -/
def ex_fail_env : ffs_env :=
  { ex_ffs_env with flash_read := fun _ _ _ => (5, []) }

/-! ## A child with 255 references -/

/-- The example file system with the directory handle at address 7 on the root
(`ex_dir_state`) in which the child "c" (entry 102) holds 255 references, the largest
value of the 8-bit field `nie_refcnt`. -/
def ex_dir_full_state : nffs_state :=
  { ex_dir_state with
    inodes := Function.update ex_dir_state.inodes 102
      { ex_dir_state.inodes 102 with nie_refcnt := 255 } }

/-! ## A file of 2^32 - 1 bytes -/

/-- The heap of a tree in which the root (entry 100) holds the directory "d" (entry 104,
id 1), which holds the file with the two blocks 200 and 201 (entry 101). -/
def ex_leak_inodes : Nat → nffs_inode_entry := fun a =>
  if a = 100 then ex_entry 0 0 [104]
  else if a = 104 then ex_entry 1 92 [101]
  else if a = 101 then { ex_entry 0x10000001 20 [] with nie_last_block_entry := some 201 }
  else if a = 200 then ex_entry 0x80000000 41 []
  else if a = 201 then ex_entry 0x80000001 67 []
  else ex_entry NFFS_ID_NONE 0 []

/-- The state of that tree before its entries are inserted in the index; the flash
driver fails to read the record of the block 201, which is at offset 67. -/
def ex_leak_start : nffs_state :=
  { ex_blocks_state with
    inodes := ex_leak_inodes
    nffs_hash := nffs_hash_init
    flash_read_fails := fun a _ => decide (a = 67) }

/-- The state of that tree with its five entries inserted in the index. -/
def ex_leak_state : nffs_state :=
  { ex_leak_start with
    nffs_hash :=
      [100, 104, 101, 200, 201].foldl
        (fun t e => nffs_hash_insert ex_leak_start.hash_mem t e) ex_leak_start.nffs_hash }

/-- The inode of the directory "d" of that tree. -/
def ex_leak_dir : nffs_inode :=
  { ni_inode_entry := 104, ni_seq := 0, ni_parent := some 100, ni_filename_len := 1,
    ni_filename := [100] }

/-! ## Lemmas on the hash table -/

theorem nffs_hash_find_loop_miss (mem : Nat → nffs_hash_entry) (id : Nat) :
    ∀ (l visited : List Nat), (∀ x ∈ l, (mem x).nhe_id ≠ id) →
      nffs_hash_find_loop mem id visited l = none := by
  intro l
  induction l with
  | nil => intro visited _; rfl
  | cons a l ih =>
    intro visited h
    have ha : (mem a).nhe_id ≠ id := h a (List.mem_cons_self a l)
    simp only [nffs_hash_find_loop, ha, if_false]
    exact ih _ (fun x hx => h x (List.mem_cons_of_mem a hx))

theorem nffs_hash_find_loop_hit (mem : Nat → nffs_hash_entry) (id : Nat) (e : Nat)
    (post : List Nat) (he : (mem e).nhe_id = id) :
    ∀ (pre visited : List Nat), (∀ x ∈ pre, (mem x).nhe_id ≠ id) →
      nffs_hash_find_loop mem id visited (pre ++ e :: post)
        = some (e, e :: (visited ++ pre ++ post)) := by
  intro pre
  induction pre with
  | nil =>
    intro visited _
    by_cases hv : visited = []
    · simp [nffs_hash_find_loop, he, hv]
    · simp [nffs_hash_find_loop, he, hv, SLIST_INSERT_HEAD]
  | cons a pre ih =>
    intro visited h
    have ha : (mem a).nhe_id ≠ id := h a (List.mem_cons_self a pre)
    rw [List.cons_append, nffs_hash_find_loop, if_neg ha,
      ih (visited ++ [a]) (fun x hx => h x (List.mem_cons_of_mem a hx))]
    simp

/-- A chain either holds no entry with the id or splits at the first one. -/
theorem chain_first_hit (mem : Nat → nffs_hash_entry) (id : Nat) :
    ∀ l : List Nat, (∀ x ∈ l, (mem x).nhe_id ≠ id) ∨
      ∃ pre e post, l = pre ++ e :: post ∧ (mem e).nhe_id = id ∧
        ∀ x ∈ pre, (mem x).nhe_id ≠ id := by
  intro l
  induction l with
  | nil => left; intro x hx; cases hx
  | cons a l ih =>
    by_cases ha : (mem a).nhe_id = id
    · right; exact ⟨[], a, l, rfl, ha, fun x hx => by cases hx⟩
    · rcases ih with h | ⟨pre, e, post, hl, he, hpre⟩
      · left
        intro x hx
        rcases List.mem_cons.mp hx with rfl | hx
        · exact ha
        · exact h x hx
      · right
        refine ⟨a :: pre, e, post, by simp [hl], he, ?_⟩
        intro x hx
        rcases List.mem_cons.mp hx with rfl | hx
        · exact ha
        · exact hpre x hx

theorem SLIST_REMOVE_eq_erase :
    ∀ (l : List Nat) (e : Nat), e ∈ l → SLIST_REMOVE l e = some (l.erase e) := by
  intro l
  induction l with
  | nil => intro e h; cases h
  | cons a l ih =>
    intro e h
    by_cases hae : a = e
    · simp [SLIST_REMOVE, hae]
    · have hl : e ∈ l := by
        rcases List.mem_cons.mp h with rfl | h
        · exact absurd rfl hae
        · exact h
      have hbeq : (a == e) = false := by simpa using hae
      simp [SLIST_REMOVE, hae, ih e hl, List.erase_cons, hbeq]

theorem SLIST_REMOVE_some_mem :
    ∀ (l l' : List Nat) (e : Nat), SLIST_REMOVE l e = some l' → e ∈ l := by
  intro l
  induction l with
  | nil => intro l' e h; simp [SLIST_REMOVE] at h
  | cons a l ih =>
    intro l' e h
    by_cases hae : a = e
    · simp [hae]
    · simp only [SLIST_REMOVE, hae, if_false] at h
      cases hr : SLIST_REMOVE l e with
      | none => simp [hr] at h
      | some r => exact List.mem_cons_of_mem a (ih r e hr)

theorem nffs_hash_find_fst_snd (mem : Nat → nffs_hash_entry) (tbl : nffs_hash_table)
    (id : Nat) :
    ((∀ x ∈ tbl (nffs_hash_fn id), (mem x).nhe_id ≠ id) ∧
        nffs_hash_find mem tbl id = (none, tbl)) ∨
    (∃ pre e post, tbl (nffs_hash_fn id) = pre ++ e :: post ∧ (mem e).nhe_id = id ∧
        (∀ x ∈ pre, (mem x).nhe_id ≠ id) ∧
        nffs_hash_find mem tbl id
          = (some e, Function.update tbl (nffs_hash_fn id) (e :: (pre ++ post)))) := by
  rcases chain_first_hit mem id (tbl (nffs_hash_fn id)) with h | ⟨pre, e, post, hl, he, hpre⟩
  · left
    refine ⟨h, ?_⟩
    simp [nffs_hash_find, nffs_hash_find_loop_miss mem id _ [] h]
  · right
    refine ⟨pre, e, post, hl, he, hpre, ?_⟩
    simp [nffs_hash_find, hl, nffs_hash_find_loop_hit mem id e post he pre [] hpre]

theorem nffs_hash_inv_of_reachable (mem : Nat → nffs_hash_entry) (tbl : nffs_hash_table)
    (h : nffs_hash_reachable mem tbl) : nffs_hash_inv mem tbl := by
  induction h with
  | init mem => exact ⟨fun i e he => (by cases he), fun i => List.nodup_nil⟩
  | insert mem tbl entry _ hfresh ih =>
    obtain ⟨hb, hn⟩ := ih
    constructor
    · intro i e he
      by_cases hi : i = nffs_hash_fn (mem entry).nhe_id
      · subst hi
        simp only [nffs_hash_insert, Function.update_same, SLIST_INSERT_HEAD] at he
        rcases List.mem_cons.mp he with rfl | he
        · rfl
        · exact hb _ e he
      · simp only [nffs_hash_insert, Function.update_noteq hi] at he
        exact hb i e he
    · intro i
      by_cases hi : i = nffs_hash_fn (mem entry).nhe_id
      · subst hi
        simp only [nffs_hash_insert, Function.update_same, SLIST_INSERT_HEAD]
        exact List.nodup_cons.mpr ⟨hfresh _, hn _⟩
      · simp only [nffs_hash_insert, Function.update_noteq hi]
        exact hn i
  | remove mem tbl tbl' entry _ hrem ih =>
    obtain ⟨hb, hn⟩ := ih
    simp only [nffs_hash_remove] at hrem
    cases hr : SLIST_REMOVE (tbl (nffs_hash_fn (mem entry).nhe_id)) entry with
    | none => simp [hr] at hrem
    | some l =>
      simp only [hr, Option.some.injEq] at hrem
      have hmem := SLIST_REMOVE_some_mem _ _ _ hr
      have hl : l = (tbl (nffs_hash_fn (mem entry).nhe_id)).erase entry := by
        have := SLIST_REMOVE_eq_erase _ _ hmem
        rw [hr] at this
        exact Option.some.inj this
      subst hrem
      constructor
      · intro i e he
        by_cases hi : i = nffs_hash_fn (mem entry).nhe_id
        · subst hi
          simp only [Function.update_same] at he
          rw [hl] at he
          exact hb _ e (List.mem_of_mem_erase he)
        · simp only [Function.update_noteq hi] at he
          exact hb i e he
      · intro i
        by_cases hi : i = nffs_hash_fn (mem entry).nhe_id
        · subst hi
          simp only [Function.update_same]
          rw [hl]
          exact (hn _).erase entry
        · simp only [Function.update_noteq hi]
          exact hn i
  | find mem tbl id _ ih =>
    obtain ⟨hb, hn⟩ := ih
    rcases nffs_hash_find_fst_snd mem tbl id with ⟨_, hf⟩ | ⟨pre, e, post, hl, he, _, hf⟩
    · rw [hf]; exact ⟨hb, hn⟩
    · rw [hf]
      constructor
      · intro i x hx
        by_cases hi : i = nffs_hash_fn id
        · subst hi
          simp only [Function.update_same] at hx
          apply hb
          rw [hl]
          simp only [List.mem_cons, List.mem_append] at hx ⊢
          tauto
        · simp only [Function.update_noteq hi] at hx
          exact hb i x hx
      · intro i
        by_cases hi : i = nffs_hash_fn id
        · subst hi
          simp only [Function.update_same]
          have := hn (nffs_hash_fn id)
          rw [hl] at this
          have hp : (pre ++ e :: post).Perm (e :: (pre ++ post)) := List.perm_middle
          exact hp.nodup_iff.mp this
        · simp only [Function.update_noteq hi]
          exact hn i
  | heap mem mem' tbl _ hsame ih =>
    obtain ⟨hb, hn⟩ := ih
    exact ⟨fun i e he => by rw [hsame i e he]; exact hb i e he, hn⟩

/-! ## Lemmas on `strncmp` and the order on filenames -/

theorem strncmp_take_eq : ∀ (n m : Nat) (a b : List Nat), n ≤ m →
    strncmp (a.take m) (b.take m) n = strncmp a b n := by
  intro n
  induction n with
  | zero => intro m a b _; simp [strncmp]
  | succ n ih =>
    intro m a b hnm
    obtain ⟨m', rfl⟩ : ∃ m', m = m' + 1 := ⟨m - 1, by omega⟩
    have hn : n ≤ m' := by omega
    cases a with
    | nil =>
      cases b with
      | nil => simp [strncmp]
      | cons y b =>
        simp only [strncmp, List.take_nil, List.take_succ_cons, List.headD_nil,
          List.headD_cons, List.tail_nil, List.tail_cons]
        have := ih m' [] b hn
        simp only [List.take_nil] at this
        rw [this]
    | cons x a =>
      cases b with
      | nil =>
        simp only [strncmp, List.take_nil, List.take_succ_cons, List.headD_nil,
          List.headD_cons, List.tail_nil, List.tail_cons]
        have := ih m' a [] hn
        simp only [List.take_nil] at this
        rw [this]
      | cons y b =>
        simp only [strncmp, List.take_succ_cons, List.headD_cons, List.tail_cons]
        rw [ih m' a b hn]

theorem strncmp_spec : ∀ (n : Nat) (a b : List Nat), n ≤ a.length → n ≤ b.length →
    0 ∉ a →
    (strncmp a b n = 0 ∧ a.take n = b.take n) ∨
    (strncmp a b n ≠ 0 ∧ int_sign (strncmp a b n) = filename_lex a b) := by
  intro n
  induction n with
  | zero => intro a b _ _ _; left; simp [strncmp]
  | succ n ih =>
    intro a b ha hb hz
    cases a with
    | nil => simp at ha
    | cons x a =>
      cases b with
      | nil => simp at hb
      | cons y b =>
        have hx : x ≠ 0 := fun h => hz (h ▸ List.mem_cons_self x a)
        have hza : 0 ∉ a := fun h => hz (List.mem_cons_of_mem x h)
        simp only [List.length_cons, Nat.add_le_add_iff_right] at ha hb
        simp only [strncmp, List.headD_cons, List.tail_cons, List.take_succ_cons]
        by_cases hxy : x = y
        · subst hxy
          simp only [ne_eq, not_true, if_false, hx, filename_lex, lt_irrefl]
          rcases ih a b ha hb hza with ⟨h0, ht⟩ | ⟨h0, hs⟩
          · left; exact ⟨h0, by rw [ht]⟩
          · right; exact ⟨h0, hs⟩
        · right
          simp only [ne_eq, hxy, not_false_eq_true, if_true, filename_lex]
          constructor
          · omega
          · unfold int_sign
            rcases Nat.lt_or_gt_of_ne hxy with hlt | hgt
            · have : (x : Int) - (y : Int) < 0 := by omega
              simp [this, hlt]
            · have h1 : ¬ ((x : Int) - (y : Int) < 0) := by omega
              have h2 : ¬ ((x : Int) - (y : Int) = 0) := by omega
              have h3 : ¬ x < y := by omega
              simp [h1, h2, h3, hgt]

theorem filename_lex_drop : ∀ (k : Nat) (a b : List Nat), a.take k = b.take k →
    k ≤ a.length → k ≤ b.length →
    filename_lex a b = filename_lex (a.drop k) (b.drop k) := by
  intro k
  induction k with
  | zero => intro a b _ _ _; simp
  | succ k ih =>
    intro a b h ha hb
    cases a with
    | nil => simp at ha
    | cons x a =>
      cases b with
      | nil => simp at hb
      | cons y b =>
        simp only [List.take_succ_cons, List.cons.injEq] at h
        obtain ⟨rfl, ht⟩ := h
        simp only [List.length_cons, Nat.add_le_add_iff_right] at ha hb
        simp only [filename_lex, lt_irrefl, if_false, List.drop_succ_cons]
        exact ih a b ht ha hb

theorem filename_lex_nil_left (b : List Nat) :
    filename_lex [] b = int_sign ((0 : Int) - (b.length : Int)) := by
  cases b with
  | nil => simp [filename_lex, int_sign]
  | cons y b =>
    have : ((0 : Int) - ((y :: b).length : Int)) < 0 := by simp; omega
    simp only [filename_lex, int_sign, this, if_true]

theorem filename_lex_nil_right (a : List Nat) :
    filename_lex a [] = int_sign ((a.length : Int) - 0) := by
  cases a with
  | nil => simp [filename_lex, int_sign]
  | cons x a =>
    have h1 : ¬ (((x :: a).length : Int) - 0 < 0) := by simp; omega
    have h2 : ¬ (((x :: a).length : Int) - 0 = 0) := by simp; omega
    simp only [filename_lex, int_sign, h1, h2, if_false]

/-- With a common prefix as long as the shorter of the two names, the lengths decide. -/
theorem filename_lex_of_common_start (a b : List Nat)
    (h : a.take (min a.length b.length) = b.take (min a.length b.length)) :
    filename_lex a b = int_sign ((a.length : Int) - (b.length : Int)) := by
  rw [filename_lex_drop (min a.length b.length) a b h (Nat.min_le_left _ _)
    (Nat.min_le_right _ _)]
  rcases Nat.le_total a.length b.length with hab | hab
  · have : a.drop (min a.length b.length) = [] := by
      rw [Nat.min_eq_left hab]; simp
    rw [this, filename_lex_nil_left]
    congr 1
    simp [Nat.min_eq_left hab]
    omega
  · have : b.drop (min a.length b.length) = [] := by
      rw [Nat.min_eq_right hab]; simp
    rw [this, filename_lex_nil_right]
    congr 1
    simp [Nat.min_eq_right hab]
    omega
/-! ## Lemmas on memory and flash reads -/

theorem mem_read_length (m : Nat → Nat) (a n : Nat) : (mem_read m a n).length = n := by
  simp [mem_read]

theorem mem_read_lt (m : Nat → Nat) (a n : Nat) : ∀ x ∈ mem_read m a n, x < 256 := by
  intro x hx
  simp only [mem_read, List.mem_map, List.mem_range] at hx
  obtain ⟨i, _, rfl⟩ := hx
  exact Nat.mod_lt _ (by decide)

theorem mem_read_ext (m m' : Nat → Nat) (a n : Nat)
    (h : ∀ i, i < n → m' (a + i) = m (a + i)) : mem_read m' a n = mem_read m a n := by
  simp only [mem_read]
  apply List.map_congr_left
  intro i hi
  rw [h i (List.mem_range.mp hi)]

theorem mem_read_write_disjoint (m : Nat → Nat) (a : Nat) (d : List Nat) (b n : Nat)
    (h : b + n ≤ a ∨ a + d.length ≤ b) :
    mem_read (mem_write m a d) b n = mem_read m b n := by
  apply mem_read_ext
  intro i hi
  simp only [mem_write]
  rw [if_neg]
  omega

theorem mem_read_write_same (m : Nat → Nat) (a : Nat) (d : List Nat) :
    mem_read (mem_write m a d) a d.length = d.map (· % 256) := by
  apply List.ext_getElem
  · simp [mem_read]
  · intro i h1 h2
    simp only [mem_read, List.length_map, List.length_range] at h1
    simp only [mem_read, mem_write, List.getElem_map, List.getElem_range]
    have hc : a ≤ a + i ∧ a + i < a + d.length := by omega
    rw [if_pos hc]
    have : a + i - a = i := by omega
    rw [this, List.getD_eq_getElem _ _ h1]
    simp

theorem map_mod_of_lt (d : List Nat) (h : ∀ x ∈ d, x < 256) : d.map (· % 256) = d := by
  induction d with
  | nil => rfl
  | cons x d ih =>
    simp only [List.map_cons, List.cons.injEq]
    exact ⟨Nat.mod_eq_of_lt (h x (List.mem_cons_self x d)),
      ih (fun y hy => h y (List.mem_cons_of_mem x hy))⟩

theorem mem_read_drop_take (m : Nat → Nat) (a n k l : Nat) (h : k + l ≤ n) :
    ((mem_read m a n).drop k).take l = mem_read m (a + k) l := by
  apply List.ext_getElem
  · simp [mem_read]; omega
  · intro i h1 h2
    simp only [mem_read, List.length_map, List.length_range] at h2
    simp only [mem_read, List.getElem_take, List.getElem_drop, List.getElem_map,
      List.getElem_range]
    congr 2
    omega

theorem nffs_flash_read_ok (s : nffs_state) (i o l : Nat) (bs : List Nat)
    (h : nffs_flash_read s i o l = .ok bs) :
    ∃ area, s.nffs_areas[i]? = some area ∧ o + l ≤ area.na_length ∧
      s.flash_read_fails (area.na_offset + o) l = false ∧
      bs = mem_read s.flash (area.na_offset + o) l := by
  unfold nffs_flash_read at h
  cases ha : s.nffs_areas[i]? with
  | none => simp [ha] at h
  | some area =>
    simp only [ha] at h
    by_cases h1 : o + l > area.na_length
    · simp [h1] at h
    · simp only [h1, if_false] at h
      cases h2 : s.flash_read_fails (area.na_offset + o) l with
      | true => simp [h2] at h
      | false =>
        simp only [h2] at h
        refine ⟨area, rfl, by omega, h2, ?_⟩
        simpa using h.symm
/-! ## Lemmas on the filename comparison -/

theorem same_flash_refl (s : nffs_state) : same_flash s s := ⟨rfl, rfl, rfl, rfl⟩

theorem same_flash_trans {s s1 s2 : nffs_state} (h1 : same_flash s s1)
    (h2 : same_flash s1 s2) : same_flash s s2 :=
  ⟨h2.1.trans h1.1, h2.2.1.trans h1.2.1, h2.2.2.1.trans h1.2.2.1, h2.2.2.2.trans h1.2.2.2⟩

theorem same_flash_buf (s : nffs_state) (b : Nat → Nat) :
    same_flash s { s with nffs_flash_buf := b } := ⟨rfl, rfl, rfl, rfl⟩

theorem same_flash_hash (s : nffs_state) (t : nffs_hash_table) :
    same_flash s { s with nffs_hash := t } := ⟨rfl, rfl, rfl, rfl⟩

theorem nffs_flash_read_congr {s st : nffs_state} (h : same_flash s st) (i o l : Nat) :
    nffs_flash_read st i o l = nffs_flash_read s i o l := by
  obtain ⟨_, h2, h3, h4⟩ := h
  simp only [nffs_flash_read, h2, h3, h4]

theorem nffs_inode_read_filename_chunk_congr {s st : nffs_state} (h : same_flash s st)
    (inode : nffs_inode) (off len : Nat) :
    nffs_inode_read_filename_chunk st inode off len
      = nffs_inode_read_filename_chunk s inode off len := by
  simp only [nffs_inode_read_filename_chunk, nffs_flash_read_congr h, h.1]

/-- When the whole filename can be read and no read fails, every chunk can be read and
is the matching part of the filename. -/
theorem nffs_inode_read_filename_chunk_of_name (s : nffs_state) (inode : nffs_inode)
    (n : List Nat) (hio : ∀ a l, s.flash_read_fails a l = false)
    (hl : inode.ni_filename_len ≤ 255)
    (h : nffs_inode_read_filename_chunk s inode 0 inode.ni_filename_len = .ok n) :
    n.length = inode.ni_filename_len ∧ (∀ x ∈ n, x < 256) ∧
    ∀ off len, off + len ≤ inode.ni_filename_len →
      nffs_inode_read_filename_chunk s inode off len = .ok ((n.drop off).take len) := by
  simp only [nffs_inode_read_filename_chunk, Nat.zero_mod, Nat.zero_add, gt_iff_lt,
    lt_irrefl, if_false, Nat.add_zero] at h
  obtain ⟨area, ha, hr, _, hn⟩ := nffs_flash_read_ok _ _ _ _ _ h
  refine ⟨by rw [hn, mem_read_length], by rw [hn]; exact mem_read_lt _ _ _, ?_⟩
  intro off len hol
  have ho : off % 256 = off := Nat.mod_eq_of_lt (by omega)
  simp only [nffs_inode_read_filename_chunk, ho]
  rw [if_neg (by omega)]
  simp only [nffs_flash_read, ha, hio]
  rw [if_neg (by omega)]
  simp only [Bool.false_eq_true, if_false]
  rw [hn, mem_read_drop_take _ _ _ _ _ hol]
  congr 2
  omega

theorem take_add_eq_of (a b : List Nat) (k l : Nat) (h1 : a.take k = b.take k)
    (h2 : (a.drop k).take l = (b.drop k).take l) : a.take (k + l) = b.take (k + l) := by
  rw [List.take_add, List.take_add, h1, h2]

theorem not_mem_drop_of_not_mem (a : List Nat) (k : Nat) (h : 0 ∉ a) : 0 ∉ a.drop k :=
  fun hx => h (List.mem_of_mem_drop hx)

theorem nffs_inode_filename_cmp_flash_loop_spec (s : nffs_state) (inode1 inode2 : nffs_inode)
    (n1 n2 : List Nat) (short_len : Nat)
    (hr1 : ∀ off len, off + len ≤ n1.length →
      nffs_inode_read_filename_chunk s inode1 off len = .ok ((n1.drop off).take len))
    (hr2 : ∀ off len, off + len ≤ n2.length →
      nffs_inode_read_filename_chunk s inode2 off len = .ok ((n2.drop off).take len))
    (hz1 : 0 ∉ n1) (hb1 : ∀ x ∈ n1, x < 256) (hb2 : ∀ x ∈ n2, x < 256)
    (hs1 : short_len ≤ n1.length) (hs2 : short_len ≤ n2.length) :
    ∀ (fuel off : Nat) (result : Int) (st : nffs_state),
      short_len ≤ off + fuel → off ≤ short_len → same_flash s st →
      ((result = 0 ∧ n1.take off = n2.take off) ∨
        (result ≠ 0 ∧ int_sign result = filename_lex n1 n2)) →
      ∃ r st', nffs_inode_filename_cmp_flash_loop inode1 inode2 short_len fuel off result st
          = (.ok r, st') ∧ same_flash s st' ∧
        ((r = 0 ∧ n1.take short_len = n2.take short_len) ∨
          (r ≠ 0 ∧ int_sign r = filename_lex n1 n2)) := by
  intro fuel
  induction fuel with
  | zero =>
    intro off result st hfuel hoff hst hinv
    have : off = short_len := by omega
    subst this
    refine ⟨result, st, ?_, hst, hinv⟩
    simp [nffs_inode_filename_cmp_flash_loop]
  | succ fuel ih =>
    intro off result st hfuel hoff hst hinv
    by_cases hcond : result = 0 ∧ off < short_len
    · obtain ⟨hres, hlt⟩ := hcond
      have hpre : n1.take off = n2.take off := by
        rcases hinv with ⟨_, h⟩ | ⟨h, _⟩
        · exact h
        · exact absurd hres h
      -- the chunk of this iteration
      obtain ⟨chunk_len, hchunk, hcpos, hcle, hc128⟩ :
          ∃ c, (if short_len - off > NFFS_INODE_FILENAME_BUF_SZ
              then NFFS_INODE_FILENAME_BUF_SZ else short_len - off) = c ∧
            0 < c ∧ off + c ≤ short_len ∧ c ≤ 128 := by
        refine ⟨_, rfl, ?_, ?_, ?_⟩ <;>
          (simp only [NFFS_INODE_FILENAME_BUF_SZ, NFFS_FLASH_BUF_SZ]; split <;> omega)
      obtain ⟨b0, hb0⟩ : ∃ b0, b0 = (n1.drop off).take chunk_len := ⟨_, rfl⟩
      obtain ⟨b1, hb1'⟩ : ∃ b1, b1 = (n2.drop off).take chunk_len := ⟨_, rfl⟩
      have hlen0 : b0.length = chunk_len := by
        rw [hb0]; simp only [List.length_take, List.length_drop]; omega
      have hlen1 : b1.length = chunk_len := by
        rw [hb1']; simp only [List.length_take, List.length_drop]; omega
      have hbb0 : ∀ x ∈ b0, x < 256 :=
        fun x hx => hb1 x (List.mem_of_mem_drop (List.mem_of_mem_take (hb0 ▸ hx)))
      have hbb1 : ∀ x ∈ b1, x < 256 :=
        fun x hx => hb2 x (List.mem_of_mem_drop (List.mem_of_mem_take (hb1' ▸ hx)))
      obtain ⟨buf2, hbuf2⟩ : ∃ buf2, buf2
          = mem_write (mem_write st.nffs_flash_buf 0 b0) NFFS_INODE_FILENAME_BUF_SZ b1 :=
        ⟨_, rfl⟩
      have hrd0 : mem_read buf2 0 chunk_len = b0 := by
        rw [hbuf2, mem_read_write_disjoint _ _ _ _ _
          (Or.inl (by simp only [NFFS_INODE_FILENAME_BUF_SZ, NFFS_FLASH_BUF_SZ]; omega))]
        have := mem_read_write_same st.nffs_flash_buf 0 b0
        rw [hlen0] at this
        rw [this, map_mod_of_lt _ hbb0]
      have hrd1 : mem_read buf2 NFFS_INODE_FILENAME_BUF_SZ chunk_len = b1 := by
        have := mem_read_write_same (mem_write st.nffs_flash_buf 0 b0)
          NFFS_INODE_FILENAME_BUF_SZ b1
        rw [hlen1] at this
        rw [hbuf2, this, map_mod_of_lt _ hbb1]
      have hst1 : same_flash s { st with nffs_flash_buf := mem_write st.nffs_flash_buf 0 b0 } :=
        same_flash_trans hst (same_flash_buf _ _)
      have hst2 : same_flash s { st with nffs_flash_buf := buf2 } :=
        same_flash_trans hst (same_flash_buf _ _)
      have hstep : nffs_inode_filename_cmp_flash_loop inode1 inode2 short_len (fuel + 1) off
            result st
          = nffs_inode_filename_cmp_flash_loop inode1 inode2 short_len fuel (off + chunk_len)
              (strncmp (n1.drop off) (n2.drop off) chunk_len)
              { st with nffs_flash_buf := buf2 } := by
        rw [nffs_inode_filename_cmp_flash_loop]
        simp only [hres, hlt, and_self, if_true, hchunk]
        rw [nffs_inode_read_filename_chunk_congr hst, hr1 off chunk_len (by omega), ← hb0]
        simp only []
        rw [nffs_inode_read_filename_chunk_congr hst1, hr2 off chunk_len (by omega), ← hb1']
        simp only [← hbuf2, hrd0, hrd1]
        rw [hb0, hb1', strncmp_take_eq chunk_len chunk_len _ _ (Nat.le_refl _)]
      rw [hstep]
      apply ih (off + chunk_len) _ _ (by omega) hcle hst2
      rcases strncmp_spec chunk_len (n1.drop off) (n2.drop off)
          (by simp only [List.length_drop]; omega) (by simp only [List.length_drop]; omega)
          (not_mem_drop_of_not_mem _ _ hz1) with ⟨h0, heq⟩ | ⟨hne, hsign⟩
      · left
        exact ⟨h0, take_add_eq_of _ _ _ _ hpre heq⟩
      · right
        refine ⟨hne, ?_⟩
        rw [hsign, ← filename_lex_drop off n1 n2 hpre (by omega) (by omega)]
    · refine ⟨result, st, ?_, hst, ?_⟩
      · rw [nffs_inode_filename_cmp_flash_loop, if_neg hcond]
      · rcases hinv with ⟨h0, hpre⟩ | h
        · left
          have : off = short_len := by
            by_contra hne
            exact hcond ⟨h0, by omega⟩
          subst this
          exact ⟨h0, hpre⟩
        · right; exact h

/-- The comparison of two inodes whose whole filenames can be read: it returns 0, the
sign of `*result` is the lexicographic order of the names, and only the static buffer
changes. -/
theorem nffs_inode_filename_cmp_flash_spec (s : nffs_state) (inode1 inode2 : nffs_inode)
    (n1 n2 : List Nat) (hio : ∀ a l, s.flash_read_fails a l = false)
    (hl1 : inode1.ni_filename_len ≤ 255) (hl2 : inode2.ni_filename_len ≤ 255)
    (h1 : nffs_inode_read_filename_chunk s inode1 0 inode1.ni_filename_len = .ok n1)
    (h2 : nffs_inode_read_filename_chunk s inode2 0 inode2.ni_filename_len = .ok n2)
    (hc1 : inode1.ni_filename = n1.take NFFS_SHORT_FILENAME_LEN)
    (hc2 : inode2.ni_filename = n2.take NFFS_SHORT_FILENAME_LEN)
    (hz1 : 0 ∉ n1) :
    ∃ r s', nffs_inode_filename_cmp_flash s inode1 inode2 = (.ok r, s') ∧
      same_flash s s' ∧ int_sign r = filename_lex n1 n2 := by
  obtain ⟨hlen1, hb1, hr1⟩ := nffs_inode_read_filename_chunk_of_name s inode1 n1 hio hl1 h1
  obtain ⟨hlen2, hb2, hr2⟩ := nffs_inode_read_filename_chunk_of_name s inode2 n2 hio hl2 h2
  obtain ⟨short_len, hshort, hsmin⟩ :
      ∃ k, (if inode1.ni_filename_len < inode2.ni_filename_len then inode1.ni_filename_len
        else inode2.ni_filename_len) = k ∧ k = min n1.length n2.length := by
    refine ⟨_, rfl, ?_⟩
    rw [hlen1, hlen2]
    split <;> omega
  obtain ⟨chunk_len, hchunk, hc3, hcs⟩ :
      ∃ c, (if short_len ≤ NFFS_SHORT_FILENAME_LEN then short_len
        else NFFS_SHORT_FILENAME_LEN) = c ∧ c ≤ NFFS_SHORT_FILENAME_LEN ∧ c ≤ short_len := by
    refine ⟨_, rfl, ?_, ?_⟩ <;> (simp only [NFFS_SHORT_FILENAME_LEN]; split <;> omega)
  have hs1 : short_len ≤ n1.length := by omega
  have hs2 : short_len ≤ n2.length := by omega
  have hinit : (strncmp inode1.ni_filename inode2.ni_filename chunk_len = 0 ∧
        n1.take chunk_len = n2.take chunk_len) ∨
      (strncmp inode1.ni_filename inode2.ni_filename chunk_len ≠ 0 ∧
        int_sign (strncmp inode1.ni_filename inode2.ni_filename chunk_len)
          = filename_lex n1 n2) := by
    rw [hc1, hc2, strncmp_take_eq chunk_len _ n1 n2 hc3]
    exact strncmp_spec chunk_len n1 n2 (by omega) (by omega) hz1
  obtain ⟨r, s', hloop, hsf, hfin⟩ :=
    nffs_inode_filename_cmp_flash_loop_spec s inode1 inode2 n1 n2 short_len
      (fun off len h => hr1 off len (by omega)) (fun off len h => hr2 off len (by omega))
      hz1 hb1 hb2 hs1 hs2 short_len chunk_len _ s (by omega) hcs (same_flash_refl s) hinit
  simp only [nffs_inode_filename_cmp_flash, hshort, hchunk, hloop]
  rcases hfin with ⟨h0, hpre⟩ | ⟨hne, hsign⟩
  · refine ⟨_, s', by rw [if_pos h0], hsf, ?_⟩
    rw [hsmin] at hpre
    rw [filename_lex_of_common_start n1 n2 hpre, hlen1, hlen2]
  · exact ⟨r, s', by rw [if_neg hne], hsf, hsign⟩


/-! ## The order on filenames is a total preorder -/

theorem filename_lex_swap : ∀ a b : List Nat, filename_lex b a = (filename_lex a b).swap := by
  intro a
  induction a with
  | nil => intro b; cases b <;> simp [filename_lex, Ordering.swap]
  | cons x a ih =>
    intro b
    cases b with
    | nil => simp [filename_lex, Ordering.swap]
    | cons y b =>
      simp only [filename_lex]
      rcases Nat.lt_trichotomy x y with h | h | h
      · have h' : ¬ y < x := by omega
        simp [h, h', Ordering.swap]
      · subst h
        simp [ih b]
      · have h' : ¬ x < y := by omega
        simp [h, h', Ordering.swap]

theorem filename_lex_refl : ∀ a : List Nat, filename_lex a a = .eq := by
  intro a
  induction a with
  | nil => rfl
  | cons x a ih => simp [filename_lex, ih]

theorem filename_lex_lt_of_lt_of_le : ∀ a b c : List Nat, filename_lex a b = .lt →
    filename_lex b c ≠ .gt → filename_lex a c = .lt := by
  intro a
  induction a with
  | nil =>
    intro b c hab hbc
    cases b with
    | nil => simp [filename_lex] at hab
    | cons y b =>
      cases c with
      | nil => simp [filename_lex] at hbc
      | cons z c => simp [filename_lex]
  | cons x a ih =>
    intro b c hab hbc
    cases b with
    | nil => simp [filename_lex] at hab
    | cons y b =>
      cases c with
      | nil => simp [filename_lex] at hbc
      | cons z c =>
        simp only [filename_lex] at hab hbc ⊢
        rcases Nat.lt_trichotomy x y with h | h | h
        · rcases Nat.lt_trichotomy y z with h2 | h2 | h2
          · have : x < z := by omega
            simp [this]
          · subst h2; simp [h]
          · have h3 : ¬ y < z := by omega
            simp [h3, h2] at hbc
        · subst h
          simp only [lt_irrefl, if_false] at hab
          rcases Nat.lt_trichotomy x z with h2 | h2 | h2
          · simp [h2]
          · subst h2
            simp only [lt_irrefl, if_false] at hbc ⊢
            exact ih b c hab hbc
          · have h3 : ¬ x < z := by omega
            simp [h3, h2] at hbc
        · have h3 : ¬ x < y := by omega
          simp [h3, h] at hab

theorem filename_lex_le_trans : ∀ a b c : List Nat, filename_lex a b ≠ .gt →
    filename_lex b c ≠ .gt → filename_lex a c ≠ .gt := by
  intro a
  induction a with
  | nil => intro b c _ _; cases c <;> simp [filename_lex]
  | cons x a ih =>
    intro b c hab hbc
    cases b with
    | nil => simp [filename_lex] at hab
    | cons y b =>
      cases c with
      | nil => simp [filename_lex] at hbc
      | cons z c =>
        simp only [filename_lex] at hab hbc ⊢
        rcases Nat.lt_trichotomy x y with h | h | h
        · rcases Nat.lt_trichotomy y z with h2 | h2 | h2
          · have : x < z := by omega
            simp [this]
          · subst h2; simp [h]
          · have h3 : ¬ y < z := by omega
            simp [h3, h2] at hbc
        · subst h
          simp only [lt_irrefl, if_false] at hab
          rcases Nat.lt_trichotomy x z with h2 | h2 | h2
          · simp [h2]
          · subst h2
            simp only [lt_irrefl, if_false] at hbc ⊢
            exact ih b c hab hbc
          · have h3 : ¬ x < z := by omega
            simp [h3, h2] at hbc
        · have h3 : ¬ x < y := by omega
          simp [h3, h] at hab

theorem filename_lex_ge_iff (a b : List Nat) :
    filename_lex a b ≠ .lt ↔ filename_lex b a ≠ .gt := by
  rw [filename_lex_swap a b]
  cases filename_lex a b <;> simp [Ordering.swap]

theorem int_sign_lt_iff (r : Int) : int_sign r = .lt ↔ r < 0 := by
  unfold int_sign
  by_cases h : r < 0
  · simp [h]
  · by_cases h0 : r = 0 <;> simp [h, h0]

/-- When the whole filename can be read, a chunk that can be read is the matching part
of the filename. -/
theorem nffs_inode_read_filename_chunk_det (s : nffs_state) (inode : nffs_inode)
    (n : List Nat) (hl : inode.ni_filename_len ≤ 255)
    (h : nffs_inode_read_filename_chunk s inode 0 inode.ni_filename_len = .ok n) :
    n.length = inode.ni_filename_len ∧ (∀ x ∈ n, x < 256) ∧
    ∀ off len bs, off + len ≤ inode.ni_filename_len →
      nffs_inode_read_filename_chunk s inode off len = .ok bs →
      bs = (n.drop off).take len := by
  simp only [nffs_inode_read_filename_chunk, Nat.zero_mod, Nat.zero_add, gt_iff_lt,
    lt_irrefl, if_false, Nat.add_zero] at h
  obtain ⟨area, ha, hr, _, hn⟩ := nffs_flash_read_ok _ _ _ _ _ h
  refine ⟨by rw [hn, mem_read_length], by rw [hn]; exact mem_read_lt _ _ _, ?_⟩
  intro off len bs hol hbs
  have ho : off % 256 = off := Nat.mod_eq_of_lt (by omega)
  simp only [nffs_inode_read_filename_chunk, ho] at hbs
  rw [if_neg (by omega)] at hbs
  obtain ⟨area', ha', _, _, hbs'⟩ := nffs_flash_read_ok _ _ _ _ _ hbs
  rw [ha] at ha'
  cases ha'
  rw [hbs', hn, mem_read_drop_take _ _ _ _ _ hol]
  congr 1
  omega

theorem nffs_inode_filename_cmp_flash_loop_sound (s : nffs_state)
    (inode1 inode2 : nffs_inode) (n1 n2 : List Nat) (short_len : Nat)
    (hd1 : ∀ off len bs, off + len ≤ n1.length →
      nffs_inode_read_filename_chunk s inode1 off len = .ok bs → bs = (n1.drop off).take len)
    (hd2 : ∀ off len bs, off + len ≤ n2.length →
      nffs_inode_read_filename_chunk s inode2 off len = .ok bs → bs = (n2.drop off).take len)
    (hz1 : 0 ∉ n1) (hb1 : ∀ x ∈ n1, x < 256) (hb2 : ∀ x ∈ n2, x < 256)
    (hs1 : short_len ≤ n1.length) (hs2 : short_len ≤ n2.length) :
    ∀ (fuel off : Nat) (result : Int) (st : nffs_state) (res : Res Int) (st' : nffs_state),
      off ≤ short_len → same_flash s st →
      ((result = 0 ∧ n1.take off = n2.take off) ∨
        (result ≠ 0 ∧ int_sign result = filename_lex n1 n2)) →
      nffs_inode_filename_cmp_flash_loop inode1 inode2 short_len fuel off result st
          = (res, st') →
      same_flash s st' ∧
        ∀ r, res = .ok r → ((r = 0 ∧ n1.take short_len = n2.take short_len) ∨
          (r ≠ 0 ∧ int_sign r = filename_lex n1 n2)) := by
  intro fuel
  induction fuel with
  | zero =>
    intro off result st res st' hoff hst hinv hrun
    simp only [nffs_inode_filename_cmp_flash_loop] at hrun
    by_cases hcond : result = 0 ∧ off < short_len
    · rw [if_pos hcond] at hrun
      cases hrun
      exact ⟨hst, fun r hr => by cases hr⟩
    · rw [if_neg hcond] at hrun
      cases hrun
      refine ⟨hst, fun r hr => ?_⟩
      cases hr
      rcases hinv with ⟨h0, hpre⟩ | h
      · left
        have : off = short_len := by
          by_contra hne
          exact hcond ⟨h0, by omega⟩
        subst this
        exact ⟨h0, hpre⟩
      · right; exact h
  | succ fuel ih =>
    intro off result st res st' hoff hst hinv hrun
    by_cases hcond : result = 0 ∧ off < short_len
    · obtain ⟨hres, hlt⟩ := hcond
      have hpre : n1.take off = n2.take off := by
        rcases hinv with ⟨_, h⟩ | ⟨h, _⟩
        · exact h
        · exact absurd hres h
      obtain ⟨chunk_len, hchunk, hcpos, hcle, hc128⟩ :
          ∃ c, (if short_len - off > NFFS_INODE_FILENAME_BUF_SZ
              then NFFS_INODE_FILENAME_BUF_SZ else short_len - off) = c ∧
            0 < c ∧ off + c ≤ short_len ∧ c ≤ 128 := by
        refine ⟨_, rfl, ?_, ?_, ?_⟩ <;>
          (simp only [NFFS_INODE_FILENAME_BUF_SZ, NFFS_FLASH_BUF_SZ]; split <;> omega)
      rw [nffs_inode_filename_cmp_flash_loop] at hrun
      simp only [hres, hlt, and_self, if_true, hchunk] at hrun
      rw [nffs_inode_read_filename_chunk_congr hst] at hrun
      cases hc0 : nffs_inode_read_filename_chunk s inode1 off chunk_len with
      | abort => rw [hc0] at hrun; cases hrun; exact ⟨hst, fun r hr => by cases hr⟩
      | err rc => rw [hc0] at hrun; cases hrun; exact ⟨hst, fun r hr => by cases hr⟩
      | ok b0 =>
        rw [hc0] at hrun
        simp only [] at hrun
        have hb0 := hd1 off chunk_len b0 (by omega) hc0
        have hst1 : same_flash s
            { st with nffs_flash_buf := mem_write st.nffs_flash_buf 0 b0 } :=
          same_flash_trans hst (same_flash_buf _ _)
        rw [nffs_inode_read_filename_chunk_congr hst1] at hrun
        cases hc1 : nffs_inode_read_filename_chunk s inode2 off chunk_len with
        | abort => rw [hc1] at hrun; cases hrun; exact ⟨hst1, fun r hr => by cases hr⟩
        | err rc => rw [hc1] at hrun; cases hrun; exact ⟨hst1, fun r hr => by cases hr⟩
        | ok b1 =>
          rw [hc1] at hrun
          simp only [] at hrun
          have hb1' := hd2 off chunk_len b1 (by omega) hc1
          have hlen0 : b0.length = chunk_len := by
            rw [hb0]; simp only [List.length_take, List.length_drop]; omega
          have hlen1 : b1.length = chunk_len := by
            rw [hb1']; simp only [List.length_take, List.length_drop]; omega
          have hbb0 : ∀ x ∈ b0, x < 256 :=
            fun x hx => hb1 x (List.mem_of_mem_drop (List.mem_of_mem_take (hb0 ▸ hx)))
          have hbb1 : ∀ x ∈ b1, x < 256 :=
            fun x hx => hb2 x (List.mem_of_mem_drop (List.mem_of_mem_take (hb1' ▸ hx)))
          obtain ⟨buf2, hbuf2⟩ : ∃ buf2, buf2
              = mem_write (mem_write st.nffs_flash_buf 0 b0) NFFS_INODE_FILENAME_BUF_SZ b1 :=
            ⟨_, rfl⟩
          have hrd0 : mem_read buf2 0 chunk_len = b0 := by
            rw [hbuf2, mem_read_write_disjoint _ _ _ _ _
              (Or.inl (by simp only [NFFS_INODE_FILENAME_BUF_SZ, NFFS_FLASH_BUF_SZ]; omega))]
            have := mem_read_write_same st.nffs_flash_buf 0 b0
            rw [hlen0] at this
            rw [this, map_mod_of_lt _ hbb0]
          have hrd1 : mem_read buf2 NFFS_INODE_FILENAME_BUF_SZ chunk_len = b1 := by
            have := mem_read_write_same (mem_write st.nffs_flash_buf 0 b0)
              NFFS_INODE_FILENAME_BUF_SZ b1
            rw [hlen1] at this
            rw [hbuf2, this, map_mod_of_lt _ hbb1]
          have hst2 : same_flash s { st with nffs_flash_buf := buf2 } :=
            same_flash_trans hst (same_flash_buf _ _)
          simp only [← hbuf2, hrd0, hrd1] at hrun
          rw [hb0, hb1', strncmp_take_eq chunk_len chunk_len _ _ (Nat.le_refl _)] at hrun
          refine ih (off + chunk_len) _ _ res st' hcle hst2 ?_ hrun
          rcases strncmp_spec chunk_len (n1.drop off) (n2.drop off)
              (by simp only [List.length_drop]; omega)
              (by simp only [List.length_drop]; omega)
              (not_mem_drop_of_not_mem _ _ hz1) with ⟨h0, heq⟩ | ⟨hne, hsign⟩
          · left
            exact ⟨h0, take_add_eq_of _ _ _ _ hpre heq⟩
          · right
            refine ⟨hne, ?_⟩
            rw [hsign, ← filename_lex_drop off n1 n2 hpre (by omega) (by omega)]
    · rw [nffs_inode_filename_cmp_flash_loop, if_neg hcond] at hrun
      cases hrun
      refine ⟨hst, fun r hr => ?_⟩
      cases hr
      rcases hinv with ⟨h0, hpre⟩ | h
      · left
        have : off = short_len := by
          by_contra hne
          exact hcond ⟨h0, by omega⟩
        subst this
        exact ⟨h0, hpre⟩
      · right; exact h

/-- Whatever `nffs_inode_filename_cmp_flash` returns, it changes only the static buffer;
when it returns 0 for two inodes whose whole filenames can be read, the sign of `*result`
is the lexicographic order of the names. -/
theorem nffs_inode_filename_cmp_flash_sound (s : nffs_state) (inode1 inode2 : nffs_inode)
    (n1 n2 : List Nat)
    (hl1 : inode1.ni_filename_len ≤ 255) (hl2 : inode2.ni_filename_len ≤ 255)
    (h1 : nffs_inode_read_filename_chunk s inode1 0 inode1.ni_filename_len = .ok n1)
    (h2 : nffs_inode_read_filename_chunk s inode2 0 inode2.ni_filename_len = .ok n2)
    (hc1 : inode1.ni_filename = n1.take NFFS_SHORT_FILENAME_LEN)
    (hc2 : inode2.ni_filename = n2.take NFFS_SHORT_FILENAME_LEN)
    (hz1 : 0 ∉ n1) (res : Res Int) (s' : nffs_state)
    (hrun : nffs_inode_filename_cmp_flash s inode1 inode2 = (res, s')) :
    same_flash s s' ∧ ∀ r, res = .ok r → int_sign r = filename_lex n1 n2 := by
  obtain ⟨hlen1, hb1, hd1⟩ := nffs_inode_read_filename_chunk_det s inode1 n1 hl1 h1
  obtain ⟨hlen2, hb2, hd2⟩ := nffs_inode_read_filename_chunk_det s inode2 n2 hl2 h2
  obtain ⟨short_len, hshort, hsmin⟩ :
      ∃ k, (if inode1.ni_filename_len < inode2.ni_filename_len then inode1.ni_filename_len
        else inode2.ni_filename_len) = k ∧ k = min n1.length n2.length := by
    refine ⟨_, rfl, ?_⟩
    rw [hlen1, hlen2]
    split <;> omega
  obtain ⟨chunk_len, hchunk, hc3, hcs⟩ :
      ∃ c, (if short_len ≤ NFFS_SHORT_FILENAME_LEN then short_len
        else NFFS_SHORT_FILENAME_LEN) = c ∧ c ≤ NFFS_SHORT_FILENAME_LEN ∧ c ≤ short_len := by
    refine ⟨_, rfl, ?_, ?_⟩ <;> (simp only [NFFS_SHORT_FILENAME_LEN]; split <;> omega)
  have hs1 : short_len ≤ n1.length := by omega
  have hs2 : short_len ≤ n2.length := by omega
  have hinit : (strncmp inode1.ni_filename inode2.ni_filename chunk_len = 0 ∧
        n1.take chunk_len = n2.take chunk_len) ∨
      (strncmp inode1.ni_filename inode2.ni_filename chunk_len ≠ 0 ∧
        int_sign (strncmp inode1.ni_filename inode2.ni_filename chunk_len)
          = filename_lex n1 n2) := by
    rw [hc1, hc2, strncmp_take_eq chunk_len _ n1 n2 hc3]
    exact strncmp_spec chunk_len n1 n2 (by omega) (by omega) hz1
  simp only [nffs_inode_filename_cmp_flash, hshort, hchunk] at hrun
  cases hloop : nffs_inode_filename_cmp_flash_loop inode1 inode2 short_len short_len chunk_len
      (strncmp inode1.ni_filename inode2.ni_filename chunk_len) s with
  | mk lres ls =>
    obtain ⟨hsf, hfin⟩ :=
      nffs_inode_filename_cmp_flash_loop_sound s inode1 inode2 n1 n2 short_len
        (fun off len bs h => hd1 off len bs (by omega))
        (fun off len bs h => hd2 off len bs (by omega))
        hz1 hb1 hb2 hs1 hs2 short_len chunk_len _ s lres ls hcs (same_flash_refl s) hinit
        hloop
    rw [hloop] at hrun
    cases lres with
    | abort => simp only [] at hrun; cases hrun; exact ⟨hsf, fun r hr => by cases hr⟩
    | err rc => simp only [] at hrun; cases hrun; exact ⟨hsf, fun r hr => by cases hr⟩
    | ok r0 =>
      simp only [] at hrun
      rcases hfin r0 rfl with ⟨h0, hpre⟩ | ⟨hne, hsign⟩
      · rw [if_pos h0] at hrun
        cases hrun
        refine ⟨hsf, fun r hr => ?_⟩
        cases hr
        rw [hsmin] at hpre
        rw [filename_lex_of_common_start n1 n2 hpre, hlen1, hlen2]
      · rw [if_neg hne] at hrun
        cases hrun
        refine ⟨hsf, fun r hr => ?_⟩
        cases hr
        exact hsign

theorem filename_lex_eq_iff : ∀ a b : List Nat, filename_lex a b = .eq ↔ a = b := by
  intro a
  induction a with
  | nil => intro b; cases b <;> simp [filename_lex]
  | cons x a ih =>
    intro b
    cases b with
    | nil => simp [filename_lex]
    | cons y b =>
      simp only [filename_lex, List.cons.injEq]
      rcases Nat.lt_trichotomy x y with h | h | h
      · simp [h]; omega
      · subst h; simp [ih b]
      · have h' : ¬ x < y := by omega
        simp [h, h']; omega

/-! ## Lemmas on `nffs_inode_from_entry` -/

theorem getD_lt_of_forall_lt (b : List Nat) (i : Nat) (h : ∀ x ∈ b, x < 256) :
    b.getD i 0 < 256 := by
  by_cases hi : i < b.length
  · rw [List.getD_eq_getElem _ _ hi]
    exact h _ (List.getElem_mem hi)
  · rw [List.getD_eq_default _ _ (by omega)]
    decide

theorem nffs_inode_read_disk_ok (s : nffs_state) (a o : Nat) (di : nffs_disk_inode)
    (h : nffs_inode_read_disk s a o = .ok di) :
    ∃ area, s.nffs_areas[a]? = some area ∧ o + NFFS_DISK_INODE_SZ ≤ area.na_length ∧
      di = nffs_disk_inode.of_bytes (mem_read s.flash (area.na_offset + o) NFFS_DISK_INODE_SZ) ∧
      di.ndi_magic = NFFS_INODE_MAGIC ∧ di.ndi_filename_len < 256 := by
  unfold nffs_inode_read_disk at h
  cases hr : nffs_flash_read s a o NFFS_DISK_INODE_SZ with
  | abort => simp [hr] at h
  | err rc => simp [hr] at h
  | ok b =>
    simp only [hr] at h
    by_cases hm : (nffs_disk_inode.of_bytes b).ndi_magic ≠ NFFS_INODE_MAGIC
    · simp [hm] at h
    · rw [if_neg hm] at h
      obtain ⟨area, ha, hlen, _, hb⟩ := nffs_flash_read_ok _ _ _ _ _ hr
      have hdi : nffs_disk_inode.of_bytes b = di := by simpa using h
      subst hdi
      subst hb
      refine ⟨area, ha, hlen, rfl, by simpa using hm, ?_⟩
      simp only [nffs_disk_inode.of_bytes]
      exact getD_lt_of_forall_lt _ _ (mem_read_lt _ _ _)

theorem nffs_hash_find_inode_frame (s : nffs_state) (id : Nat) :
    ∃ t, (nffs_hash_find_inode s id).2 = { s with nffs_hash := t } := by
  unfold nffs_hash_find_inode
  split
  · exact ⟨s.nffs_hash, rfl⟩
  · exact ⟨_, rfl⟩

/-- Whatever `nffs_inode_from_entry` returns, it changes at most the hash table. -/
theorem nffs_inode_from_entry_frame (s : nffs_state) (entry : Nat) :
    ∃ t, (nffs_inode_from_entry s entry).2 = { s with nffs_hash := t } := by
  unfold nffs_inode_from_entry
  simp only []
  cases nffs_inode_read_disk s
      (nffs_flash_loc_expand (s.inodes entry).nie_hash_entry.nhe_flash_loc).1
      (nffs_flash_loc_expand (s.inodes entry).nie_hash_entry.nhe_flash_loc).2 with
  | abort => exact ⟨s.nffs_hash, rfl⟩
  | err rc => exact ⟨s.nffs_hash, rfl⟩
  | ok di =>
    simp only []
    by_cases hp : di.ndi_parent_id = NFFS_ID_NONE
    · simp only [hp, if_true]
      repeat' split
      all_goals exact ⟨s.nffs_hash, rfl⟩
    · simp only [hp, if_false]
      obtain ⟨t, ht⟩ := nffs_hash_find_inode_frame s di.ndi_parent_id
      cases hf : nffs_hash_find_inode s di.ndi_parent_id with
      | mk r s1 =>
        rw [hf] at ht
        simp only [] at ht
        subst ht
        cases r with
        | abort => exact ⟨t, rfl⟩
        | err rc => exact ⟨t, rfl⟩
        | ok p =>
          simp only []
          repeat' split
          all_goals exact ⟨t, rfl⟩

theorem same_flash_of_hash_eq {s s1 : nffs_state} {t : nffs_hash_table}
    (h : s1 = { s with nffs_hash := t }) : same_flash s s1 := by
  subst h; exact ⟨rfl, rfl, rfl, rfl⟩

theorem inode_filename_congr {s st : nffs_state} (h : same_flash s st) (e : Nat) :
    inode_filename st e = inode_filename s e := by
  simp only [inode_filename, nffs_inode_read_disk, nffs_flash_read_congr h, h.1]

/-- What a successful `nffs_inode_from_entry` puts into the inode: the fields of the
record at the entry's flash location, the parent found in the hash table, and the first
bytes of the filename. -/
theorem nffs_inode_from_entry_ok (s : nffs_state) (entry : Nat) (inode : nffs_inode)
    (s1 : nffs_state) (h : nffs_inode_from_entry s entry = (.ok inode, s1)) :
    inode.ni_inode_entry = entry ∧ inode.ni_filename_len ≤ 255 ∧
    ∃ di, nffs_inode_read_disk s
        (nffs_flash_loc_expand (s.inodes entry).nie_hash_entry.nhe_flash_loc).1
        (nffs_flash_loc_expand (s.inodes entry).nie_hash_entry.nhe_flash_loc).2 = .ok di ∧
      inode.ni_seq = di.ndi_seq ∧ inode.ni_filename_len = di.ndi_filename_len ∧
      inode.ni_parent = (if di.ndi_parent_id = NFFS_ID_NONE then none
        else (nffs_hash_find s.hash_mem s.nffs_hash di.ndi_parent_id).1) ∧
      ∀ n, inode_filename s entry = some n →
        inode.ni_filename = n.take NFFS_SHORT_FILENAME_LEN ∧
        nffs_inode_read_filename_chunk s inode 0 inode.ni_filename_len = .ok n := by
  unfold nffs_inode_from_entry at h
  simp only [] at h
  cases hrd : nffs_inode_read_disk s
      (nffs_flash_loc_expand (s.inodes entry).nie_hash_entry.nhe_flash_loc).1
      (nffs_flash_loc_expand (s.inodes entry).nie_hash_entry.nhe_flash_loc).2 with
  | abort => simp [hrd] at h
  | err rc => simp [hrd] at h
  | ok di =>
    obtain ⟨area, ha, _, _, _, hlen⟩ := nffs_inode_read_disk_ok _ _ _ _ hrd
    simp only [hrd] at h
    -- the parent lookup
    obtain ⟨pr, hpr⟩ : ∃ pr : Res (Option Nat) × nffs_state, pr =
        (if di.ndi_parent_id = NFFS_ID_NONE then (Res.ok none, s)
          else nffs_hash_find_inode s di.ndi_parent_id) := ⟨_, rfl⟩
    rw [← hpr] at h
    have hpsf : same_flash s pr.2 := by
      rw [hpr]
      split
      · exact same_flash_refl s
      · obtain ⟨t, ht⟩ := nffs_hash_find_inode_frame s di.ndi_parent_id
        exact same_flash_of_hash_eq ht
    have hpval : ∀ p, pr.1 = .ok p → p = (if di.ndi_parent_id = NFFS_ID_NONE then none
        else (nffs_hash_find s.hash_mem s.nffs_hash di.ndi_parent_id).1) := by
      intro p hp
      rw [hpr] at hp
      by_cases hnone : di.ndi_parent_id = NFFS_ID_NONE
      · simp only [hnone, if_true] at hp ⊢
        cases hp; rfl
      · simp only [hnone, if_false] at hp ⊢
        unfold nffs_hash_find_inode at hp
        split at hp
        · cases hp
        · simp only [Res.ok.injEq] at hp
          exact hp.symm
    obtain ⟨pres, ps⟩ := pr
    cases pres with
    | abort => simp at h
    | err rc => simp at h
    | ok p =>
      simp only [] at h hpsf
      have hp := hpval p rfl
      have hname : ∀ n, inode_filename s entry = some n →
          n = mem_read s.flash (area.na_offset +
            ((nffs_flash_loc_expand (s.inodes entry).nie_hash_entry.nhe_flash_loc).2
              + NFFS_DISK_INODE_SZ)) di.ndi_filename_len ∧
          nffs_flash_read s
            (nffs_flash_loc_expand (s.inodes entry).nie_hash_entry.nhe_flash_loc).1
            ((nffs_flash_loc_expand (s.inodes entry).nie_hash_entry.nhe_flash_loc).2
              + NFFS_DISK_INODE_SZ) di.ndi_filename_len = .ok n := by
        intro n hn
        simp only [inode_filename, hrd] at hn
        cases hfr : nffs_flash_read s
            (nffs_flash_loc_expand (s.inodes entry).nie_hash_entry.nhe_flash_loc).1
            ((nffs_flash_loc_expand (s.inodes entry).nie_hash_entry.nhe_flash_loc).2
              + NFFS_DISK_INODE_SZ) di.ndi_filename_len with
        | abort => simp [hfr] at hn
        | err rc => simp [hfr] at hn
        | ok n' =>
          simp only [hfr, Option.some.injEq] at hn
          subst hn
          obtain ⟨area', ha', _, _, hb⟩ := nffs_flash_read_ok _ _ _ _ _ hfr
          rw [ha] at ha'
          cases ha'
          exact ⟨hb, rfl⟩
      have hchunk : ∀ (inode' : nffs_inode), inode'.ni_inode_entry = entry →
          inode'.ni_filename_len = di.ndi_filename_len →
          ∀ n, inode_filename s entry = some n →
            nffs_inode_read_filename_chunk s inode' 0 inode'.ni_filename_len = .ok n := by
        intro inode' he hl n hn
        simp only [nffs_inode_read_filename_chunk, Nat.zero_mod, Nat.zero_add, gt_iff_lt,
          lt_irrefl, if_false, Nat.add_zero, he, hl]
        exact (hname n hn).2
      by_cases hc : (if di.ndi_filename_len > NFFS_SHORT_FILENAME_LEN
          then NFFS_SHORT_FILENAME_LEN else di.ndi_filename_len) ≠ 0
      · rw [if_pos hc] at h
        rw [nffs_flash_read_congr hpsf] at h
        cases hcr : nffs_flash_read s
            (nffs_flash_loc_expand (s.inodes entry).nie_hash_entry.nhe_flash_loc).1
            ((nffs_flash_loc_expand (s.inodes entry).nie_hash_entry.nhe_flash_loc).2
              + NFFS_DISK_INODE_SZ)
            (if di.ndi_filename_len > NFFS_SHORT_FILENAME_LEN
              then NFFS_SHORT_FILENAME_LEN else di.ndi_filename_len) with
        | abort => simp [hcr] at h
        | err rc => simp [hcr] at h
        | ok c =>
          simp only [hcr, Prod.mk.injEq, Res.ok.injEq] at h
          obtain ⟨hi, _⟩ := h
          subst hi
          refine ⟨rfl, by simp only []; omega, di, rfl, rfl, rfl, hp, ?_⟩
          intro n hn
          refine ⟨?_, hchunk _ rfl rfl n hn⟩
          obtain ⟨area', ha', _, _, hcb⟩ := nffs_flash_read_ok _ _ _ _ _ hcr
          rw [ha] at ha'
          cases ha'
          simp only []
          rw [hcb, (hname n hn).1]
          have hmin : (if di.ndi_filename_len > NFFS_SHORT_FILENAME_LEN
              then NFFS_SHORT_FILENAME_LEN else di.ndi_filename_len)
                ≤ di.ndi_filename_len := by split <;> omega
          have := mem_read_drop_take s.flash (area.na_offset +
            ((nffs_flash_loc_expand (s.inodes entry).nie_hash_entry.nhe_flash_loc).2
              + NFFS_DISK_INODE_SZ)) di.ndi_filename_len 0
            (if di.ndi_filename_len > NFFS_SHORT_FILENAME_LEN
              then NFFS_SHORT_FILENAME_LEN else di.ndi_filename_len) (by omega)
          simp only [List.drop_zero, Nat.add_zero] at this
          rw [← this]
          by_cases hgt : di.ndi_filename_len > NFFS_SHORT_FILENAME_LEN
          · simp only [hgt, if_true]
          · simp only [hgt, if_false]
            have hle1 : ∀ a, (mem_read s.flash a di.ndi_filename_len).length
                ≤ di.ndi_filename_len := fun a => by rw [mem_read_length]
            have hle2 : ∀ a, (mem_read s.flash a di.ndi_filename_len).length
                ≤ NFFS_SHORT_FILENAME_LEN := fun a => by rw [mem_read_length]; omega
            rw [List.take_of_length_le (hle1 _), List.take_of_length_le (hle2 _)]
      · rw [if_neg hc] at h
        simp only [Prod.mk.injEq, Res.ok.injEq] at h
        obtain ⟨hi, _⟩ := h
        subst hi
        refine ⟨rfl, by simp only []; omega, di, rfl, rfl, rfl, hp, ?_⟩
        intro n hn
        refine ⟨?_, hchunk _ rfl rfl n hn⟩
        have hz : di.ndi_filename_len = 0 := by
          simp only [NFFS_SHORT_FILENAME_LEN, ne_eq, not_not] at hc
          split at hc <;> omega
        have hn0 : n = [] := by
          have := (hname n hn).1
          rw [hz] at this
          simpa [mem_read] using this
        simp [hn0]

/-! ## Lemmas on `nffs_inode_add_child` -/

theorem inode_filename_congr_loc {s st : nffs_state} (e : Nat)
    (hloc : (st.inodes e).nie_hash_entry.nhe_flash_loc
      = (s.inodes e).nie_hash_entry.nhe_flash_loc)
    (ha : st.nffs_areas = s.nffs_areas) (hf : st.flash = s.flash)
    (hr : st.flash_read_fails = s.flash_read_fails) :
    inode_filename st e = inode_filename s e := by
  simp only [inode_filename, nffs_inode_read_disk, nffs_flash_read, hloc, ha, hf, hr]

theorem nffs_inode_add_child_loop_spec (s : nffs_state) (child : Nat)
    (child_inode : nffs_inode) (nc : List Nat)
    (hcl : child_inode.ni_filename_len ≤ 255)
    (hcn : nffs_inode_read_filename_chunk s child_inode 0 child_inode.ni_filename_len
      = .ok nc)
    (hcc : child_inode.ni_filename = nc.take NFFS_SHORT_FILENAME_LEN) (hcz : 0 ∉ nc) :
    ∀ (l : List Nat) (st : nffs_state) (res : Res Nat) (st' : nffs_state),
      same_flash s st → (∀ e ∈ l, ∃ n, inode_filename s e = some n) →
      nffs_inode_add_child_loop child child_inode l st = (res, st') →
      same_flash s st' ∧
      ∀ k, res = .ok k → k ≤ l.length ∧
        (∀ x ∈ l.take k, ∃ n, inode_filename s x = some n ∧ filename_lex n nc ≠ .gt) ∧
        (∀ y, (l.drop k).head? = some y →
          ∃ n, inode_filename s y = some n ∧ filename_lex nc n = .lt) := by
  intro l
  induction l with
  | nil =>
    intro st res st' hst _ hrun
    simp only [nffs_inode_add_child_loop, Prod.mk.injEq] at hrun
    obtain ⟨h1, h2⟩ := hrun
    subst h1; subst h2
    refine ⟨hst, fun k hk => ?_⟩
    cases hk
    simp
  | cons cur rest ih =>
    intro st res st' hst hnames hrun
    simp only [nffs_inode_add_child_loop] at hrun
    by_cases hcc' : cur = child
    · rw [if_pos hcc'] at hrun
      cases hrun
      exact ⟨hst, fun k hk => by cases hk⟩
    · rw [if_neg hcc'] at hrun
      obtain ⟨t, ht⟩ := nffs_inode_from_entry_frame st cur
      cases hfe : nffs_inode_from_entry st cur with
      | mk fres s1 =>
        rw [hfe] at ht hrun
        simp only [] at ht
        have hst1 : same_flash s s1 := same_flash_trans hst (same_flash_of_hash_eq ht)
        cases fres with
        | abort => simp only [] at hrun; cases hrun; exact ⟨hst1, fun k hk => by cases hk⟩
        | err rc => simp only [] at hrun; cases hrun; exact ⟨hst1, fun k hk => by cases hk⟩
        | ok cur_inode =>
          simp only [] at hrun
          obtain ⟨ncur, hncur⟩ := hnames cur (List.mem_cons_self cur rest)
          obtain ⟨_, hl255, di, _, _, _, _, hnm⟩ := nffs_inode_from_entry_ok st cur cur_inode s1 hfe
          obtain ⟨hcache, hchunk⟩ := hnm ncur (by rw [inode_filename_congr hst]; exact hncur)
          have hchunk1 : nffs_inode_read_filename_chunk s1 cur_inode 0
              cur_inode.ni_filename_len = .ok ncur := by
            rw [nffs_inode_read_filename_chunk_congr (same_flash_of_hash_eq ht)]
            exact hchunk
          have hcn1 : nffs_inode_read_filename_chunk s1 child_inode 0
              child_inode.ni_filename_len = .ok nc := by
            rw [nffs_inode_read_filename_chunk_congr hst1]
            exact hcn
          cases hcmp : nffs_inode_filename_cmp_flash s1 child_inode cur_inode with
          | mk cres s2 =>
            obtain ⟨hsf2, hsign⟩ := nffs_inode_filename_cmp_flash_sound s1 child_inode
              cur_inode nc ncur hcl hl255 hcn1 hchunk1 hcc hcache hcz cres s2 hcmp
            have hst2 : same_flash s s2 := same_flash_trans hst1 hsf2
            rw [hcmp] at hrun
            cases cres with
            | abort => simp only [] at hrun; cases hrun; exact ⟨hst2, fun k hk => by cases hk⟩
            | err rc => simp only [] at hrun; cases hrun; exact ⟨hst2, fun k hk => by cases hk⟩
            | ok cmp =>
              simp only [] at hrun
              have hs := hsign cmp rfl
              by_cases hneg : cmp < 0
              · rw [if_pos hneg] at hrun
                cases hrun
                refine ⟨hst2, fun k hk => ?_⟩
                cases hk
                refine ⟨Nat.zero_le _, by simp, ?_⟩
                intro y hy
                simp only [List.drop_zero, List.head?_cons, Option.some.injEq] at hy
                subst hy
                exact ⟨ncur, hncur, by rw [← hs]; exact (int_sign_lt_iff cmp).mpr hneg⟩
              · rw [if_neg hneg] at hrun
                have hge : filename_lex ncur nc ≠ .gt := by
                  rw [← filename_lex_ge_iff, ← hs]
                  intro hlt
                  exact hneg ((int_sign_lt_iff cmp).mp hlt)
                cases hrec : nffs_inode_add_child_loop child child_inode rest s2 with
                | mk rres s3 =>
                  obtain ⟨hst3, hk3⟩ := ih s2 rres s3 hst2
                    (fun e he => hnames e (List.mem_cons_of_mem cur he)) hrec
                  rw [hrec] at hrun
                  cases rres with
                  | abort =>
                    simp only [] at hrun; cases hrun
                    exact ⟨hst3, fun k hk => by cases hk⟩
                  | err rc =>
                    simp only [] at hrun; cases hrun
                    exact ⟨hst3, fun k hk => by cases hk⟩
                  | ok k0 =>
                    simp only [] at hrun
                    cases hrun
                    refine ⟨hst3, fun k hk => ?_⟩
                    cases hk
                    obtain ⟨hk1, hk2, hk3'⟩ := hk3 k0 rfl
                    refine ⟨by simp only [List.length_cons]; omega, ?_, ?_⟩
                    · intro x hx
                      simp only [List.take_succ_cons, List.mem_cons] at hx
                      rcases hx with rfl | hx
                      · exact ⟨ncur, hncur, hge⟩
                      · exact hk2 x hx
                    · intro y hy
                      simp only [List.drop_succ_cons] at hy
                      exact hk3' y hy

theorem filename_lt_of_lt_of_le (s : nffs_state) (a b c : Nat) (h1 : filename_lt s a b)
    (h2 : filename_le s b c) : filename_lt s a c := by
  obtain ⟨na, nb, ha, hb, hab⟩ := h1
  obtain ⟨nb', nc, hb', hc, hbc⟩ := h2
  rw [hb] at hb'
  cases hb'
  exact ⟨na, nc, ha, hc, filename_lex_lt_of_lt_of_le na nb nc hab hbc⟩

theorem filename_le_of_lt (s : nffs_state) (a b : Nat) (h : filename_lt s a b) :
    filename_le s a b := by
  obtain ⟨na, nb, ha, hb, hab⟩ := h
  exact ⟨na, nb, ha, hb, by rw [hab]; decide⟩

/-- The result of `nffs_inode_add_child` on a sorted child list. -/
theorem nffs_inode_add_child_spec (s s' : nffs_state) (parent child : Nat)
    (hnames : ∀ e ∈ child :: (s.inodes parent).nie_child_list, ∃ n, has_filename s e n)
    (hsorted : (s.inodes parent).nie_child_list.Pairwise (filename_le s))
    (hok : nffs_inode_add_child s parent child = (.ok (), s')) :
    ∃ pre post, (s.inodes parent).nie_child_list = pre ++ post ∧
      (s'.inodes parent).nie_child_list = pre ++ child :: post ∧
      (∀ x ∈ pre, filename_le s x child) ∧ (∀ y ∈ post, filename_lt s child y) ∧
      (∀ e, e ≠ parent → s'.inodes e = s.inodes e) ∧
      (s'.inodes parent).nie_hash_entry = (s.inodes parent).nie_hash_entry ∧
      (s'.inodes parent).nie_refcnt = (s.inodes parent).nie_refcnt ∧
      s'.nffs_areas = s.nffs_areas ∧ s'.flash = s.flash ∧
      s'.flash_read_fails = s.flash_read_fails ∧
      (∀ e, inode_filename s' e = inode_filename s e) ∧
      (s'.inodes parent).nie_child_list.Pairwise (filename_le s) := by
  unfold nffs_inode_add_child at hok
  by_cases hdir : nffs_hash_id_is_dir (s.inodes parent).nie_hash_entry.nhe_id = false
  · rw [if_pos hdir] at hok; cases hok
  · rw [if_neg hdir] at hok
    obtain ⟨t, ht⟩ := nffs_inode_from_entry_frame s child
    cases hfe : nffs_inode_from_entry s child with
    | mk fres s1 =>
      rw [hfe] at ht hok
      simp only [] at ht
      have hst1 : same_flash s s1 := same_flash_of_hash_eq ht
      cases fres with
      | abort => simp only [] at hok; cases hok
      | err rc => simp only [] at hok; cases hok
      | ok child_inode =>
        simp only [] at hok
        obtain ⟨nc, hnc, hcz⟩ := hnames child (List.mem_cons_self _ _)
        obtain ⟨_, hl255, di, _, _, _, _, hnm⟩ :=
          nffs_inode_from_entry_ok s child child_inode s1 hfe
        obtain ⟨hcache, hchunk⟩ := hnm nc hnc
        have hlist1 : (s1.inodes parent).nie_child_list = (s.inodes parent).nie_child_list := by
          rw [hst1.1]
        rw [hlist1] at hok
        cases hloop : nffs_inode_add_child_loop child child_inode
            (s.inodes parent).nie_child_list s1 with
        | mk lres s2 =>
          obtain ⟨hst2, hk⟩ := nffs_inode_add_child_loop_spec s child child_inode nc hl255
            hchunk hcache hcz (s.inodes parent).nie_child_list s1 lres s2 hst1
            (fun e he => by
              obtain ⟨n, hn, _⟩ := hnames e (List.mem_cons_of_mem _ he)
              exact ⟨n, hn⟩) hloop
          rw [hloop] at hok
          cases lres with
          | abort => simp only [] at hok; cases hok
          | err rc => simp only [] at hok; cases hok
          | ok k =>
            simp only [Prod.mk.injEq, true_and] at hok
            obtain ⟨hkl, hpre, hpost⟩ := hk k rfl
            have hlist2 : (s2.inodes parent).nie_child_list
                = (s.inodes parent).nie_child_list := by rw [hst2.1]
            have hnew : (if k = 0 then SLIST_INSERT_HEAD (s2.inodes parent).nie_child_list child
                else SLIST_INSERT_AFTER (s2.inodes parent).nie_child_list k child)
                = (s.inodes parent).nie_child_list.take k
                  ++ child :: (s.inodes parent).nie_child_list.drop k := by
              rw [hlist2]
              by_cases hk0 : k = 0
              · subst hk0; simp [SLIST_INSERT_HEAD]
              · simp [hk0, SLIST_INSERT_AFTER]
            rw [hnew] at hok
            subst hok
            have hpre' : ∀ x ∈ (s.inodes parent).nie_child_list.take k,
                filename_le s x child := by
              intro x hx
              obtain ⟨n, hn, hle⟩ := hpre x hx
              exact ⟨n, nc, hn, hnc, hle⟩
            have hsplit : (s.inodes parent).nie_child_list
                = (s.inodes parent).nie_child_list.take k
                  ++ (s.inodes parent).nie_child_list.drop k :=
              (List.take_append_drop k _).symm
            have hsorted' := hsorted
            rw [hsplit, List.pairwise_append] at hsorted'
            obtain ⟨hp1, hp2, hp12⟩ := hsorted'
            have hpost' : ∀ y ∈ (s.inodes parent).nie_child_list.drop k,
                filename_lt s child y := by
              intro y hy
              cases hd : (s.inodes parent).nie_child_list.drop k with
              | nil => rw [hd] at hy; cases hy
              | cons y0 rest =>
                have hy0 : filename_lt s child y0 := by
                  obtain ⟨n, hn, hlt⟩ := hpost y0 (by rw [hd]; rfl)
                  exact ⟨nc, n, hnc, hn, hlt⟩
                rw [hd] at hy hp2
                rcases List.mem_cons.mp hy with rfl | hy
                · exact hy0
                · exact filename_lt_of_lt_of_le s child y0 y hy0
                    ((List.pairwise_cons.mp hp2).1 y hy)
            refine ⟨_, _, hsplit, by simp, hpre', hpost', ?_, by simp [hst2.1],
              by simp [hst2.1], hst2.2.1, hst2.2.2.1, hst2.2.2.2, ?_, ?_⟩
            · intro e he
              simp only [Function.update_noteq he, hst2.1]
            · intro e
              apply inode_filename_congr_loc e
              · by_cases he : e = parent
                · subst he; simp [hst2.1]
                · simp only [Function.update_noteq he, hst2.1]
              · exact hst2.2.1
              · exact hst2.2.2.1
              · exact hst2.2.2.2
            · simp only [Function.update_same]
              rw [List.pairwise_append]
              refine ⟨hp1, ?_, ?_⟩
              · rw [List.pairwise_cons]
                exact ⟨fun y hy => filename_le_of_lt s child y (hpost' y hy), hp2⟩
              · intro a ha b hb
                rcases List.mem_cons.mp hb with rfl | hb
                · exact hpre' a ha
                · exact hp12 a ha b hb

/-! ## What the functions under `nffs_inode_rename` leave unchanged -/

theorem same_records_refl (s : nffs_state) : same_records s s :=
  ⟨fun _ => rfl, rfl, rfl, rfl, rfl, rfl⟩

theorem same_records_trans {s s1 s2 : nffs_state} (h1 : same_records s s1)
    (h2 : same_records s1 s2) : same_records s s2 :=
  ⟨fun e => (h2.1 e).trans (h1.1 e), h2.2.1.trans h1.2.1, h2.2.2.1.trans h1.2.2.1,
    h2.2.2.2.1.trans h1.2.2.2.1, h2.2.2.2.2.1.trans h1.2.2.2.2.1,
    h2.2.2.2.2.2.trans h1.2.2.2.2.2⟩

theorem same_records_hash_buf (s : nffs_state) (t : nffs_hash_table) (b : Nat → Nat) :
    same_records s { s with nffs_hash := t, nffs_flash_buf := b } :=
  ⟨fun _ => rfl, rfl, rfl, rfl, rfl, rfl⟩

/-- The states that differ from `s` in the hash table and the static buffer only. -/
theorem nffs_inode_filename_cmp_flash_loop_frame (inode1 inode2 : nffs_inode)
    (short_len : Nat) :
    ∀ (fuel off : Nat) (result : Int) (st : nffs_state),
      ∃ b, (nffs_inode_filename_cmp_flash_loop inode1 inode2 short_len fuel off result st).2
        = { st with nffs_flash_buf := b } := by
  intro fuel
  induction fuel with
  | zero =>
    intro off result st
    simp only [nffs_inode_filename_cmp_flash_loop]
    split <;> exact ⟨st.nffs_flash_buf, rfl⟩
  | succ fuel ih =>
    intro off result st
    rw [nffs_inode_filename_cmp_flash_loop]
    split
    · simp only []
      split
      · exact ⟨st.nffs_flash_buf, rfl⟩
      · exact ⟨st.nffs_flash_buf, rfl⟩
      · split
        · exact ⟨_, rfl⟩
        · exact ⟨_, rfl⟩
        · obtain ⟨b, hb⟩ := ih (off + (if short_len - off > NFFS_INODE_FILENAME_BUF_SZ
              then NFFS_INODE_FILENAME_BUF_SZ else short_len - off)) _ _
          exact ⟨b, by rw [hb]⟩
    · exact ⟨st.nffs_flash_buf, rfl⟩

theorem nffs_inode_filename_cmp_flash_frame (s : nffs_state) (inode1 inode2 : nffs_inode) :
    ∃ b, (nffs_inode_filename_cmp_flash s inode1 inode2).2 = { s with nffs_flash_buf := b } := by
  unfold nffs_inode_filename_cmp_flash
  simp only []
  obtain ⟨b, hb⟩ := nffs_inode_filename_cmp_flash_loop_frame inode1 inode2
    (if inode1.ni_filename_len < inode2.ni_filename_len then inode1.ni_filename_len
      else inode2.ni_filename_len)
    (if inode1.ni_filename_len < inode2.ni_filename_len then inode1.ni_filename_len
      else inode2.ni_filename_len)
    (if (if inode1.ni_filename_len < inode2.ni_filename_len then inode1.ni_filename_len
      else inode2.ni_filename_len) ≤ NFFS_SHORT_FILENAME_LEN
      then (if inode1.ni_filename_len < inode2.ni_filename_len then inode1.ni_filename_len
        else inode2.ni_filename_len) else NFFS_SHORT_FILENAME_LEN)
    (strncmp inode1.ni_filename inode2.ni_filename
      (if (if inode1.ni_filename_len < inode2.ni_filename_len then inode1.ni_filename_len
        else inode2.ni_filename_len) ≤ NFFS_SHORT_FILENAME_LEN
        then (if inode1.ni_filename_len < inode2.ni_filename_len then inode1.ni_filename_len
          else inode2.ni_filename_len) else NFFS_SHORT_FILENAME_LEN)) s
  refine ⟨b, ?_⟩
  split
  · next h => rw [h] at hb; exact hb
  · next h => rw [h] at hb; exact hb
  · next h =>
    rw [h] at hb
    split <;> exact hb

theorem nffs_inode_add_child_loop_frame (child : Nat) (child_inode : nffs_inode) :
    ∀ (l : List Nat) (st : nffs_state),
      ∃ t b, (nffs_inode_add_child_loop child child_inode l st).2
        = { st with nffs_hash := t, nffs_flash_buf := b } := by
  intro l
  induction l with
  | nil => intro st; exact ⟨st.nffs_hash, st.nffs_flash_buf, rfl⟩
  | cons cur rest ih =>
    intro st
    simp only [nffs_inode_add_child_loop]
    split
    · exact ⟨st.nffs_hash, st.nffs_flash_buf, rfl⟩
    · obtain ⟨t, ht⟩ := nffs_inode_from_entry_frame st cur
      cases hfe : nffs_inode_from_entry st cur with
      | mk fres s1 =>
        rw [hfe] at ht
        simp only [] at ht
        subst ht
        cases fres with
        | abort => exact ⟨t, st.nffs_flash_buf, rfl⟩
        | err rc => exact ⟨t, st.nffs_flash_buf, rfl⟩
        | ok cur_inode =>
          simp only []
          obtain ⟨b, hb⟩ := nffs_inode_filename_cmp_flash_frame
            { st with nffs_hash := t } child_inode cur_inode
          cases hcmp : nffs_inode_filename_cmp_flash { st with nffs_hash := t } child_inode
              cur_inode with
          | mk cres s2 =>
            rw [hcmp] at hb
            simp only [] at hb
            subst hb
            cases cres with
            | abort => exact ⟨t, b, rfl⟩
            | err rc => exact ⟨t, b, rfl⟩
            | ok cmp =>
              simp only []
              split
              · exact ⟨t, b, rfl⟩
              · obtain ⟨t3, b3, h3⟩ := ih { st with nffs_hash := t, nffs_flash_buf := b }
                cases hrec : nffs_inode_add_child_loop child child_inode rest
                    { st with nffs_hash := t, nffs_flash_buf := b } with
                | mk rres s3 =>
                  rw [hrec] at h3
                  simp only [] at h3
                  subst h3
                  cases rres <;> exact ⟨t3, b3, rfl⟩

theorem same_records_update_children (s : nffs_state) (p : Nat) (l : List Nat) :
    same_records s
      { s with inodes := Function.update s.inodes p { s.inodes p with nie_child_list := l } } := by
  refine ⟨fun e => ?_, rfl, rfl, rfl, rfl, rfl⟩
  by_cases he : e = p
  · subst he; simp
  · simp [Function.update_noteq he]

theorem nffs_inode_add_child_same_records (s : nffs_state) (parent child : Nat) :
    same_records s (nffs_inode_add_child s parent child).2 := by
  unfold nffs_inode_add_child
  split
  · exact same_records_refl s
  · obtain ⟨t, ht⟩ := nffs_inode_from_entry_frame s child
    cases hfe : nffs_inode_from_entry s child with
    | mk fres s1 =>
      rw [hfe] at ht
      simp only [] at ht
      subst ht
      cases fres with
      | abort => exact same_records_hash_buf s t s.nffs_flash_buf
      | err rc => exact same_records_hash_buf s t s.nffs_flash_buf
      | ok child_inode =>
        simp only []
        obtain ⟨t2, b2, h2⟩ := nffs_inode_add_child_loop_frame child child_inode
          (s.inodes parent).nie_child_list { s with nffs_hash := t }
        cases hloop : nffs_inode_add_child_loop child child_inode
            (s.inodes parent).nie_child_list { s with nffs_hash := t } with
        | mk lres s2 =>
          rw [hloop] at h2
          simp only [] at h2
          subst h2
          cases lres with
          | abort => exact same_records_hash_buf s t2 b2
          | err rc => exact same_records_hash_buf s t2 b2
          | ok k =>
            simp only []
            exact same_records_trans (same_records_hash_buf s t2 b2)
              (same_records_update_children _ _ _)

theorem nffs_inode_remove_child_same_records (s : nffs_state) (child : nffs_inode) :
    same_records s (nffs_inode_remove_child s child).2 := by
  unfold nffs_inode_remove_child
  split
  · exact same_records_refl s
  · split
    · exact same_records_refl s
    · split
      · exact same_records_refl s
      · exact same_records_update_children _ _ _

/-- The `if (inode.ni_parent != new_parent)` block of `nffs_inode_rename` keeps the
records; when it succeeds, the local inode has the new parent and is otherwise
unchanged. -/
theorem nffs_inode_rename_reparent_spec (s : nffs_state) (inode : nffs_inode)
    (new_parent : Option Nat) :
    same_records s (nffs_inode_rename_reparent s inode new_parent).2 ∧
    ∀ inode', (nffs_inode_rename_reparent s inode new_parent).1 = .ok inode' →
      inode' = { inode with ni_parent := new_parent } := by
  unfold nffs_inode_rename_reparent
  by_cases hp : inode.ni_parent ≠ new_parent
  · rw [if_pos hp]
    obtain ⟨rm, hrm⟩ : ∃ rm : Res Unit × nffs_state, rm =
        (if inode.ni_parent ≠ none then nffs_inode_remove_child s inode else (.ok (), s)) :=
      ⟨_, rfl⟩
    have hsr : same_records s rm.2 := by
      rw [hrm]
      split
      · exact nffs_inode_remove_child_same_records s inode
      · exact same_records_refl s
    simp only [← hrm]
    obtain ⟨r1, s1⟩ := rm
    simp only [] at hsr
    cases r1 with
    | abort => exact ⟨hsr, fun _ h => by cases h⟩
    | err rc => exact ⟨hsr, fun _ h => by cases h⟩
    | ok u =>
      simp only []
      cases new_parent with
      | none => exact ⟨hsr, fun _ h => by cases h; rfl⟩
      | some np =>
        simp only []
        have hadd := nffs_inode_add_child_same_records s1 np inode.ni_inode_entry
        cases hac : nffs_inode_add_child s1 np inode.ni_inode_entry with
        | mk r2 s2 =>
          rw [hac] at hadd
          simp only [] at hadd
          cases r2 with
          | abort => exact ⟨same_records_trans hsr hadd, fun _ h => by cases h⟩
          | err rc => exact ⟨same_records_trans hsr hadd, fun _ h => by cases h⟩
          | ok u2 => exact ⟨same_records_trans hsr hadd, fun _ h => by cases h; rfl⟩
  · rw [if_neg hp]
    refine ⟨same_records_refl s, fun inode' h => ?_⟩
    simp only [Res.ok.injEq] at h
    subst h
    have : inode.ni_parent = new_parent := by simpa using hp
    cases inode
    simp only [] at this
    subst this
    rfl

theorem nffs_flash_read_same_records {s st : nffs_state} (h : same_records s st)
    (i o l : Nat) : nffs_flash_read st i o l = nffs_flash_read s i o l := by
  obtain ⟨_, h2, _, h4, h5, _⟩ := h
  simp only [nffs_flash_read, h2, h4, h5]

theorem inode_filename_same_records {s st : nffs_state} (h : same_records s st) (e : Nat) :
    inode_filename st e = inode_filename s e := by
  simp only [inode_filename, nffs_inode_read_disk, nffs_flash_read_same_records h, h.1 e]

theorem strlen_le_length : ∀ l : List Nat, strlen l ≤ l.length := by
  intro l
  induction l with
  | nil => simp [strlen]
  | cons c cs ih =>
    simp only [strlen, List.length_cons]
    split <;> omega

/-- The `if (new_filename != NULL)` block of `nffs_inode_rename`. -/
theorem nffs_inode_rename_filename_spec (s : nffs_state) (inode_entry : Nat)
    (inode : nffs_inode) (new_filename : Option (List Nat)) (filename_len : Nat)
    (s' : nffs_state)
    (h : nffs_inode_rename_filename s inode_entry inode new_filename
      = (.ok filename_len, s')) :
    same_records s s' ∧ s'.inodes = s.inodes ∧
    (∀ name, new_filename = some name → filename_len = strlen name) ∧
    (new_filename = none → filename_len = inode.ni_filename_len ∧
      ∃ b, nffs_flash_read s
          (nffs_flash_loc_expand (s.inodes inode_entry).nie_hash_entry.nhe_flash_loc).1
          ((nffs_flash_loc_expand (s.inodes inode_entry).nie_hash_entry.nhe_flash_loc).2
            + NFFS_DISK_INODE_SZ) filename_len = .ok b ∧
        s'.nffs_flash_buf = mem_write s.nffs_flash_buf 0 b) := by
  unfold nffs_inode_rename_filename at h
  cases new_filename with
  | some name =>
    simp only [Prod.mk.injEq, Res.ok.injEq] at h
    obtain ⟨h1, h2⟩ := h
    subst h1; subst h2
    exact ⟨same_records_refl s, rfl, fun n hn => (by cases hn; rfl), fun hn => (by cases hn)⟩
  | none =>
    simp only [] at h
    cases hr : nffs_flash_read s
        (nffs_flash_loc_expand (s.inodes inode_entry).nie_hash_entry.nhe_flash_loc).1
        ((nffs_flash_loc_expand (s.inodes inode_entry).nie_hash_entry.nhe_flash_loc).2
          + NFFS_DISK_INODE_SZ) inode.ni_filename_len with
    | abort => rw [hr] at h; cases h
    | err rc => rw [hr] at h; cases h
    | ok b =>
      rw [hr] at h
      simp only [Prod.mk.injEq, Res.ok.injEq] at h
      obtain ⟨h1, h2⟩ := h
      subst h1; subst h2
      exact ⟨same_records_hash_buf s s.nffs_hash _, rfl, fun n hn => (by cases hn),
        fun _ => ⟨rfl, b, hr, rfl⟩⟩

theorem nffs_misc_reserve_space_area_ok (s : nffs_state) (i space off : Nat)
    (h : nffs_misc_reserve_space_area s i space = .ok off) :
    ∃ area, s.nffs_areas[i]? = some area ∧ off = area.na_cur := by
  unfold nffs_misc_reserve_space_area at h
  cases ha : s.nffs_areas[i]? with
  | none => simp [ha] at h
  | some area =>
    simp only [ha] at h
    split at h
    · simp only [Res.ok.injEq] at h
      exact ⟨area, rfl, h.symm⟩
    · cases h

theorem nffs_misc_reserve_space_loop_ok (s : nffs_state) (space : Nat) :
    ∀ (l : List Nat) (i off : Nat), nffs_misc_reserve_space_loop s space l = some (i, off) →
      nffs_misc_reserve_space_area s i space = .ok off := by
  intro l
  induction l with
  | nil => intro i off h; simp [nffs_misc_reserve_space_loop] at h
  | cons j rest ih =>
    intro i off h
    simp only [nffs_misc_reserve_space_loop] at h
    split at h
    · cases hj : nffs_misc_reserve_space_area s j space with
      | ok o =>
        rw [hj] at h
        simp only [Option.some.injEq, Prod.mk.injEq] at h
        obtain ⟨h1, h2⟩ := h
        subst h1; subst h2
        exact hj
      | err rc => rw [hj] at h; exact ih i off h
      | abort => rw [hj] at h; exact ih i off h
    · exact ih i off h

/-- A successful `nffs_misc_reserve_space` returns the cursor of the area it names; the
object ids are those from before the call, and the static buffer is either untouched or
the one the garbage collector left. -/
theorem nffs_misc_reserve_space_ok (env : nffs_env) (s : nffs_state) (space ai ao : Nat)
    (s4 : nffs_state) (h : nffs_misc_reserve_space env s space = (.ok (ai, ao), s4)) :
    (∀ e, (s4.inodes e).nie_hash_entry.nhe_id = (s.inodes e).nie_hash_entry.nhe_id) ∧
    (s4.nffs_flash_buf = s.nffs_flash_buf ∨
      s4.nffs_flash_buf = (env.nffs_gc_until (space % 2 ^ 16) s).2.nffs_flash_buf) ∧
    ∃ area, s4.nffs_areas[ai]? = some area ∧ ao = area.na_cur := by
  unfold nffs_misc_reserve_space at h
  simp only [] at h
  cases hl : nffs_misc_reserve_space_loop s (space % 2 ^ 16) (List.range s.nffs_areas.length) with
  | some r =>
    rw [hl] at h
    simp only [Prod.mk.injEq, Res.ok.injEq] at h
    obtain ⟨h1, h2⟩ := h
    subst h1; subst h2
    exact ⟨fun _ => rfl, Or.inl rfl,
      nffs_misc_reserve_space_area_ok _ _ _ _ (nffs_misc_reserve_space_loop_ok _ _ _ _ _ hl)⟩
  | none =>
    rw [hl] at h
    simp only [] at h
    cases hg : env.nffs_gc_until (space % 2 ^ 16) s with
    | mk gr g =>
      rw [hg] at h
      cases gr with
      | abort => cases h
      | err rc => cases h
      | ok area_idx =>
        simp only [] at h
        cases hra : nffs_misc_reserve_space_area (g.apply s) area_idx (space % 2 ^ 16) with
        | abort => rw [hra] at h; cases h
        | err rc => rw [hra] at h; cases h
        | ok off =>
          rw [hra] at h
          simp only [Prod.mk.injEq, Res.ok.injEq] at h
          obtain ⟨⟨h1, h2⟩, h3⟩ := h
          subst h1; subst h2; subst h3
          exact ⟨fun _ => rfl, Or.inr rfl, nffs_misc_reserve_space_area_ok _ _ _ _ hra⟩

theorem nffs_flash_write_ok (s : nffs_state) (i o : Nat) (data : List Nat) (s' : nffs_state)
    (h : nffs_flash_write s i o data = (.ok (), s')) :
    ∃ area, s.nffs_areas[i]? = some area ∧ o = area.na_cur ∧
      s' = { s with
        flash := mem_write s.flash (area.na_offset + o) data
        nffs_areas := s.nffs_areas.set i { area with na_cur := o + data.length } } := by
  unfold nffs_flash_write at h
  cases ha : s.nffs_areas[i]? with
  | none => simp [ha] at h
  | some area =>
    simp only [ha] at h
    split at h
    · cases h
    · split at h
      · cases h
      · split at h
        · cases h
        · next hcur _ _ =>
          simp only [Prod.mk.injEq, true_and] at h
          exact ⟨area, rfl, by simpa using hcur, h.symm⟩

theorem le32_at_le32 (n : Nat) (rest : List Nat) : le32_at (le32 n ++ rest) 0 = n % 2 ^ 32 := by
  simp only [le32_at, le32, List.cons_append, List.nil_append, List.getD_cons_zero,
    List.getD_cons_succ, Nat.zero_add]
  omega

theorem nffs_disk_inode.of_bytes_bytes (d : nffs_disk_inode) :
    nffs_disk_inode.of_bytes d.bytes =
      { ndi_magic := d.ndi_magic % 2 ^ 32, ndi_id := d.ndi_id % 2 ^ 32,
        ndi_seq := d.ndi_seq % 2 ^ 32, ndi_parent_id := d.ndi_parent_id % 2 ^ 32,
        reserved8 := d.reserved8 % 256, ndi_filename_len := d.ndi_filename_len % 256,
        ndi_crc16 := d.ndi_crc16 % 2 ^ 16 } := by
  simp only [nffs_disk_inode.of_bytes, nffs_disk_inode.bytes, le32_at, le32,
    List.cons_append, List.nil_append, List.getD_cons_zero, List.getD_cons_succ,
    Nat.zero_add, nffs_disk_inode.mk.injEq]
  refine ⟨?_, ?_, ?_, ?_, trivial, trivial, ?_⟩ <;> omega

theorem nffs_disk_inode.bytes_length (d : nffs_disk_inode) :
    d.bytes.length = NFFS_DISK_INODE_SZ := by
  simp [nffs_disk_inode.bytes, le32, NFFS_DISK_INODE_SZ]

theorem nffs_disk_inode.bytes_lt (d : nffs_disk_inode) : ∀ x ∈ d.bytes, x < 256 := by
  intro x hx
  simp only [nffs_disk_inode.bytes, le32, List.cons_append, List.nil_append, List.mem_cons,
    List.mem_singleton, List.not_mem_nil, or_false] at hx
  rcases hx with h | h | h | h | h | h | h | h | h | h | h | h | h | h | h | h | h | h | h | h <;>
    (subst h; exact Nat.mod_lt _ (by decide))

theorem getElem?_set_of_some (l : List nffs_area) (i : Nat) (a b : nffs_area)
    (h : l[i]? = some a) : (l.set i b)[i]? = some b := by
  have hi : i < l.length := by
    by_contra hn
    rw [List.getElem?_eq_none (by omega)] at h
    cases h
  exact List.getElem?_set_self hi

/-- A successful `nffs_inode_write_disk` leaves the header bytes at the given location and
the first `ndi_filename_len` bytes of the filename right behind them. -/
theorem nffs_inode_write_disk_ok (s : nffs_state) (d : nffs_disk_inode) (name : List Nat)
    (ai ao : Nat) (s' : nffs_state)
    (h : nffs_inode_write_disk s d name ai ao = (.ok (), s'))
    (hfn : d.ndi_filename_len ≤ name.length) :
    ∃ area area', s.nffs_areas[ai]? = some area ∧ ao = area.na_cur ∧
      s'.nffs_areas[ai]? = some area' ∧ area'.na_offset = area.na_offset ∧
      s'.inodes = s.inodes ∧
      mem_read s'.flash (area.na_offset + ao) NFFS_DISK_INODE_SZ = d.bytes ∧
      mem_read s'.flash (area.na_offset + ao + NFFS_DISK_INODE_SZ) d.ndi_filename_len
        = (name.take d.ndi_filename_len).map (· % 256) := by
  unfold nffs_inode_write_disk at h
  cases hw1 : nffs_flash_write s ai ao d.bytes with
  | mk r1 s1 =>
    rw [hw1] at h
    cases r1 with
    | abort => cases h
    | err rc => cases h
    | ok u =>
      simp only [] at h
      obtain ⟨area, ha, hcur, hs1⟩ := nffs_flash_write_ok s ai ao d.bytes s1 hw1
      have hhdr : mem_read (mem_write s.flash (area.na_offset + ao) d.bytes)
          (area.na_offset + ao) NFFS_DISK_INODE_SZ = d.bytes := by
        have := mem_read_write_same s.flash (area.na_offset + ao) d.bytes
        rw [nffs_disk_inode.bytes_length] at this
        rw [this, map_mod_of_lt _ (nffs_disk_inode.bytes_lt d)]
      have ha1 : s1.nffs_areas[ai]? = some { area with na_cur := ao + d.bytes.length } := by
        rw [hs1]
        exact getElem?_set_of_some _ _ _ _ ha
      by_cases hz : d.ndi_filename_len ≠ 0
      · rw [if_pos hz] at h
        cases hw2 : nffs_flash_write s1 ai (ao + NFFS_DISK_INODE_SZ)
            (name.take d.ndi_filename_len) with
        | mk r2 s2 =>
          rw [hw2] at h
          cases r2 with
          | abort => cases h
          | err rc => cases h
          | ok u2 =>
            simp only [Prod.mk.injEq, true_and] at h
            subst h
            obtain ⟨area1, ha1', _, hs2⟩ := nffs_flash_write_ok s1 ai _ _ s2 hw2
            rw [ha1] at ha1'
            cases ha1'
            have hlen : (name.take d.ndi_filename_len).length = d.ndi_filename_len := by
              rw [List.length_take]; omega
            have ha2 : s2.nffs_areas[ai]? = some
                { area with na_cur := ao + NFFS_DISK_INODE_SZ
                  + (name.take d.ndi_filename_len).length } := by
              rw [hs2]
              exact getElem?_set_of_some _ _ _ _ ha1
            refine ⟨area, _, ha, hcur, ha2, rfl, ?_, ?_, ?_⟩
            · rw [hs2, hs1]
            · rw [hs2]
              simp only []
              rw [mem_read_write_disjoint _ _ _ _ _
                (Or.inl (by simp only [NFFS_DISK_INODE_SZ]; omega))]
              rw [hs1]
              exact hhdr
            · rw [hs2]
              simp only []
              have := mem_read_write_same s1.flash (area.na_offset + (ao + NFFS_DISK_INODE_SZ))
                (name.take d.ndi_filename_len)
              rw [hlen] at this
              rw [← this, Nat.add_assoc]
      · rw [if_neg hz] at h
        simp only [Prod.mk.injEq, true_and] at h
        subst h
        have hz0 : d.ndi_filename_len = 0 := by simpa using hz
        refine ⟨area, _, ha, hcur, ha1, rfl, by rw [hs1], by rw [hs1]; exact hhdr, ?_⟩
        rw [hz0]
        simp [mem_read]

/-- The steps of a successful `nffs_inode_rename`. -/
theorem nffs_inode_rename_steps (env : nffs_env) (s s' : nffs_state) (inode_entry : Nat)
    (new_parent : Option Nat) (new_filename : Option (List Nat))
    (hok : nffs_inode_rename env s inode_entry new_parent new_filename = (.ok (), s')) :
    ∃ inode0 s1 inode s2 filename_len s3 area_idx area_offset s4 s5,
      nffs_inode_from_entry s inode_entry = (.ok inode0, s1) ∧
      nffs_inode_rename_reparent s1 inode0 new_parent = (.ok inode, s2) ∧
      nffs_inode_rename_filename s2 inode_entry inode new_filename = (.ok filename_len, s3) ∧
      nffs_misc_reserve_space env s3 (NFFS_DISK_INODE_SZ + filename_len)
        = (.ok (area_idx, area_offset), s4) ∧
      nffs_inode_write_disk s4
        (nffs_crc_disk_inode_fill env
          { ndi_magic := NFFS_INODE_MAGIC
            ndi_id := (s4.inodes inode_entry).nie_hash_entry.nhe_id
            ndi_seq := (inode.ni_seq + 1) % 2 ^ 32
            ndi_parent_id := nffs_inode_parent_id s4 inode
            reserved8 := env.uninit8
            ndi_filename_len := filename_len % 256
            ndi_crc16 := 0 }
          (nffs_inode_rename_name_bytes s4 new_filename filename_len))
        (nffs_inode_rename_name_bytes s4 new_filename filename_len) area_idx area_offset
        = (.ok (), s5) ∧
      s' = { s5 with
        inodes := Function.update s5.inodes inode_entry
          { s5.inodes inode_entry with
            nie_hash_entry :=
              { (s5.inodes inode_entry).nie_hash_entry with
                nhe_flash_loc := nffs_flash_loc area_idx area_offset } } } := by
  unfold nffs_inode_rename at hok
  cases h1 : nffs_inode_from_entry s inode_entry with
  | mk r1 s1 =>
    rw [h1] at hok
    cases r1 with
    | abort => cases hok
    | err rc => cases hok
    | ok inode0 =>
      simp only [] at hok
      cases h2 : nffs_inode_rename_reparent s1 inode0 new_parent with
      | mk r2 s2 =>
        rw [h2] at hok
        cases r2 with
        | abort => cases hok
        | err rc => cases hok
        | ok inode =>
          simp only [] at hok
          cases h3 : nffs_inode_rename_filename s2 inode_entry inode new_filename with
          | mk r3 s3 =>
            rw [h3] at hok
            cases r3 with
            | abort => cases hok
            | err rc => cases hok
            | ok filename_len =>
              simp only [] at hok
              cases h4 : nffs_misc_reserve_space env s3 (NFFS_DISK_INODE_SZ + filename_len) with
              | mk r4 s4 =>
                rw [h4] at hok
                cases r4 with
                | abort => cases hok
                | err rc => cases hok
                | ok loc =>
                  obtain ⟨area_idx, area_offset⟩ := loc
                  simp only [] at hok
                  cases h5 : nffs_inode_write_disk s4
                      (nffs_crc_disk_inode_fill env
                        { ndi_magic := NFFS_INODE_MAGIC
                          ndi_id := (s4.inodes inode_entry).nie_hash_entry.nhe_id
                          ndi_seq := (inode.ni_seq + 1) % 2 ^ 32
                          ndi_parent_id := nffs_inode_parent_id s4 inode
                          reserved8 := env.uninit8
                          ndi_filename_len := filename_len % 256
                          ndi_crc16 := 0 }
                        (nffs_inode_rename_name_bytes s4 new_filename filename_len))
                      (nffs_inode_rename_name_bytes s4 new_filename filename_len) area_idx
                      area_offset with
                  | mk r5 s5 =>
                    rw [h5] at hok
                    cases r5 with
                    | abort => cases hok
                    | err rc => cases hok
                    | ok u =>
                      simp only [Prod.mk.injEq, true_and] at hok
                      exact ⟨inode0, s1, inode, s2, filename_len, s3, area_idx, area_offset,
                        s4, s5, rfl, h2, h3, h4, h5, hok.symm⟩

theorem nffs_flash_write_inodes (s : nffs_state) (i o : Nat) (data : List Nat) :
    (nffs_flash_write s i o data).2.inodes = s.inodes := by
  unfold nffs_flash_write
  repeat' split
  all_goals rfl

theorem nffs_inode_write_disk_inodes (s : nffs_state) (d : nffs_disk_inode)
    (name : List Nat) (ai ao : Nat) :
    (nffs_inode_write_disk s d name ai ao).2.inodes = s.inodes := by
  unfold nffs_inode_write_disk
  have h1 := nffs_flash_write_inodes s ai ao d.bytes
  cases hw1 : nffs_flash_write s ai ao d.bytes with
  | mk r1 s1 =>
    rw [hw1] at h1
    simp only [] at h1
    cases r1 with
    | abort => exact h1
    | err rc => exact h1
    | ok u =>
      simp only []
      split
      · have h2 := nffs_flash_write_inodes s1 ai (ao + NFFS_DISK_INODE_SZ)
          (name.take d.ndi_filename_len)
        cases hw2 : nffs_flash_write s1 ai (ao + NFFS_DISK_INODE_SZ)
            (name.take d.ndi_filename_len) with
        | mk r2 s2 =>
          rw [hw2] at h2
          simp only [] at h2
          cases r2 <;> exact h2.trans h1
      · exact h1

theorem nffs_inode_rename_filename_inodes (s : nffs_state) (inode_entry : Nat)
    (inode : nffs_inode) (new_filename : Option (List Nat)) :
    (nffs_inode_rename_filename s inode_entry inode new_filename).2.inodes = s.inodes := by
  unfold nffs_inode_rename_filename
  cases new_filename with
  | some name => rfl
  | none =>
    simp only []
    split <;> rfl

/-- Whatever `nffs_misc_reserve_space` returns, it leaves the state as it was or as the
garbage collector left it: ids, child lists and reference counts are as before, and a
flash location is as before or the one the collector set. -/
theorem nffs_misc_reserve_space_frame (env : nffs_env) (s : nffs_state) (space : Nat) :
    (nffs_misc_reserve_space env s space).2 = s ∨
    (nffs_misc_reserve_space env s space).2
      = (env.nffs_gc_until (space % 2 ^ 16) s).2.apply s := by
  unfold nffs_misc_reserve_space
  simp only []
  cases nffs_misc_reserve_space_loop s (space % 2 ^ 16) (List.range s.nffs_areas.length) with
  | some r => left; rfl
  | none =>
    right
    simp only []
    cases hg : env.nffs_gc_until (space % 2 ^ 16) s with
    | mk gr g =>
      cases gr with
      | abort => rfl
      | err rc => rfl
      | ok area_idx =>
        simp only []
        split <;> rfl

/-- The heap after a failed `nffs_inode_rename`: it is the heap `sm.inodes` left by the
parent block (the heap from before the call if that block did not run), possibly with
the flash locations rewritten by the garbage collector. -/
theorem nffs_inode_rename_err_heap (env : nffs_env) (s s' : nffs_state) (inode_entry : Nat)
    (new_parent : Option Nat) (new_filename : Option (List Nat)) (rc : Nat)
    (herr : nffs_inode_rename env s inode_entry new_parent new_filename = (.err rc, s')) :
    ∃ sm, same_records s sm ∧
      ((∀ inode0 s1, nffs_inode_from_entry s inode_entry = (.ok inode0, s1) →
        inode0.ni_parent = new_parent) → sm.inodes = s.inodes) ∧
      (s'.inodes = sm.inodes ∨
        ∃ space st, st.inodes = sm.inodes ∧
          s'.inodes = ((env.nffs_gc_until space st).2.apply st).inodes) := by
  unfold nffs_inode_rename at herr
  obtain ⟨t1, ht1⟩ := nffs_inode_from_entry_frame s inode_entry
  cases h1 : nffs_inode_from_entry s inode_entry with
  | mk r1 s1 =>
    rw [h1] at herr ht1
    simp only [] at ht1
    have hsr1 : same_records s s1 := by rw [ht1]; exact same_records_hash_buf s t1 _
    have hin1 : s1.inodes = s.inodes := by rw [ht1]
    cases r1 with
    | abort => cases herr
    | err rc1 =>
      simp only [Prod.mk.injEq] at herr
      obtain ⟨_, hs⟩ := herr
      subst hs
      exact ⟨s1, hsr1, fun _ => hin1, Or.inl rfl⟩
    | ok inode0 =>
      simp only [] at herr
      obtain ⟨hsr2', hinode⟩ := nffs_inode_rename_reparent_spec s1 inode0 new_parent
      have hsame2 : inode0.ni_parent = new_parent →
          (nffs_inode_rename_reparent s1 inode0 new_parent).2 = s1 := by
        intro hp
        unfold nffs_inode_rename_reparent
        rw [if_neg (by simpa using hp)]
      cases h2 : nffs_inode_rename_reparent s1 inode0 new_parent with
      | mk r2 s2 =>
        rw [h2] at herr hsr2' hsame2
        simp only [] at hsr2' hsame2
        have hsr2 : same_records s s2 := same_records_trans hsr1 hsr2'
        have hin2 : (∀ i0 s0, (Res.ok inode0, s1) = (Res.ok i0, s0) →
            i0.ni_parent = new_parent) → s2.inodes = s.inodes := by
          intro hs
          rw [hsame2 (hs inode0 s1 rfl)]
          exact hin1
        cases r2 with
        | abort => cases herr
        | err rc2 =>
          simp only [Prod.mk.injEq] at herr
          obtain ⟨_, hs⟩ := herr
          subst hs
          exact ⟨s2, hsr2, hin2, Or.inl rfl⟩
        | ok inode =>
          simp only [] at herr
          have hin3 := nffs_inode_rename_filename_inodes s2 inode_entry inode new_filename
          cases h3 : nffs_inode_rename_filename s2 inode_entry inode new_filename with
          | mk r3 s3 =>
            rw [h3] at herr hin3
            simp only [] at hin3
            cases r3 with
            | abort => cases herr
            | err rc3 =>
              simp only [Prod.mk.injEq] at herr
              obtain ⟨_, hs⟩ := herr
              subst hs
              exact ⟨s2, hsr2, hin2, Or.inl hin3⟩
            | ok filename_len =>
              simp only [] at herr
              have hfr := nffs_misc_reserve_space_frame env s3 (NFFS_DISK_INODE_SZ + filename_len)
              cases h4 : nffs_misc_reserve_space env s3 (NFFS_DISK_INODE_SZ + filename_len) with
              | mk r4 s4 =>
                rw [h4] at herr hfr
                simp only [] at hfr
                have hin4 : s4.inodes = s2.inodes ∨
                    ∃ space st, st.inodes = s2.inodes ∧
                      s4.inodes = ((env.nffs_gc_until space st).2.apply st).inodes := by
                  rcases hfr with h | h
                  · left; rw [h, hin3]
                  · right; exact ⟨_, s3, hin3, by rw [h]⟩
                cases r4 with
                | abort => cases herr
                | err rc4 =>
                  simp only [Prod.mk.injEq] at herr
                  obtain ⟨_, hs⟩ := herr
                  subst hs
                  exact ⟨s2, hsr2, hin2, hin4⟩
                | ok loc =>
                  obtain ⟨area_idx, area_offset⟩ := loc
                  simp only [] at herr
                  have hin5 := nffs_inode_write_disk_inodes s4
                    (nffs_crc_disk_inode_fill env
                      { ndi_magic := NFFS_INODE_MAGIC
                        ndi_id := (s4.inodes inode_entry).nie_hash_entry.nhe_id
                        ndi_seq := (inode.ni_seq + 1) % 2 ^ 32
                        ndi_parent_id := nffs_inode_parent_id s4 inode
                        reserved8 := env.uninit8
                        ndi_filename_len := filename_len % 256
                        ndi_crc16 := 0 }
                      (nffs_inode_rename_name_bytes s4 new_filename filename_len))
                    (nffs_inode_rename_name_bytes s4 new_filename filename_len) area_idx
                    area_offset
                  cases h5 : nffs_inode_write_disk s4
                      (nffs_crc_disk_inode_fill env
                        { ndi_magic := NFFS_INODE_MAGIC
                          ndi_id := (s4.inodes inode_entry).nie_hash_entry.nhe_id
                          ndi_seq := (inode.ni_seq + 1) % 2 ^ 32
                          ndi_parent_id := nffs_inode_parent_id s4 inode
                          reserved8 := env.uninit8
                          ndi_filename_len := filename_len % 256
                          ndi_crc16 := 0 }
                        (nffs_inode_rename_name_bytes s4 new_filename filename_len))
                      (nffs_inode_rename_name_bytes s4 new_filename filename_len) area_idx
                      area_offset with
                  | mk r5 s5 =>
                    rw [h5] at herr hin5
                    simp only [] at hin5
                    cases r5 with
                    | abort => cases herr
                    | ok u => cases herr
                    | err rc5 =>
                      simp only [Prod.mk.injEq] at herr
                      obtain ⟨_, hs⟩ := herr
                      subst hs
                      refine ⟨s2, hsr2, hin2, ?_⟩
                      rcases hin4 with h | ⟨space, st, hst, h⟩
                      · left; rw [hin5, h]
                      · right; exact ⟨space, st, hst, by rw [hin5, h]⟩


/-- The child lists and reference counts after a successful `nffs_inode_rename` are
those left by its parent block. -/
theorem nffs_inode_rename_ok_children (env : nffs_env) (s s' : nffs_state)
    (inode_entry : Nat) (new_parent : Option Nat) (new_filename : Option (List Nat))
    (hok : nffs_inode_rename env s inode_entry new_parent new_filename = (.ok (), s')) :
    ∃ inode0 s1 inode s2, nffs_inode_from_entry s inode_entry = (.ok inode0, s1) ∧
      s1.inodes = s.inodes ∧ same_records s s1 ∧
      nffs_inode_rename_reparent s1 inode0 new_parent = (.ok inode, s2) ∧
      ∀ x, (s'.inodes x).nie_child_list = (s2.inodes x).nie_child_list ∧
        (s'.inodes x).nie_refcnt = (s2.inodes x).nie_refcnt := by
  obtain ⟨inode0, s1, inode, s2, filename_len, s3, area_idx, area_offset, s4, s5,
    h1, h2, h3, h4, h5, hs'⟩ := nffs_inode_rename_steps env s s' inode_entry new_parent
      new_filename hok
  obtain ⟨t1, ht1⟩ := nffs_inode_from_entry_frame s inode_entry
  rw [h1] at ht1
  simp only [] at ht1
  have hin3 := nffs_inode_rename_filename_inodes s2 inode_entry inode new_filename
  rw [h3] at hin3
  simp only [] at hin3
  have hfr := nffs_misc_reserve_space_frame env s3 (NFFS_DISK_INODE_SZ + filename_len)
  rw [h4] at hfr
  simp only [] at hfr
  have hin5 : s5.inodes = s4.inodes := by
    have h := congrArg (fun r => r.2.inodes) h5
    simp only [] at h
    rw [← h]
    exact nffs_inode_write_disk_inodes _ _ _ _ _
  refine ⟨inode0, s1, inode, s2, h1, by rw [ht1], by rw [ht1]; exact same_records_hash_buf s t1 _,
    h2, fun x => ?_⟩
  have h4x : (s4.inodes x).nie_child_list = (s2.inodes x).nie_child_list ∧
      (s4.inodes x).nie_refcnt = (s2.inodes x).nie_refcnt := by
    rcases hfr with h | h
    · rw [h, hin3]; exact ⟨rfl, rfl⟩
    · rw [h]
      simp only [nffs_gc_effect.apply, hin3]
      exact ⟨trivial, trivial⟩
  rw [hs']
  simp only []
  by_cases hx : x = inode_entry
  · subst hx
    simp only [Function.update_same, hin5]
    exact h4x
  · simp only [Function.update_noteq hx, hin5]
    exact h4x

theorem nffs_inode_remove_child_children (s : nffs_state) (child : nffs_inode)
    (s' : nffs_state) (h : nffs_inode_remove_child s child = (.ok (), s')) :
    ∃ p, child.ni_parent = some p ∧ ∀ x, x ≠ p → s'.inodes x = s.inodes x := by
  unfold nffs_inode_remove_child at h
  cases hp : child.ni_parent with
  | none => simp [hp] at h
  | some p =>
    simp only [hp] at h
    split at h
    · cases h
    · split at h
      · cases h
      · simp only [Prod.mk.injEq, true_and] at h
        subst h
        exact ⟨p, rfl, fun x hx => by simp [Function.update_noteq hx]⟩

theorem filename_le_congr {s s' : nffs_state} {a b : Nat}
    (ha : inode_filename s' a = inode_filename s a)
    (hb : inode_filename s' b = inode_filename s b) (h : filename_le s a b) :
    filename_le s' a b := by
  unfold filename_le at h ⊢
  rw [ha, hb]
  exact h

/-- The parent block of `nffs_inode_rename` when the parent changes to the directory
`np`, whose child list is sorted: the entry is inserted into that list, which stays
sorted by the filenames in effect. -/
theorem nffs_inode_rename_reparent_sorted (s1 s2 : nffs_state) (inode0 inode : nffs_inode)
    (np : Nat) (hpar : inode0.ni_parent ≠ some np)
    (hnames : ∀ x ∈ inode0.ni_inode_entry :: (s1.inodes np).nie_child_list,
      ∃ n, has_filename s1 x n)
    (hsorted : (s1.inodes np).nie_child_list.Pairwise (filename_le s1))
    (h : nffs_inode_rename_reparent s1 inode0 (some np) = (.ok inode, s2)) :
    ∃ pre post, (s1.inodes np).nie_child_list = pre ++ post ∧
      (s2.inodes np).nie_child_list = pre ++ inode0.ni_inode_entry :: post ∧
      (s2.inodes np).nie_child_list.Pairwise (filename_le s1) := by
  unfold nffs_inode_rename_reparent at h
  rw [if_pos hpar] at h
  -- the state after the removal from the old parent
  obtain ⟨rm, hrm⟩ : ∃ rm : Res Unit × nffs_state, rm =
      (if inode0.ni_parent ≠ none then nffs_inode_remove_child s1 inode0 else (.ok (), s1)) :=
    ⟨_, rfl⟩
  rw [← hrm] at h
  obtain ⟨r1, sr⟩ := rm
  cases r1 with
  | abort => cases h
  | err rc => cases h
  | ok u =>
    simp only [] at h
    have hsr : same_records s1 sr := by
      have := congrArg Prod.snd hrm
      simp only [] at this
      rw [this]
      split
      · exact nffs_inode_remove_child_same_records s1 inode0
      · exact same_records_refl s1
    have hnp : sr.inodes np = s1.inodes np := by
      by_cases hn : inode0.ni_parent ≠ none
      · rw [if_pos hn] at hrm
        obtain ⟨p, hp, hx⟩ := nffs_inode_remove_child_children s1 inode0 sr hrm.symm
        apply hx
        intro hnpp
        apply hpar
        rw [hp, hnpp]
      · rw [if_neg hn] at hrm
        cases hrm
        rfl
    cases hac : nffs_inode_add_child sr np inode0.ni_inode_entry with
    | mk r2 s2' =>
      rw [hac] at h
      cases r2 with
      | abort => cases h
      | err rc => cases h
      | ok u2 =>
        simp only [Prod.mk.injEq, Res.ok.injEq] at h
        obtain ⟨_, hs2⟩ := h
        subst hs2
        have hnames' : ∀ e ∈ inode0.ni_inode_entry :: (sr.inodes np).nie_child_list,
            ∃ n, has_filename sr e n := by
          intro e he
          rw [hnp] at he
          obtain ⟨n, hn, hz⟩ := hnames e he
          exact ⟨n, by rw [inode_filename_same_records hsr]; exact hn, hz⟩
        have hsorted' : (sr.inodes np).nie_child_list.Pairwise (filename_le sr) := by
          rw [hnp]
          exact hsorted.imp (fun {a b} hab =>
            filename_le_congr (inode_filename_same_records hsr a)
              (inode_filename_same_records hsr b) hab)
        obtain ⟨pre, post, hl1, hl2, _, _, _, _, _, _, _, _, _, hp⟩ :=
          nffs_inode_add_child_spec sr s2' np inode0.ni_inode_entry hnames' hsorted' hac
        refine ⟨pre, post, by rw [← hnp]; exact hl1, hl2, ?_⟩
        exact hp.imp (fun {a b} hab =>
          filename_le_congr (inode_filename_same_records hsr a).symm
            (inode_filename_same_records hsr b).symm hab)


/-! ## Facts about the example file system -/

theorem ex_state_root_sorted :
    List.Pairwise (filename_le (ex_state 4096)) ((ex_state 4096).inodes 100).nie_child_list := by
  have hl : ((ex_state 4096).inodes 100).nie_child_list = [101, 102, 104] := by decide
  rw [hl]
  refine List.pairwise_cons.mpr ⟨?_, List.pairwise_cons.mpr ⟨?_, List.pairwise_singleton _ _⟩⟩
  · intro b hb
    simp only [List.mem_cons, List.mem_singleton, List.not_mem_nil, or_false] at hb
    rcases hb with rfl | rfl
    · exact ⟨[97], [99], by decide, by decide, by decide⟩
    · exact ⟨[97], [100], by decide, by decide, by decide⟩
  · intro b hb
    simp only [List.mem_singleton] at hb
    subst hb
    exact ⟨[99], [100], by decide, by decide, by decide⟩

/-! ## The inode tree: claims -/

/-- C1: for a directory whose child list is sorted ascending by filename (byte-wise, a
proper prefix before the longer name; every filename a readable C string, that is without
NUL byte) and an entry `child` that is not in the list, a successful
`nffs_inode_add_child(parent, child)` yields the old list `pre ++ post` with `child`
inserted, `pre ++ child :: post`: every entry of `pre` has a name smaller than or equal
to the child's, every entry of `post` a name strictly greater, the other entries keep
their order, no filename changes, and the new list is sorted ascending. -/
theorem nffs_inode_add_child_sorted (s s' : nffs_state) (parent child : Nat)
    (hnames : ∀ e ∈ child :: (s.inodes parent).nie_child_list, ∃ n, has_filename s e n)
    (hsorted : (s.inodes parent).nie_child_list.Pairwise (filename_le s))
    (_hnotin : child ∉ (s.inodes parent).nie_child_list)
    (hok : nffs_inode_add_child s parent child = (.ok (), s')) :
    ∃ pre post, (s.inodes parent).nie_child_list = pre ++ post ∧
      (s'.inodes parent).nie_child_list = pre ++ child :: post ∧
      (∀ x ∈ pre, filename_le s x child) ∧ (∀ y ∈ post, filename_lt s child y) ∧
      (∀ e, inode_filename s' e = inode_filename s e) ∧
      (s'.inodes parent).nie_child_list.Pairwise (filename_le s') := by
  obtain ⟨pre, post, h1, h2, h3, h4, _, _, _, _, _, _, h5, h6⟩ :=
    nffs_inode_add_child_spec s s' parent child hnames hsorted hok
  refine ⟨pre, post, h1, h2, h3, h4, h5, ?_⟩
  have hle : ∀ a b, filename_le s a b → filename_le s' a b := by
    intro a b hab
    unfold filename_le at hab ⊢
    rw [h5 a, h5 b]
    exact hab
  exact h6.imp (fun {a b} hab => hle a b hab)

theorem nffs_inode_add_child_sorted_witness :
    ∃ pre post, ((ex_state 4096).inodes 100).nie_child_list = pre ++ post ∧
      (((nffs_inode_add_child (ex_state 4096) 100 103).2).inodes 100).nie_child_list
        = pre ++ 103 :: post ∧
      (∀ x ∈ pre, filename_le (ex_state 4096) x 103) ∧
      (∀ y ∈ post, filename_lt (ex_state 4096) 103 y) ∧
      (∀ e, inode_filename (nffs_inode_add_child (ex_state 4096) 100 103).2 e
        = inode_filename (ex_state 4096) e) ∧
      (((nffs_inode_add_child (ex_state 4096) 100 103).2).inodes 100).nie_child_list.Pairwise
        (filename_le (nffs_inode_add_child (ex_state 4096) 100 103).2) := by
  have hn : ∀ e ∈ [103, 101, 102, 104], ∃ n, has_filename (ex_state 4096) e n := by
    intro e he
    simp only [List.mem_cons, List.mem_singleton, List.not_mem_nil, or_false] at he
    rcases he with rfl | rfl | rfl | rfl
    · exact ⟨[98], by decide, by decide⟩
    · exact ⟨[97], by decide, by decide⟩
    · exact ⟨[99], by decide, by decide⟩
    · exact ⟨[100], by decide, by decide⟩
  exact nffs_inode_add_child_sorted (ex_state 4096)
    (nffs_inode_add_child (ex_state 4096) 100 103).2 100 103 hn ex_state_root_sorted
    (by decide)
    (Prod.ext (by decide) rfl)

/-- What a successful `nffs_inode_rename` does to the child lists: (1) when `new_parent`
is the parent that `nffs_inode_from_entry` finds for the entry, no child list has changed,
so the entry is not sorted again under its new name; (2)
when `new_parent` is a directory different from that parent whose child list was sorted
ascending by filename (readable C strings) and did not hold the entry, the entry is in
`new_parent`'s child list, the other entries keep their order, and the list is sorted
ascending by the filenames of the records the entries now reference provided these are
the filenames the entry and the other children had before the call. -/
theorem nffs_inode_rename_sorted (env : nffs_env) (s s' : nffs_state) (inode_entry : Nat)
    (new_parent : Option Nat) (new_filename : Option (List Nat))
    (hok : nffs_inode_rename env s inode_entry new_parent new_filename = (.ok (), s')) :
    ((∀ inode0 s1, nffs_inode_from_entry s inode_entry = (.ok inode0, s1) →
        inode0.ni_parent = new_parent) →
      ∀ x, (s'.inodes x).nie_child_list = (s.inodes x).nie_child_list) ∧
    (∀ np, new_parent = some np →
      (∀ inode0 s1, nffs_inode_from_entry s inode_entry = (.ok inode0, s1) →
        inode0.ni_parent ≠ some np) →
      (∀ x ∈ inode_entry :: (s.inodes np).nie_child_list, ∃ n, has_filename s x n) →
      (s.inodes np).nie_child_list.Pairwise (filename_le s) →
      inode_entry ∉ (s.inodes np).nie_child_list →
      ∃ pre post, (s.inodes np).nie_child_list = pre ++ post ∧
        (s'.inodes np).nie_child_list = pre ++ inode_entry :: post ∧
        ((∀ x ∈ inode_entry :: (s.inodes np).nie_child_list,
            inode_filename s' x = inode_filename s x) →
          (s'.inodes np).nie_child_list.Pairwise (filename_le s'))) := by
  obtain ⟨inode0, s1, inode, s2, h1, hin1, hsr1, h2, hch⟩ :=
    nffs_inode_rename_ok_children env s s' inode_entry new_parent new_filename hok
  obtain ⟨hent, _⟩ := nffs_inode_from_entry_ok s inode_entry inode0 s1 h1
  constructor
  · intro hsame x
    have hp := hsame inode0 s1 h1
    have : s2 = s1 := by
      unfold nffs_inode_rename_reparent at h2
      rw [if_neg (by simpa using hp)] at h2
      simp only [Prod.mk.injEq] at h2
      exact h2.2.symm
    rw [(hch x).1, this, hin1]
  · intro np hnp hpar hnames hsorted _
    subst hnp
    have hnames1 : ∀ x ∈ inode0.ni_inode_entry :: (s1.inodes np).nie_child_list,
        ∃ n, has_filename s1 x n := by
      intro x hx
      rw [hent, hin1] at hx
      obtain ⟨n, hn, hz⟩ := hnames x hx
      exact ⟨n, by rw [inode_filename_same_records hsr1]; exact hn, hz⟩
    have hsorted1 : (s1.inodes np).nie_child_list.Pairwise (filename_le s1) := by
      rw [hin1]
      exact hsorted.imp (fun {a b} hab =>
        filename_le_congr (inode_filename_same_records hsr1 a)
          (inode_filename_same_records hsr1 b) hab)
    obtain ⟨pre, post, hl1, hl2, hp⟩ := nffs_inode_rename_reparent_sorted s1 s2 inode0 inode
      np (hpar inode0 s1 h1) hnames1 hsorted1 h2
    rw [hent] at hl2
    rw [hin1] at hl1
    refine ⟨pre, post, hl1, by rw [(hch np).1]; exact hl2, ?_⟩
    intro hkeep
    rw [(hch np).1]
    have hmem : ∀ x ∈ (s2.inodes np).nie_child_list,
        x ∈ inode_entry :: (s.inodes np).nie_child_list := by
      intro x hx
      rw [hl2] at hx
      rw [hl1]
      simp only [List.mem_append, List.mem_cons] at hx ⊢
      tauto
    refine List.Pairwise.imp_of_mem ?_ hp
    intro a b ha hb hab
    exact filename_le_congr
      ((hkeep a (hmem a ha)).trans (inode_filename_same_records hsr1 a).symm)
      ((hkeep b (hmem b hb)).trans (inode_filename_same_records hsr1 b).symm) hab

theorem nffs_inode_rename_sorted_witness :
    ∃ pre post, ((ex_state 4096).inodes 104).nie_child_list = pre ++ post ∧
      (((nffs_inode_rename ex_env (ex_state 4096) 101 (some 104) (some [97])).2).inodes
        104).nie_child_list = pre ++ 101 :: post ∧
      List.Pairwise
        (filename_le (nffs_inode_rename ex_env (ex_state 4096) 101 (some 104) (some [97])).2)
        (((nffs_inode_rename ex_env (ex_state 4096) 101 (some 104) (some [97])).2).inodes
          104).nie_child_list := by
  have h := (nffs_inode_rename_sorted ex_env (ex_state 4096)
    (nffs_inode_rename ex_env (ex_state 4096) 101 (some 104) (some [97])).2 101 (some 104)
    (some [97]) (Prod.ext (by decide) rfl)).2 104 rfl
  have hpar : ∀ inode0 s1, nffs_inode_from_entry (ex_state 4096) 101 = (.ok inode0, s1) →
      inode0.ni_parent ≠ some 104 := by
    intro inode0 s1 hfe
    have hp : (nffs_inode_from_entry (ex_state 4096) 101).1
        = .ok { ni_inode_entry := 101, ni_seq := 5, ni_parent := some 100,
                ni_filename_len := 1, ni_filename := [97] } := by decide
    rw [hfe] at hp
    simp only [Res.ok.injEq] at hp
    rw [hp]
    decide
  have hl : ((ex_state 4096).inodes 104).nie_child_list = [105] := by decide
  have hnames : ∀ x ∈ 101 :: ((ex_state 4096).inodes 104).nie_child_list,
      ∃ n, has_filename (ex_state 4096) x n := by
    intro x hx
    rw [hl] at hx
    simp only [List.mem_cons, List.mem_singleton, List.not_mem_nil, or_false] at hx
    rcases hx with rfl | rfl
    · exact ⟨[97], by decide, by decide⟩
    · exact ⟨[109], by decide, by decide⟩
  obtain ⟨pre, post, h1, h2, h3⟩ := h hpar hnames (by rw [hl]; exact List.pairwise_singleton _ _)
    (by decide)
  refine ⟨pre, post, h1, h2, h3 ?_⟩
  intro x hx
  rw [hl] at hx
  simp only [List.mem_cons, List.mem_singleton, List.not_mem_nil, or_false] at hx
  rcases hx with rfl | rfl <;> decide

/-- C2 (the code at the failing input): in the example file system, whose root lists "a",
"c", "d" in ascending order, renaming "a" to "z" within the root returns 0 and leaves the
entry at the head of the list, which then reads "z", "c", "d" and is not sorted; renaming
"a" to "z" into directory "d", which lists "m", returns 0 and puts the entry before "m",
where its old name belongs, so that the list reads "z", "m" and is not sorted.  In both
cases the records that the entries reference afterwards carry the names given here. -/
theorem nffs_inode_rename_breaks_order :
    List.Pairwise (filename_le (ex_state 4096)) ((ex_state 4096).inodes 100).nie_child_list ∧
    (nffs_inode_rename ex_env (ex_state 4096) 101 (some 100) (some [122])).1 = .ok () ∧
    ((nffs_inode_rename ex_env (ex_state 4096) 101 (some 100) (some [122])).2.inodes
      100).nie_child_list = [101, 102, 104] ∧
    inode_filename (nffs_inode_rename ex_env (ex_state 4096) 101 (some 100) (some [122])).2
      101 = some [122] ∧
    inode_filename (nffs_inode_rename ex_env (ex_state 4096) 101 (some 100) (some [122])).2
      102 = some [99] ∧
    ¬ List.Pairwise
      (filename_le (nffs_inode_rename ex_env (ex_state 4096) 101 (some 100) (some [122])).2)
      ((nffs_inode_rename ex_env (ex_state 4096) 101 (some 100) (some [122])).2.inodes
        100).nie_child_list ∧
    (nffs_inode_rename ex_env (ex_state 4096) 101 (some 104) (some [122])).1 = .ok () ∧
    ((nffs_inode_rename ex_env (ex_state 4096) 101 (some 104) (some [122])).2.inodes
      104).nie_child_list = [101, 105] ∧
    inode_filename (nffs_inode_rename ex_env (ex_state 4096) 101 (some 104) (some [122])).2
      101 = some [122] ∧
    inode_filename (nffs_inode_rename ex_env (ex_state 4096) 101 (some 104) (some [122])).2
      105 = some [109] ∧
    ¬ List.Pairwise
      (filename_le (nffs_inode_rename ex_env (ex_state 4096) 101 (some 104) (some [122])).2)
      ((nffs_inode_rename ex_env (ex_state 4096) 101 (some 104) (some [122])).2.inodes
        104).nie_child_list := by
  have hA1 : inode_filename
      (nffs_inode_rename ex_env (ex_state 4096) 101 (some 100) (some [122])).2 101
        = some [122] := by decide
  have hA2 : inode_filename
      (nffs_inode_rename ex_env (ex_state 4096) 101 (some 100) (some [122])).2 102
        = some [99] := by decide
  have hAl : ((nffs_inode_rename ex_env (ex_state 4096) 101 (some 100) (some [122])).2.inodes
      100).nie_child_list = [101, 102, 104] := by decide
  have hB1 : inode_filename
      (nffs_inode_rename ex_env (ex_state 4096) 101 (some 104) (some [122])).2 101
        = some [122] := by decide
  have hB2 : inode_filename
      (nffs_inode_rename ex_env (ex_state 4096) 101 (some 104) (some [122])).2 105
        = some [109] := by decide
  have hBl : ((nffs_inode_rename ex_env (ex_state 4096) 101 (some 104) (some [122])).2.inodes
      104).nie_child_list = [101, 105] := by decide
  refine ⟨ex_state_root_sorted, by decide, hAl, hA1, hA2, ?_, by decide, hBl, hB1, hB2, ?_⟩
  · rw [hAl]
    intro hp
    obtain ⟨na, nb, ha, hb, hle⟩ := (List.pairwise_cons.mp hp).1 102 (by simp)
    rw [hA1] at ha
    rw [hA2] at hb
    cases ha
    cases hb
    exact hle (by decide)
  · rw [hBl]
    intro hp
    obtain ⟨na, nb, ha, hb, hle⟩ := (List.pairwise_cons.mp hp).1 105 (by simp)
    rw [hB1] at ha
    rw [hB2] at hb
    cases ha
    cases hb
    exact hle (by decide)

/-- C3 (amended): for a successful `nffs_inode_rename` whose `new_filename`, when not
NULL, is at most 255 bytes long, and whose space reservation, when `new_filename` is
NULL, does not overwrite `nffs_flash_buf`: with `old` the record the entry referenced
and (`area_idx`, `area_offset`) the location returned by the reservation of
20 + filename length bytes, the record then found at that location carries the inode
magic, the entry's object id, the sequence number `old.ndi_seq + 1` (as a 32-bit value),
the id of `new_parent` (`NFFS_ID_NONE` when it is NULL) and the length of the filename,
and is followed by exactly the filename bytes (those of `new_filename`, or the old
filename when it is NULL); the entry's `nhe_flash_loc` is the packed location. -/
theorem nffs_inode_rename_record (env : nffs_env) (s s' : nffs_state) (inode_entry : Nat)
    (new_parent : Option Nat) (new_filename : Option (List Nat))
    (hok : nffs_inode_rename env s inode_entry new_parent new_filename = (.ok (), s'))
    (hlen : ∀ nm, new_filename = some nm → strlen nm ≤ 255)
    (hgc : new_filename = none → ∀ space st,
      (env.nffs_gc_until space st).2.nffs_flash_buf = st.nffs_flash_buf) :
    ∃ old name area_idx area_offset area s3 s4,
      nffs_inode_read_disk s
        (nffs_flash_loc_expand (s.inodes inode_entry).nie_hash_entry.nhe_flash_loc).1
        (nffs_flash_loc_expand (s.inodes inode_entry).nie_hash_entry.nhe_flash_loc).2
        = .ok old ∧
      (∀ nm, new_filename = some nm → name = (nm.take (strlen nm)).map (· % 256)) ∧
      (new_filename = none → inode_filename s inode_entry = some name) ∧
      same_records s s3 ∧
      nffs_misc_reserve_space env s3 (NFFS_DISK_INODE_SZ + name.length)
        = (.ok (area_idx, area_offset), s4) ∧
      s'.nffs_areas[area_idx]? = some area ∧
      (nffs_disk_inode.of_bytes (mem_read s'.flash (area.na_offset + area_offset)
        NFFS_DISK_INODE_SZ)).ndi_magic = NFFS_INODE_MAGIC ∧
      (nffs_disk_inode.of_bytes (mem_read s'.flash (area.na_offset + area_offset)
        NFFS_DISK_INODE_SZ)).ndi_id = (s.inodes inode_entry).nie_hash_entry.nhe_id % 2 ^ 32 ∧
      (nffs_disk_inode.of_bytes (mem_read s'.flash (area.na_offset + area_offset)
        NFFS_DISK_INODE_SZ)).ndi_seq = (old.ndi_seq + 1) % 2 ^ 32 ∧
      (nffs_disk_inode.of_bytes (mem_read s'.flash (area.na_offset + area_offset)
        NFFS_DISK_INODE_SZ)).ndi_parent_id =
          (match new_parent with
            | none => NFFS_ID_NONE
            | some p => (s.inodes p).nie_hash_entry.nhe_id % 2 ^ 32) ∧
      (nffs_disk_inode.of_bytes (mem_read s'.flash (area.na_offset + area_offset)
        NFFS_DISK_INODE_SZ)).ndi_filename_len = name.length ∧
      mem_read s'.flash (area.na_offset + area_offset + NFFS_DISK_INODE_SZ) name.length
        = name ∧
      (s'.inodes inode_entry).nie_hash_entry.nhe_flash_loc
        = nffs_flash_loc area_idx area_offset := by
  obtain ⟨inode0, s1, inode, s2, filename_len, s3, area_idx, area_offset, s4, s5,
    h1, h2, h3, h4, h5, hs'⟩ := nffs_inode_rename_steps env s s' inode_entry new_parent
      new_filename hok
  -- the record the entry referenced
  obtain ⟨_, hl255, old, hold, hseq, hfl, _, _⟩ :=
    nffs_inode_from_entry_ok s inode_entry inode0 s1 h1
  obtain ⟨t1, ht1⟩ := nffs_inode_from_entry_frame s inode_entry
  rw [h1] at ht1
  simp only [] at ht1
  have hsr1 : same_records s s1 := by rw [ht1]; exact same_records_hash_buf s t1 _
  -- the parent block
  obtain ⟨hsr2', hinode⟩ := nffs_inode_rename_reparent_spec s1 inode0 new_parent
  rw [h2] at hsr2' hinode
  simp only [] at hsr2' hinode
  have hinode := hinode inode rfl
  have hsr2 : same_records s s2 := same_records_trans hsr1 hsr2'
  -- the filename block
  obtain ⟨hsr3', _, hsome, hnone⟩ :=
    nffs_inode_rename_filename_spec s2 inode_entry inode new_filename filename_len s3 h3
  have hsr3 : same_records s s3 := same_records_trans hsr2 hsr3'
  -- the reservation
  obtain ⟨hids, hbuf, area4, ha4, hcur4⟩ :=
    nffs_misc_reserve_space_ok env s3 _ area_idx area_offset s4 h4
  have hid4 : ∀ e, (s4.inodes e).nie_hash_entry.nhe_id = (s.inodes e).nie_hash_entry.nhe_id :=
    fun e => by rw [hids e, hsr3.1 e]
  have hflen : filename_len ≤ 255 := by
    cases hnf : new_filename with
    | some nm => rw [hsome nm hnf]; exact hlen nm hnf
    | none => rw [(hnone hnf).1, hinode]; exact hl255
  have hmod : filename_len % 256 = filename_len := Nat.mod_eq_of_lt (by omega)
  -- the bytes at `new_filename`
  obtain ⟨name, hname⟩ : ∃ name, name =
      ((nffs_inode_rename_name_bytes s4 new_filename filename_len).take filename_len).map
        (· % 256) := ⟨_, rfl⟩
  have hnlen : filename_len ≤ (nffs_inode_rename_name_bytes s4 new_filename filename_len).length := by
    cases hnf : new_filename with
    | some nm =>
      simp only [nffs_inode_rename_name_bytes]
      rw [hsome nm hnf]
      exact strlen_le_length nm
    | none =>
      simp only [nffs_inode_rename_name_bytes, mem_read_length]
      exact Nat.le_refl _
  have hnamelen : name.length = filename_len := by
    rw [hname, List.length_map, List.length_take]
    omega
  -- the write
  obtain ⟨area, area', ha, _, ha5, hoff, _, hhdr, hnm⟩ := nffs_inode_write_disk_ok s4 _ _
    area_idx area_offset s5 h5
    (by simp only [nffs_crc_disk_inode_fill]; rw [hmod]; exact hnlen)
  have hflash : s'.flash = s5.flash := by rw [hs']
  have hareas : s'.nffs_areas = s5.nffs_areas := by rw [hs']
  have hrec : nffs_disk_inode.of_bytes (mem_read s'.flash (area'.na_offset + area_offset)
      NFFS_DISK_INODE_SZ) = nffs_disk_inode.of_bytes (nffs_crc_disk_inode_fill env
        { ndi_magic := NFFS_INODE_MAGIC
          ndi_id := (s4.inodes inode_entry).nie_hash_entry.nhe_id
          ndi_seq := (inode.ni_seq + 1) % 2 ^ 32
          ndi_parent_id := nffs_inode_parent_id s4 inode
          reserved8 := env.uninit8
          ndi_filename_len := filename_len % 256
          ndi_crc16 := 0 }
        (nffs_inode_rename_name_bytes s4 new_filename filename_len)).bytes := by
    rw [hflash, hoff, hhdr]
  refine ⟨old, name, area_idx, area_offset, area', s3, s4, hold, ?_, ?_, hsr3, ?_, ?_,
    ?_, ?_, ?_, ?_, ?_, ?_, ?_⟩
  · intro nm hnf
    rw [hname]
    simp only [nffs_inode_rename_name_bytes, hnf, hsome nm hnf]
  · intro hnf
    obtain ⟨hfl', b, hb, hbuf3⟩ := hnone hnf
    have hbuf4 : s4.nffs_flash_buf = s3.nffs_flash_buf := by
      rcases hbuf with h | h
      · exact h
      · rw [h]; exact hgc hnf _ _
    -- the bytes read into the buffer
    rw [nffs_flash_read_same_records hsr2, hsr2.1 inode_entry] at hb
    have hinf : inode_filename s inode_entry = some b := by
      simp only [inode_filename, hold]
      rw [hfl', hinode] at hb
      simp only [] at hb
      rw [hfl] at hb
      rw [hb]
    rw [hinf]
    obtain ⟨area0, _, _, _, hbeq⟩ := nffs_flash_read_ok _ _ _ _ _ hb
    have hblen : b.length = filename_len := by rw [hbeq, mem_read_length]
    have hblt : ∀ x ∈ b, x < 256 := by rw [hbeq]; exact mem_read_lt _ _ _
    have hrd : mem_read s4.nffs_flash_buf 0 filename_len = b := by
      rw [hbuf4, hbuf3]
      have := mem_read_write_same s2.nffs_flash_buf 0 b
      rw [hblen] at this
      rw [this, map_mod_of_lt _ hblt]
    rw [hname]
    simp only [nffs_inode_rename_name_bytes, hnf, hrd]
    rw [List.take_of_length_le (by omega), map_mod_of_lt _ hblt]
  · rw [hnamelen]; exact h4
  · rw [hareas]; exact ha5
  · rw [hrec, nffs_disk_inode.of_bytes_bytes]
    simp [nffs_crc_disk_inode_fill, NFFS_INODE_MAGIC]
  · rw [hrec, nffs_disk_inode.of_bytes_bytes]
    simp only [nffs_crc_disk_inode_fill]
    rw [hid4]
  · rw [hrec, nffs_disk_inode.of_bytes_bytes]
    simp only [nffs_crc_disk_inode_fill]
    rw [hinode]
    simp only [Nat.mod_mod, hseq]
  · rw [hrec, nffs_disk_inode.of_bytes_bytes]
    simp only [nffs_crc_disk_inode_fill, nffs_inode_parent_id]
    rw [hinode]
    cases new_parent with
    | none => simp [NFFS_ID_NONE]
    | some p => simp only []; rw [hid4]
  · rw [hrec, nffs_disk_inode.of_bytes_bytes]
    simp only [nffs_crc_disk_inode_fill, Nat.mod_mod, hmod, hnamelen]
  · rw [hflash, hoff, hnamelen]
    simp only [nffs_crc_disk_inode_fill, hmod] at hnm
    rw [hnm, hname]
  · rw [hs']
    simp

set_option maxRecDepth 100000 in
theorem nffs_inode_rename_record_witness :
    ∃ old name area_idx area_offset area s3 s4,
      nffs_inode_read_disk (ex_state 4096)
        (nffs_flash_loc_expand ((ex_state 4096).inodes 101).nie_hash_entry.nhe_flash_loc).1
        (nffs_flash_loc_expand ((ex_state 4096).inodes 101).nie_hash_entry.nhe_flash_loc).2
        = .ok old ∧
      (∀ nm, (none : Option (List Nat)) = some nm → name = (nm.take (strlen nm)).map (· % 256)) ∧
      ((none : Option (List Nat)) = none → inode_filename (ex_state 4096) 101 = some name) ∧
      same_records (ex_state 4096) s3 ∧
      nffs_misc_reserve_space ex_env s3 (NFFS_DISK_INODE_SZ + name.length)
        = (.ok (area_idx, area_offset), s4) ∧
      (nffs_inode_rename ex_env (ex_state 4096) 101 (some 104) none).2.nffs_areas[area_idx]?
        = some area ∧
      (nffs_disk_inode.of_bytes (mem_read
        (nffs_inode_rename ex_env (ex_state 4096) 101 (some 104) none).2.flash
        (area.na_offset + area_offset) NFFS_DISK_INODE_SZ)).ndi_magic = NFFS_INODE_MAGIC ∧
      (nffs_disk_inode.of_bytes (mem_read
        (nffs_inode_rename ex_env (ex_state 4096) 101 (some 104) none).2.flash
        (area.na_offset + area_offset) NFFS_DISK_INODE_SZ)).ndi_id
          = ((ex_state 4096).inodes 101).nie_hash_entry.nhe_id % 2 ^ 32 ∧
      (nffs_disk_inode.of_bytes (mem_read
        (nffs_inode_rename ex_env (ex_state 4096) 101 (some 104) none).2.flash
        (area.na_offset + area_offset) NFFS_DISK_INODE_SZ)).ndi_seq
          = (old.ndi_seq + 1) % 2 ^ 32 ∧
      (nffs_disk_inode.of_bytes (mem_read
        (nffs_inode_rename ex_env (ex_state 4096) 101 (some 104) none).2.flash
        (area.na_offset + area_offset) NFFS_DISK_INODE_SZ)).ndi_parent_id =
          (match (some 104 : Option Nat) with
            | none => NFFS_ID_NONE
            | some p => ((ex_state 4096).inodes p).nie_hash_entry.nhe_id % 2 ^ 32) ∧
      (nffs_disk_inode.of_bytes (mem_read
        (nffs_inode_rename ex_env (ex_state 4096) 101 (some 104) none).2.flash
        (area.na_offset + area_offset) NFFS_DISK_INODE_SZ)).ndi_filename_len = name.length ∧
      mem_read (nffs_inode_rename ex_env (ex_state 4096) 101 (some 104) none).2.flash
        (area.na_offset + area_offset + NFFS_DISK_INODE_SZ) name.length = name ∧
      (((nffs_inode_rename ex_env (ex_state 4096) 101 (some 104) none).2).inodes
        101).nie_hash_entry.nhe_flash_loc = nffs_flash_loc area_idx area_offset :=
  nffs_inode_rename_record ex_env (ex_state 4096)
    (nffs_inode_rename ex_env (ex_state 4096) 101 (some 104) none).2 101 (some 104) none
    (Prod.ext (by decide) rfl) (fun nm h => by cases h) (fun _ _ _ => rfl)

set_option maxRecDepth 100000 in
/-- C3 as stated fails on the code in three ways.  A `new_filename` of 256 bytes is
renamed successfully, 276 bytes are reserved, but the record written has filename length
0.  With a NULL `new_filename` and a reservation that runs a garbage collector which
copies through `nffs_flash_buf`, the record written carries the bytes the collector left
in the buffer, not the old filename.  For an entry whose record has sequence number
2^32 - 1 the record written has sequence number 0. -/
theorem nffs_inode_rename_record_counterexample :
    ((nffs_inode_rename ex_env (ex_state 4096) 101 (some 100)
        (some (List.replicate 256 120))).1 = .ok () ∧
      strlen (List.replicate 256 120) = 256 ∧
      ((nffs_inode_rename ex_env (ex_state 4096) 101 (some 100)
        (some (List.replicate 256 120))).2.inodes 101).nie_hash_entry.nhe_flash_loc
          = nffs_flash_loc 0 125 ∧
      (nffs_disk_inode.of_bytes (mem_read
        (nffs_inode_rename ex_env (ex_state 4096) 101 (some 100)
          (some (List.replicate 256 120))).2.flash 125 NFFS_DISK_INODE_SZ)).ndi_filename_len
          = 0) ∧
    ((nffs_inode_rename ex_env_gc (ex_state 125) 101 (some 100) none).1 = .ok () ∧
      inode_filename (ex_state 125) 101 = some [97] ∧
      inode_filename (nffs_inode_rename ex_env_gc (ex_state 125) 101 (some 100) none).2 101
        = some [0x58]) ∧
    ((nffs_inode_rename ex_env (ex_state 4096) 102 (some 100) (some [99])).1 = .ok () ∧
      (nffs_disk_inode.of_bytes (mem_read (ex_state 4096).flash 41
        NFFS_DISK_INODE_SZ)).ndi_seq = 2 ^ 32 - 1 ∧
      ((nffs_inode_rename ex_env (ex_state 4096) 102 (some 100)
        (some [99])).2.inodes 102).nie_hash_entry.nhe_flash_loc = nffs_flash_loc 0 125 ∧
      (nffs_disk_inode.of_bytes (mem_read
        (nffs_inode_rename ex_env (ex_state 4096) 102 (some 100) (some [99])).2.flash 125
        NFFS_DISK_INODE_SZ)).ndi_seq = 0) := by
  decide

/-- What an `nffs_inode_rename` that returns a nonzero error leaves unchanged: the entry's
flash location is the one from before the call or the one the garbage collector run by
the space reservation gave it (it is not set to a new record); and when `new_parent` is the
parent that `nffs_inode_from_entry` finds for the entry, or that first step is what
fails, every child list (hence every sibling link) and every reference count is as
before the call. -/
theorem nffs_inode_rename_error_frame (env : nffs_env) (s s' : nffs_state)
    (inode_entry : Nat) (new_parent : Option Nat) (new_filename : Option (List Nat))
    (rc : Nat)
    (herr : nffs_inode_rename env s inode_entry new_parent new_filename = (.err rc, s')) :
    ((s'.inodes inode_entry).nie_hash_entry.nhe_flash_loc
        = (s.inodes inode_entry).nie_hash_entry.nhe_flash_loc ∨
      ∃ space st, (s'.inodes inode_entry).nie_hash_entry.nhe_flash_loc
        = (env.nffs_gc_until space st).2.flash_loc inode_entry) ∧
    ((∀ inode0 s1, nffs_inode_from_entry s inode_entry = (.ok inode0, s1) →
        inode0.ni_parent = new_parent) →
      ∀ x, (s'.inodes x).nie_child_list = (s.inodes x).nie_child_list ∧
        (s'.inodes x).nie_refcnt = (s.inodes x).nie_refcnt) := by
  obtain ⟨sm, hsr, hsame, hfin⟩ :=
    nffs_inode_rename_err_heap env s s' inode_entry new_parent new_filename rc herr
  constructor
  · rcases hfin with h | ⟨space, st, _, h⟩
    · left; rw [h, hsr.1 inode_entry]
    · right; exact ⟨space, st, by rw [h]; rfl⟩
  · intro hp x
    have hsm := hsame hp
    rcases hfin with h | ⟨space, st, hst, h⟩
    · rw [h, hsm]; exact ⟨rfl, rfl⟩
    · rw [h]
      simp only [nffs_gc_effect.apply, hst, hsm]
      exact ⟨trivial, trivial⟩

theorem nffs_inode_rename_error_frame_witness :
    (nffs_inode_rename ex_env (ex_state 125) 101 (some 100) (some [122])).1
      = .err NFFS_EFULL ∧
    ((((nffs_inode_rename ex_env (ex_state 125) 101 (some 100) (some [122])).2).inodes
          101).nie_hash_entry.nhe_flash_loc
        = ((ex_state 125).inodes 101).nie_hash_entry.nhe_flash_loc ∨
      ∃ space st,
        (((nffs_inode_rename ex_env (ex_state 125) 101 (some 100) (some [122])).2).inodes
          101).nie_hash_entry.nhe_flash_loc
        = (ex_env.nffs_gc_until space st).2.flash_loc 101) ∧
    ∀ x,
      (((nffs_inode_rename ex_env (ex_state 125) 101 (some 100) (some [122])).2).inodes
          x).nie_child_list = ((ex_state 125).inodes x).nie_child_list ∧
      (((nffs_inode_rename ex_env (ex_state 125) 101 (some 100) (some [122])).2).inodes
          x).nie_refcnt = ((ex_state 125).inodes x).nie_refcnt := by
  have h := nffs_inode_rename_error_frame ex_env (ex_state 125)
    (nffs_inode_rename ex_env (ex_state 125) 101 (some 100) (some [122])).2 101 (some 100)
    (some [122]) NFFS_EFULL (Prod.ext (by decide) rfl)
  refine ⟨by decide, h.1, h.2 ?_⟩
  intro inode0 s1 hfe
  have hp : (nffs_inode_from_entry (ex_state 125) 101).1
      = .ok { ni_inode_entry := 101, ni_seq := 5, ni_parent := some 100,
              ni_filename_len := 1, ni_filename := [97] } := by decide
  rw [hfe] at hp
  simp only [Res.ok.injEq] at hp
  rw [hp]

set_option maxRecDepth 1000000 in
/-- C4 (the code at the failing input): in the example file system with area 0 full and a
garbage collector that frees nothing, renaming "a" (entry 101) from the root into
directory "d" returns `NFFS_EFULL`, yet the entry is gone from the root's child list and
is in the child list of "d"; only its flash location is as before.  The record it
references still names the root as its parent, so decoding the entry gives an inode whose
parent does not list it, and `nffs_inode_remove_child` of that inode runs off the end of
the root's child list. -/
theorem nffs_inode_rename_error_keeps_move :
    (nffs_inode_rename ex_env (ex_state 125) 101 (some 104) (some [122])).1
      = .err NFFS_EFULL ∧
    ((ex_state 125).inodes 100).nie_child_list = [101, 102, 104] ∧
    ((nffs_inode_rename ex_env (ex_state 125) 101 (some 104) (some [122])).2.inodes
      100).nie_child_list = [102, 104] ∧
    ((ex_state 125).inodes 104).nie_child_list = [105] ∧
    ((nffs_inode_rename ex_env (ex_state 125) 101 (some 104) (some [122])).2.inodes
      104).nie_child_list = [101, 105] ∧
    ((nffs_inode_rename ex_env (ex_state 125) 101 (some 104) (some [122])).2.inodes
      101).nie_hash_entry.nhe_flash_loc
      = ((ex_state 125).inodes 101).nie_hash_entry.nhe_flash_loc ∧
    (nffs_inode_from_entry
      (nffs_inode_rename ex_env (ex_state 125) 101 (some 104) (some [122])).2 101).1
      = .ok ex_inode_a ∧
    ex_inode_a.ni_parent = some 100 ∧
    (nffs_inode_remove_child
      (nffs_inode_rename ex_env (ex_state 125) 101 (some 104) (some [122])).2
      ex_inode_a).1 = .abort := by
  decide

/-- C5: for two inodes whose filenames on flash are byte strings of length 0..255, the
first without NUL byte, and whose cached bytes are the first
`NFFS_SHORT_FILENAME_LEN` bytes of those names, `nffs_inode_filename_cmp_flash` returns
0 when no flash read fails, and `*result` is negative, zero or positive exactly as the
first name is lexicographically (as unsigned bytes, a proper prefix first) smaller than,
equal to or greater than the second; the names may be longer than the cached bytes and
than one comparison chunk. -/
theorem nffs_inode_filename_cmp_flash_lex (s : nffs_state) (inode1 inode2 : nffs_inode)
    (n1 n2 : List Nat) (hio : ∀ a l, s.flash_read_fails a l = false)
    (hl1 : inode1.ni_filename_len ≤ 255) (hl2 : inode2.ni_filename_len ≤ 255)
    (h1 : nffs_inode_read_filename_chunk s inode1 0 inode1.ni_filename_len = .ok n1)
    (h2 : nffs_inode_read_filename_chunk s inode2 0 inode2.ni_filename_len = .ok n2)
    (hc1 : inode1.ni_filename = n1.take NFFS_SHORT_FILENAME_LEN)
    (hc2 : inode2.ni_filename = n2.take NFFS_SHORT_FILENAME_LEN)
    (hz1 : 0 ∉ n1) (_hz2 : 0 ∉ n2) :
    ∃ r s', nffs_inode_filename_cmp_flash s inode1 inode2 = (.ok r, s') ∧
      (r < 0 ↔ filename_lex n1 n2 = .lt) ∧ (r = 0 ↔ filename_lex n1 n2 = .eq) ∧
      (r > 0 ↔ filename_lex n1 n2 = .gt) ∧ (filename_lex n1 n2 = .eq ↔ n1 = n2) := by
  obtain ⟨r, s', hrun, _, hsign⟩ :=
    nffs_inode_filename_cmp_flash_spec s inode1 inode2 n1 n2 hio hl1 hl2 h1 h2 hc1 hc2 hz1
  refine ⟨r, s', hrun, ?_, ?_, ?_, filename_lex_eq_iff n1 n2⟩
  · rw [← hsign]; exact (int_sign_lt_iff r).symm
  · rw [← hsign]; unfold int_sign
    by_cases h : r < 0
    · simp [h]; omega
    · by_cases h0 : r = 0 <;> simp [h, h0]
  · rw [← hsign]; unfold int_sign
    by_cases h : r < 0
    · simp [h]; omega
    · by_cases h0 : r = 0
      · simp [h0]
      · simp [h, h0]; omega

set_option maxRecDepth 100000 in
theorem nffs_inode_filename_cmp_flash_lex_witness :
    ∃ r s', nffs_inode_filename_cmp_flash ex_long_state (ex_long_inode 200)
        (ex_long_inode 201) = (.ok r, s') ∧
      (r < 0 ↔ filename_lex (ex_long_name 97) (ex_long_name 98) = .lt) ∧
      (r = 0 ↔ filename_lex (ex_long_name 97) (ex_long_name 98) = .eq) ∧
      (r > 0 ↔ filename_lex (ex_long_name 97) (ex_long_name 98) = .gt) ∧
      (filename_lex (ex_long_name 97) (ex_long_name 98) = .eq
        ↔ ex_long_name 97 = ex_long_name 98) :=
  nffs_inode_filename_cmp_flash_lex ex_long_state (ex_long_inode 200) (ex_long_inode 201)
    (ex_long_name 97) (ex_long_name 98) (fun _ _ => rfl) (by decide) (by decide)
    (by decide) (by decide) (by decide) (by decide) (by decide) (by decide)

/-! ## The hash index: claims -/

/-- C6: in every state of the index reached from `nffs_hash_init`, `nffs_hash_find(id)`
returns an entry whose `nhe_id` is `id` when the table holds one, namely the one nearest
the head of bucket `id mod 256` (no entry before it in the chain has the id), and NULL
when the table holds none. -/
theorem nffs_hash_find_returns_first_match (mem : Nat → nffs_hash_entry)
    (tbl : nffs_hash_table) (id : Nat) (h : nffs_hash_reachable mem tbl) :
    ((∃ i, ∃ e ∈ tbl i, (mem e).nhe_id = id) →
      ∃ e pre post, (nffs_hash_find mem tbl id).1 = some e ∧ (mem e).nhe_id = id ∧
        tbl (nffs_hash_fn id) = pre ++ e :: post ∧ ∀ x ∈ pre, (mem x).nhe_id ≠ id) ∧
    ((¬ ∃ i, ∃ e ∈ tbl i, (mem e).nhe_id = id) →
      (nffs_hash_find mem tbl id).1 = none) := by
  have hinv := nffs_hash_inv_of_reachable mem tbl h
  constructor
  · rintro ⟨i, e, he, hid⟩
    have hi : nffs_hash_fn id = i := by rw [← hid]; exact hinv.1 i e he
    rcases nffs_hash_find_fst_snd mem tbl id with ⟨hmiss, _⟩ | ⟨pre, e', post, hl, he', hpre, hf⟩
    · exact absurd hid (hmiss e (hi ▸ he))
    · exact ⟨e', pre, post, by rw [hf], he', hl, hpre⟩
  · intro hnone
    rcases nffs_hash_find_fst_snd mem tbl id with ⟨_, hf⟩ | ⟨pre, e', post, hl, he', _, _⟩
    · rw [hf]
    · exact absurd ⟨nffs_hash_fn id, e', by rw [hl]; simp, he'⟩ hnone

theorem c6_tbl_reachable : nffs_hash_reachable c6_mem c6_tbl := by
  refine nffs_hash_reachable.insert _ _ 2
    (nffs_hash_reachable.insert _ _ 1 (nffs_hash_reachable.init _) ?_) ?_
  · intro i; simp [nffs_hash_init]
  · intro i
    by_cases hi : i = nffs_hash_fn 261
    · subst hi; simp [nffs_hash_insert, nffs_hash_init, c6_mem, SLIST_INSERT_HEAD]
    · simp [nffs_hash_insert, nffs_hash_init, c6_mem, Function.update_noteq hi]

theorem nffs_hash_find_returns_first_match_witness :
    nffs_hash_reachable c6_mem c6_tbl ∧
    (((∃ i, ∃ e ∈ c6_tbl i, (c6_mem e).nhe_id = 261) →
      ∃ e pre post, (nffs_hash_find c6_mem c6_tbl 261).1 = some e ∧
        (c6_mem e).nhe_id = 261 ∧
        c6_tbl (nffs_hash_fn 261) = pre ++ e :: post ∧
        ∀ x ∈ pre, (c6_mem x).nhe_id ≠ 261) ∧
    ((¬ ∃ i, ∃ e ∈ c6_tbl i, (c6_mem e).nhe_id = 261) →
      (nffs_hash_find c6_mem c6_tbl 261).1 = none)) :=
  ⟨c6_tbl_reachable, nffs_hash_find_returns_first_match c6_mem c6_tbl 261 c6_tbl_reachable⟩

/-- C7: when `nffs_hash_find(id)` hits, the returned entry is afterwards the first entry
of bucket `id mod 256`, followed by the other entries of the bucket in their old order,
and every other bucket is unchanged; when it misses the table is unchanged; a second
`nffs_hash_find(id)` returns the same entry and leaves the table of the first. -/
theorem nffs_hash_find_promotes (mem : Nat → nffs_hash_entry) (tbl : nffs_hash_table)
    (id : Nat) :
    (∀ e, (nffs_hash_find mem tbl id).1 = some e →
      ∃ pre post, tbl (nffs_hash_fn id) = pre ++ e :: post ∧
        (nffs_hash_find mem tbl id).2 (nffs_hash_fn id) = e :: (pre ++ post) ∧
        ∀ j, j ≠ nffs_hash_fn id → (nffs_hash_find mem tbl id).2 j = tbl j) ∧
    ((nffs_hash_find mem tbl id).1 = none → (nffs_hash_find mem tbl id).2 = tbl) ∧
    nffs_hash_find mem (nffs_hash_find mem tbl id).2 id = nffs_hash_find mem tbl id := by
  rcases nffs_hash_find_fst_snd mem tbl id with ⟨_, hf⟩ | ⟨pre, e', post, hl, he', hpre, hf⟩
  · rw [hf]
    refine ⟨fun e he => by simp at he, fun _ => rfl, hf⟩
  · rw [hf]
    refine ⟨?_, fun hn => by simp at hn, ?_⟩
    · intro e he
      simp only [Option.some.injEq] at he
      subst he
      exact ⟨pre, post, hl, by simp, fun j hj => by simp [Function.update_noteq hj]⟩
    · have hhead : Function.update tbl (nffs_hash_fn id) (e' :: (pre ++ post)) (nffs_hash_fn id)
          = [] ++ e' :: (pre ++ post) := by simp
      rcases nffs_hash_find_fst_snd mem
          (Function.update tbl (nffs_hash_fn id) (e' :: (pre ++ post))) id
        with ⟨hmiss, _⟩ | ⟨pre2, e2, post2, hl2, he2, hpre2, hf2⟩
      · exact absurd he' (hmiss e' (by simp))
      · rw [hf2]
        have hpre2nil : pre2 = [] := by
          cases pre2 with
          | nil => rfl
          | cons a l =>
            simp only [Function.update_same, List.cons_append, List.cons.injEq] at hl2
            exact absurd he' (hl2.1 ▸ hpre2 a (List.mem_cons_self a l))
        subst hpre2nil
        simp only [Function.update_same, List.nil_append, List.cons.injEq] at hl2
        obtain ⟨h1, h2⟩ := hl2
        subst h1
        rw [← h2]
        simp

/-- C8: after `nffs_hash_insert(e)` of an entry that is not in the table, `e` is the
head of bucket `e.nhe_id mod 256` with the old chain behind it, every other bucket is
unchanged, and `nffs_hash_find(e.nhe_id)` returns `e` (whatever older entries with the
same id the bucket holds) and does not change the table. -/
theorem nffs_hash_insert_head (mem : Nat → nffs_hash_entry) (tbl : nffs_hash_table)
    (e : Nat) (_hfresh : ∀ i, e ∉ tbl i) :
    nffs_hash_insert mem tbl e (nffs_hash_fn (mem e).nhe_id)
      = e :: tbl (nffs_hash_fn (mem e).nhe_id) ∧
    (∀ j, j ≠ nffs_hash_fn (mem e).nhe_id → nffs_hash_insert mem tbl e j = tbl j) ∧
    nffs_hash_find mem (nffs_hash_insert mem tbl e) (mem e).nhe_id
      = (some e, nffs_hash_insert mem tbl e) := by
  refine ⟨by simp [nffs_hash_insert, SLIST_INSERT_HEAD],
    fun j hj => by simp [nffs_hash_insert, Function.update_noteq hj], ?_⟩
  simp [nffs_hash_find, nffs_hash_insert, SLIST_INSERT_HEAD, nffs_hash_find_loop]

theorem nffs_hash_insert_head_witness :
    (∀ i, 1 ∉ nffs_hash_init i) ∧
    nffs_hash_insert c6_mem nffs_hash_init 1 (nffs_hash_fn (c6_mem 1).nhe_id)
      = 1 :: nffs_hash_init (nffs_hash_fn (c6_mem 1).nhe_id) ∧
    (∀ j, j ≠ nffs_hash_fn (c6_mem 1).nhe_id →
      nffs_hash_insert c6_mem nffs_hash_init 1 j = nffs_hash_init j) ∧
    nffs_hash_find c6_mem (nffs_hash_insert c6_mem nffs_hash_init 1) (c6_mem 1).nhe_id
      = (some 1, nffs_hash_insert c6_mem nffs_hash_init 1) :=
  ⟨fun i => by simp [nffs_hash_init],
    nffs_hash_insert_head c6_mem nffs_hash_init 1 (fun i => by simp [nffs_hash_init])⟩

/-- C9: in every state of the index, `nffs_hash_remove(e)` of an entry in the table
deletes exactly `e` from bucket `e.nhe_id mod 256` (the chain `pre ++ e :: post` becomes
`pre ++ post`, which no longer holds `e`), and leaves every other bucket unchanged; when
the ids in the table are unique `nffs_hash_find(e.nhe_id)` then returns NULL; and for an
entry not in the table, `nffs_hash_insert(e)` followed by `nffs_hash_remove(e)` gives back
the table. -/
theorem nffs_hash_remove_exact (mem : Nat → nffs_hash_entry) (tbl : nffs_hash_table)
    (e : Nat) (h : nffs_hash_reachable mem tbl) :
    ((∃ i, e ∈ tbl i) →
      ∃ tbl' pre post, nffs_hash_remove mem tbl e = some tbl' ∧
        tbl (nffs_hash_fn (mem e).nhe_id) = pre ++ e :: post ∧
        tbl' (nffs_hash_fn (mem e).nhe_id) = pre ++ post ∧
        (∀ i, e ∉ tbl' i) ∧
        (∀ j, j ≠ nffs_hash_fn (mem e).nhe_id → tbl' j = tbl j) ∧
        ((∀ i j, ∀ a ∈ tbl i, ∀ b ∈ tbl j, (mem a).nhe_id = (mem b).nhe_id → a = b) →
          (nffs_hash_find mem tbl' (mem e).nhe_id).1 = none)) ∧
    ((∀ i, e ∉ tbl i) →
      nffs_hash_remove mem (nffs_hash_insert mem tbl e) e = some tbl) := by
  have hinv := nffs_hash_inv_of_reachable mem tbl h
  constructor
  · rintro ⟨i, hei⟩
    have hi : nffs_hash_fn (mem e).nhe_id = i := hinv.1 i e hei
    subst hi
    obtain ⟨pre, post, hsplit⟩ := List.append_of_mem hei
    have hnd := hinv.2 (nffs_hash_fn (mem e).nhe_id)
    rw [hsplit] at hnd
    have hnotin : e ∉ pre ++ post := by
      have hp : (pre ++ e :: post).Perm (e :: (pre ++ post)) := List.perm_middle
      have := hp.nodup_iff.mp hnd
      exact (List.nodup_cons.mp this).1
    have hpre : e ∉ pre := fun hx => hnotin (List.mem_append_left _ hx)
    have herase : (pre ++ e :: post).erase e = pre ++ post := by
      rw [List.erase_append_right _ hpre]
      simp
    have hrem : nffs_hash_remove mem tbl e
        = some (Function.update tbl (nffs_hash_fn (mem e).nhe_id) (pre ++ post)) := by
      simp only [nffs_hash_remove]
      rw [SLIST_REMOVE_eq_erase _ _ hei, hsplit, herase]
    refine ⟨_, pre, post, hrem, hsplit, by simp, ?_, ?_, ?_⟩
    · intro j
      by_cases hj : j = nffs_hash_fn (mem e).nhe_id
      · subst hj; simpa using hnotin
      · rw [Function.update_noteq hj]
        intro hej
        exact hj (hinv.1 j e hej).symm
    · intro j hj
      exact Function.update_noteq hj _ _
    · intro huniq
      rcases nffs_hash_find_fst_snd mem
          (Function.update tbl (nffs_hash_fn (mem e).nhe_id) (pre ++ post)) (mem e).nhe_id
        with ⟨_, hf⟩ | ⟨pre2, e2, post2, hl2, he2, _, _⟩
      · rw [hf]
      · exfalso
        simp only [Function.update_same] at hl2
        have he2mem : e2 ∈ pre ++ post := by rw [hl2]; simp
        have he2tbl : e2 ∈ tbl (nffs_hash_fn (mem e).nhe_id) := by
          rw [hsplit]
          simp only [List.mem_append, List.mem_cons] at he2mem ⊢
          tauto
        have : e2 = e := huniq _ _ e2 he2tbl e hei he2
        exact hnotin (this ▸ he2mem)
  · intro _
    have hup : Function.update (Function.update tbl (nffs_hash_fn (mem e).nhe_id)
        (e :: tbl (nffs_hash_fn (mem e).nhe_id))) (nffs_hash_fn (mem e).nhe_id)
        (tbl (nffs_hash_fn (mem e).nhe_id)) = tbl := by
      rw [Function.update_idem, Function.update_eq_self]
    simp [nffs_hash_remove, nffs_hash_insert, SLIST_INSERT_HEAD, SLIST_REMOVE, hup]

theorem nffs_hash_remove_exact_witness :
    nffs_hash_reachable c9_mem (nffs_hash_insert c9_mem nffs_hash_init 7) ∧
    (∃ tbl' pre post,
      nffs_hash_remove c9_mem (nffs_hash_insert c9_mem nffs_hash_init 7) 7 = some tbl' ∧
      nffs_hash_insert c9_mem nffs_hash_init 7 (nffs_hash_fn (c9_mem 7).nhe_id)
        = pre ++ 7 :: post ∧
      tbl' (nffs_hash_fn (c9_mem 7).nhe_id) = pre ++ post ∧
      (∀ i, 7 ∉ tbl' i) ∧
      (∀ j, j ≠ nffs_hash_fn (c9_mem 7).nhe_id →
        tbl' j = nffs_hash_insert c9_mem nffs_hash_init 7 j) ∧
      ((∀ i j, ∀ a ∈ nffs_hash_insert c9_mem nffs_hash_init 7 i,
          ∀ b ∈ nffs_hash_insert c9_mem nffs_hash_init 7 j,
          (c9_mem a).nhe_id = (c9_mem b).nhe_id → a = b) →
        (nffs_hash_find c9_mem tbl' (c9_mem 7).nhe_id).1 = none)) ∧
    nffs_hash_remove c9_mem (nffs_hash_insert c9_mem nffs_hash_init 7) 7
      = some nffs_hash_init := by
  have hr : nffs_hash_reachable c9_mem (nffs_hash_insert c9_mem nffs_hash_init 7) :=
    nffs_hash_reachable.insert _ _ 7 (nffs_hash_reachable.init _)
      (fun i => by simp [nffs_hash_init])
  refine ⟨hr, ?_, ?_⟩
  · exact (nffs_hash_remove_exact c9_mem (nffs_hash_insert c9_mem nffs_hash_init 7) 7 hr).1
      ⟨nffs_hash_fn 7, by simp [nffs_hash_insert, nffs_hash_init, c9_mem, SLIST_INSERT_HEAD]⟩
  · exact (nffs_hash_remove_exact c9_mem nffs_hash_init 7 (nffs_hash_reachable.init _)).2
      (fun i => by simp [nffs_hash_init])

/-! ## Object ids: claims -/

/-- C10: for a 32-bit id exactly one of `nffs_hash_id_is_dir` (id < 2^28),
`nffs_hash_id_is_file` (2^28 <= id < 2^31), `nffs_hash_id_is_block`
(2^31 <= id < 2^32 - 1) and `id == NFFS_ID_NONE` holds; `nffs_hash_id_is_inode` holds
exactly when id < 2^31; and the root id 0 is a directory id. -/
theorem nffs_hash_id_partition (id : Nat) (hid : id < 2 ^ 32) :
    (nffs_hash_id_is_dir id = true ↔ id < 2 ^ 28) ∧
    (nffs_hash_id_is_file id = true ↔ 2 ^ 28 ≤ id ∧ id < 2 ^ 31) ∧
    (nffs_hash_id_is_block id = true ↔ 2 ^ 31 ≤ id ∧ id < 2 ^ 32 - 1) ∧
    ((nffs_hash_id_is_dir id = true ∧ nffs_hash_id_is_file id = false ∧
        nffs_hash_id_is_block id = false ∧ id ≠ NFFS_ID_NONE) ∨
      (nffs_hash_id_is_dir id = false ∧ nffs_hash_id_is_file id = true ∧
        nffs_hash_id_is_block id = false ∧ id ≠ NFFS_ID_NONE) ∨
      (nffs_hash_id_is_dir id = false ∧ nffs_hash_id_is_file id = false ∧
        nffs_hash_id_is_block id = true ∧ id ≠ NFFS_ID_NONE) ∨
      (nffs_hash_id_is_dir id = false ∧ nffs_hash_id_is_file id = false ∧
        nffs_hash_id_is_block id = false ∧ id = NFFS_ID_NONE)) ∧
    (nffs_hash_id_is_inode id = true ↔ id < 2 ^ 31) ∧
    nffs_hash_id_is_dir NFFS_ID_ROOT_DIR = true := by
  simp only [nffs_hash_id_is_dir, nffs_hash_id_is_file, nffs_hash_id_is_block,
    nffs_hash_id_is_inode, NFFS_ID_DIR_MIN, NFFS_ID_DIR_MAX, NFFS_ID_FILE_MIN,
    NFFS_ID_FILE_MAX, NFFS_ID_BLOCK_MIN, NFFS_ID_BLOCK_MAX, NFFS_ID_NONE, NFFS_ID_ROOT_DIR,
    Bool.and_eq_true, Bool.or_eq_true, decide_eq_true_eq, Bool.and_eq_false_imp,
    decide_eq_false_iff_not]
  norm_num at hid ⊢
  omega

theorem nffs_hash_id_partition_witness :
    (0x10000000 : Nat) < 2 ^ 32 ∧ (nffs_hash_id_is_file 0x10000000 = true ∧
      nffs_hash_id_is_dir 0x10000000 = false ∧ nffs_hash_id_is_inode 0x10000000 = true) :=
  ⟨by norm_num,
    by
      have h := nffs_hash_id_partition 0x10000000 (by norm_num)
      refine ⟨h.2.1.mpr (by norm_num), ?_, h.2.2.2.2.1.mpr (by norm_num)⟩
      cases hd : nffs_hash_id_is_dir 0x10000000
      · rfl
      · exact absurd (h.1.mp hd) (by norm_num)⟩

/-! ## Lemmas on validation, reservation and the block size -/

theorem nffs_misc_validate_scratch_loop_spec (scratch_len : Nat) :
    ∀ areas : List nffs_area,
      (nffs_misc_validate_scratch_loop scratch_len areas = .ok () ↔
        ∀ a ∈ areas, a.na_length ≤ scratch_len) ∧
      (nffs_misc_validate_scratch_loop scratch_len areas = .ok () ∨
        nffs_misc_validate_scratch_loop scratch_len areas = .err NFFS_ECORRUPT) := by
  intro areas
  induction areas with
  | nil => simp [nffs_misc_validate_scratch_loop]
  | cons a rest ih =>
    by_cases h : a.na_length > scratch_len
    · have he : nffs_misc_validate_scratch_loop scratch_len (a :: rest)
          = .err NFFS_ECORRUPT := by
        rw [nffs_misc_validate_scratch_loop, if_pos h]
      rw [he]
      refine ⟨⟨fun h' => (by cases h'), fun h' => ?_⟩, Or.inr rfl⟩
      have := h' a (List.mem_cons_self a rest)
      omega
    · have he : nffs_misc_validate_scratch_loop scratch_len (a :: rest)
          = nffs_misc_validate_scratch_loop scratch_len rest := by
        rw [nffs_misc_validate_scratch_loop, if_neg h]
      rw [he]
      refine ⟨⟨fun h' x hx => ?_, fun h' => ?_⟩, ih.2⟩
      · rcases List.mem_cons.mp hx with rfl | hx
        · omega
        · exact ih.1.mp h' x hx
      · exact ih.1.mpr (fun x hx => h' x (List.mem_cons_of_mem a hx))

/-- The area loop of `nffs_misc_reserve_space` returns the first index of the list that
is not the scratch index and whose area has room. -/
theorem nffs_misc_reserve_space_loop_first (s : nffs_state) (space : Nat) :
    ∀ (l : List Nat) (i off : Nat), i ∈ l → i ≠ s.nffs_scratch_area_idx →
      nffs_misc_reserve_space_area s i space = .ok off →
      ∃ pre j post offj, l = pre ++ j :: post ∧ j ≠ s.nffs_scratch_area_idx ∧
        nffs_misc_reserve_space_area s j space = .ok offj ∧
        (∀ k ∈ pre, k ≠ s.nffs_scratch_area_idx →
          ∀ o, nffs_misc_reserve_space_area s k space ≠ .ok o) ∧
        nffs_misc_reserve_space_loop s space l = some (j, offj) := by
  intro l
  induction l with
  | nil => intro i off hi; cases hi
  | cons a rest ih =>
    intro i off hi hns hok
    by_cases ha : a ≠ s.nffs_scratch_area_idx
    · cases hres : nffs_misc_reserve_space_area s a space with
      | ok o =>
        refine ⟨[], a, rest, o, rfl, ha, hres, (fun k hk => by cases hk), ?_⟩
        simp [nffs_misc_reserve_space_loop, ha, hres]
      | err rc =>
        have hi' : i ∈ rest := by
          rcases List.mem_cons.mp hi with rfl | h
          · rw [hres] at hok; cases hok
          · exact h
        obtain ⟨pre, j, post, offj, hl, hj, hjok, hpre, hloop⟩ := ih i off hi' hns hok
        refine ⟨a :: pre, j, post, offj, by simp [hl], hj, hjok, ?_, ?_⟩
        · intro k hk hkn o
          rcases List.mem_cons.mp hk with rfl | hk
          · rw [hres]; intro h; cases h
          · exact hpre k hk hkn o
        · simp [nffs_misc_reserve_space_loop, ha, hres, hloop]
      | abort =>
        have hi' : i ∈ rest := by
          rcases List.mem_cons.mp hi with rfl | h
          · rw [hres] at hok; cases hok
          · exact h
        obtain ⟨pre, j, post, offj, hl, hj, hjok, hpre, hloop⟩ := ih i off hi' hns hok
        refine ⟨a :: pre, j, post, offj, by simp [hl], hj, hjok, ?_, ?_⟩
        · intro k hk hkn o
          rcases List.mem_cons.mp hk with rfl | hk
          · rw [hres]; intro h; cases h
          · exact hpre k hk hkn o
        · simp [nffs_misc_reserve_space_loop, ha, hres, hloop]
    · have ha' : a = s.nffs_scratch_area_idx := by
        by_contra h; exact ha h
      have hi' : i ∈ rest := by
        rcases List.mem_cons.mp hi with rfl | h
        · exact absurd ha' hns
        · exact h
      obtain ⟨pre, j, post, offj, hl, hj, hjok, hpre, hloop⟩ := ih i off hi' hns hok
      refine ⟨a :: pre, j, post, offj, by simp [hl], hj, hjok, ?_, ?_⟩
      · intro k hk hkn o
        rcases List.mem_cons.mp hk with rfl | hk
        · exact absurd ha' hkn
        · exact hpre k hk hkn o
      · simp [nffs_misc_reserve_space_loop, ha', hloop]

/-- In an area whose cursor is inside it, `nffs_misc_reserve_space_area` succeeds exactly
when the free space is enough, and returns the cursor. -/
theorem nffs_misc_reserve_space_area_iff (s : nffs_state) (i space : Nat) (area : nffs_area)
    (ha : s.nffs_areas[i]? = some area) (hc : area.na_cur ≤ area.na_length)
    (hl : area.na_length < 2 ^ 32) :
    (space ≤ area.na_length - area.na_cur →
      nffs_misc_reserve_space_area s i space = .ok area.na_cur) ∧
    (∀ o, nffs_misc_reserve_space_area s i space = .ok o →
      space ≤ area.na_length - area.na_cur) := by
  have hav : (area.na_length + 2 ^ 32 - area.na_cur % 2 ^ 32) % 2 ^ 32
      = area.na_length - area.na_cur := by
    have h1 : area.na_cur % 2 ^ 32 = area.na_cur := Nat.mod_eq_of_lt (by omega)
    rw [h1]
    have h2 : area.na_length + 2 ^ 32 - area.na_cur
        = (area.na_length - area.na_cur) + 2 ^ 32 := by omega
    rw [h2, Nat.add_mod_right]
    exact Nat.mod_eq_of_lt (by omega)
  unfold nffs_misc_reserve_space_area
  simp only [ha, hav]
  constructor
  · intro h
    simp [h]
  · intro o h
    by_contra hn
    simp [hn] at h

theorem nffs_misc_set_max_block_data_len_loop_spec (m : Nat) :
    ∀ (areas : List nffs_area) (init : Nat), (∀ a ∈ areas, m ≤ a.na_length) → m ≤ init →
      (m = init ∨ ∃ a ∈ areas, a.na_length = m) →
      nffs_misc_set_max_block_data_len_loop areas init = m := by
  intro areas
  induction areas with
  | nil =>
    intro init _ _ h
    rcases h with h | ⟨a, ha, _⟩
    · simp [nffs_misc_set_max_block_data_len_loop, h]
    · cases ha
  | cons a rest ih =>
    intro init hall hle h
    rw [nffs_misc_set_max_block_data_len_loop]
    have ha := hall a (List.mem_cons_self a rest)
    apply ih _ (fun x hx => hall x (List.mem_cons_of_mem a hx))
    · split <;> omega
    · rcases h with h | ⟨b, hb, hbm⟩
      · left
        rw [if_neg (by omega)]
        exact h
      · rcases List.mem_cons.mp hb with rfl | hb
        · left
          split <;> omega
        · right
          exact ⟨b, hb, hbm⟩

/-- The smallest area length that `nffs_misc_set_max_block_data_len` computes. -/
theorem nffs_misc_set_max_block_data_len_smallest (s : nffs_state) (m : Nat)
    (hm : ∃ a ∈ s.nffs_areas, a.na_length = m)
    (hsm : ∀ a ∈ s.nffs_areas, m ≤ a.na_length ∧ a.na_length < 2 ^ 32) :
    nffs_misc_set_max_block_data_len_loop s.nffs_areas (2 ^ 32 - 1) = m := by
  obtain ⟨a, ha, ham⟩ := hm
  have := (hsm a ha).2
  exact nffs_misc_set_max_block_data_len_loop_spec m s.nffs_areas _ (fun x hx => (hsm x hx).1)
    (by omega) (Or.inr ⟨a, ha, ham⟩)

theorem nffs_misc_area_capacity_one_eq (m : Nat) (h48 : 48 ≤ m) (h32 : m < 2 ^ 32) :
    nffs_misc_area_capacity_one m = m - 48 := by
  unfold nffs_misc_area_capacity_one uint32_sub NFFS_DISK_AREA_SZ NFFS_DISK_BLOCK_SZ
  omega

theorem nffs_misc_area_capacity_two_eq (m : Nat) (h72 : 72 ≤ m) (h32 : m < 2 ^ 32) :
    nffs_misc_area_capacity_two m = (m - 24) / 2 - 24 := by
  unfold nffs_misc_area_capacity_two uint32_sub NFFS_DISK_AREA_SZ NFFS_DISK_BLOCK_SZ
  omega

/-- With a smallest area of at least 48 bytes, `nffs_misc_set_max_block_data_len` returns
`NFFS_ECORRUPT` and leaves the state as it is when a block of `min_data_len` bytes does
not fit in the smallest area, and otherwise returns 0 with a maximum that is at least
`min_data_len`. -/
theorem nffs_misc_set_max_block_data_len_spec (s : nffs_state) (min_data_len m : Nat)
    (hmin : min_data_len < 2 ^ 16)
    (hm : ∃ a ∈ s.nffs_areas, a.na_length = m)
    (hsm : ∀ a ∈ s.nffs_areas, m ≤ a.na_length ∧ a.na_length < 2 ^ 32)
    (h48 : 48 ≤ m) :
    (min_data_len + 48 > m →
      nffs_misc_set_max_block_data_len s min_data_len = (.err NFFS_ECORRUPT, s)) ∧
    (min_data_len + 48 ≤ m →
      ∃ s', nffs_misc_set_max_block_data_len s min_data_len = (.ok (), s') ∧
        min_data_len ≤ s'.nffs_block_max_data_sz) := by
  have h32 : m < 2 ^ 32 := by
    obtain ⟨a, ha, ham⟩ := hm
    have := (hsm a ha).2
    omega
  unfold nffs_misc_set_max_block_data_len
  simp only [Nat.mod_eq_of_lt hmin, nffs_misc_set_max_block_data_len_smallest s m hm hsm,
    nffs_misc_area_capacity_one_eq m h48 h32]
  constructor
  · intro h
    rw [if_pos (by omega)]
  · intro h
    rw [if_neg (by omega)]
    refine ⟨_, rfl, ?_⟩
    simp only []
    split <;> split <;> omega
/-! ## Lemmas on reference counts and unlinking -/

theorem SLIST_REMOVE_append (e : Nat) (post : List Nat) :
    ∀ pre : List Nat, e ∉ pre → SLIST_REMOVE (pre ++ e :: post) e = some (pre ++ post) := by
  intro pre
  induction pre with
  | nil => intro _; simp [SLIST_REMOVE]
  | cons a pre ih =>
    intro h
    have hae : a ≠ e := fun h' => h (by simp [h'])
    have hpre : e ∉ pre := fun h' => h (List.mem_cons_of_mem a h')
    simp [SLIST_REMOVE, hae, ih hpre]

/-- A node of a list without repetition splits the list into the nodes before it and
the nodes behind it, and is in neither. -/
theorem split_of_mem_nodup (e : Nat) (l : List Nat) (hin : e ∈ l) (hn : l.Nodup) :
    ∃ pre post, l = pre ++ e :: post ∧ e ∉ pre ∧ e ∉ post := by
  obtain ⟨pre, post, hl⟩ := List.append_of_mem hin
  subst hl
  have h1 := (List.nodup_append.mp hn).2.2
  have h2 := (List.nodup_cons.mp (List.nodup_append.mp hn).2.1).1
  refine ⟨pre, post, rfl, ?_, h2⟩
  intro hp
  exact h1 hp (List.mem_cons_self e post)

/-- An id is the id of a file or of a directory, not both. -/
theorem nffs_hash_id_is_dir_of_file (id : Nat) (h : nffs_hash_id_is_file id = true) :
    nffs_hash_id_is_dir id = false := by
  simp only [nffs_hash_id_is_file, nffs_hash_id_is_dir, NFFS_ID_FILE_MIN, NFFS_ID_FILE_MAX,
    NFFS_ID_DIR_MIN, NFFS_ID_DIR_MAX, Bool.and_eq_true, decide_eq_true_eq, Bool.and_eq_false_iff,
    decide_eq_false_iff_not] at h ⊢
  omega

theorem nffs_hash_id_is_file_of_dir (id : Nat) (h : nffs_hash_id_is_dir id = true) :
    nffs_hash_id_is_file id = false := by
  cases hf : nffs_hash_id_is_file id with
  | false => rfl
  | true => rw [nffs_hash_id_is_dir_of_file id hf] at h; cases h

theorem nffs_inode_remove_child_ok (s : nffs_state) (child : nffs_inode) (parent : Nat)
    (pre post : List Nat) (hp : child.ni_parent = some parent)
    (hdir : nffs_hash_id_is_dir (s.inodes parent).nie_hash_entry.nhe_id = true)
    (hl : (s.inodes parent).nie_child_list = pre ++ child.ni_inode_entry :: post)
    (hpre : child.ni_inode_entry ∉ pre) :
    nffs_inode_remove_child s child
      = (.ok (),
          { s with
            inodes := Function.update s.inodes parent
              { s.inodes parent with nie_child_list := pre ++ post } }) := by
  unfold nffs_inode_remove_child
  simp only [hp, hdir, hl, SLIST_REMOVE_append _ _ _ hpre]
  simp

/-- A decrement of a reference count of two or more touches the count alone. -/
theorem nffs_inode_dec_refcnt_many (s : nffs_state) (inode_entry : Nat)
    (hr : 2 ≤ (s.inodes inode_entry).nie_refcnt) :
    nffs_inode_dec_refcnt s inode_entry
      = (.ok (),
          { s with
            inodes := Function.update s.inodes inode_entry
              { s.inodes inode_entry with
                nie_refcnt := (s.inodes inode_entry).nie_refcnt - 1 } }) := by
  unfold nffs_inode_dec_refcnt
  rw [if_pos (by omega)]
  simp only [Function.update_same]
  rw [if_neg (by omega)]
/-! ## Lemmas on the deletion record -/

/-- A successful `nffs_inode_write_disk` of a record without a filename is one write of
the header at the cursor of the area. -/
theorem nffs_inode_write_disk_header (s : nffs_state) (d : nffs_disk_inode) (name : List Nat)
    (ai ao : Nat) (s' : nffs_state) (hz : d.ndi_filename_len = 0)
    (h : nffs_inode_write_disk s d name ai ao = (.ok (), s')) :
    ∃ area, s.nffs_areas[ai]? = some area ∧ ao = area.na_cur ∧
      s' = { s with
        flash := mem_write s.flash (area.na_offset + ao) d.bytes
        nffs_areas := s.nffs_areas.set ai { area with na_cur := ao + NFFS_DISK_INODE_SZ } } := by
  unfold nffs_inode_write_disk at h
  cases hw1 : nffs_flash_write s ai ao d.bytes with
  | mk r1 s1 =>
    rw [hw1] at h
    cases r1 with
    | abort => cases h
    | err rc => cases h
    | ok u =>
      simp only [hz, ne_eq, not_true_eq_false, if_false, Prod.mk.injEq, true_and] at h
      subst h
      obtain ⟨area, ha, hcur, hs1⟩ := nffs_flash_write_ok s ai ao d.bytes s1 hw1
      rw [nffs_disk_inode.bytes_length] at hs1
      exact ⟨area, ha, hcur, hs1⟩
/-! ## Lemmas on directory iteration -/

theorem SLIST_NEXT_getElem? :
    ∀ (l : List Nat) (k p : Nat), l.Nodup → l[k]? = some p → SLIST_NEXT l p = l[k + 1]? := by
  intro l
  induction l with
  | nil => intro k p _ h; simp at h
  | cons a l ih =>
    intro k p hn h
    cases k with
    | zero =>
      simp only [List.getElem?_cons_zero, Option.some.injEq] at h
      subst h
      simp only [SLIST_NEXT, if_true, List.getElem?_cons_succ]
      cases l <;> simp
    | succ k =>
      simp only [List.getElem?_cons_succ] at h
      have hpl : p ∈ l := List.getElem?_mem h
      have hap : a ≠ p := fun h' => (List.nodup_cons.mp hn).1 (h' ▸ hpl)
      simp only [SLIST_NEXT, hap, if_false, List.getElem?_cons_succ]
      exact ih k p (List.nodup_cons.mp hn).2 h

theorem nffs_inode_entry_refcnt_eta (x : nffs_inode_entry) (r : Nat) (h : x.nie_refcnt = r) :
    { x with nie_refcnt := r } = x := by
  cases x
  simp only [] at h
  subst h
  rfl

/-- A fresh handle is at no child. -/
theorem nffs_dir_at_none (s : nffs_state) (dir : Nat)
    (h : (s.dirs dir).nd_dirent.nde_inode_entry = none) : nffs_dir_at s dir none = s := by
  have hd : ({ s.dirs dir with nd_dirent := { nde_inode_entry := none } } : nffs_dir)
      = s.dirs dir := by
    cases hx : s.dirs dir with
    | mk p d =>
      cases d with
      | mk e =>
        rw [hx] at h
        simp only [] at h
        subst h
        rfl
  simp only [nffs_dir_at, hd, Function.update_eq_self]

/-- The status of `nffs_dir_read` and the state it leaves do not depend on what
`*out_dirent` held before the call. -/
theorem nffs_dir_read_out_dirent (s : nffs_state) (dir : Nat) (od od' : Option Nat) :
    (nffs_dir_read s dir od).1 = (nffs_dir_read s dir od').1 ∧
    (nffs_dir_read s dir od).2.2 = (nffs_dir_read s dir od').2.2 := by
  unfold nffs_dir_read
  simp only []
  split
  · exact ⟨rfl, rfl⟩
  · exact ⟨rfl, rfl⟩
  · split <;> exact ⟨rfl, rfl⟩

/-- One call of `nffs_dir_read` on a handle that is at the child `prev` of its
directory (or at none): the reference for the dirent goes from `prev` to the next child,
and the handle is at that child; behind the last child the status is `NFFS_ENOENT` and
`*out_dirent` is NULL. -/
theorem nffs_dir_read_step (s : nffs_state) (dir : Nat) (prev next : Option Nat)
    (od : Option Nat)
    (hprev : ∀ p, prev = some p →
      1 ≤ (s.inodes p).nie_refcnt ∧ (s.inodes p).nie_refcnt ≤ 254)
    (hnext : ∀ c, next = some c → (s.inodes c).nie_refcnt ≤ 254)
    (hn : next = prev.elim
      (s.inodes (s.dirs dir).nd_parent_inode_entry).nie_child_list.head?
      (SLIST_NEXT (s.inodes (s.dirs dir).nd_parent_inode_entry).nie_child_list)) :
    nffs_dir_read (nffs_dir_at s dir prev) dir od
      = (if next = none then .err NFFS_ENOENT else .ok (), next.map (fun _ => dir),
          nffs_dir_at s dir next) := by
  -- the state after the reference of `prev` is given back
  have hstep : ∀ s1 : nffs_state, s1.dirs = (nffs_dir_at s dir prev).dirs →
      s1.inodes = s.inodes → s1 = { nffs_dir_at s dir prev with inodes := s.inodes } →
      (match next with
        | none => ((.err NFFS_ENOENT, none,
            { s1 with
              dirs := Function.update s1.dirs dir
                { s1.dirs dir with nd_dirent := { nde_inode_entry := none } } }) :
            Res Unit × Option Nat × nffs_state)
        | some c => (.ok (), some dir,
            { s1 with
              dirs := Function.update s1.dirs dir
                { s1.dirs dir with nd_dirent := { nde_inode_entry := some c } }
              inodes := Function.update s1.inodes c
                { s1.inodes c with nie_refcnt := ((s1.inodes c).nie_refcnt + 1) % 256 } }))
      = (if next = none then .err NFFS_ENOENT else .ok (), next.map (fun _ => dir),
          nffs_dir_at s dir next) := by
    intro s1 hd hi hs1
    cases next with
    | none =>
      simp only [Prod.mk.injEq, true_and]
      rw [hs1]
      cases prev <;> simp [nffs_dir_at]
    | some c =>
      have hc := hnext c rfl
      simp only [Prod.mk.injEq, true_and]
      rw [hs1]
      have hmod : ((s.inodes c).nie_refcnt + 1) % 256 = (s.inodes c).nie_refcnt + 1 :=
        Nat.mod_eq_of_lt (by omega)
      cases prev <;> simp [nffs_dir_at, hmod]
  cases prev with
  | none =>
    simp only [Option.elim] at hn
    have hres := hstep (nffs_dir_at s dir none) rfl rfl rfl
    rw [← hres]
    unfold nffs_dir_read
    have hd : ((nffs_dir_at s dir none).dirs dir).nd_dirent.nde_inode_entry = none := by
      simp [nffs_dir_at]
    have hp : ((nffs_dir_at s dir none).dirs dir).nd_parent_inode_entry
        = (s.dirs dir).nd_parent_inode_entry := by simp [nffs_dir_at]
    have hl : ((nffs_dir_at s dir none).inodes (s.dirs dir).nd_parent_inode_entry).nie_child_list
        = (s.inodes (s.dirs dir).nd_parent_inode_entry).nie_child_list := rfl
    simp only [hd, hp, hl, ← hn]
    cases next <;> rfl
  | some p =>
    simp only [Option.elim] at hn
    obtain ⟨hp1, hp2⟩ := hprev p rfl
    obtain ⟨s0, hs0⟩ : ∃ s0, s0 = nffs_dir_at s dir (some p) := ⟨_, rfl⟩
    have hd : (s0.dirs dir).nd_dirent.nde_inode_entry = some p := by
      rw [hs0]; simp [nffs_dir_at]
    have hpar : (s0.dirs dir).nd_parent_inode_entry = (s.dirs dir).nd_parent_inode_entry := by
      rw [hs0]; simp [nffs_dir_at]
    have hl : (s0.inodes (s.dirs dir).nd_parent_inode_entry).nie_child_list
        = (s.inodes (s.dirs dir).nd_parent_inode_entry).nie_child_list := by
      rw [hs0]
      simp only [nffs_dir_at]
      by_cases hpp : (s.dirs dir).nd_parent_inode_entry = p
      · rw [hpp]; simp
      · simp [Function.update_noteq hpp]
    have hr0 : (s0.inodes p).nie_refcnt = (s.inodes p).nie_refcnt + 1 := by
      rw [hs0]; simp [nffs_dir_at]
    have hdec := nffs_inode_dec_refcnt_many s0 p (by omega)
    have hback : Function.update s0.inodes p
        { s0.inodes p with nie_refcnt := (s0.inodes p).nie_refcnt - 1 } = s.inodes := by
      rw [hr0, hs0]
      simp only [nffs_dir_at, Function.update_same, Function.update_idem,
        Nat.add_sub_cancel]
      rw [nffs_inode_entry_refcnt_eta _ _ rfl, Function.update_eq_self]
    rw [hback] at hdec
    have hres := hstep { s0 with inodes := s.inodes } (by rw [hs0]) rfl (by rw [hs0])
    rw [← hres, ← hs0]
    unfold nffs_dir_read
    simp only [hd, hpar, hl, ← hn, hdec]
    cases next <;> rfl

theorem nffs_dir_at_dirs (s : nffs_state) (dir : Nat) (c : Option Nat) :
    ((nffs_dir_at s dir c).dirs dir).nd_dirent.nde_inode_entry = c ∧
    ((nffs_dir_at s dir c).dirs dir).nd_parent_inode_entry
      = (s.dirs dir).nd_parent_inode_entry := by
  cases c <;> simp [nffs_dir_at]

theorem nffs_dir_at_same_records (s : nffs_state) (dir : Nat) (c : Option Nat) :
    same_records s (nffs_dir_at s dir c) ∧
    ∀ e, ((nffs_dir_at s dir c).inodes e).nie_child_list = (s.inodes e).nie_child_list := by
  cases c with
  | none => exact ⟨same_records_refl s, fun _ => rfl⟩
  | some c =>
    refine ⟨⟨fun e => ?_, rfl, rfl, rfl, rfl, rfl⟩, fun e => ?_⟩
    · simp only [nffs_dir_at]
      by_cases he : e = c
      · subst he; simp
      · simp [Function.update_noteq he]
    · simp only [nffs_dir_at]
      by_cases he : e = c
      · subst he; simp
      · simp [Function.update_noteq he]

/-- The state after `k` further calls of `nffs_dir_read` on a handle that has made `j`
calls through the child list: the handle is `k` children further. -/
theorem nffs_dir_read_iter_at (s : nffs_state) (dir : Nat) (cs : List Nat)
    (hcs : (s.inodes (s.dirs dir).nd_parent_inode_entry).nie_child_list = cs)
    (hnodup : cs.Nodup)
    (href : ∀ c ∈ cs, 1 ≤ (s.inodes c).nie_refcnt ∧ (s.inodes c).nie_refcnt ≤ 254) :
    (∀ j, j ≤ cs.length → ∀ od,
      nffs_dir_read (nffs_dir_at s dir (nffs_dir_pos cs j)) dir od
        = (if cs[j]? = none then .err NFFS_ENOENT else .ok (), (cs[j]?).map (fun _ => dir),
            nffs_dir_at s dir (cs[j]?))) ∧
    (∀ k j, j + k ≤ cs.length + 1 →
      nffs_dir_read_iter dir k (nffs_dir_at s dir (nffs_dir_pos cs j))
        = nffs_dir_at s dir (nffs_dir_pos cs (j + k))) := by
  have hstep : ∀ j, j ≤ cs.length → ∀ od,
      nffs_dir_read (nffs_dir_at s dir (nffs_dir_pos cs j)) dir od
        = (if cs[j]? = none then .err NFFS_ENOENT else .ok (), (cs[j]?).map (fun _ => dir),
            nffs_dir_at s dir (cs[j]?)) := by
    intro j hj od
    refine nffs_dir_read_step s dir (nffs_dir_pos cs j) (cs[j]?) od ?_ ?_ ?_
    · intro p hp
      cases j with
      | zero => simp [nffs_dir_pos] at hp
      | succ j =>
        simp only [nffs_dir_pos] at hp
        exact href p (List.getElem?_mem hp)
    · intro c hc
      exact (href c (List.getElem?_mem hc)).2
    · rw [hcs]
      cases j with
      | zero => simp only [nffs_dir_pos, Option.elim]; exact (List.head?_eq_getElem? cs).symm
      | succ j =>
        have hlt : j < cs.length := by omega
        simp only [nffs_dir_pos, List.getElem?_eq_getElem hlt, Option.elim]
        exact (SLIST_NEXT_getElem? cs j _ hnodup (List.getElem?_eq_getElem hlt)).symm
  refine ⟨hstep, ?_⟩
  intro k
  induction k with
  | zero => intro j _; rfl
  | succ k ih =>
    intro j hj
    have hj' : j ≤ cs.length := by omega
    have h1 := hstep j hj' none
    have hst : (nffs_dir_read (nffs_dir_at s dir (nffs_dir_pos cs j)) dir none).2.2
        = nffs_dir_at s dir (nffs_dir_pos cs (j + 1)) := by
      rw [h1]
      simp only [nffs_dir_pos]
    rw [nffs_dir_read_iter, hst, ih (j + 1) (by omega)]
    congr 2
    omega
/-! ## More lemmas on the hash table: membership and the number of entries -/

theorem nffs_hash_count_eq_sum (tbl : nffs_hash_table) :
    nffs_hash_count tbl = ∑ i : Fin NFFS_HASH_SIZE, (tbl i).length := by
  unfold nffs_hash_count
  rw [Fin.sum_univ_def]

/-- Replacing one chain changes the number of entries by the difference of the lengths. -/
theorem nffs_hash_count_update (tbl : nffs_hash_table) (i : Fin NFFS_HASH_SIZE)
    (l : List Nat) :
    nffs_hash_count (Function.update tbl i l) + (tbl i).length
      = nffs_hash_count tbl + l.length := by
  rw [nffs_hash_count_eq_sum, nffs_hash_count_eq_sum]
  have h1 := Finset.add_sum_erase Finset.univ (fun j => (Function.update tbl i l j).length)
    (Finset.mem_univ i)
  have h2 := Finset.add_sum_erase Finset.univ (fun j => (tbl j).length) (Finset.mem_univ i)
  have h3 : ∑ x ∈ Finset.univ.erase i, (Function.update tbl i l x).length
      = ∑ x ∈ Finset.univ.erase i, (tbl x).length := by
    apply Finset.sum_congr rfl
    intro x hx
    rw [Function.update_noteq (Finset.ne_of_mem_erase hx)]
  beta_reduce at h1 h2
  rw [Function.update_same, h3] at h1
  omega

/-- What `nffs_hash_find` does to the table, in terms of membership: it links and
unlinks nothing. -/
theorem nffs_hash_find_mem (mem : Nat → nffs_hash_entry) (tbl : nffs_hash_table) (id : Nat) :
    (∀ i x, x ∈ (nffs_hash_find mem tbl id).2 i ↔ x ∈ tbl i) ∧
    nffs_hash_count (nffs_hash_find mem tbl id).2 = nffs_hash_count tbl := by
  rcases nffs_hash_find_fst_snd mem tbl id with ⟨_, h⟩ | ⟨pre, e, post, hl, _, _, h⟩
  · rw [h]
    exact ⟨fun _ _ => Iff.rfl, rfl⟩
  · rw [h]
    simp only []
    constructor
    · intro i x
      by_cases hi : i = nffs_hash_fn id
      · subst hi
        rw [Function.update_same, hl]
        simp only [List.mem_cons, List.mem_append]
        tauto
      · rw [Function.update_noteq hi]
    · have := nffs_hash_count_update tbl (nffs_hash_fn id) (e :: (pre ++ post))
      rw [hl] at this
      simp only [List.length_cons, List.length_append] at this
      omega

theorem SLIST_REMOVE_length :
    ∀ (l l' : List Nat) (e : Nat), SLIST_REMOVE l e = some l' → l'.length + 1 = l.length := by
  intro l
  induction l with
  | nil => intro l' e h; simp [SLIST_REMOVE] at h
  | cons a l ih =>
    intro l' e h
    by_cases hae : a = e
    · simp only [SLIST_REMOVE, hae, if_true, Option.some.injEq] at h
      subst h
      rfl
    · simp only [SLIST_REMOVE, hae, if_false] at h
      cases hr : SLIST_REMOVE l e with
      | none => simp [hr] at h
      | some r =>
        simp only [hr, Option.some.injEq] at h
        subst h
        simp only [List.length_cons]
        have := ih r e hr
        omega

/-- A successful `nffs_hash_remove` takes one entry out of the table. -/
theorem nffs_hash_remove_count (mem : Nat → nffs_hash_entry) (tbl tbl' : nffs_hash_table)
    (e : Nat) (h : nffs_hash_remove mem tbl e = some tbl') :
    nffs_hash_count tbl' + 1 = nffs_hash_count tbl := by
  unfold nffs_hash_remove at h
  cases hr : SLIST_REMOVE (tbl (nffs_hash_fn (mem e).nhe_id)) e with
  | none => simp [hr] at h
  | some l =>
    simp only [hr, Option.some.injEq] at h
    subst h
    have h1 := nffs_hash_count_update tbl (nffs_hash_fn (mem e).nhe_id) l
    have h2 := SLIST_REMOVE_length _ _ _ hr
    omega

theorem nffs_block_from_hash_entry_count (s : nffs_state) (b : Nat) :
    nffs_hash_count (nffs_block_from_hash_entry s b).2.nffs_hash = nffs_hash_count s.nffs_hash ∧
    (nffs_block_from_hash_entry s b).2.nffs_inode_unlink_list = s.nffs_inode_unlink_list := by
  have hfi : ∀ (st : nffs_state) (id : Nat),
      nffs_hash_count (nffs_hash_find_inode st id).2.nffs_hash = nffs_hash_count st.nffs_hash ∧
      (nffs_hash_find_inode st id).2.nffs_inode_unlink_list = st.nffs_inode_unlink_list := by
    intro st id
    unfold nffs_hash_find_inode
    split
    · exact ⟨rfl, rfl⟩
    · exact ⟨(nffs_hash_find_mem _ _ _).2, rfl⟩
  have hfb : ∀ (st : nffs_state) (id : Nat),
      nffs_hash_count (nffs_hash_find_block st id).2.nffs_hash = nffs_hash_count st.nffs_hash ∧
      (nffs_hash_find_block st id).2.nffs_inode_unlink_list = st.nffs_inode_unlink_list := by
    intro st id
    unfold nffs_hash_find_block
    split
    · exact ⟨rfl, rfl⟩
    · exact ⟨(nffs_hash_find_mem _ _ _).2, rfl⟩
  unfold nffs_block_from_hash_entry
  simp only []
  cases nffs_block_read_disk s
      (nffs_flash_loc_expand (s.inodes b).nie_hash_entry.nhe_flash_loc).1
      (nffs_flash_loc_expand (s.inodes b).nie_hash_entry.nhe_flash_loc).2 with
  | abort => exact ⟨rfl, rfl⟩
  | err rc => exact ⟨rfl, rfl⟩
  | ok d =>
    simp only []
    have h1 := hfi s d.ndb_inode_id
    cases hf : nffs_hash_find_inode s d.ndb_inode_id with
    | mk r s1 =>
      rw [hf] at h1
      simp only [] at h1
      cases r with
      | abort => exact h1
      | err rc => exact h1
      | ok o =>
        cases o with
        | none => exact h1
        | some ie =>
          simp only []
          split
          · have h2 := hfb s1 d.ndb_prev_id
            cases hf2 : nffs_hash_find_block s1 d.ndb_prev_id with
            | mk r2 s2 =>
              rw [hf2] at h2
              simp only [] at h2
              have h3 : nffs_hash_count s2.nffs_hash = nffs_hash_count s.nffs_hash ∧
                  s2.nffs_inode_unlink_list = s.nffs_inode_unlink_list :=
                ⟨h2.1.trans h1.1, h2.2.trans h1.2⟩
              cases r2 with
              | abort => exact h3
              | err rc => exact h3
              | ok o2 => cases o2 <;> exact h3
          · exact h1

/-- A successful `nffs_block_delete_from_ram` takes one entry out of the hash table and
leaves the unlink list as it is. -/
theorem nffs_block_delete_from_ram_count (s s1 : nffs_state) (b : Nat)
    (h : nffs_block_delete_from_ram s b = (.ok (), s1)) :
    nffs_hash_count s1.nffs_hash + 1 = nffs_hash_count s.nffs_hash ∧
    s1.nffs_inode_unlink_list = s.nffs_inode_unlink_list := by
  unfold nffs_block_delete_from_ram at h
  have hc := nffs_block_from_hash_entry_count s b
  cases hf : nffs_block_from_hash_entry s b with
  | mk r sa =>
    rw [hf] at h hc
    simp only [] at hc
    cases r with
    | abort => cases h
    | err rc => cases h
    | ok block =>
      simp only [] at h
      cases ho : block.nb_inode_entry with
      | none => simp [ho] at h
      | some ie =>
        simp only [ho] at h
        obtain ⟨s2, hs2⟩ : ∃ s2 : nffs_state, s2 =
            (if (sa.inodes ie).nie_last_block_entry = some b then
              { sa with
                inodes := Function.update sa.inodes ie
                  { sa.inodes ie with nie_last_block_entry := block.nb_prev } }
            else sa) := ⟨_, rfl⟩
        rw [← hs2] at h
        have h2 : s2.nffs_hash = sa.nffs_hash ∧
            s2.nffs_inode_unlink_list = sa.nffs_inode_unlink_list := by
          rw [hs2]; split <;> exact ⟨rfl, rfl⟩
        cases hrem : nffs_hash_remove s2.hash_mem s2.nffs_hash b with
        | none => simp [hrem] at h
        | some tbl =>
          simp only [hrem] at h
          have hcnt := nffs_hash_remove_count _ _ _ _ hrem
          unfold nffs_block_entry_free at h
          split at h
          · cases h
          · simp only [Prod.mk.injEq, true_and] at h
            subst h
            simp only []
            rw [h2.1] at hcnt
            exact ⟨by omega, h2.2.trans hc.2⟩

/-- One more allowed iteration does not change what the loop of
`nffs_inode_delete_blocks_from_ram` computes, once more iterations are allowed than the
hash table has entries. -/
theorem nffs_inode_delete_blocks_from_ram_loop_succ (inode_entry : Nat) :
    ∀ (fuel : Nat) (s : nffs_state), nffs_hash_count s.nffs_hash + 1 ≤ fuel →
      nffs_inode_delete_blocks_from_ram_loop inode_entry (fuel + 1) s
        = nffs_inode_delete_blocks_from_ram_loop inode_entry fuel s := by
  intro fuel
  induction fuel with
  | zero => intro s h; omega
  | succ f ih =>
    intro s h
    rw [nffs_inode_delete_blocks_from_ram_loop]
    conv => rhs; rw [nffs_inode_delete_blocks_from_ram_loop]
    cases hl : (s.inodes inode_entry).nie_last_block_entry with
    | none => rfl
    | some b =>
      simp only []
      cases hd : nffs_block_delete_from_ram s b with
      | mk r s1 =>
        cases r with
        | abort => rfl
        | err rc => rfl
        | ok u =>
          simp only []
          have := (nffs_block_delete_from_ram_count s s1 b hd).1
          exact ih s1 (by omega)

/-- The bound of `nffs_inode_delete_blocks_from_ram` on the iterations of its loop is
enough: every larger bound gives the same result. -/
theorem nffs_inode_delete_blocks_from_ram_loop_enough (inode_entry : Nat) (s : nffs_state)
    (fuel : Nat) (h : nffs_hash_count s.nffs_hash + 1 ≤ fuel) :
    nffs_inode_delete_blocks_from_ram_loop inode_entry fuel s
      = nffs_inode_delete_blocks_from_ram_loop inode_entry
        (nffs_hash_count s.nffs_hash + 1) s := by
  induction fuel, h using Nat.le_induction with
  | base => rfl
  | succ n hn ih =>
    rw [nffs_inode_delete_blocks_from_ram_loop_succ inode_entry n s hn]
    exact ih

/-- A successful run of the loop of `nffs_inode_delete_blocks_from_ram` links no entry
into the hash table and leaves the unlink list as it is. -/
theorem nffs_inode_delete_blocks_from_ram_loop_count (inode_entry : Nat) :
    ∀ (fuel : Nat) (s s' : nffs_state),
      nffs_inode_delete_blocks_from_ram_loop inode_entry fuel s = (.ok (), s') →
      nffs_hash_count s'.nffs_hash ≤ nffs_hash_count s.nffs_hash ∧
      s'.nffs_inode_unlink_list = s.nffs_inode_unlink_list := by
  intro fuel
  induction fuel with
  | zero =>
    intro s s' h
    rw [nffs_inode_delete_blocks_from_ram_loop] at h
    cases hl : (s.inodes inode_entry).nie_last_block_entry with
    | none =>
      simp only [hl, Prod.mk.injEq, true_and] at h
      subst h
      exact ⟨le_refl _, rfl⟩
    | some b => simp [hl] at h
  | succ f ih =>
    intro s s' h
    rw [nffs_inode_delete_blocks_from_ram_loop] at h
    cases hl : (s.inodes inode_entry).nie_last_block_entry with
    | none =>
      simp only [hl, Prod.mk.injEq, true_and] at h
      subst h
      exact ⟨le_refl _, rfl⟩
    | some b =>
      simp only [hl] at h
      cases hd : nffs_block_delete_from_ram s b with
      | mk r s1 =>
        rw [hd] at h
        cases r with
        | abort => cases h
        | err rc => cases h
        | ok u =>
          simp only [] at h
          obtain ⟨h1, h2⟩ := nffs_block_delete_from_ram_count s s1 b hd
          obtain ⟨h3, h4⟩ := ih s1 s' h
          exact ⟨by omega, h4.trans h2⟩

/-- A successful `nffs_inode_delete_from_ram` takes entries out of the hash table and
leaves the unlink list as it is. -/
theorem nffs_inode_delete_from_ram_measure (s s' : nffs_state) (inode_entry : Nat)
    (h : nffs_inode_delete_from_ram s inode_entry = (.ok (), s')) :
    nffs_hash_count s'.nffs_hash + 1 ≤ nffs_hash_count s.nffs_hash ∧
    s'.nffs_inode_unlink_list = s.nffs_inode_unlink_list := by
  unfold nffs_inode_delete_from_ram at h
  obtain ⟨d, hd⟩ : ∃ d : Res Unit × nffs_state, d =
      (if nffs_hash_id_is_file (s.inodes inode_entry).nie_hash_entry.nhe_id = true then
        nffs_inode_delete_blocks_from_ram s inode_entry
      else (.ok (), s)) := ⟨_, rfl⟩
  simp only [← hd] at h
  have hdm : ∀ u s2, d = (.ok u, s2) →
      nffs_hash_count s2.nffs_hash ≤ nffs_hash_count s.nffs_hash ∧
      s2.nffs_inode_unlink_list = s.nffs_inode_unlink_list := by
    intro u s2 hds
    rw [hd] at hds
    split at hds
    · unfold nffs_inode_delete_blocks_from_ram at hds
      split at hds
      · cases hds
      · exact nffs_inode_delete_blocks_from_ram_loop_count inode_entry _ s s2 hds
    · simp only [Prod.mk.injEq, true_and] at hds
      subst hds
      exact ⟨le_refl _, rfl⟩
  cases hdr : d with
  | mk r s2 =>
    rw [hdr] at h
    cases r with
    | abort => cases h
    | err rc => cases h
    | ok u =>
      simp only [] at h
      obtain ⟨h1, h2⟩ := hdm u s2 hdr
      cases hrem : nffs_hash_remove (nffs_cache_inode_delete s2 inode_entry).hash_mem
          (nffs_cache_inode_delete s2 inode_entry).nffs_hash inode_entry with
      | none => simp [hrem] at h
      | some tbl =>
        simp only [hrem] at h
        have hcnt := nffs_hash_remove_count _ _ _ _ hrem
        unfold nffs_inode_entry_free at h
        simp only [] at h
        split at h
        · cases h
        · simp only [Prod.mk.injEq, true_and] at h
          subst h
          simp only [nffs_cache_inode_delete] at hcnt ⊢
          exact ⟨by omega, h2⟩

/-- A successful `nffs_inode_insert_unlink_list` moves one entry from the hash table to
the unlink list. -/
theorem nffs_inode_insert_unlink_list_measure (s s' : nffs_state) (inode_entry : Nat)
    (h : nffs_inode_insert_unlink_list s inode_entry = (.ok (), s')) :
    nffs_hash_count s'.nffs_hash + 1 = nffs_hash_count s.nffs_hash ∧
    s'.nffs_inode_unlink_list = inode_entry :: s.nffs_inode_unlink_list := by
  unfold nffs_inode_insert_unlink_list at h
  cases hrem : nffs_hash_remove s.hash_mem s.nffs_hash inode_entry with
  | none => simp [hrem] at h
  | some tbl =>
    simp only [hrem, Prod.mk.injEq, true_and] at h
    subst h
    exact ⟨nffs_hash_remove_count _ _ _ _ hrem, rfl⟩

/-- A successful `nffs_inode_dec_refcnt` does not make the unlink list and the hash
table together larger. -/
theorem nffs_inode_dec_refcnt_measure (s s' : nffs_state) (inode_entry : Nat)
    (h : nffs_inode_dec_refcnt s inode_entry = (.ok (), s')) :
    s'.nffs_inode_unlink_list.length + nffs_hash_count s'.nffs_hash
      ≤ s.nffs_inode_unlink_list.length + nffs_hash_count s.nffs_hash := by
  unfold nffs_inode_dec_refcnt at h
  split at h
  · dsimp only at h
    split at h
    · split at h
      · obtain ⟨h1, h2⟩ := nffs_inode_delete_from_ram_measure _ _ _ h
        rw [h2]
        simp only [] at h1 ⊢
        omega
      · obtain ⟨h1, h2⟩ := nffs_inode_insert_unlink_list_measure _ _ _ h
        rw [h2]
        simp only [List.length_cons] at h1 ⊢
        omega
    · simp only [Prod.mk.injEq, true_and] at h
      subst h
      exact le_refl _
  · cases h

theorem nffs_inode_entry_free_frame (s : nffs_state) (e : Option Nat) :
    (nffs_inode_entry_free s e).2.nffs_hash = s.nffs_hash ∧
    (nffs_inode_entry_free s e).2.nffs_inode_unlink_list = s.nffs_inode_unlink_list := by
  unfold nffs_inode_entry_free
  cases e with
  | none => exact ⟨rfl, rfl⟩
  | some e =>
    simp only []
    split <;> exact ⟨rfl, rfl⟩

/-- A successful run of the inner loop of `nffs_inode_process_unlink_list` does not make
the unlink list and the hash table together larger. -/
theorem nffs_inode_process_unlink_list_children_measure :
    ∀ (children : List Nat) (inout_next r : Option (Option Nat)) (s s' : nffs_state),
      nffs_inode_process_unlink_list_children children inout_next s = (.ok (), r, s') →
      s'.nffs_inode_unlink_list.length + nffs_hash_count s'.nffs_hash
        ≤ s.nffs_inode_unlink_list.length + nffs_hash_count s.nffs_hash := by
  intro children
  induction children with
  | nil =>
    intro inout_next r s s' h
    simp only [nffs_inode_process_unlink_list_children, Prod.mk.injEq, true_and] at h
    rw [← h.2]
  | cons child rest ih =>
    intro inout_next r s s' h
    unfold nffs_inode_process_unlink_list_children at h
    simp only [] at h
    cases hd : nffs_inode_dec_refcnt s child with
    | mk rd s1 =>
      rw [hd] at h
      cases rd with
      | abort => cases h
      | err rc => cases h
      | ok u =>
        simp only [] at h
        have h1 := nffs_inode_dec_refcnt_measure s s1 child hd
        have h2 := ih _ r s1 s' h
        omega

/-- One more allowed iteration does not change what the outer loop of
`nffs_inode_process_unlink_list` computes, once as many iterations are allowed as the
unlink list and the hash table together have entries. -/
theorem nffs_inode_process_unlink_list_loop_succ :
    ∀ (fuel : Nat) (inout_next : Option (Option Nat)) (s : nffs_state),
      s.nffs_inode_unlink_list.length + nffs_hash_count s.nffs_hash ≤ fuel →
      nffs_inode_process_unlink_list_loop (fuel + 1) inout_next s
        = nffs_inode_process_unlink_list_loop fuel inout_next s := by
  intro fuel
  induction fuel with
  | zero =>
    intro inout_next s h
    have hl : s.nffs_inode_unlink_list = [] := by
      cases hs : s.nffs_inode_unlink_list with
      | nil => rfl
      | cons a l => rw [hs] at h; simp only [List.length_cons] at h; omega
    simp only [nffs_inode_process_unlink_list_loop, hl]
  | succ f ih =>
    intro inout_next s h
    rw [nffs_inode_process_unlink_list_loop]
    conv => rhs; rw [nffs_inode_process_unlink_list_loop]
    cases hl : s.nffs_inode_unlink_list with
    | nil => rfl
    | cons e l =>
      simp only []
      split
      · rfl
      · rw [hl] at h
        simp only [List.length_cons] at h
        cases hc : nffs_inode_process_unlink_list_children
            (s.inodes e).nie_child_list inout_next
            { s with nffs_inode_unlink_list := l } with
        | mk rc res =>
          obtain ⟨r, s2⟩ := res
          cases rc with
          | abort => rfl
          | err rc => rfl
          | ok u =>
            simp only []
            have hm := nffs_inode_process_unlink_list_children_measure _ _ r _ s2 hc
            simp only [] at hm
            have hfr := nffs_inode_entry_free_frame s2 (some e)
            cases hf : nffs_inode_entry_free s2 (some e) with
            | mk rf s3 =>
              rw [hf] at hfr
              simp only [] at hfr
              cases rf with
              | abort => rfl
              | err rc => rfl
              | ok u2 =>
                simp only []
                exact ih r s3 (by rw [hfr.1, hfr.2]; omega)

/-- The bound of `nffs_inode_process_unlink_list` on the iterations of its outer loop is
enough: every larger bound gives the same result. -/
theorem nffs_inode_process_unlink_list_loop_enough (s : nffs_state)
    (inout_next : Option (Option Nat)) (fuel : Nat)
    (h : s.nffs_inode_unlink_list.length + nffs_hash_count s.nffs_hash ≤ fuel) :
    nffs_inode_process_unlink_list_loop fuel inout_next s
      = nffs_inode_process_unlink_list s inout_next := by
  unfold nffs_inode_process_unlink_list
  induction fuel, h using Nat.le_induction with
  | base => rfl
  | succ n hn ih =>
    rw [nffs_inode_process_unlink_list_loop_succ n inout_next s hn]
    exact ih
/-! ## Decrementing a reference count: claim -/

/-- C12: for a file inode whose parent is a directory that has the entry in its child
list (a list without repetition), with a reference count `r` of at least 2,
`nffs_inode_unlink_from_ram` returns 0 and changes two things only: the child list
`pre ++ entry :: post` of the parent becomes `pre ++ post`, which does not hold the entry
any more, and the reference count becomes `r - 1`.  The hash table, the entry's
`nie_last_block_entry`, every other entry of the heap (the block entries among them) and
the flash are as before. -/
theorem nffs_inode_unlink_from_ram_open_file (s : nffs_state) (inode : nffs_inode)
    (parent : Nat) (out_next : Option (Option Nat))
    (hfile : nffs_hash_id_is_file (s.inodes inode.ni_inode_entry).nie_hash_entry.nhe_id = true)
    (hp : inode.ni_parent = some parent)
    (hdir : nffs_hash_id_is_dir (s.inodes parent).nie_hash_entry.nhe_id = true)
    (hin : inode.ni_inode_entry ∈ (s.inodes parent).nie_child_list)
    (hnodup : (s.inodes parent).nie_child_list.Nodup)
    (hr : 2 ≤ (s.inodes inode.ni_inode_entry).nie_refcnt) :
    ∃ pre post s',
      (s.inodes parent).nie_child_list = pre ++ inode.ni_inode_entry :: post ∧
      nffs_inode_unlink_from_ram s inode out_next = (.ok (), out_next, s') ∧
      (s'.inodes parent).nie_child_list = pre ++ post ∧
      inode.ni_inode_entry ∉ (s'.inodes parent).nie_child_list ∧
      (s'.inodes inode.ni_inode_entry).nie_refcnt
        = (s.inodes inode.ni_inode_entry).nie_refcnt - 1 ∧
      (s'.inodes inode.ni_inode_entry).nie_last_block_entry
        = (s.inodes inode.ni_inode_entry).nie_last_block_entry ∧
      (s'.inodes inode.ni_inode_entry).nie_hash_entry
        = (s.inodes inode.ni_inode_entry).nie_hash_entry ∧
      (s'.inodes parent).nie_refcnt = (s.inodes parent).nie_refcnt ∧
      (s'.inodes parent).nie_hash_entry = (s.inodes parent).nie_hash_entry ∧
      (∀ x, x ≠ parent → x ≠ inode.ni_inode_entry → s'.inodes x = s.inodes x) ∧
      s' = { s with inodes := s'.inodes } := by
  obtain ⟨pre, post, hl, hpre, hpost⟩ :=
    split_of_mem_nodup inode.ni_inode_entry _ hin hnodup
  have hne : inode.ni_inode_entry ≠ parent := by
    intro h
    rw [h, nffs_hash_id_is_file_of_dir _ hdir] at hfile
    cases hfile
  have hrm := nffs_inode_remove_child_ok s inode parent pre post hp hdir hl hpre
  obtain ⟨s1, hs1⟩ : ∃ s1 : nffs_state, s1 = { s with
      inodes := Function.update s.inodes parent
        { s.inodes parent with nie_child_list := pre ++ post } } := ⟨_, rfl⟩
  rw [← hs1] at hrm
  have he1 : s1.inodes inode.ni_inode_entry = s.inodes inode.ni_inode_entry := by
    rw [hs1]
    simp [Function.update_noteq hne]
  have hdec := nffs_inode_dec_refcnt_many s1 inode.ni_inode_entry (by rw [he1]; exact hr)
  have hres : nffs_inode_unlink_from_ram s inode out_next
      = (.ok (), out_next,
          { s1 with
            inodes := Function.update s1.inodes inode.ni_inode_entry
              { s1.inodes inode.ni_inode_entry with
                nie_refcnt := (s1.inodes inode.ni_inode_entry).nie_refcnt - 1 } }) := by
    unfold nffs_inode_unlink_from_ram
    have hpn : inode.ni_parent ≠ none := by rw [hp]; simp
    simp only [hpn, ne_eq, not_false_eq_true, if_true, hrm, he1,
      nffs_hash_id_is_dir_of_file _ hfile, Bool.false_eq_true, if_false, hdec]
  refine ⟨pre, post, _, hl, hres, ?_, ?_, ?_, ?_, ?_, ?_, ?_, ?_, ?_⟩
  · simp [Function.update_noteq (Ne.symm hne), hs1]
  · simp only [Function.update_noteq (Ne.symm hne), hs1, Function.update_same]
    intro h
    rcases List.mem_append.mp h with h | h
    · exact hpre h
    · exact hpost h
  · simp [he1]
  · simp [he1]
  · simp [he1]
  · simp [Function.update_noteq (Ne.symm hne), hs1]
  · simp [Function.update_noteq (Ne.symm hne), hs1]
  · intro x hx1 hx2
    simp [Function.update_noteq hx2, hs1, Function.update_noteq hx1]
  · rw [hs1]

theorem nffs_inode_unlink_from_ram_open_file_witness :
    ∃ pre post s',
      (ex_open_state.inodes 100).nie_child_list = pre ++ ex_inode_a.ni_inode_entry :: post ∧
      nffs_inode_unlink_from_ram ex_open_state ex_inode_a none = (.ok (), none, s') ∧
      (s'.inodes 100).nie_child_list = pre ++ post ∧
      ex_inode_a.ni_inode_entry ∉ (s'.inodes 100).nie_child_list ∧
      (s'.inodes ex_inode_a.ni_inode_entry).nie_refcnt
        = (ex_open_state.inodes ex_inode_a.ni_inode_entry).nie_refcnt - 1 ∧
      (s'.inodes ex_inode_a.ni_inode_entry).nie_last_block_entry
        = (ex_open_state.inodes ex_inode_a.ni_inode_entry).nie_last_block_entry ∧
      (s'.inodes ex_inode_a.ni_inode_entry).nie_hash_entry
        = (ex_open_state.inodes ex_inode_a.ni_inode_entry).nie_hash_entry ∧
      (s'.inodes 100).nie_refcnt = (ex_open_state.inodes 100).nie_refcnt ∧
      (s'.inodes 100).nie_hash_entry = (ex_open_state.inodes 100).nie_hash_entry ∧
      (∀ x, x ≠ 100 → x ≠ ex_inode_a.ni_inode_entry → s'.inodes x = ex_open_state.inodes x) ∧
      s' = { ex_open_state with inodes := s'.inodes } :=
  nffs_inode_unlink_from_ram_open_file ex_open_state ex_inode_a 100 none (by decide) rfl
    (by decide) (by decide) (by decide) (by decide)
/-! ## The deletion record: claim -/

/-- C13 (amended): a successful `nffs_inode_delete_from_disk` of an inode with a parent
reserves `sizeof (struct nffs_disk_inode)` = 20 bytes and writes, at the location
(`area_idx`, `area_offset`) that the reservation returned, one inode record of 20 bytes
with the inode magic, the object id of the inode's entry, the sequence number
`ni_seq + 1` as a 32-bit value, the parent id `NFFS_ID_NONE` and the filename length 0;
the cursor of that area moves on by 20 and no other byte of the flash changes.
`inode->ni_seq` becomes that sequence number.  Heap and hash table are those that the
reservation left: no child list, reference count or object id differs from before the
call, and the hash table is the one from before the call unless the reservation ran the
garbage collector. -/
theorem nffs_inode_delete_from_disk_record (env : nffs_env) (s s' : nffs_state)
    (inode inode' : nffs_inode)
    (hok : nffs_inode_delete_from_disk env s inode = (.ok (), inode', s')) :
    ∃ area_idx area_offset area s1,
      inode.ni_parent ≠ none ∧
      nffs_misc_reserve_space env s NFFS_DISK_INODE_SZ = (.ok (area_idx, area_offset), s1) ∧
      (s1 = s ∨ s1 = (env.nffs_gc_until NFFS_DISK_INODE_SZ s).2.apply s) ∧
      s1.nffs_areas[area_idx]? = some area ∧ area_offset = area.na_cur ∧
      s'.nffs_areas = s1.nffs_areas.set area_idx
        { area with na_cur := area_offset + NFFS_DISK_INODE_SZ } ∧
      (nffs_disk_inode.of_bytes (mem_read s'.flash (area.na_offset + area_offset)
        NFFS_DISK_INODE_SZ)).ndi_magic = NFFS_INODE_MAGIC ∧
      (nffs_disk_inode.of_bytes (mem_read s'.flash (area.na_offset + area_offset)
        NFFS_DISK_INODE_SZ)).ndi_id
          = (s.inodes inode.ni_inode_entry).nie_hash_entry.nhe_id % 2 ^ 32 ∧
      (nffs_disk_inode.of_bytes (mem_read s'.flash (area.na_offset + area_offset)
        NFFS_DISK_INODE_SZ)).ndi_seq = (inode.ni_seq + 1) % 2 ^ 32 ∧
      (nffs_disk_inode.of_bytes (mem_read s'.flash (area.na_offset + area_offset)
        NFFS_DISK_INODE_SZ)).ndi_parent_id = NFFS_ID_NONE ∧
      (nffs_disk_inode.of_bytes (mem_read s'.flash (area.na_offset + area_offset)
        NFFS_DISK_INODE_SZ)).ndi_filename_len = 0 ∧
      (∀ a, a < area.na_offset + area_offset ∨
          area.na_offset + area_offset + NFFS_DISK_INODE_SZ ≤ a → s'.flash a = s1.flash a) ∧
      inode' = { inode with ni_seq := (inode.ni_seq + 1) % 2 ^ 32 } ∧
      s'.nffs_hash = s1.nffs_hash ∧ s'.inodes = s1.inodes ∧
      (s1 = s → s'.nffs_hash = s.nffs_hash) ∧
      (∀ e, (s'.inodes e).nie_child_list = (s.inodes e).nie_child_list ∧
        (s'.inodes e).nie_refcnt = (s.inodes e).nie_refcnt ∧
        (s'.inodes e).nie_last_block_entry = (s.inodes e).nie_last_block_entry ∧
        (s'.inodes e).nie_hash_entry.nhe_id = (s.inodes e).nie_hash_entry.nhe_id) := by
  unfold nffs_inode_delete_from_disk at hok
  cases hp : inode.ni_parent with
  | none => simp [hp] at hok
  | some p =>
    simp only [hp] at hok
    cases hres : nffs_misc_reserve_space env s NFFS_DISK_INODE_SZ with
    | mk r s1 =>
      rw [hres] at hok
      cases r with
      | abort => cases hok
      | err rc => cases hok
      | ok loc =>
        obtain ⟨area_idx, area_offset⟩ := loc
        simp only [] at hok
        obtain ⟨d, hd⟩ : ∃ d, d = nffs_crc_disk_inode_fill env
            { ndi_magic := NFFS_INODE_MAGIC
              ndi_id := (s1.inodes inode.ni_inode_entry).nie_hash_entry.nhe_id
              ndi_seq := (inode.ni_seq + 1) % 2 ^ 32
              ndi_parent_id := NFFS_ID_NONE
              reserved8 := env.uninit8
              ndi_filename_len := 0
              ndi_crc16 := 0 } [] := ⟨_, rfl⟩
        rw [← hd] at hok
        cases hw : nffs_inode_write_disk s1 d [] area_idx area_offset with
        | mk rw s2 =>
          rw [hw] at hok
          cases rw with
          | abort => cases hok
          | err rc => cases hok
          | ok u =>
            simp only [Prod.mk.injEq, true_and] at hok
            obtain ⟨hi, hs2⟩ := hok
            subst hs2
            have hz : d.ndi_filename_len = 0 := by rw [hd]; rfl
            obtain ⟨area, ha, hcur, hs'⟩ :=
              nffs_inode_write_disk_header s1 d [] area_idx area_offset s2 hz hw
            have hfr := nffs_misc_reserve_space_frame env s NFFS_DISK_INODE_SZ
            rw [hres] at hfr
            simp only [] at hfr
            have h20 : NFFS_DISK_INODE_SZ % 2 ^ 16 = NFFS_DISK_INODE_SZ := by decide
            rw [h20] at hfr
            have hrec : nffs_disk_inode.of_bytes (mem_read s2.flash
                (area.na_offset + area_offset) NFFS_DISK_INODE_SZ)
                = nffs_disk_inode.of_bytes d.bytes := by
              rw [hs']
              simp only []
              have := mem_read_write_same s1.flash (area.na_offset + area_offset) d.bytes
              rw [nffs_disk_inode.bytes_length] at this
              rw [this, map_mod_of_lt _ (nffs_disk_inode.bytes_lt d)]
            have hin1 : ∀ e, (s1.inodes e).nie_child_list = (s.inodes e).nie_child_list ∧
                (s1.inodes e).nie_refcnt = (s.inodes e).nie_refcnt ∧
                (s1.inodes e).nie_last_block_entry = (s.inodes e).nie_last_block_entry ∧
                (s1.inodes e).nie_hash_entry.nhe_id = (s.inodes e).nie_hash_entry.nhe_id := by
              intro e
              rcases hfr with h | h
              · rw [h]; exact ⟨rfl, rfl, rfl, rfl⟩
              · rw [h]; exact ⟨rfl, rfl, rfl, rfl⟩
            have hin2 : s2.inodes = s1.inodes := by rw [hs']
            refine ⟨area_idx, area_offset, area, s1, by simp, rfl, hfr, ha, hcur, ?_, ?_, ?_,
              ?_, ?_, ?_, ?_, hi.symm, ?_, hin2, ?_, ?_⟩
            · rw [hs']
            · rw [hrec, nffs_disk_inode.of_bytes_bytes, hd]
              simp [nffs_crc_disk_inode_fill, NFFS_INODE_MAGIC]
            · rw [hrec, nffs_disk_inode.of_bytes_bytes, hd]
              simp only [nffs_crc_disk_inode_fill]
              rw [(hin1 _).2.2.2]
            · rw [hrec, nffs_disk_inode.of_bytes_bytes, hd]
              simp only [nffs_crc_disk_inode_fill, Nat.mod_mod]
            · rw [hrec, nffs_disk_inode.of_bytes_bytes, hd]
              simp [nffs_crc_disk_inode_fill, NFFS_ID_NONE]
            · rw [hrec, nffs_disk_inode.of_bytes_bytes, hd]
              simp [nffs_crc_disk_inode_fill]
            · intro a hrange
              rw [hs']
              simp only [mem_write, nffs_disk_inode.bytes_length]
              rw [if_neg (by omega)]
            · rw [hs']
            · intro h1
              rw [hs', ← h1]
            · intro e
              rw [hin2]
              exact hin1 e

set_option maxRecDepth 100000 in
theorem nffs_inode_delete_from_disk_record_witness :
    nffs_inode_delete_from_disk ex_env (ex_state 4096) ex_inode_a
      = (.ok (), (nffs_inode_delete_from_disk ex_env (ex_state 4096) ex_inode_a).2.1,
          (nffs_inode_delete_from_disk ex_env (ex_state 4096) ex_inode_a).2.2) ∧
    ∃ area_idx area_offset area s1,
      ex_inode_a.ni_parent ≠ none ∧
      nffs_misc_reserve_space ex_env (ex_state 4096) NFFS_DISK_INODE_SZ
        = (.ok (area_idx, area_offset), s1) ∧
      (s1 = ex_state 4096 ∨
        s1 = (ex_env.nffs_gc_until NFFS_DISK_INODE_SZ (ex_state 4096)).2.apply
          (ex_state 4096)) ∧
      s1.nffs_areas[area_idx]? = some area ∧ area_offset = area.na_cur ∧
      (nffs_inode_delete_from_disk ex_env (ex_state 4096) ex_inode_a).2.2.nffs_areas
        = s1.nffs_areas.set area_idx
          { area with na_cur := area_offset + NFFS_DISK_INODE_SZ } ∧
      (nffs_disk_inode.of_bytes (mem_read
        (nffs_inode_delete_from_disk ex_env (ex_state 4096) ex_inode_a).2.2.flash
        (area.na_offset + area_offset) NFFS_DISK_INODE_SZ)).ndi_magic = NFFS_INODE_MAGIC ∧
      (nffs_disk_inode.of_bytes (mem_read
        (nffs_inode_delete_from_disk ex_env (ex_state 4096) ex_inode_a).2.2.flash
        (area.na_offset + area_offset) NFFS_DISK_INODE_SZ)).ndi_id
          = ((ex_state 4096).inodes ex_inode_a.ni_inode_entry).nie_hash_entry.nhe_id
            % 2 ^ 32 ∧
      (nffs_disk_inode.of_bytes (mem_read
        (nffs_inode_delete_from_disk ex_env (ex_state 4096) ex_inode_a).2.2.flash
        (area.na_offset + area_offset) NFFS_DISK_INODE_SZ)).ndi_seq
          = (ex_inode_a.ni_seq + 1) % 2 ^ 32 ∧
      (nffs_disk_inode.of_bytes (mem_read
        (nffs_inode_delete_from_disk ex_env (ex_state 4096) ex_inode_a).2.2.flash
        (area.na_offset + area_offset) NFFS_DISK_INODE_SZ)).ndi_parent_id = NFFS_ID_NONE ∧
      (nffs_disk_inode.of_bytes (mem_read
        (nffs_inode_delete_from_disk ex_env (ex_state 4096) ex_inode_a).2.2.flash
        (area.na_offset + area_offset) NFFS_DISK_INODE_SZ)).ndi_filename_len = 0 ∧
      (∀ a, a < area.na_offset + area_offset ∨
          area.na_offset + area_offset + NFFS_DISK_INODE_SZ ≤ a →
        (nffs_inode_delete_from_disk ex_env (ex_state 4096) ex_inode_a).2.2.flash a
          = s1.flash a) ∧
      (nffs_inode_delete_from_disk ex_env (ex_state 4096) ex_inode_a).2.1
        = { ex_inode_a with ni_seq := (ex_inode_a.ni_seq + 1) % 2 ^ 32 } ∧
      (nffs_inode_delete_from_disk ex_env (ex_state 4096) ex_inode_a).2.2.nffs_hash
        = s1.nffs_hash ∧
      (nffs_inode_delete_from_disk ex_env (ex_state 4096) ex_inode_a).2.2.inodes
        = s1.inodes ∧
      (s1 = ex_state 4096 →
        (nffs_inode_delete_from_disk ex_env (ex_state 4096) ex_inode_a).2.2.nffs_hash
          = (ex_state 4096).nffs_hash) ∧
      (∀ e,
        ((nffs_inode_delete_from_disk ex_env (ex_state 4096) ex_inode_a).2.2.inodes
          e).nie_child_list = ((ex_state 4096).inodes e).nie_child_list ∧
        ((nffs_inode_delete_from_disk ex_env (ex_state 4096) ex_inode_a).2.2.inodes
          e).nie_refcnt = ((ex_state 4096).inodes e).nie_refcnt ∧
        ((nffs_inode_delete_from_disk ex_env (ex_state 4096) ex_inode_a).2.2.inodes
          e).nie_last_block_entry = ((ex_state 4096).inodes e).nie_last_block_entry ∧
        ((nffs_inode_delete_from_disk ex_env (ex_state 4096) ex_inode_a).2.2.inodes
          e).nie_hash_entry.nhe_id = ((ex_state 4096).inodes e).nie_hash_entry.nhe_id) :=
  ⟨Prod.ext (by decide) rfl,
    nffs_inode_delete_from_disk_record ex_env (ex_state 4096)
      (nffs_inode_delete_from_disk ex_env (ex_state 4096) ex_inode_a).2.2 ex_inode_a
      (nffs_inode_delete_from_disk ex_env (ex_state 4096) ex_inode_a).2.1
      (Prod.ext (by decide) rfl)⟩

set_option maxRecDepth 100000 in
/-- C13 as stated fails on the code in two ways.  For the inode of entry 102, whose
record has the sequence number 2^32 - 1, the record written has the sequence number 0 and
`inode->ni_seq` becomes 0.  When area 0 is full and the reservation runs a garbage
collector that looks up the object `0x10000001` in the hash table, the chain of bucket 1
is `[101, 104]` after the call and was `[104, 101]` before it. -/
theorem nffs_inode_delete_from_disk_counterexample :
    ex_inode_c.ni_seq = 2 ^ 32 - 1 ∧
    (nffs_inode_delete_from_disk ex_env (ex_state 4096) ex_inode_c).1 = .ok () ∧
    (nffs_disk_inode.of_bytes (mem_read
      (nffs_inode_delete_from_disk ex_env (ex_state 4096) ex_inode_c).2.2.flash 125
      NFFS_DISK_INODE_SZ)).ndi_seq = 0 ∧
    (nffs_inode_delete_from_disk ex_env (ex_state 4096) ex_inode_c).2.1.ni_seq = 0 ∧
    (nffs_inode_delete_from_disk ex_env_gc_find (ex_state 125) ex_inode_a).1 = .ok () ∧
    (ex_state 125).nffs_hash (nffs_hash_fn 1) = [104, 101] ∧
    (nffs_inode_delete_from_disk ex_env_gc_find (ex_state 125) ex_inode_a).2.2.nffs_hash
      (nffs_hash_fn 1) = [101, 104] := by
  decide
/-! ## Unlinking a directory: claim -/

set_option maxHeartbeats 1000000 in
set_option maxRecDepth 1000000 in
/-- C14 (the code at the failing input): in `ex_tree_state` directory 104 ("d") holds
the directory 106 ("e") and the file 105, and directory 106, on which a directory handle
is open (reference count 2), holds the file 103; the unlink list is empty.
`nffs_inode_unlink_from_ram` of directory 104 returns 0 and leaves the unlink list empty;
104 and 105 are unlinked from the hash table and free.  The descendant directory 106 is
not deleted from RAM: it is still linked in the hash table, is not free, and has the
reference count 1.  The reference count of its file 103 is not decremented. -/
theorem nffs_inode_unlink_from_ram_open_subdir :
    (nffs_inode_from_entry ex_tree_state 104).1 = .ok ex_tree_inode_d ∧
    (ex_tree_state.inodes 104).nie_child_list = [106, 105] ∧
    (ex_tree_state.inodes 106).nie_child_list = [103] ∧
    nffs_hash_id_is_dir (ex_tree_state.inodes 106).nie_hash_entry.nhe_id = true ∧
    nffs_hash_id_is_file (ex_tree_state.inodes 103).nie_hash_entry.nhe_id = true ∧
    (ex_tree_state.inodes 106).nie_refcnt = 2 ∧
    (ex_tree_state.inodes 103).nie_refcnt = 1 ∧
    ex_tree_state.nffs_inode_unlink_list = [] ∧
    (nffs_inode_unlink_from_ram ex_tree_state ex_tree_inode_d none).1 = .ok () ∧
    (nffs_inode_unlink_from_ram ex_tree_state ex_tree_inode_d none).2.2.nffs_inode_unlink_list
      = [] ∧
    (nffs_inode_unlink_from_ram ex_tree_state ex_tree_inode_d none).2.2.nffs_inode_entry_pool
      = [104, 105] ∧
    (∀ i, 104 ∉ (nffs_inode_unlink_from_ram ex_tree_state ex_tree_inode_d none).2.2.nffs_hash
      i) ∧
    (∀ i, 105 ∉ (nffs_inode_unlink_from_ram ex_tree_state ex_tree_inode_d none).2.2.nffs_hash
      i) ∧
    106 ∈ (nffs_inode_unlink_from_ram ex_tree_state ex_tree_inode_d none).2.2.nffs_hash
      (nffs_hash_fn 2) ∧
    ((nffs_inode_unlink_from_ram ex_tree_state ex_tree_inode_d none).2.2.inodes
      106).nie_refcnt = 1 ∧
    103 ∈ (nffs_inode_unlink_from_ram ex_tree_state ex_tree_inode_d none).2.2.nffs_hash
      (nffs_hash_fn 0x10000003) ∧
    ((nffs_inode_unlink_from_ram ex_tree_state ex_tree_inode_d none).2.2.inodes
      103).nie_refcnt = 1 := by
  decide
/-! ## Space reservation: claim -/

/-- C15: in an area table in which every area has its cursor inside it, if some area that
is not the scratch area has at least `space` bytes free, `nffs_misc_reserve_space(space)`
returns 0 with the smallest index `i` of such an area and the cursor of that area,
whatever the garbage collector is (it is not run); `i` is not the scratch index, the
state is the one from before the call, and a second call returns the same location. -/
theorem nffs_misc_reserve_space_first_fit (s : nffs_state) (space : Nat)
    (hspace : space < 2 ^ 16)
    (hcur : ∀ a ∈ s.nffs_areas, a.na_cur ≤ a.na_length ∧ a.na_length < 2 ^ 32)
    (hex : ∃ i a, s.nffs_areas[i]? = some a ∧ i ≠ s.nffs_scratch_area_idx ∧
      space ≤ a.na_length - a.na_cur) :
    ∃ i a, s.nffs_areas[i]? = some a ∧ i ≠ s.nffs_scratch_area_idx ∧
      space ≤ a.na_length - a.na_cur ∧
      (∀ j b, s.nffs_areas[j]? = some b → j ≠ s.nffs_scratch_area_idx →
        space ≤ b.na_length - b.na_cur → i ≤ j) ∧
      (∀ env : nffs_env, nffs_misc_reserve_space env s space = (.ok (i, a.na_cur), s)) ∧
      (∀ env : nffs_env,
        nffs_misc_reserve_space env (nffs_misc_reserve_space env s space).2 space
          = (.ok (i, a.na_cur), s)) := by
  obtain ⟨i0, a0, ha0, hns0, hfit0⟩ := hex
  have hmem : ∀ (i : Nat) (a : nffs_area), s.nffs_areas[i]? = some a → a ∈ s.nffs_areas := by
    intro i a h
    exact List.getElem?_mem h
  have hi0 : i0 < s.nffs_areas.length := by
    by_contra hn
    rw [List.getElem?_eq_none (by omega)] at ha0
    cases ha0
  have hok0 := (nffs_misc_reserve_space_area_iff s i0 space a0 ha0
    (hcur a0 (hmem _ _ ha0)).1 (hcur a0 (hmem _ _ ha0)).2).1 hfit0
  obtain ⟨pre, j, post, offj, hl, hj, hjok, hpre, hloop⟩ :=
    nffs_misc_reserve_space_loop_first s space (List.range s.nffs_areas.length) i0 _
      (List.mem_range.mpr hi0) hns0 hok0
  obtain ⟨aj, haj, hoff⟩ := nffs_misc_reserve_space_area_ok s j space offj hjok
  have hfitj := (nffs_misc_reserve_space_area_iff s j space aj haj
    (hcur aj (hmem _ _ haj)).1 (hcur aj (hmem _ _ haj)).2).2 offj hjok
  have hres : ∀ env : nffs_env,
      nffs_misc_reserve_space env s space = (.ok (j, aj.na_cur), s) := by
    intro env
    unfold nffs_misc_reserve_space
    simp only [Nat.mod_eq_of_lt hspace, hloop, hoff]
  refine ⟨j, aj, haj, hj, hfitj, ?_, hres, ?_⟩
  · intro k b hb hkn hfitk
    by_contra hlt
    have hlt' : k < j := by omega
    have hkpre : k ∈ pre := by
      have hsorted : (List.range s.nffs_areas.length).Pairwise (· < ·) :=
        List.pairwise_lt_range _
      rw [hl] at hsorted
      have hk : k ∈ pre ++ j :: post := by
        rw [← hl]
        exact List.mem_range.mpr (by
          by_contra hn
          rw [List.getElem?_eq_none (by omega)] at hb
          cases hb)
      rcases List.mem_append.mp hk with h | h
      · exact h
      · exfalso
        rcases List.mem_cons.mp h with rfl | h
        · omega
        · have := (List.pairwise_cons.mp (List.pairwise_append.mp hsorted).2.1).1 k h
          omega
    exact hpre k hkpre hkn _
      ((nffs_misc_reserve_space_area_iff s k space b hb
        (hcur b (hmem _ _ hb)).1 (hcur b (hmem _ _ hb)).2).1 hfitk)
  · intro env
    rw [hres env]
    exact hres env

theorem nffs_misc_reserve_space_first_fit_witness :
    ∃ i a, (ex_state 4096).nffs_areas[i]? = some a ∧
      i ≠ (ex_state 4096).nffs_scratch_area_idx ∧
      21 ≤ a.na_length - a.na_cur ∧
      (∀ j b, (ex_state 4096).nffs_areas[j]? = some b →
        j ≠ (ex_state 4096).nffs_scratch_area_idx →
        21 ≤ b.na_length - b.na_cur → i ≤ j) ∧
      (∀ env : nffs_env,
        nffs_misc_reserve_space env (ex_state 4096) 21 = (.ok (i, a.na_cur), ex_state 4096)) ∧
      (∀ env : nffs_env,
        nffs_misc_reserve_space env (nffs_misc_reserve_space env (ex_state 4096) 21).2 21
          = (.ok (i, a.na_cur), ex_state 4096)) :=
  nffs_misc_reserve_space_first_fit (ex_state 4096) 21 (by decide)
    (by decide) ⟨0, _, rfl, by decide, by decide⟩

/-! ## Validation of the scratch area: claim -/

/-- C18: for a scratch index that is `NFFS_AREA_ID_NONE` or an index of the area table,
`nffs_misc_validate_scratch` returns 0 exactly when the index is not
`NFFS_AREA_ID_NONE` and no area of the table is longer than the area at that index, and
returns `NFFS_ECORRUPT` in every other case.  The function writes no global: its value
is its status alone. -/
theorem nffs_misc_validate_scratch_iff (s : nffs_state)
    (hidx : s.nffs_scratch_area_idx = NFFS_AREA_ID_NONE ∨
      s.nffs_scratch_area_idx < s.nffs_areas.length) :
    (nffs_misc_validate_scratch s = .ok () ↔
      s.nffs_scratch_area_idx ≠ NFFS_AREA_ID_NONE ∧
      ∃ scratch, s.nffs_areas[s.nffs_scratch_area_idx]? = some scratch ∧
        ∀ area ∈ s.nffs_areas, area.na_length ≤ scratch.na_length) ∧
    (nffs_misc_validate_scratch s ≠ .ok () →
      nffs_misc_validate_scratch s = .err NFFS_ECORRUPT) := by
  unfold nffs_misc_validate_scratch
  by_cases hn : s.nffs_scratch_area_idx = NFFS_AREA_ID_NONE
  · rw [if_pos hn]
    exact ⟨⟨fun h => (by cases h), fun h => absurd hn h.1⟩, fun _ => rfl⟩
  · have hlt : s.nffs_scratch_area_idx < s.nffs_areas.length := by
      rcases hidx with h | h
      · exact absurd h hn
      · exact h
    rw [if_neg hn, List.getElem?_eq_getElem hlt]
    simp only []
    obtain ⟨h1, h2⟩ := nffs_misc_validate_scratch_loop_spec
      (s.nffs_areas[s.nffs_scratch_area_idx]).na_length s.nffs_areas
    refine ⟨⟨fun h => ⟨hn, _, rfl, h1.mp h⟩, fun h => ?_⟩, fun h => ?_⟩
    · obtain ⟨_, scratch, hs, hall⟩ := h
      simp only [Option.some.injEq] at hs
      subst hs
      exact h1.mpr hall
    · rcases h2 with h2 | h2
      · exact absurd h2 h
      · exact h2

theorem nffs_misc_validate_scratch_iff_witness :
    (nffs_misc_validate_scratch (ex_state 4096) = .ok () ↔
      (ex_state 4096).nffs_scratch_area_idx ≠ NFFS_AREA_ID_NONE ∧
      ∃ scratch, (ex_state 4096).nffs_areas[(ex_state 4096).nffs_scratch_area_idx]?
          = some scratch ∧
        ∀ area ∈ (ex_state 4096).nffs_areas, area.na_length ≤ scratch.na_length) ∧
    (nffs_misc_validate_scratch (ex_state 4096) ≠ .ok () →
      nffs_misc_validate_scratch (ex_state 4096) = .err NFFS_ECORRUPT) ∧
    nffs_misc_validate_scratch (ex_state 4096) = .ok () ∧
    nffs_misc_validate_scratch (ex_state 8192) = .err NFFS_ECORRUPT :=
  ⟨(nffs_misc_validate_scratch_iff (ex_state 4096) (Or.inr (by decide))).1,
    (nffs_misc_validate_scratch_iff (ex_state 4096) (Or.inr (by decide))).2,
    by decide, by decide⟩

/-! ## The maximum block data length: claims -/

/-- C16 (amended): for an area table whose smallest area has `m` bytes, `m` at least 72,
after `nffs_misc_set_max_block_data_len(min_data_len)` returns 0 a block of
`min_data_len` bytes fits in the smallest area, the stored `nffs_block_max_data_sz` is the
larger of `min_data_len` and min(2048, (m - 24) / 2 - 24), and nothing else is changed;
so whenever `min_data_len` is at most min(2048, (m - 24) / 2 - 24) the stored value is
at most that bound, and two blocks of the stored length with their headers fit in the
smallest area behind its header. -/
theorem nffs_misc_set_max_block_data_len_bound (s s' : nffs_state) (min_data_len m : Nat)
    (hmin : min_data_len < 2 ^ 16)
    (hm : ∃ a ∈ s.nffs_areas, a.na_length = m)
    (hsm : ∀ a ∈ s.nffs_areas, m ≤ a.na_length ∧ a.na_length < 2 ^ 32)
    (h72 : 72 ≤ m)
    (hok : nffs_misc_set_max_block_data_len s min_data_len = (.ok (), s')) :
    min_data_len + 48 ≤ m ∧
    s' = { s with
      nffs_block_max_data_sz := max min_data_len (min 2048 ((m - 24) / 2 - 24)) } ∧
    (min_data_len ≤ min 2048 ((m - 24) / 2 - 24) →
      s'.nffs_block_max_data_sz ≤ min 2048 ((m - 24) / 2 - 24) ∧
      2 * (s'.nffs_block_max_data_sz + 24) ≤ m - 24) := by
  have h32 : m < 2 ^ 32 := by
    obtain ⟨a, ha, ham⟩ := hm
    have := (hsm a ha).2
    omega
  have hfit : min_data_len + 48 ≤ m := by
    by_contra hn
    rw [(nffs_misc_set_max_block_data_len_spec s min_data_len m hmin hm hsm (by omega)).1
      (by omega)] at hok
    cases congrArg Prod.fst hok
  have hs' : s' = { s with
      nffs_block_max_data_sz := max min_data_len (min 2048 ((m - 24) / 2 - 24)) } := by
    unfold nffs_misc_set_max_block_data_len at hok
    simp only [Nat.mod_eq_of_lt hmin, nffs_misc_set_max_block_data_len_smallest s m hm hsm,
      nffs_misc_area_capacity_one_eq m (by omega) h32,
      nffs_misc_area_capacity_two_eq m h72 h32, NFFS_BLOCK_MAX_DATA_SZ_MAX] at hok
    rw [if_neg (by omega)] at hok
    have h2 := (congrArg Prod.snd hok).symm
    simp only [] at h2
    rw [h2]
    congr 1
    simp only [Nat.max_def, Nat.min_def]
    repeat' split
    all_goals omega
  refine ⟨hfit, hs', ?_⟩
  intro hle
  rw [hs']
  simp only []
  rw [Nat.max_eq_right hle]
  refine ⟨le_refl _, ?_⟩
  have : min 2048 ((m - 24) / 2 - 24) ≤ (m - 24) / 2 - 24 := Nat.min_le_right _ _
  omega

theorem nffs_misc_set_max_block_data_len_bound_witness :
    100 + 48 ≤ 4096 ∧
    (nffs_misc_set_max_block_data_len (ex_state 4096) 100).2 = { ex_state 4096 with
      nffs_block_max_data_sz := max 100 (min 2048 ((4096 - 24) / 2 - 24)) } ∧
    (100 ≤ min 2048 ((4096 - 24) / 2 - 24) →
      (nffs_misc_set_max_block_data_len (ex_state 4096) 100).2.nffs_block_max_data_sz
        ≤ min 2048 ((4096 - 24) / 2 - 24) ∧
      2 * ((nffs_misc_set_max_block_data_len (ex_state 4096) 100).2.nffs_block_max_data_sz
        + 24) ≤ 4096 - 24) :=
  nffs_misc_set_max_block_data_len_bound (ex_state 4096)
    (nffs_misc_set_max_block_data_len (ex_state 4096) 100).2 100 4096 (by decide)
    ⟨_, List.mem_cons_self _ _, rfl⟩ (by decide) (by decide) (Prod.ext (by decide) rfl)

/-- C16 as stated fails on the code: with a smallest area of 1000 bytes and
`min_data_len = 900` the function returns 0 and stores 900, which is more than
min(2048, (1000 - 24) / 2 - 24) = 464; two blocks of 900 bytes do not fit in that area. -/
theorem nffs_misc_set_max_block_data_len_exceeds :
    (∀ a ∈ (ex_state 1000).nffs_areas, 1000 ≤ a.na_length) ∧
    (nffs_misc_set_max_block_data_len (ex_state 1000) 900).1 = .ok () ∧
    (nffs_misc_set_max_block_data_len (ex_state 1000) 900).2.nffs_block_max_data_sz = 900 ∧
    ¬ (900 ≤ min 2048 ((1000 - 24) / 2 - 24)) := by
  decide

/-- C17 (the code at the failing input): the area table of `ex_small_area_state` has a
smallest area of 40 bytes, so a block of 100 data bytes with its header does not fit in
it behind the area header (100 + 48 > 40); `nffs_misc_area_capacity_one` wraps to
2^32 - 8, `nffs_misc_set_max_block_data_len(100)` returns 0 instead of `NFFS_ECORRUPT`
and sets `nffs_block_max_data_sz` to 2048. -/
theorem nffs_misc_set_max_block_data_len_small_area :
    (∃ a ∈ ex_small_area_state.nffs_areas, a.na_length = 40) ∧
    (∀ a ∈ ex_small_area_state.nffs_areas, 40 ≤ a.na_length) ∧
    nffs_misc_area_capacity_one 40 = 2 ^ 32 - 8 ∧
    (nffs_misc_set_max_block_data_len ex_small_area_state 100).1 = .ok () ∧
    (nffs_misc_set_max_block_data_len ex_small_area_state 100).2.nffs_block_max_data_sz
      = 2048 := by
  decide
/-! ## Validation of the root directory: claim -/

/-- C19 (amended): `nffs_misc_validate_root_dir` returns `NFFS_ECORRUPT` when
`nffs_root_dir` is NULL or its id is not 0.  When the id is 0 and
`nffs_inode_from_entry` fails on the root, its status is returned (`NFFS_EUNEXP` for a
record without the inode magic).  When the record is read, and its parent id is
`NFFS_ID_NONE` or the id of an entry in the hash table, the function returns 0 exactly
when the id of the root is 0 and the parent id is `NFFS_ID_NONE`, and `NFFS_ECORRUPT`
otherwise. -/
theorem nffs_misc_validate_root_dir_spec (s : nffs_state) :
    (s.nffs_root_dir = none → nffs_misc_validate_root_dir s = (.err NFFS_ECORRUPT, s)) ∧
    (∀ root, s.nffs_root_dir = some root →
      ((s.inodes root).nie_hash_entry.nhe_id ≠ NFFS_ID_ROOT_DIR →
        nffs_misc_validate_root_dir s = (.err NFFS_ECORRUPT, s)) ∧
      ((s.inodes root).nie_hash_entry.nhe_id = NFFS_ID_ROOT_DIR →
        (∀ rc s1, nffs_inode_from_entry s root = (.err rc, s1) →
          nffs_misc_validate_root_dir s = (.err rc, s1)) ∧
        (∀ b, nffs_flash_read s
            (nffs_flash_loc_expand (s.inodes root).nie_hash_entry.nhe_flash_loc).1
            (nffs_flash_loc_expand (s.inodes root).nie_hash_entry.nhe_flash_loc).2
            NFFS_DISK_INODE_SZ = .ok b →
          (nffs_disk_inode.of_bytes b).ndi_magic ≠ NFFS_INODE_MAGIC →
          nffs_misc_validate_root_dir s = (.err NFFS_EUNEXP, s))) ∧
      (∀ inode s1 di, nffs_inode_from_entry s root = (.ok inode, s1) →
        nffs_inode_read_disk s
          (nffs_flash_loc_expand (s.inodes root).nie_hash_entry.nhe_flash_loc).1
          (nffs_flash_loc_expand (s.inodes root).nie_hash_entry.nhe_flash_loc).2 = .ok di →
        (di.ndi_parent_id = NFFS_ID_NONE ∨
          ∃ e ∈ s.nffs_hash (nffs_hash_fn di.ndi_parent_id),
            (s.inodes e).nie_hash_entry.nhe_id = di.ndi_parent_id) →
        ((nffs_misc_validate_root_dir s).1 = .ok () ↔
          (s.inodes root).nie_hash_entry.nhe_id = NFFS_ID_ROOT_DIR ∧
          di.ndi_parent_id = NFFS_ID_NONE) ∧
        ((nffs_misc_validate_root_dir s).1 ≠ .ok () →
          (nffs_misc_validate_root_dir s).1 = .err NFFS_ECORRUPT))) := by
  refine ⟨fun h => ?_, fun root hroot => ⟨fun hid => ?_, fun hid => ⟨fun rc s1 hfe => ?_,
    fun b hb hmagic => ?_⟩, fun inode s1 di hfe hrd hres => ?_⟩⟩
  · simp [nffs_misc_validate_root_dir, h]
  · simp [nffs_misc_validate_root_dir, hroot, hid]
  · simp [nffs_misc_validate_root_dir, hroot, hid, hfe]
  · have hfe : nffs_inode_from_entry s root = (.err NFFS_EUNEXP, s) := by
      simp [nffs_inode_from_entry, nffs_inode_read_disk, hb, hmagic]
    simp [nffs_misc_validate_root_dir, hroot, hid, hfe]
  · obtain ⟨_, _, di', hrd', _, _, hpar, _⟩ := nffs_inode_from_entry_ok s root inode s1 hfe
    rw [hrd] at hrd'
    cases hrd'
    by_cases hid : (s.inodes root).nie_hash_entry.nhe_id = NFFS_ID_ROOT_DIR
    · by_cases hp : di.ndi_parent_id = NFFS_ID_NONE
      · have hnone : inode.ni_parent = none := by rw [hpar, if_pos hp]
        have hv : (nffs_misc_validate_root_dir s).1 = .ok () := by
          simp [nffs_misc_validate_root_dir, hroot, hid, hfe, hnone]
        rw [hv]
        exact ⟨⟨fun _ => ⟨hid, hp⟩, fun _ => rfl⟩, fun h => absurd rfl h⟩
      · have hsome : inode.ni_parent ≠ none := by
          rw [hpar, if_neg hp]
          rcases hres with h | ⟨e, he, heid⟩
          · exact absurd h hp
          · rcases nffs_hash_find_fst_snd s.hash_mem s.nffs_hash di.ndi_parent_id with
              ⟨hmiss, _⟩ | ⟨pre, e', post, _, _, _, hfind⟩
            · exact absurd heid (hmiss e he)
            · rw [hfind]
              simp
        have hv : (nffs_misc_validate_root_dir s).1 = .err NFFS_ECORRUPT := by
          simp [nffs_misc_validate_root_dir, hroot, hid, hfe, hsome]
        rw [hv]
        exact ⟨⟨fun h => (by cases h), fun h => absurd h.2 hp⟩, fun _ => rfl⟩
    · have hv : (nffs_misc_validate_root_dir s).1 = .err NFFS_ECORRUPT := by
        simp [nffs_misc_validate_root_dir, hroot, hid]
      rw [hv]
      exact ⟨⟨fun h => (by cases h), fun h => absurd h.1 hid⟩, fun _ => rfl⟩

/-- The amended C19 on the example file system: its root has id 0 and a record with
parent id `NFFS_ID_NONE`, and the function returns 0. -/
theorem nffs_misc_validate_root_dir_spec_witness :
    ((nffs_misc_validate_root_dir ex_root_state).1 = .ok () ↔
      (ex_root_state.inodes 100).nie_hash_entry.nhe_id = NFFS_ID_ROOT_DIR ∧
      (ex_header 0 0 NFFS_ID_NONE 0).ndi_parent_id = NFFS_ID_NONE) ∧
    (nffs_misc_validate_root_dir ex_root_state).1 = .ok () :=
  ⟨(((nffs_misc_validate_root_dir_spec ex_root_state).2 100 rfl).2.2
      { ni_inode_entry := 100, ni_seq := 0, ni_parent := none, ni_filename_len := 0,
        ni_filename := [] }
      (nffs_inode_from_entry ex_root_state 100).2 (ex_header 0 0 NFFS_ID_NONE 0)
      (Prod.ext (by decide) rfl) (by decide) (Or.inl rfl)).1, by decide⟩

/-- C19 as stated fails on the code: in `ex_erased_state` the root directory is set and
has id 0, and the record it references is erased flash, whose parent id field reads
`NFFS_ID_NONE`; the function returns neither 0 nor `NFFS_ECORRUPT` but the status
`NFFS_EUNEXP` of `nffs_inode_read_disk`.  When the driver fails the read, the function
returns `NFFS_EFLASH_ERROR`. -/
theorem nffs_misc_validate_root_dir_other_error :
    ex_erased_state.nffs_root_dir = some 100 ∧
    (ex_erased_state.inodes 100).nie_hash_entry.nhe_id = NFFS_ID_ROOT_DIR ∧
    (nffs_disk_inode.of_bytes (mem_read ex_erased_state.flash 0 NFFS_DISK_INODE_SZ)).ndi_parent_id
      = NFFS_ID_NONE ∧
    (nffs_misc_validate_root_dir ex_erased_state).1 = .err NFFS_EUNEXP ∧
    NFFS_EUNEXP ≠ NFFS_ECORRUPT ∧
    (nffs_misc_validate_root_dir
      { ex_root_state with flash_read_fails := fun _ _ => true }).1 = .err NFFS_EFLASH_ERROR ∧
    NFFS_EFLASH_ERROR ≠ NFFS_ECORRUPT := by
  decide
/-! ## Reading a directory: claim -/

/-- C20 (amended): for a handle that was just opened (its dirent refers to no entry) on a
directory with the children `cs` in child-list order, a list without repetition whose
entries have reference counts from 1 to 254, and with nothing but the calls of
`nffs_dir_read` done:
for every `k` below the length of `cs` call number `k + 1` returns 0, sets `*out_dirent`
to the dirent of the handle, and that dirent refers to `cs[k]`; the call after the last
child returns `NFFS_ENOENT` with `*out_dirent` NULL and leaves the state from before the
first call.  In between the object ids, flash locations, child lists and the flash
are unchanged, so that a list that is sorted by filename is read in ascending order. -/
theorem nffs_dir_read_in_order (s : nffs_state) (dir : Nat) (cs : List Nat)
    (hfresh : (s.dirs dir).nd_dirent.nde_inode_entry = none)
    (hcs : (s.inodes (s.dirs dir).nd_parent_inode_entry).nie_child_list = cs)
    (hnodup : cs.Nodup)
    (href : ∀ c ∈ cs, 1 ≤ (s.inodes c).nie_refcnt ∧ (s.inodes c).nie_refcnt ≤ 254) :
    (∀ k c, cs[k]? = some c → ∀ od,
      nffs_dir_read (nffs_dir_read_iter dir k s) dir od
        = (.ok (), some dir, nffs_dir_read_iter dir (k + 1) s) ∧
      ((nffs_dir_read_iter dir (k + 1) s).dirs dir).nd_dirent.nde_inode_entry = some c) ∧
    (∀ od, nffs_dir_read (nffs_dir_read_iter dir cs.length s) dir od
      = (.err NFFS_ENOENT, none, nffs_dir_read_iter dir (cs.length + 1) s)) ∧
    nffs_dir_read_iter dir (cs.length + 1) s = s ∧
    (∀ k, k ≤ cs.length + 1 →
      same_records s (nffs_dir_read_iter dir k s) ∧
      (∀ e, ((nffs_dir_read_iter dir k s).inodes e).nie_child_list
        = (s.inodes e).nie_child_list) ∧
      (cs.Pairwise (filename_le s) →
        cs.Pairwise (filename_le (nffs_dir_read_iter dir k s)))) := by
  obtain ⟨hstep, hiter⟩ := nffs_dir_read_iter_at s dir cs hcs hnodup href
  have hs0 : nffs_dir_at s dir (nffs_dir_pos cs 0) = s := nffs_dir_at_none s dir hfresh
  have hit : ∀ k, k ≤ cs.length + 1 →
      nffs_dir_read_iter dir k s = nffs_dir_at s dir (nffs_dir_pos cs k) := by
    intro k hk
    have := hiter k 0 (by omega)
    rw [hs0, Nat.zero_add] at this
    exact this
  refine ⟨?_, ?_, ?_, ?_⟩
  · intro k c hc od
    have hk : k < cs.length := by
      by_contra hn
      rw [List.getElem?_eq_none (by omega)] at hc
      cases hc
    have h1 := hstep k (by omega) od
    rw [hc] at h1
    simp only [Option.map_some', if_false] at h1
    rw [hit k (by omega), hit (k + 1) (by omega)]
    simp only [nffs_dir_pos, hc]
    exact ⟨h1, (nffs_dir_at_dirs s dir (some c)).1⟩
  · intro od
    have h1 := hstep cs.length (le_refl _) od
    rw [List.getElem?_eq_none (le_refl _)] at h1
    simp only [Option.map_none', if_true] at h1
    rw [hit cs.length (by omega), hit (cs.length + 1) (le_refl _)]
    simp only [nffs_dir_pos, List.getElem?_eq_none (le_refl cs.length)]
    exact h1
  · rw [hit (cs.length + 1) (le_refl _)]
    simp only [nffs_dir_pos, List.getElem?_eq_none (le_refl cs.length)]
    exact nffs_dir_at_none s dir hfresh
  · intro k hk
    rw [hit k hk]
    obtain ⟨hsr, hl⟩ := nffs_dir_at_same_records s dir (nffs_dir_pos cs k)
    refine ⟨hsr, hl, fun hsorted => ?_⟩
    exact hsorted.imp (fun {a b} h =>
      filename_le_congr (inode_filename_same_records hsr a)
        (inode_filename_same_records hsr b) h)

theorem nffs_dir_read_in_order_witness :
    (∀ k c, [101, 102, 104][k]? = some c → ∀ od,
      nffs_dir_read (nffs_dir_read_iter 7 k ex_dir_state) 7 od
        = (.ok (), some 7, nffs_dir_read_iter 7 (k + 1) ex_dir_state) ∧
      ((nffs_dir_read_iter 7 (k + 1) ex_dir_state).dirs 7).nd_dirent.nde_inode_entry
        = some c) ∧
    (∀ od, nffs_dir_read (nffs_dir_read_iter 7 [101, 102, 104].length ex_dir_state) 7 od
      = (.err NFFS_ENOENT, none,
          nffs_dir_read_iter 7 ([101, 102, 104].length + 1) ex_dir_state)) ∧
    nffs_dir_read_iter 7 ([101, 102, 104].length + 1) ex_dir_state = ex_dir_state ∧
    (∀ k, k ≤ [101, 102, 104].length + 1 →
      same_records ex_dir_state (nffs_dir_read_iter 7 k ex_dir_state) ∧
      (∀ e, ((nffs_dir_read_iter 7 k ex_dir_state).inodes e).nie_child_list
        = (ex_dir_state.inodes e).nie_child_list) ∧
      ([101, 102, 104].Pairwise (filename_le ex_dir_state) →
        [101, 102, 104].Pairwise (filename_le (nffs_dir_read_iter 7 k ex_dir_state)))) :=
  nffs_dir_read_in_order ex_dir_state 7 [101, 102, 104] rfl (by decide) (by decide)
    (by decide)

/-- Counterexample to C20 as stated: the root of `ex_dir_full_state` has the children
"a", "c" and "d" (entries 101, 102, 104), and "c" holds 255 references.  The first two
calls of `nffs_dir_read` return 0; the second, which yields the dirent for "c", leaves
the 8-bit count of "c" at 0, and the third call, which should yield "d", stops at the
assertion of `nffs_inode_dec_refcnt`. -/
theorem nffs_dir_read_refcnt_wraps :
    (ex_dir_full_state.inodes 100).nie_child_list = [101, 102, 104] ∧
    (ex_dir_full_state.inodes 102).nie_refcnt = 255 ∧
    (nffs_dir_read ex_dir_full_state 7 none).1 = .ok () ∧
    (nffs_dir_read (nffs_dir_read_iter 7 1 ex_dir_full_state) 7 none).1 = .ok () ∧
    ((nffs_dir_read_iter 7 2 ex_dir_full_state).dirs 7).nd_dirent.nde_inode_entry
      = some 102 ∧
    ((nffs_dir_read_iter 7 2 ex_dir_full_state).inodes 102).nie_refcnt = 0 ∧
    (nffs_dir_read (nffs_dir_read_iter 7 2 ex_dir_full_state) 7 none).1 = .abort := by
  decide
/-! ## Reading a filename: claim -/

set_option maxRecDepth 100000 in
/-- C25 (the code at the failing input): `nffs_inode_read_filename` never stores to
`*out_full_len`: whatever the arguments, the variable holds afterwards what it held
before.  In the example file system the call for the file "a" (entry 101, filename
length 1) with a buffer of 8 bytes returns 0 and writes the name and a NUL, and for the
inode with the 135-byte name of `ex_long_state` a buffer of 4 bytes gets the first 3
bytes and a NUL; in both calls the variable keeps the value 0xaa it had. -/
theorem nffs_inode_read_filename_full_len :
    (∀ (s : nffs_state) (inode_entry max_len : Nat) (out_name : Nat → Nat) (out_full_len : Nat),
      (nffs_inode_read_filename s inode_entry max_len out_name out_full_len).2.2.1
        = out_full_len) ∧
    (inode_filename (ex_state 4096) 101 = some [97] ∧
      (nffs_inode_read_filename (ex_state 4096) 101 8 (fun _ => 0xaa) 0xaa).1 = .ok () ∧
      mem_read (nffs_inode_read_filename (ex_state 4096) 101 8 (fun _ => 0xaa) 0xaa).2.1 0 3
        = [97, 0, 0xaa] ∧
      (nffs_inode_read_filename (ex_state 4096) 101 8 (fun _ => 0xaa) 0xaa).2.2.1 = 0xaa) ∧
    (inode_filename ex_long_state 200 = some (ex_long_name 97) ∧
      (nffs_inode_read_filename ex_long_state 200 4 (fun _ => 0xaa) 0xaa).1 = .ok () ∧
      mem_read (nffs_inode_read_filename ex_long_state 200 4 (fun _ => 0xaa) 0xaa).2.1 0 5
        = [120, 120, 120, 0, 0xaa] ∧
      (nffs_inode_read_filename ex_long_state 200 4 (fun _ => 0xaa) 0xaa).2.2.1 = 0xaa) := by
  refine ⟨?_, by decide, by decide⟩
  intro s inode_entry max_len out_name out_full_len
  unfold nffs_inode_read_filename
  rcases h : nffs_inode_from_entry s inode_entry with ⟨r, s1⟩
  cases r with
  | abort => rfl
  | err rc => rfl
  | ok inode =>
    simp only []
    split
    · split <;> rfl
    · split <;> rfl
/-! ## Opening a directory: claim -/

set_option maxRecDepth 100000 in
/-- C26 (the code at the failing input): in the example file system with two free
directory handles, `nffs_dir_open` of a path whose lookup reports `NFFS_ENOENT` returns
`NFFS_ENOENT` and leaves `*out_dir` as it was, but the handle it took from the pool is
not given back: one block is free afterwards, not two.  With no free handle the call
returns `NFFS_ENOMEM` and the pool is as before. -/
theorem nffs_dir_open_error_keeps_handle :
    ex_pool_state.nffs_dir_pool.length = 2 ∧
    (nffs_dir_open ex_path_find_none ex_pool_state [47, 120] none).1 = .err NFFS_ENOENT ∧
    (nffs_dir_open ex_path_find_none ex_pool_state [47, 120] none).2.1 = none ∧
    (nffs_dir_open ex_path_find_none ex_pool_state [47, 120] none).2.2.nffs_dir_pool
      = [301] ∧
    (∀ e, ((nffs_dir_open ex_path_find_none ex_pool_state [47, 120] none).2.2.inodes
      e).nie_refcnt = (ex_pool_state.inodes e).nie_refcnt) ∧
    (nffs_dir_open ex_path_find_none (ex_state 4096) [47, 120] none).1 = .err NFFS_ENOMEM ∧
    (nffs_dir_open ex_path_find_none (ex_state 4096) [47, 120] none).2.2.nffs_dir_pool
      = [] := by
  refine ⟨by decide, by decide, by decide, by decide, fun e => rfl, by decide, by decide⟩
/-! ## Flash access of libs/ffs: claims -/

/-- C28 (amended): for a valid sector id and 32-bit `offset` and `len`, `ffs_flash_read`
returns `FFS_ERANGE` without a call of the driver when `offset + len`, computed as a
32-bit sum, exceeds the length of the sector; otherwise it makes exactly one driver read
of `len` bytes at the 32-bit physical address `fsi_offset + offset` and returns what the
driver returns.  It never changes the table of sectors.  When `offset + len` is below
2^32 the 32-bit sum is the sum, so the range error is returned exactly when the span
extends past the sector. -/
theorem ffs_flash_read_range (env : ffs_env) (s : ffs_state) (sector_id offset len : Nat)
    (sector : ffs_sector_info)
    (hid : sector_id < 2 ^ 16) (hoff : offset < 2 ^ 32) (hlen : len < 2 ^ 32)
    (hsec : s.ffs_sectors[sector_id]? = some sector) :
    ((offset + len) % 2 ^ 32 > sector.fsi_length →
      ffs_flash_read env s sector_id offset len = (.err FFS_ERANGE, s)) ∧
    (¬ (offset + len) % 2 ^ 32 > sector.fsi_length →
      (ffs_flash_read env s sector_id offset len).1
        = (if (env.flash_read s.flash_ops ((sector.fsi_offset + offset) % 2 ^ 32) len).1 ≠ 0
            then .err (env.flash_read s.flash_ops ((sector.fsi_offset + offset) % 2 ^ 32) len).1
            else .ok (env.flash_read s.flash_ops ((sector.fsi_offset + offset) % 2 ^ 32) len).2) ∧
      (ffs_flash_read env s sector_id offset len).2.flash_ops
        = s.flash_ops ++ [flash_op.flash_read ((sector.fsi_offset + offset) % 2 ^ 32) len]) ∧
    (ffs_flash_read env s sector_id offset len).2.ffs_sectors = s.ffs_sectors ∧
    (offset + len < 2 ^ 32 →
      ((offset + len) % 2 ^ 32 > sector.fsi_length ↔ offset + len > sector.fsi_length)) := by
  have h1 : sector_id % 2 ^ 16 = sector_id := Nat.mod_eq_of_lt hid
  have h2 : offset % 2 ^ 32 = offset := Nat.mod_eq_of_lt hoff
  have h3 : len % 2 ^ 32 = len := Nat.mod_eq_of_lt hlen
  refine ⟨?_, ?_, ?_, ?_⟩
  · intro h
    simp only [ffs_flash_read, h1, h2, h3, hsec, if_pos h]
  · intro h
    simp only [ffs_flash_read, h1, h2, h3, hsec, if_neg h]
    constructor
    · split <;> rfl
    · split <;> rfl
  · simp only [ffs_flash_read, h1, h2, h3, hsec]
    split
    · rfl
    · split <;> rfl
  · intro h
    rw [Nat.mod_eq_of_lt h]

/-- Witness of C28: the read of 4097 bytes at offset 0 of the sector of 4096 bytes in the
example table. -/
theorem ffs_flash_read_range_witness :
    ((0 + 4097) % 2 ^ 32 > 4096 →
      ffs_flash_read ex_ffs_env ex_ffs_state 0 0 4097 = (.err FFS_ERANGE, ex_ffs_state)) ∧
    (¬ (0 + 4097) % 2 ^ 32 > 4096 →
      (ffs_flash_read ex_ffs_env ex_ffs_state 0 0 4097).1
        = (if (ex_ffs_env.flash_read ex_ffs_state.flash_ops ((0 + 0) % 2 ^ 32) 4097).1 ≠ 0
            then .err (ex_ffs_env.flash_read ex_ffs_state.flash_ops ((0 + 0) % 2 ^ 32) 4097).1
            else .ok (ex_ffs_env.flash_read ex_ffs_state.flash_ops ((0 + 0) % 2 ^ 32) 4097).2) ∧
      (ffs_flash_read ex_ffs_env ex_ffs_state 0 0 4097).2.flash_ops
        = ex_ffs_state.flash_ops ++ [flash_op.flash_read ((0 + 0) % 2 ^ 32) 4097]) ∧
    (ffs_flash_read ex_ffs_env ex_ffs_state 0 0 4097).2.ffs_sectors = ex_ffs_state.ffs_sectors ∧
    (0 + 4097 < 2 ^ 32 → ((0 + 4097) % 2 ^ 32 > 4096 ↔ 0 + 4097 > 4096)) :=
  ffs_flash_read_range ex_ffs_env ex_ffs_state 0 0 4097
    { fsi_offset := 0, fsi_length := 4096, fsi_cur := 16 } (by decide) (by decide) (by decide)
    rfl

/-- C28 as stated fails on the code: for the sector of 8192 bytes at the physical offset
4096, the span from offset 2^32 - 1 with length 2 extends past the sector, but its 32-bit
end is 1: `ffs_flash_read` makes a driver read of 2 bytes at the physical address 4095,
before the sector, and returns its result. -/
theorem ffs_flash_read_wraps :
    0xffffffff + 2 > 8192 ∧
    ffs_flash_read ex_ffs_env ex_ffs_state 1 0xffffffff 2
      = (.ok [0xff, 0xff],
          { ex_ffs_state with flash_ops := [flash_op.flash_read 4095 2] }) := by
  constructor
  · decide
  · rfl

/-- C29 (amended): for a valid sector id, 32-bit `offset` and `len`, and `offset` not
before the cursor of the sector: the call does not abort; it returns `FFS_ERANGE`, with
nothing changed, when `offset + len` as a 32-bit sum exceeds the length of the sector;
otherwise it makes one driver write, returns `FFS_EFLASH_ERROR` with the table of sectors
unchanged when the driver reports an error, and else returns 0 with the cursor of the
sector at the 32-bit sum, which does not exceed the length of the sector, and the other
sectors unchanged.  When `offset + len` is below 2^32 the new cursor is `offset + len`
and is not before the old one. -/
theorem ffs_flash_write_cursor (env : ffs_env) (s : ffs_state) (sector_id offset : Nat)
    (data : List Nat) (len : Nat) (sector : ffs_sector_info)
    (hid : sector_id < 2 ^ 16) (hoff : offset < 2 ^ 32) (hlen : len < 2 ^ 32)
    (hsec : s.ffs_sectors[sector_id]? = some sector)
    (hcur : sector.fsi_cur ≤ offset) :
    ((offset + len) % 2 ^ 32 > sector.fsi_length →
      ffs_flash_write env s sector_id offset data len = (.err FFS_ERANGE, s)) ∧
    (¬ (offset + len) % 2 ^ 32 > sector.fsi_length →
      env.flash_write s.flash_ops (data.take len) ((sector.fsi_offset + offset) % 2 ^ 32) len
        ≠ 0 →
      ffs_flash_write env s sector_id offset data len
        = (.err FFS_EFLASH_ERROR,
            { s with
              flash_ops := s.flash_ops ++
                [flash_op.flash_write (data.take len) ((sector.fsi_offset + offset) % 2 ^ 32)
                  len] })) ∧
    (¬ (offset + len) % 2 ^ 32 > sector.fsi_length →
      env.flash_write s.flash_ops (data.take len) ((sector.fsi_offset + offset) % 2 ^ 32) len
        = 0 →
      ffs_flash_write env s sector_id offset data len
        = (.ok (),
            { s with
              flash_ops := s.flash_ops ++
                [flash_op.flash_write (data.take len) ((sector.fsi_offset + offset) % 2 ^ 32)
                  len]
              ffs_sectors :=
                s.ffs_sectors.set sector_id
                  { sector with fsi_cur := (offset + len) % 2 ^ 32 } }) ∧
      (offset + len) % 2 ^ 32 ≤ sector.fsi_length ∧
      (offset + len < 2 ^ 32 →
        (offset + len) % 2 ^ 32 = offset + len ∧ sector.fsi_cur ≤ (offset + len) % 2 ^ 32)) := by
  have h1 : sector_id % 2 ^ 16 = sector_id := Nat.mod_eq_of_lt hid
  have h2 : offset % 2 ^ 32 = offset := Nat.mod_eq_of_lt hoff
  have h3 : len % 2 ^ 32 = len := Nat.mod_eq_of_lt hlen
  have h4 : ¬ offset < sector.fsi_cur := Nat.not_lt.mpr hcur
  refine ⟨?_, ?_, ?_⟩
  · intro h
    simp only [ffs_flash_write, h1, h2, h3, hsec, if_neg h4, if_pos h]
  · intro h hd
    simp only [ffs_flash_write, h1, h2, h3, hsec, if_neg h4, if_neg h, if_pos hd]
  · intro h hd
    refine ⟨?_, Nat.not_lt.mp h, ?_⟩
    · simp only [ffs_flash_write, h1, h2, h3, hsec, if_neg h4, if_neg h, hd, ne_eq,
        not_true_eq_false, if_false]
    · intro hs
      rw [Nat.mod_eq_of_lt hs]
      exact ⟨rfl, by omega⟩

/-- Witness of C29: the write of 8 bytes at the cursor 16 of the first sector of the
example table. -/
theorem ffs_flash_write_cursor_witness :
    ((16 + 8) % 2 ^ 32 > 4096 →
      ffs_flash_write ex_ffs_env ex_ffs_state 0 16 [1, 2, 3, 4, 5, 6, 7, 8] 8
        = (.err FFS_ERANGE, ex_ffs_state)) ∧
    (¬ (16 + 8) % 2 ^ 32 > 4096 →
      ex_ffs_env.flash_write ex_ffs_state.flash_ops ([1, 2, 3, 4, 5, 6, 7, 8].take 8)
        ((0 + 16) % 2 ^ 32) 8 ≠ 0 →
      ffs_flash_write ex_ffs_env ex_ffs_state 0 16 [1, 2, 3, 4, 5, 6, 7, 8] 8
        = (.err FFS_EFLASH_ERROR,
            { ex_ffs_state with
              flash_ops := ex_ffs_state.flash_ops ++
                [flash_op.flash_write ([1, 2, 3, 4, 5, 6, 7, 8].take 8) ((0 + 16) % 2 ^ 32)
                  8] })) ∧
    (¬ (16 + 8) % 2 ^ 32 > 4096 →
      ex_ffs_env.flash_write ex_ffs_state.flash_ops ([1, 2, 3, 4, 5, 6, 7, 8].take 8)
        ((0 + 16) % 2 ^ 32) 8 = 0 →
      ffs_flash_write ex_ffs_env ex_ffs_state 0 16 [1, 2, 3, 4, 5, 6, 7, 8] 8
        = (.ok (),
            { ex_ffs_state with
              flash_ops := ex_ffs_state.flash_ops ++
                [flash_op.flash_write ([1, 2, 3, 4, 5, 6, 7, 8].take 8) ((0 + 16) % 2 ^ 32)
                  8]
              ffs_sectors :=
                ex_ffs_state.ffs_sectors.set 0
                  { ({ fsi_offset := 0, fsi_length := 4096, fsi_cur := 16 } : ffs_sector_info)
                    with fsi_cur := (16 + 8) % 2 ^ 32 } }) ∧
      (16 + 8) % 2 ^ 32 ≤ 4096 ∧
      (16 + 8 < 2 ^ 32 → (16 + 8) % 2 ^ 32 = 16 + 8 ∧ 16 ≤ (16 + 8) % 2 ^ 32)) :=
  ffs_flash_write_cursor ex_ffs_env ex_ffs_state 0 16 [1, 2, 3, 4, 5, 6, 7, 8] 8
    { fsi_offset := 0, fsi_length := 4096, fsi_cur := 16 } (by decide) (by decide) (by decide)
    rfl (by decide)

/-- C29 as stated fails on the code: for the sector of 8192 bytes at the physical offset
4096 with its cursor at 16, the write of 2 bytes at offset 2^32 - 1 is not before the
cursor and its end is far behind the sector, but `ffs_flash_write` makes a driver write
at the physical address 4095, returns 0 and sets the cursor to 1: the cursor has
decreased. -/
theorem ffs_flash_write_wraps :
    16 ≤ 0xffffffff ∧ 0xffffffff + 2 > 8192 ∧
    ffs_flash_write ex_ffs_env ex_ffs_state 1 0xffffffff [7, 7] 2
      = (.ok (),
          { ex_ffs_state with
            flash_ops := [flash_op.flash_write [7, 7] 4095 2]
            ffs_sectors :=
              [ { fsi_offset := 0, fsi_length := 4096, fsi_cur := 16 },
                { fsi_offset := 4096, fsi_length := 8192, fsi_cur := 1 },
                { fsi_offset := 12288, fsi_length := 8192, fsi_cur := 16 } ] }) := by
  refine ⟨by decide, by decide, rfl⟩
/-! ## Formatting: lemmas -/

/-- The first loop of `ffs_format_full` over increasing indices behind the start index:
the result is the start index or one of the indices, no sector looked at is longer than
the sector found, and every sector looked at before it is shorter. -/
theorem ffs_format_full_select_spec (sectors : List ffs_sector_info) :
    ∀ (is : List Nat) (c : Nat), (∀ i ∈ is, c < i) → is.Pairwise (· < ·) →
      (ffs_format_full_select sectors is c = c ∨ ffs_format_full_select sectors is c ∈ is) ∧
      (∀ j, j = c ∨ j ∈ is →
        ffs_sector_length sectors j
          ≤ ffs_sector_length sectors (ffs_format_full_select sectors is c)) ∧
      (∀ j, j = c ∨ j ∈ is → j < ffs_format_full_select sectors is c →
        ffs_sector_length sectors j
          < ffs_sector_length sectors (ffs_format_full_select sectors is c)) := by
  intro is
  induction is with
  | nil =>
    intro c _ _
    refine ⟨Or.inl rfl, ?_, ?_⟩
    · intro j hj
      rcases hj with h | h
      · subst h; exact Nat.le_refl _
      · cases h
    · intro j hj hlt
      rcases hj with h | h
      · subst h; exact absurd hlt (Nat.lt_irrefl _)
      · cases h
  | cons i rest ih =>
    intro c hc hp
    have hci : c < i := hc i (List.mem_cons_self i rest)
    obtain ⟨hirest, hprest⟩ := List.pairwise_cons.mp hp
    rw [ffs_format_full_select]
    by_cases hgt : ffs_sector_length sectors i > ffs_sector_length sectors c
    · rw [if_pos hgt]
      obtain ⟨h1, h2, h3⟩ := ih i hirest hprest
      refine ⟨?_, ?_, ?_⟩
      · rcases h1 with h | h
        · exact Or.inr (by rw [h]; exact List.mem_cons_self i rest)
        · exact Or.inr (List.mem_cons_of_mem i h)
      · intro j hj
        rcases hj with h | h
        · subst h
          exact Nat.le_trans (Nat.le_of_lt hgt) (h2 i (Or.inl rfl))
        · rcases List.mem_cons.mp h with h | h
          · exact h2 j (Or.inl h)
          · exact h2 j (Or.inr h)
      · intro j hj hlt
        rcases hj with h | h
        · subst h
          exact Nat.lt_of_lt_of_le hgt (h2 i (Or.inl rfl))
        · rcases List.mem_cons.mp h with h | h
          · exact h3 j (Or.inl h) hlt
          · exact h3 j (Or.inr h) hlt
    · rw [if_neg hgt]
      have hcrest : ∀ x ∈ rest, c < x := fun x hx => hc x (List.mem_cons_of_mem i hx)
      obtain ⟨h1, h2, h3⟩ := ih c hcrest hprest
      refine ⟨?_, ?_, ?_⟩
      · rcases h1 with h | h
        · exact Or.inl h
        · exact Or.inr (List.mem_cons_of_mem i h)
      · intro j hj
        rcases hj with h | h
        · exact h2 j (Or.inl h)
        · rcases List.mem_cons.mp h with h | h
          · subst h
            exact Nat.le_trans (Nat.not_lt.mp hgt) (h2 c (Or.inl rfl))
          · exact h2 j (Or.inr h)
      · intro j hj hlt
        rcases hj with h | h
        · exact h3 j (Or.inl h) hlt
        · rcases List.mem_cons.mp h with h | h
          · subst h
            -- the sector found lies behind `j`, so it is not the start index
            have hr : ffs_format_full_select sectors rest c ∈ rest := by
              rcases h1 with h | h
              · rw [h] at hlt; omega
              · exact h
            have hcr : c < ffs_format_full_select sectors rest c := hcrest _ hr
            exact Nat.lt_of_le_of_lt (Nat.not_lt.mp hgt) (h3 c (Or.inl rfl) hcr)
          · exact h3 j (Or.inr h) hlt

/-- The selection of `ffs_format_full` in a table that is not empty: the index of the
first sector of the greatest length. -/
theorem ffs_format_full_select_first_max (sectors : List ffs_sector_info)
    (hne : sectors ≠ []) :
    ffs_format_full_select sectors (List.range' 1 (sectors.length - 1)) 0 < sectors.length ∧
    (∀ j, j < sectors.length →
      ffs_sector_length sectors j ≤ ffs_sector_length sectors
        (ffs_format_full_select sectors (List.range' 1 (sectors.length - 1)) 0)) ∧
    (∀ j, j < ffs_format_full_select sectors (List.range' 1 (sectors.length - 1)) 0 →
      ffs_sector_length sectors j < ffs_sector_length sectors
        (ffs_format_full_select sectors (List.range' 1 (sectors.length - 1)) 0)) := by
  have hlen : 0 < sectors.length := List.length_pos.mpr hne
  have hmem : ∀ j, (j = 0 ∨ j ∈ List.range' 1 (sectors.length - 1)) ↔ j < sectors.length := by
    intro j
    rw [List.mem_range'_1]
    omega
  obtain ⟨h1, h2, h3⟩ := ffs_format_full_select_spec sectors
    (List.range' 1 (sectors.length - 1)) 0
    (fun i hi => by rw [List.mem_range'_1] at hi; omega)
    (List.pairwise_lt_range' 1 (sectors.length - 1))
  refine ⟨(hmem _).mp h1, fun j hj => h2 j ((hmem j).mpr hj), ?_⟩
  intro j hj
  have hr := (hmem _).mp h1
  exact h3 j ((hmem j).mpr (by omega)) hj
/-- A table of sectors keeps its physical offsets when the cursor of a sector is set. -/
theorem ffs_sectors_set_cur_offsets (sectors : List ffs_sector_info) (i c : Nat)
    (sector : ffs_sector_info) (h : sectors[i]? = some sector) :
    (sectors.set i { sector with fsi_cur := c }).map (fun x => x.fsi_offset)
      = sectors.map (fun x => x.fsi_offset) := by
  apply List.ext_getElem?
  intro n
  rw [List.getElem?_map, List.getElem?_map, List.getElem?_set]
  by_cases hn : i = n
  · subst hn
    rw [if_pos rfl, h]
    have hlt : i < sectors.length := by
      rcases Nat.lt_or_ge i sectors.length with h' | h'
      · exact h'
      · rw [List.getElem?_eq_none h'] at h; cases h
    simp [hlt]
  · rw [if_neg hn]

/-- The sector at an index of a table with the same physical offsets has the same
physical offset. -/
theorem ffs_format_ops_congr (env : ffs_env) (l l' : List ffs_sector_info) (len i : Nat)
    (h : l'.map (fun x => x.fsi_offset) = l.map (fun x => x.fsi_offset)) :
    ffs_format_ops env l' len i = ffs_format_ops env l len i := by
  have hi : (l'.map (fun x => x.fsi_offset))[i]? = (l.map (fun x => x.fsi_offset))[i]? := by
    rw [h]
  rw [List.getElem?_map, List.getElem?_map] at hi
  unfold ffs_format_ops
  cases h1 : l'[i]? with
  | none =>
    cases h2 : l[i]? with
    | none => rfl
    | some b => rw [h1, h2] at hi; cases hi
  | some a =>
    cases h2 : l[i]? with
    | none => rw [h1, h2] at hi; cases hi
    | some b =>
      rw [h1, h2] at hi
      simp only [Option.map_some', Option.some.injEq] at hi
      simp only [hi]

/-- The driver calls of a format of several sectors depend on the table of sectors through
the physical offsets only. -/
theorem ffs_format_full_ops_congr (env : ffs_env) (l l' : List ffs_sector_info) (k : Nat)
    (h : l'.map (fun x => x.fsi_offset) = l.map (fun x => x.fsi_offset)) :
    ∀ is : List Nat, ffs_format_full_ops env l' k is = ffs_format_full_ops env l k is := by
  intro is
  induction is with
  | nil => rfl
  | cons i rest ih =>
    simp only [ffs_format_full_ops, ih, ffs_format_ops_congr env l l' _ i h]

/-- A successful `ffs_flash_write` at the start of a sector whose cursor is 0: one write
of the driver at the physical offset of the sector; the scratch sector id and the
physical offsets of the table are kept. -/
theorem ffs_flash_write_start (env : ffs_env) (s s' : ffs_state) (i len : Nat)
    (data : List Nat) (sector : ffs_sector_info)
    (hi : i < 2 ^ 16) (hlen : len < 2 ^ 32) (hsec : s.ffs_sectors[i]? = some sector)
    (hoff : sector.fsi_offset < 2 ^ 32)
    (h : ffs_flash_write env s i 0 data len = (.ok (), s')) :
    s'.flash_ops = s.flash_ops ++ [flash_op.flash_write (data.take len) sector.fsi_offset len] ∧
    s'.ffs_scratch_sector_id = s.ffs_scratch_sector_id ∧
    s'.ffs_sectors.map (fun x => x.fsi_offset) = s.ffs_sectors.map (fun x => x.fsi_offset) := by
  have h1 : i % 2 ^ 16 = i := Nat.mod_eq_of_lt hi
  have h3 : len % 2 ^ 32 = len := Nat.mod_eq_of_lt hlen
  have h4 : (sector.fsi_offset + 0) % 2 ^ 32 = sector.fsi_offset := by
    rw [Nat.add_zero, Nat.mod_eq_of_lt hoff]
  simp only [ffs_flash_write, h1, h3, hsec, Nat.zero_mod, Nat.zero_add, h4,
    Nat.add_zero, Nat.mod_eq_of_lt hoff] at h
  split at h
  · cases h
  · split at h
    · cases h
    · split at h
      · cases h
      · simp only [Prod.mk.injEq, true_and] at h
        subst h
        exact ⟨rfl, rfl, ffs_sectors_set_cur_offsets _ _ _ _ hsec⟩
/-- A successful `ffs_format_scratch_sector`: the erase of the sector and the write of the
magic; the scratch sector id and the physical offsets of the table are kept. -/
theorem ffs_format_scratch_sector_ok (env : ffs_env) (s s' : ffs_state) (i : Nat)
    (hi : i < 2 ^ 16) (hlen : env.ffs_disk_sector_magic_sz < 2 ^ 32)
    (hoff : ∀ x ∈ s.ffs_sectors, x.fsi_offset < 2 ^ 32)
    (h : ffs_format_scratch_sector env s i = (.ok (), s')) :
    s'.flash_ops = s.flash_ops ++ ffs_format_ops env s.ffs_sectors env.ffs_disk_sector_magic_sz i ∧
    s'.ffs_scratch_sector_id = s.ffs_scratch_sector_id ∧
    s'.ffs_sectors.map (fun x => x.fsi_offset) = s.ffs_sectors.map (fun x => x.fsi_offset) := by
  have h1 : i % 2 ^ 16 = i := Nat.mod_eq_of_lt hi
  unfold ffs_format_scratch_sector at h
  simp only [h1] at h
  cases hsec : s.ffs_sectors[i]? with
  | none => simp [hsec] at h
  | some sector =>
    simp only [hsec] at h
    have hso : sector.fsi_offset < 2 ^ 32 := hoff sector (List.getElem?_mem hsec)
    split at h
    · cases h
    · rcases hw : ffs_flash_write env
          { s with
            flash_ops := s.flash_ops ++ [flash_op.flash_erase_sector sector.fsi_offset]
            ffs_sectors := s.ffs_sectors.set i { sector with fsi_cur := 0 } }
          i 0 env.ffs_disk_sector env.ffs_disk_sector_magic_sz with ⟨r, s3⟩
      rw [hw] at h
      cases r with
      | abort => cases h
      | err rc => cases h
      | ok u =>
        simp only [Prod.mk.injEq, true_and] at h
        subst h
        have hlt : i < s.ffs_sectors.length := by
          rcases Nat.lt_or_ge i s.ffs_sectors.length with h' | h'
          · exact h'
          · rw [List.getElem?_eq_none h'] at hsec; cases hsec
        obtain ⟨ho, hk, hm⟩ := ffs_flash_write_start env _ _ i env.ffs_disk_sector_magic_sz
          env.ffs_disk_sector { sector with fsi_cur := 0 } hi hlen
          (by simp [hlt]) hso hw
        refine ⟨?_, hk, ?_⟩
        · rw [ho]
          simp only [ffs_format_ops, hsec, List.append_assoc, List.singleton_append]
        · rw [hm]
          exact ffs_sectors_set_cur_offsets _ _ _ _ hsec

/-- A successful `ffs_format_sector`: the erase of the sector and the write of the whole
header; the scratch sector id and the physical offsets of the table are kept. -/
theorem ffs_format_sector_ok (env : ffs_env) (s s' : ffs_state) (i : Nat)
    (hi : i < 2 ^ 16) (hlen : env.ffs_disk_sector.length < 2 ^ 32)
    (hoff : ∀ x ∈ s.ffs_sectors, x.fsi_offset < 2 ^ 32)
    (h : ffs_format_sector env s i = (.ok (), s')) :
    s'.flash_ops = s.flash_ops ++ ffs_format_ops env s.ffs_sectors env.ffs_disk_sector.length i ∧
    s'.ffs_scratch_sector_id = s.ffs_scratch_sector_id ∧
    s'.ffs_sectors.map (fun x => x.fsi_offset) = s.ffs_sectors.map (fun x => x.fsi_offset) := by
  have h1 : i % 2 ^ 16 = i := Nat.mod_eq_of_lt hi
  unfold ffs_format_sector at h
  simp only [h1] at h
  cases hsec : s.ffs_sectors[i]? with
  | none => simp [hsec] at h
  | some sector =>
    simp only [hsec] at h
    have hso : sector.fsi_offset < 2 ^ 32 := hoff sector (List.getElem?_mem hsec)
    split at h
    · cases h
    · rcases hw : ffs_flash_write env
          { s with
            flash_ops := s.flash_ops ++ [flash_op.flash_erase_sector sector.fsi_offset]
            ffs_sectors := s.ffs_sectors.set i { sector with fsi_cur := 0 } }
          i 0 env.ffs_disk_sector env.ffs_disk_sector.length with ⟨r, s3⟩
      rw [hw] at h
      cases r with
      | abort => cases h
      | err rc => cases h
      | ok u =>
        simp only [Prod.mk.injEq, true_and] at h
        subst h
        have hlt : i < s.ffs_sectors.length := by
          rcases Nat.lt_or_ge i s.ffs_sectors.length with h' | h'
          · exact h'
          · rw [List.getElem?_eq_none h'] at hsec; cases hsec
        obtain ⟨ho, hk, hm⟩ := ffs_flash_write_start env _ _ i env.ffs_disk_sector.length
          env.ffs_disk_sector { sector with fsi_cur := 0 } hi hlen
          (by simp [hlt]) hso hw
        refine ⟨?_, hk, ?_⟩
        · rw [ho]
          simp only [ffs_format_ops, hsec, List.append_assoc, List.singleton_append]
        · rw [hm]
          exact ffs_sectors_set_cur_offsets _ _ _ _ hsec

/-- The second loop of `ffs_format_full`, when it returns 0: the calls of the driver are
those of `ffs_format_full_ops`, one sector after the other. -/
theorem ffs_format_full_sectors_ok (env : ffs_env)
    (hmag : env.ffs_disk_sector_magic_sz < 2 ^ 32)
    (hhdr : env.ffs_disk_sector.length < 2 ^ 32) :
    ∀ (is : List Nat) (s s' : ffs_state), (∀ i ∈ is, i < 2 ^ 16) →
      (∀ x ∈ s.ffs_sectors, x.fsi_offset < 2 ^ 32) →
      ffs_format_full_sectors env is s = (.ok (), s') →
      s'.flash_ops
        = s.flash_ops ++ ffs_format_full_ops env s.ffs_sectors s.ffs_scratch_sector_id is ∧
      s'.ffs_scratch_sector_id = s.ffs_scratch_sector_id ∧
      s'.ffs_sectors.map (fun x => x.fsi_offset) = s.ffs_sectors.map (fun x => x.fsi_offset) := by
  intro is
  induction is with
  | nil =>
    intro s s' _ _ h
    simp only [ffs_format_full_sectors, Prod.mk.injEq, true_and] at h
    subst h
    simp [ffs_format_full_ops]
  | cons i rest ih =>
    intro s s' his hoff h
    have hi : i < 2 ^ 16 := his i (List.mem_cons_self i rest)
    rw [ffs_format_full_sectors] at h
    rcases hf : (if i = s.ffs_scratch_sector_id then ffs_format_scratch_sector env s i
        else ffs_format_sector env s i) with ⟨r, s1⟩
    rw [hf] at h
    cases r with
    | abort => cases h
    | err rc => cases h
    | ok u =>
      simp only [] at h
      have hstep : s1.flash_ops = s.flash_ops ++ ffs_format_ops env s.ffs_sectors
            (if i = s.ffs_scratch_sector_id then env.ffs_disk_sector_magic_sz
              else env.ffs_disk_sector.length) i ∧
          s1.ffs_scratch_sector_id = s.ffs_scratch_sector_id ∧
          s1.ffs_sectors.map (fun x => x.fsi_offset)
            = s.ffs_sectors.map (fun x => x.fsi_offset) := by
        by_cases hk : i = s.ffs_scratch_sector_id
        · rw [if_pos hk] at hf ⊢
          exact ffs_format_scratch_sector_ok env s s1 i hi hmag hoff hf
        · rw [if_neg hk] at hf ⊢
          exact ffs_format_sector_ok env s s1 i hi hhdr hoff hf
      obtain ⟨ho, hk, hm⟩ := hstep
      have hoff1 : ∀ x ∈ s1.ffs_sectors, x.fsi_offset < 2 ^ 32 := by
        intro x hx
        have : x.fsi_offset ∈ s1.ffs_sectors.map (fun x => x.fsi_offset) :=
          List.mem_map.mpr ⟨x, hx, rfl⟩
        rw [hm] at this
        obtain ⟨y, hy, hxy⟩ := List.mem_map.mp this
        rw [← hxy]
        exact hoff y hy
      obtain ⟨ho2, hk2, hm2⟩ := ih s1 s'
        (fun j hj => his j (List.mem_cons_of_mem i hj)) hoff1 h
      refine ⟨?_, hk2.trans hk, hm2.trans hm⟩
      rw [ho2, ho, hk, ffs_format_full_ops_congr env s.ffs_sectors s1.ffs_sectors _ hm rest]
      simp only [ffs_format_full_ops, List.append_assoc]

/-- The function `ffs_flash_write` leaves the id of the scratch sector alone. -/
theorem ffs_flash_write_scratch_id (env : ffs_env) (s : ffs_state) (i offset : Nat)
    (data : List Nat) (len : Nat) :
    (ffs_flash_write env s i offset data len).2.ffs_scratch_sector_id
      = s.ffs_scratch_sector_id := by
  unfold ffs_flash_write
  simp only []
  split
  · rfl
  · split
    · rfl
    · split
      · rfl
      · split <;> rfl

/-- The function `ffs_format_scratch_sector` leaves the id of the scratch sector alone. -/
theorem ffs_format_scratch_sector_scratch_id (env : ffs_env) (s : ffs_state) (i : Nat) :
    (ffs_format_scratch_sector env s i).2.ffs_scratch_sector_id = s.ffs_scratch_sector_id := by
  unfold ffs_format_scratch_sector
  simp only []
  split
  · rfl
  · split
    · rfl
    · rename_i sector _ _
      have := ffs_flash_write_scratch_id env
        { s with
          flash_ops := s.flash_ops ++ [flash_op.flash_erase_sector sector.fsi_offset]
          ffs_sectors := s.ffs_sectors.set (i % 2 ^ 16) { sector with fsi_cur := 0 } }
        (i % 2 ^ 16) 0 env.ffs_disk_sector env.ffs_disk_sector_magic_sz
      split <;> simp_all

/-- The function `ffs_format_sector` leaves the id of the scratch sector alone. -/
theorem ffs_format_sector_scratch_id (env : ffs_env) (s : ffs_state) (i : Nat) :
    (ffs_format_sector env s i).2.ffs_scratch_sector_id = s.ffs_scratch_sector_id := by
  unfold ffs_format_sector
  simp only []
  split
  · rfl
  · split
    · rfl
    · rename_i sector _ _
      have := ffs_flash_write_scratch_id env
        { s with
          flash_ops := s.flash_ops ++ [flash_op.flash_erase_sector sector.fsi_offset]
          ffs_sectors := s.ffs_sectors.set (i % 2 ^ 16) { sector with fsi_cur := 0 } }
        (i % 2 ^ 16) 0 env.ffs_disk_sector env.ffs_disk_sector.length
      split <;> simp_all

/-- The second loop of `ffs_format_full` keeps the scratch sector id, however it ends. -/
theorem ffs_format_full_sectors_scratch_id (env : ffs_env) :
    ∀ (is : List Nat) (s : ffs_state),
      (ffs_format_full_sectors env is s).2.ffs_scratch_sector_id = s.ffs_scratch_sector_id := by
  intro is
  induction is with
  | nil => intro s; rfl
  | cons i rest ih =>
    intro s
    rw [ffs_format_full_sectors]
    have hstep : (if i = s.ffs_scratch_sector_id then ffs_format_scratch_sector env s i
        else ffs_format_sector env s i).2.ffs_scratch_sector_id = s.ffs_scratch_sector_id := by
      split
      · exact ffs_format_scratch_sector_scratch_id env s i
      · exact ffs_format_sector_scratch_id env s i
    rcases hf : (if i = s.ffs_scratch_sector_id then ffs_format_scratch_sector env s i
        else ffs_format_sector env s i) with ⟨r, s1⟩
    rw [hf] at hstep
    cases r with
    | abort => exact hstep
    | err rc => exact hstep
    | ok u =>
      simp only []
      rw [ih s1]
      exact hstep

/-! ## Formatting: claim -/

/-- C27: for a table of sectors that is not empty (at most 2^16 sectors with 32-bit
physical offsets, a header of less than 2^32 bytes), `ffs_format_full` selects as the
scratch sector the sector `k` of the greatest length with the lowest index: no sector is
longer than sector `k`, and every sector before it is shorter.  The loop that formats the
sectors leaves `k` in `ffs_scratch_sector_id` however it ends; when `ffs_format_full`
returns 0, that loop has made, for one sector after the other, the erase of the sector
and the write of its header, of the magic alone for sector `k` (the scratch format) and
of the whole header for every other sector (the regular format). -/
theorem ffs_format_full_scratch (env : ffs_env) (s : ffs_state)
    (hne : s.ffs_sectors ≠ [])
    (hnum : s.ffs_sectors.length ≤ 2 ^ 16)
    (hoff : ∀ x ∈ s.ffs_sectors, x.fsi_offset < 2 ^ 32)
    (hmag : env.ffs_disk_sector_magic_sz < 2 ^ 32)
    (hhdr : env.ffs_disk_sector.length < 2 ^ 32) :
    ∃ k, k < s.ffs_sectors.length ∧
      (∀ j, j < s.ffs_sectors.length →
        ffs_sector_length s.ffs_sectors j ≤ ffs_sector_length s.ffs_sectors k) ∧
      (∀ j, j < k → ffs_sector_length s.ffs_sectors j < ffs_sector_length s.ffs_sectors k) ∧
      (ffs_format_full_sectors env (List.range s.ffs_sectors.length)
        { s with ffs_scratch_sector_id := k }).2.ffs_scratch_sector_id = k ∧
      (∀ s', ffs_format_full env s = (.ok (), s') →
        ∃ s2 file s5,
          ffs_format_full_sectors env (List.range s.ffs_sectors.length)
            { s with ffs_scratch_sector_id := k } = (.ok (), s2) ∧
          s2.flash_ops = s.flash_ops ++
            ffs_format_full_ops env s.ffs_sectors k (List.range s.ffs_sectors.length) ∧
          env.ffs_new_file
            { env.ffs_free_all s2 with ffs_next_id := 0, ffs_root_dir := none } none [] 0 1
            = (.ok file, s5) ∧
          s' = { s5 with ffs_root_dir := file }) := by
  obtain ⟨h1, h2, h3⟩ := ffs_format_full_select_first_max s.ffs_sectors hne
  refine ⟨_, h1, h2, h3, ffs_format_full_sectors_scratch_id env _ _, ?_⟩
  intro s' h
  unfold ffs_format_full at h
  simp only [] at h
  rcases hf : ffs_format_full_sectors env (List.range s.ffs_sectors.length)
      { s with
        ffs_scratch_sector_id :=
          ffs_format_full_select s.ffs_sectors (List.range' 1 (s.ffs_sectors.length - 1)) 0 }
    with ⟨r, s2⟩
  rw [hf] at h
  cases r with
  | abort => cases h
  | err rc => cases h
  | ok u =>
    simp only [] at h
    rcases hn : env.ffs_new_file
        { env.ffs_free_all s2 with ffs_next_id := 0, ffs_root_dir := none } none [] 0 1
      with ⟨r5, s5⟩
    rw [hn] at h
    cases r5 with
    | abort => cases h
    | err rc => cases h
    | ok file =>
      simp only [Prod.mk.injEq, true_and] at h
      obtain ⟨ho, _, _⟩ := ffs_format_full_sectors_ok env hmag hhdr
        (List.range s.ffs_sectors.length)
        { s with
          ffs_scratch_sector_id :=
            ffs_format_full_select s.ffs_sectors (List.range' 1 (s.ffs_sectors.length - 1)) 0 }
        s2 (fun i hi => by rw [List.mem_range] at hi; omega) hoff hf
      exact ⟨s2, file, s5, rfl, ho, hn, h.symm⟩

/-- Witness of C27: the example table of three sectors of 4096, 8192 and 8192 bytes, where
the format returns 0. -/
theorem ffs_format_full_scratch_witness :
    (ffs_format_full ex_ffs_env ex_ffs_state).1 = .ok () ∧
    ∃ k, k < ex_ffs_state.ffs_sectors.length ∧
      (∀ j, j < ex_ffs_state.ffs_sectors.length →
        ffs_sector_length ex_ffs_state.ffs_sectors j
          ≤ ffs_sector_length ex_ffs_state.ffs_sectors k) ∧
      (∀ j, j < k →
        ffs_sector_length ex_ffs_state.ffs_sectors j
          < ffs_sector_length ex_ffs_state.ffs_sectors k) ∧
      (ffs_format_full_sectors ex_ffs_env (List.range ex_ffs_state.ffs_sectors.length)
        { ex_ffs_state with ffs_scratch_sector_id := k }).2.ffs_scratch_sector_id = k ∧
      (∀ s', ffs_format_full ex_ffs_env ex_ffs_state = (.ok (), s') →
        ∃ s2 file s5,
          ffs_format_full_sectors ex_ffs_env (List.range ex_ffs_state.ffs_sectors.length)
            { ex_ffs_state with ffs_scratch_sector_id := k } = (.ok (), s2) ∧
          s2.flash_ops = ex_ffs_state.flash_ops ++
            ffs_format_full_ops ex_ffs_env ex_ffs_state.ffs_sectors k
              (List.range ex_ffs_state.ffs_sectors.length) ∧
          ex_ffs_env.ffs_new_file
            { ex_ffs_env.ffs_free_all s2 with ffs_next_id := 0, ffs_root_dir := none }
            none [] 0 1 = (.ok file, s5) ∧
          s' = { s5 with ffs_root_dir := file }) :=
  ⟨by decide,
    ffs_format_full_scratch ex_ffs_env ex_ffs_state (by decide) (by decide) (by decide)
      (by decide) (by decide)⟩
/-! ## Rename to the same parent and name: lemmas -/

/-- Writing no bytes leaves the memory as it is. -/
theorem mem_write_nil (m : Nat → Nat) (addr : Nat) : mem_write m addr [] = m := by
  funext a
  simp [mem_write]

/-- The length of a C string whose bytes hold no NUL is the number of the bytes. -/
theorem strlen_of_no_nul : ∀ l : List Nat, 0 ∉ l → strlen l = l.length := by
  intro l
  induction l with
  | nil => intro _; rfl
  | cons c cs ih =>
    intro h
    have hc : c ≠ 0 := fun hc => h (hc ▸ List.mem_cons_self c cs)
    have hcs : 0 ∉ cs := fun hcs => h (List.mem_cons_of_mem c hcs)
    simp [strlen, hc, ih hcs]

/-- The lookups of `nffs_inode_from_entry` keep the entries of every hash chain. -/
theorem nffs_inode_from_entry_mem (s : nffs_state) (entry : Nat) :
    ∃ t, (nffs_inode_from_entry s entry).2 = { s with nffs_hash := t } ∧
      ∀ i x, x ∈ t i ↔ x ∈ s.nffs_hash i := by
  unfold nffs_inode_from_entry
  simp only []
  cases nffs_inode_read_disk s
      (nffs_flash_loc_expand (s.inodes entry).nie_hash_entry.nhe_flash_loc).1
      (nffs_flash_loc_expand (s.inodes entry).nie_hash_entry.nhe_flash_loc).2 with
  | abort => exact ⟨s.nffs_hash, rfl, fun _ _ => Iff.rfl⟩
  | err rc => exact ⟨s.nffs_hash, rfl, fun _ _ => Iff.rfl⟩
  | ok di =>
    simp only []
    have hp : ∃ t, (if di.ndi_parent_id = NFFS_ID_NONE then
          ((Res.ok none : Res (Option Nat)), s)
        else nffs_hash_find_inode s di.ndi_parent_id).2 = { s with nffs_hash := t } ∧
        ∀ i x, x ∈ t i ↔ x ∈ s.nffs_hash i := by
      split
      · exact ⟨s.nffs_hash, rfl, fun _ _ => Iff.rfl⟩
      · unfold nffs_hash_find_inode
        split
        · exact ⟨s.nffs_hash, rfl, fun _ _ => Iff.rfl⟩
        · exact ⟨_, rfl, (nffs_hash_find_mem s.hash_mem s.nffs_hash di.ndi_parent_id).1⟩
    obtain ⟨t, ht, hm⟩ := hp
    rcases hq : (if di.ndi_parent_id = NFFS_ID_NONE then
          ((Res.ok none : Res (Option Nat)), s)
        else nffs_hash_find_inode s di.ndi_parent_id) with ⟨r, s1⟩
    rw [hq] at ht
    simp only [] at ht
    subst ht
    refine ⟨t, ?_, hm⟩
    cases r with
    | abort => rfl
    | err rc => rfl
    | ok p =>
      simp only []
      repeat' split
      all_goals rfl

/-- The search for an area with room looks at the area table and the scratch index
only. -/
theorem nffs_misc_reserve_space_loop_congr (s st : nffs_state) (space : Nat)
    (ha : st.nffs_areas = s.nffs_areas)
    (hs : st.nffs_scratch_area_idx = s.nffs_scratch_area_idx) :
    ∀ l : List Nat, nffs_misc_reserve_space_loop st space l
      = nffs_misc_reserve_space_loop s space l := by
  intro l
  induction l with
  | nil => rfl
  | cons i rest ih =>
    simp only [nffs_misc_reserve_space_loop, nffs_misc_reserve_space_area, ha, hs, ih]

/-- A successful `nffs_inode_write_disk` of a header with its filename: the record is
stored at the location, the cursor of the area is behind it, and nothing else changes. -/
theorem nffs_inode_write_disk_eq (s : nffs_state) (d : nffs_disk_inode) (name : List Nat)
    (ai ao : Nat) (s' : nffs_state)
    (h : nffs_inode_write_disk s d name ai ao = (.ok (), s'))
    (hfn : d.ndi_filename_len = name.length) :
    ∃ area, s.nffs_areas[ai]? = some area ∧ ao = area.na_cur ∧
      s' = { s with
        flash := mem_write (mem_write s.flash (area.na_offset + ao) d.bytes)
          (area.na_offset + ao + NFFS_DISK_INODE_SZ) name
        nffs_areas :=
          s.nffs_areas.set ai { area with na_cur := ao + NFFS_DISK_INODE_SZ + name.length } } := by
  unfold nffs_inode_write_disk at h
  rcases hw1 : nffs_flash_write s ai ao d.bytes with ⟨r1, s1⟩
  rw [hw1] at h
  cases r1 with
  | abort => cases h
  | err rc => cases h
  | ok u =>
    simp only [] at h
    obtain ⟨area, ha, hao, hs1⟩ := nffs_flash_write_ok s ai ao d.bytes s1 hw1
    rw [nffs_disk_inode.bytes_length] at hs1
    refine ⟨area, ha, hao, ?_⟩
    by_cases h0 : d.ndi_filename_len ≠ 0
    · rw [if_pos h0] at h
      rcases hw2 : nffs_flash_write s1 ai (ao + NFFS_DISK_INODE_SZ)
          (name.take d.ndi_filename_len) with ⟨r2, s2⟩
      rw [hw2] at h
      cases r2 with
      | abort => cases h
      | err rc => cases h
      | ok u2 =>
        simp only [Prod.mk.injEq, true_and] at h
        subst h
        obtain ⟨area1, ha1, _, hs2⟩ := nffs_flash_write_ok s1 ai _ _ s2 hw2
        have hlt : ai < s.nffs_areas.length := by
          rcases Nat.lt_or_ge ai s.nffs_areas.length with h' | h'
          · exact h'
          · rw [List.getElem?_eq_none h'] at ha; cases ha
        have harea1 : area1 = { area with na_cur := ao + NFFS_DISK_INODE_SZ } := by
          rw [hs1] at ha1
          simp [hlt] at ha1
          exact ha1.symm
        have htake : name.take d.ndi_filename_len = name := by
          rw [hfn]; exact List.take_length name
        rw [hs2, htake, harea1, hs1]
        simp only [List.set_set, Nat.add_assoc]
    · rw [if_neg h0] at h
      simp only [Prod.mk.injEq, true_and] at h
      subst h
      have hn : name = [] := by
        apply List.eq_nil_of_length_eq_zero
        rw [← hfn]
        exact Nat.eq_zero_of_not_pos (fun hp => h0 (Nat.pos_iff_ne_zero.mp hp))
      rw [hs1, hn, mem_write_nil]
      simp
/-! ## Rename to the same parent and name: claim -/

/-- C24 (amended): let the entry have the parent `p` and the filename `name`, and let the
first area that is not the scratch area and has room for the record be `area_idx`, with
its cursor at `area_offset`, so that the reservation runs no garbage collection.  A
successful `nffs_inode_rename(entry, p, new_filename)`, with `new_filename` NULL or the C
string `name`, changes the state in these ways only: the flash holds a new inode record
at the cursor of that area, with the inode magic, the entry's id, the sequence number of
the old record plus one as a 32-bit value, the parent id of the old record and the
filename `name`; the cursor of the area is behind that record; the entry's flash location
is that of the record; the hash chains hold the entries they held (their order may
differ); and with a NULL `new_filename` the static buffer holds `name`.  Child lists and
reference counts are as before. -/
theorem nffs_inode_rename_same (env : nffs_env) (s s' : nffs_state) (inode_entry p : Nat)
    (new_filename : Option (List Nat)) (name : List Nat) (area_idx area_offset : Nat)
    (hok : nffs_inode_rename env s inode_entry (some p) new_filename = (.ok (), s'))
    (hpar : ∀ inode0 s1, nffs_inode_from_entry s inode_entry = (.ok inode0, s1) →
      inode0.ni_parent = some p)
    (hfn : inode_filename s inode_entry = some name)
    (hname : ∀ nm, new_filename = some nm → nm = name ∧ 0 ∉ nm)
    (hroom : nffs_misc_reserve_space_loop s ((NFFS_DISK_INODE_SZ + name.length) % 2 ^ 16)
      (List.range s.nffs_areas.length) = some (area_idx, area_offset)) :
    ∃ old area tbl,
      nffs_inode_read_disk s
        (nffs_flash_loc_expand (s.inodes inode_entry).nie_hash_entry.nhe_flash_loc).1
        (nffs_flash_loc_expand (s.inodes inode_entry).nie_hash_entry.nhe_flash_loc).2
        = .ok old ∧
      s.nffs_areas[area_idx]? = some area ∧ area_offset = area.na_cur ∧
      (∀ i x, x ∈ tbl i ↔ x ∈ s.nffs_hash i) ∧
      s' = { s with
        inodes := Function.update s.inodes inode_entry
          { s.inodes inode_entry with
            nie_hash_entry :=
              { (s.inodes inode_entry).nie_hash_entry with
                nhe_flash_loc := nffs_flash_loc area_idx area_offset } }
        nffs_hash := tbl
        nffs_flash_buf :=
          if new_filename = none then mem_write s.nffs_flash_buf 0 name else s.nffs_flash_buf
        flash :=
          mem_write
            (mem_write s.flash (area.na_offset + area_offset)
              (nffs_crc_disk_inode_fill env
                { ndi_magic := NFFS_INODE_MAGIC
                  ndi_id := (s.inodes inode_entry).nie_hash_entry.nhe_id
                  ndi_seq := (old.ndi_seq + 1) % 2 ^ 32
                  ndi_parent_id := old.ndi_parent_id
                  reserved8 := env.uninit8
                  ndi_filename_len := name.length
                  ndi_crc16 := 0 } name).bytes)
            (area.na_offset + area_offset + NFFS_DISK_INODE_SZ) name
        nffs_areas :=
          s.nffs_areas.set area_idx
            { area with na_cur := area_offset + NFFS_DISK_INODE_SZ + name.length } } := by
  obtain ⟨inode0, s1, inode, s2, filename_len, s3, ai, ao, s4, s5,
    h1, h2, h3, h4, h5, hs'⟩ := nffs_inode_rename_steps env s s' inode_entry (some p)
      new_filename hok
  -- the record the entry referenced
  obtain ⟨_, hl255, old, hold, hseq, hfl, hparent, hnm⟩ :=
    nffs_inode_from_entry_ok s inode_entry inode0 s1 h1
  obtain ⟨t1, ht1, hmem1⟩ := nffs_inode_from_entry_mem s inode_entry
  rw [h1] at ht1
  simp only [] at ht1
  have hp0 : inode0.ni_parent = some p := hpar inode0 s1 h1
  -- the id of the parent is the parent id of the record
  have hpid : (s.inodes p).nie_hash_entry.nhe_id = old.ndi_parent_id := by
    rw [hp0] at hparent
    by_cases hnone : old.ndi_parent_id = NFFS_ID_NONE
    · rw [if_pos hnone] at hparent; cases hparent
    · rw [if_neg hnone] at hparent
      rcases nffs_hash_find_fst_snd s.hash_mem s.nffs_hash old.ndi_parent_id with
        ⟨_, hf⟩ | ⟨pre, e, post, _, he, _, hf⟩
      · rw [hf] at hparent; cases hparent
      · rw [hf] at hparent
        simp only [Option.some.injEq] at hparent
        subst hparent
        exact he
  -- the parent block does nothing
  have h2' : inode0 = inode ∧ s1 = s2 := by
    unfold nffs_inode_rename_reparent at h2
    rw [if_neg (by rw [hp0]; exact fun h => h rfl)] at h2
    simp only [Prod.mk.injEq, Res.ok.injEq] at h2
    exact ⟨h2.1, h2.2⟩
  obtain ⟨hi, hs2⟩ := h2'
  subst hi
  subst hs2
  -- the filename of the record
  have hlen : name.length = inode0.ni_filename_len := by
    have := hfn
    simp only [inode_filename, hold] at this
    cases hr : nffs_flash_read s
        (nffs_flash_loc_expand (s.inodes inode_entry).nie_hash_entry.nhe_flash_loc).1
        ((nffs_flash_loc_expand (s.inodes inode_entry).nie_hash_entry.nhe_flash_loc).2
          + NFFS_DISK_INODE_SZ) old.ndi_filename_len with
    | abort => rw [hr] at this; cases this
    | err rc => rw [hr] at this; cases this
    | ok b =>
      rw [hr] at this
      simp only [Option.some.injEq] at this
      subst this
      obtain ⟨_, _, _, _, hb⟩ := nffs_flash_read_ok _ _ _ _ _ hr
      rw [hb, mem_read_length, hfl]
  have hnlt : ∀ x ∈ name, x < 256 := by
    have := hfn
    simp only [inode_filename, hold] at this
    cases hr : nffs_flash_read s
        (nffs_flash_loc_expand (s.inodes inode_entry).nie_hash_entry.nhe_flash_loc).1
        ((nffs_flash_loc_expand (s.inodes inode_entry).nie_hash_entry.nhe_flash_loc).2
          + NFFS_DISK_INODE_SZ) old.ndi_filename_len with
    | abort => rw [hr] at this; cases this
    | err rc => rw [hr] at this; cases this
    | ok b =>
      rw [hr] at this
      simp only [Option.some.injEq] at this
      subst this
      obtain ⟨_, _, _, _, hb⟩ := nffs_flash_read_ok _ _ _ _ _ hr
      rw [hb]
      exact mem_read_lt _ _ _
  -- the filename block
  have hsr1 : same_records s s1 := by rw [ht1]; exact same_records_hash_buf s t1 _
  have h3' : filename_len = name.length ∧
      s3 = { s1 with
        nffs_flash_buf :=
          if new_filename = none then mem_write s.nffs_flash_buf 0 name
          else s.nffs_flash_buf } ∧
      nffs_inode_rename_name_bytes s3 new_filename filename_len = name := by
    cases hnf : new_filename with
    | some nm =>
      obtain ⟨hnmn, hz⟩ := hname nm hnf
      subst hnmn
      rw [hnf] at h3
      simp only [nffs_inode_rename_filename, Prod.mk.injEq, Res.ok.injEq] at h3
      obtain ⟨hl, hs3⟩ := h3
      refine ⟨by rw [← hl, strlen_of_no_nul nm hz], ?_, ?_⟩
      · rw [← hs3, ht1]
        simp
      · rfl
    | none =>
      rw [hnf] at h3
      simp only [nffs_inode_rename_filename] at h3
      have hrd : nffs_flash_read s1
          (nffs_flash_loc_expand (s1.inodes inode_entry).nie_hash_entry.nhe_flash_loc).1
          ((nffs_flash_loc_expand (s1.inodes inode_entry).nie_hash_entry.nhe_flash_loc).2
            + NFFS_DISK_INODE_SZ) inode0.ni_filename_len = .ok name := by
        rw [nffs_flash_read_same_records hsr1, hsr1.1 inode_entry]
        have := hfn
        simp only [inode_filename, hold] at this
        rw [hfl]
        cases hr : nffs_flash_read s
            (nffs_flash_loc_expand (s.inodes inode_entry).nie_hash_entry.nhe_flash_loc).1
            ((nffs_flash_loc_expand (s.inodes inode_entry).nie_hash_entry.nhe_flash_loc).2
              + NFFS_DISK_INODE_SZ) old.ndi_filename_len with
        | abort => rw [hr] at this; cases this
        | err rc => rw [hr] at this; cases this
        | ok b =>
          rw [hr] at this
          simp only [Option.some.injEq] at this
          rw [this]
      rw [hrd] at h3
      simp only [Prod.mk.injEq, Res.ok.injEq] at h3
      obtain ⟨hl, hs3⟩ := h3
      refine ⟨by rw [← hl, hlen], ?_, ?_⟩
      · rw [← hs3, ht1]
        simp
      · rw [← hs3, ← hl]
        simp only [nffs_inode_rename_name_bytes]
        have := mem_read_write_same s1.nffs_flash_buf 0 name
        rw [hlen] at this
        rw [this, map_mod_of_lt _ hnlt]
  obtain ⟨hflen, hs3, hbytes⟩ := h3'
  subst hflen
  -- the reservation finds room
  have h4' : ai = area_idx ∧ ao = area_offset ∧ s4 = s3 := by
    have hloop : nffs_misc_reserve_space_loop s3 ((NFFS_DISK_INODE_SZ + name.length) % 2 ^ 16)
        (List.range s3.nffs_areas.length) = some (area_idx, area_offset) := by
      have ha3 : s3.nffs_areas = s.nffs_areas := by rw [hs3, ht1]
      have hsc3 : s3.nffs_scratch_area_idx = s.nffs_scratch_area_idx := by rw [hs3, ht1]
      rw [nffs_misc_reserve_space_loop_congr s s3 _ ha3 hsc3, ha3]
      exact hroom
    unfold nffs_misc_reserve_space at h4
    simp only [hloop, Prod.mk.injEq, Res.ok.injEq] at h4
    exact ⟨h4.1.1.symm, h4.1.2.symm, h4.2.symm⟩
  obtain ⟨hai, hao, hs4⟩ := h4'
  subst hai
  subst hao
  subst hs4
  -- the write
  have hmod : name.length % 256 = name.length := Nat.mod_eq_of_lt (by rw [hlen]; omega)
  rw [hbytes, hmod] at h5
  obtain ⟨area, ha, hcur, hs5⟩ := nffs_inode_write_disk_eq s4 _ name ai ao s5 h5
    (by simp only [nffs_crc_disk_inode_fill])
  have ha' : s.nffs_areas[ai]? = some area := by
    rw [hs3, ht1] at ha
    exact ha
  refine ⟨old, area, t1, hold, ha', hcur, hmem1, ?_⟩
  rw [hs', hs5, hs3, ht1]
  simp only [nffs_inode_parent_id, hp0, hpid, hseq]

set_option maxRecDepth 100000 in
theorem nffs_inode_rename_same_witness :
    ∃ old area tbl,
      nffs_inode_read_disk (ex_state 4096)
        (nffs_flash_loc_expand ((ex_state 4096).inodes 101).nie_hash_entry.nhe_flash_loc).1
        (nffs_flash_loc_expand ((ex_state 4096).inodes 101).nie_hash_entry.nhe_flash_loc).2
        = .ok old ∧
      (ex_state 4096).nffs_areas[0]? = some area ∧ 125 = area.na_cur ∧
      (∀ i x, x ∈ tbl i ↔ x ∈ (ex_state 4096).nffs_hash i) ∧
      (nffs_inode_rename ex_env (ex_state 4096) 101 (some 100) (some [97])).2
        = { ex_state 4096 with
          inodes := Function.update (ex_state 4096).inodes 101
            { (ex_state 4096).inodes 101 with
              nie_hash_entry :=
                { ((ex_state 4096).inodes 101).nie_hash_entry with
                  nhe_flash_loc := nffs_flash_loc 0 125 } }
          nffs_hash := tbl
          nffs_flash_buf :=
            if (some [97] : Option (List Nat)) = none then
              mem_write (ex_state 4096).nffs_flash_buf 0 [97]
            else (ex_state 4096).nffs_flash_buf
          flash :=
            mem_write
              (mem_write (ex_state 4096).flash (area.na_offset + 125)
                (nffs_crc_disk_inode_fill ex_env
                  { ndi_magic := NFFS_INODE_MAGIC
                    ndi_id := ((ex_state 4096).inodes 101).nie_hash_entry.nhe_id
                    ndi_seq := (old.ndi_seq + 1) % 2 ^ 32
                    ndi_parent_id := old.ndi_parent_id
                    reserved8 := ex_env.uninit8
                    ndi_filename_len := [97].length
                    ndi_crc16 := 0 } [97]).bytes)
              (area.na_offset + 125 + NFFS_DISK_INODE_SZ) [97]
          nffs_areas :=
            (ex_state 4096).nffs_areas.set 0
              { area with na_cur := 125 + NFFS_DISK_INODE_SZ + [97].length } } :=
  nffs_inode_rename_same ex_env (ex_state 4096)
    (nffs_inode_rename ex_env (ex_state 4096) 101 (some 100) (some [97])).2 101 100
    (some [97]) [97] 0 125 (Prod.ext (by decide) rfl)
    (fun inode0 s1 h => by
      have h2 : (nffs_inode_from_entry (ex_state 4096) 101).1 = .ok ex_inode_a := by decide
      rw [h] at h2
      cases h2
      rfl)
    (by decide) (fun nm h => by cases h; exact ⟨rfl, by decide⟩) (by decide)

set_option maxRecDepth 100000 in
/-- C24 as stated fails on the code in two ways.  The file "c" (entry 102) of the example
file system has the parent 100, the name "c" and a record with the sequence number
2^32 - 1: the rename to the same parent and name returns 0, and the record it appends at
offset 125 has the sequence number 0.  With area 0 full and a garbage collector that
rotates the scratch area and copies through the static buffer, the rename of the file
"a" (entry 101) to the same parent with a NULL name returns 0, the scratch area index has
changed from 1 to 0, and the name of the record the entry references is no longer "a". -/
theorem nffs_inode_rename_same_counterexample :
    ((nffs_inode_from_entry (ex_state 4096) 102).1 = .ok ex_inode_c ∧
      inode_filename (ex_state 4096) 102 = some [99] ∧
      (nffs_inode_rename ex_env (ex_state 4096) 102 (some 100) (some [99])).1 = .ok () ∧
      (nffs_disk_inode.of_bytes (mem_read (ex_state 4096).flash 41
        NFFS_DISK_INODE_SZ)).ndi_seq = 2 ^ 32 - 1 ∧
      ((nffs_inode_rename ex_env (ex_state 4096) 102 (some 100)
        (some [99])).2.inodes 102).nie_hash_entry.nhe_flash_loc = nffs_flash_loc 0 125 ∧
      (nffs_disk_inode.of_bytes (mem_read
        (nffs_inode_rename ex_env (ex_state 4096) 102 (some 100) (some [99])).2.flash 125
        NFFS_DISK_INODE_SZ)).ndi_seq = 0) ∧
    ((nffs_inode_from_entry (ex_state 125) 101).1 = .ok ex_inode_a ∧
      inode_filename (ex_state 125) 101 = some [97] ∧
      (nffs_inode_rename ex_env_gc (ex_state 125) 101 (some 100) none).1 = .ok () ∧
      (ex_state 125).nffs_scratch_area_idx = 1 ∧
      (nffs_inode_rename ex_env_gc (ex_state 125) 101 (some 100) none).2.nffs_scratch_area_idx
        = 0 ∧
      inode_filename (nffs_inode_rename ex_env_gc (ex_state 125) 101 (some 100) none).2 101
        = some [0x58]) := by
  decide
/-! ## Walking a block chain: lemmas -/

/-- The function `nffs_hash_find_block` changes at most the order of the hash chains, and
the entry it finds is linked in the table. -/
theorem nffs_hash_find_block_frame (s : nffs_state) (id : Nat) :
    ∃ t, (nffs_hash_find_block s id).2 = { s with nffs_hash := t } ∧
      (∀ i x, x ∈ t i ↔ x ∈ s.nffs_hash i) ∧
      ∀ p, (nffs_hash_find_block s id).1 = .ok (some p) → ∃ i, p ∈ s.nffs_hash i := by
  unfold nffs_hash_find_block
  split
  · exact ⟨s.nffs_hash, rfl, fun _ _ => Iff.rfl, fun p h => by cases h⟩
  · refine ⟨_, rfl, (nffs_hash_find_mem s.hash_mem s.nffs_hash id).1, ?_⟩
    intro p hp
    simp only [Res.ok.injEq] at hp
    rcases nffs_hash_find_fst_snd s.hash_mem s.nffs_hash id with
      ⟨_, hf⟩ | ⟨pre, e, post, hl, _, _, hf⟩
    · rw [hf] at hp; cases hp
    · rw [hf] at hp
      simp only [Option.some.injEq] at hp
      subst hp
      exact ⟨nffs_hash_fn id, by rw [hl]; simp⟩

/-- The function `nffs_hash_find_inode` changes at most the order of the hash chains. -/
theorem nffs_hash_find_inode_mem (s : nffs_state) (id : Nat) :
    ∃ t, (nffs_hash_find_inode s id).2 = { s with nffs_hash := t } ∧
      (∀ i x, x ∈ t i ↔ x ∈ s.nffs_hash i) := by
  unfold nffs_hash_find_inode
  split
  · exact ⟨s.nffs_hash, rfl, fun _ _ => Iff.rfl⟩
  · exact ⟨_, rfl, (nffs_hash_find_mem s.hash_mem s.nffs_hash id).1⟩

/-- Whatever `nffs_block_from_hash_entry` returns, it changes at most the order of the
hash chains; a successful decoding gives the data length of the record, and a previous
block that it gives is linked in the hash table. -/
theorem nffs_block_from_hash_entry_frame (s : nffs_state) (b : Nat) :
    ∃ t, (nffs_block_from_hash_entry s b).2 = { s with nffs_hash := t } ∧
      (∀ i x, x ∈ t i ↔ x ∈ s.nffs_hash i) ∧
      ∀ block, (nffs_block_from_hash_entry s b).1 = .ok block →
        block.nb_hash_entry = b ∧ block.nb_data_len = nffs_block_data_len s b ∧
        ∀ p, block.nb_prev = some p → ∃ i, p ∈ s.nffs_hash i := by
  unfold nffs_block_from_hash_entry nffs_block_data_len
  simp only []
  cases hrd : nffs_block_read_disk s
      (nffs_flash_loc_expand (s.inodes b).nie_hash_entry.nhe_flash_loc).1
      (nffs_flash_loc_expand (s.inodes b).nie_hash_entry.nhe_flash_loc).2 with
  | abort => exact ⟨s.nffs_hash, rfl, fun _ _ => Iff.rfl, fun _ h => by cases h⟩
  | err rc => exact ⟨s.nffs_hash, rfl, fun _ _ => Iff.rfl, fun _ h => by cases h⟩
  | ok d =>
    simp only []
    obtain ⟨t1, ht1, hm1⟩ := nffs_hash_find_inode_mem s d.ndb_inode_id
    rcases hf : nffs_hash_find_inode s d.ndb_inode_id with ⟨r, s1⟩
    rw [hf] at ht1
    simp only [] at ht1
    subst ht1
    cases r with
    | abort => exact ⟨t1, rfl, hm1, fun _ h => by cases h⟩
    | err rc => exact ⟨t1, rfl, hm1, fun _ h => by cases h⟩
    | ok oe =>
      cases oe with
      | none => exact ⟨t1, rfl, hm1, fun _ h => by cases h⟩
      | some inode_entry =>
        simp only []
        by_cases hprev : d.ndb_prev_id ≠ NFFS_ID_NONE
        · rw [if_pos hprev]
          obtain ⟨t2, ht2, hm2, hp2⟩ := nffs_hash_find_block_frame
            { s with nffs_hash := t1 } d.ndb_prev_id
          rcases hf2 : nffs_hash_find_block { s with nffs_hash := t1 } d.ndb_prev_id
            with ⟨r2, s2⟩
          rw [hf2] at ht2 hp2
          simp only [] at ht2 hp2
          subst ht2
          have hm : ∀ i x, x ∈ t2 i ↔ x ∈ s.nffs_hash i :=
            fun i x => (hm2 i x).trans (hm1 i x)
          cases r2 with
          | abort => exact ⟨t2, rfl, hm, fun _ h => by cases h⟩
          | err rc => exact ⟨t2, rfl, hm, fun _ h => by cases h⟩
          | ok op =>
            cases op with
            | none => exact ⟨t2, rfl, hm, fun _ h => by cases h⟩
            | some prev =>
              refine ⟨t2, rfl, hm, ?_⟩
              intro block hb
              simp only [Res.ok.injEq] at hb
              subst hb
              refine ⟨rfl, rfl, ?_⟩
              intro p hp
              simp only [Option.some.injEq] at hp
              subst hp
              obtain ⟨i, hi⟩ := hp2 prev rfl
              exact ⟨i, (hm1 i prev).mp hi⟩
        · rw [if_neg hprev]
          refine ⟨t1, rfl, hm1, ?_⟩
          intro block hb
          simp only [Res.ok.injEq] at hb
          subst hb
          exact ⟨rfl, rfl, fun p hp => by cases hp⟩

/-- The data length of a block record does not depend on the hash table. -/
theorem nffs_block_data_len_hash (s : nffs_state) (t : nffs_hash_table) (b : Nat) :
    nffs_block_data_len { s with nffs_hash := t } b = nffs_block_data_len s b := by
  simp only [nffs_block_data_len, nffs_block_read_disk, nffs_flash_read]

/-- Entries without repetition that are all linked in the hash table are not more than
the table has entries. -/
theorem nffs_hash_count_ge_of_nodup :
    ∀ (l : List Nat) (tbl : nffs_hash_table), l.Nodup → (∀ x ∈ l, ∃ i, x ∈ tbl i) →
      l.length ≤ nffs_hash_count tbl := by
  intro l
  induction l with
  | nil => intro tbl _ _; exact Nat.zero_le _
  | cons x rest ih =>
    intro tbl hn hmem
    obtain ⟨hx, hrest⟩ := List.nodup_cons.mp hn
    obtain ⟨i, hi⟩ := hmem x (List.mem_cons_self x rest)
    have hcount := nffs_hash_count_update tbl i ((tbl i).erase x)
    rw [List.length_erase_of_mem hi] at hcount
    have hpos : 0 < (tbl i).length := List.length_pos_of_mem hi
    have hle := ih (Function.update tbl i ((tbl i).erase x)) hrest (by
      intro y hy
      obtain ⟨j, hj⟩ := hmem y (List.mem_cons_of_mem x hy)
      have hyx : y ≠ x := fun h => hx (h ▸ hy)
      refine ⟨j, ?_⟩
      by_cases hji : j = i
      · subst hji
        rw [Function.update_same]
        exact (List.mem_erase_of_ne hyx).mpr hj
      · rw [Function.update_noteq hji]
        exact hj)
    simp only [List.length_cons]
    omega

/-- The blocks of a walk behind the first are linked in the hash table. -/
theorem nffs_block_walk_linked :
    ∀ (chain : List Nat) (s : nffs_state) (cur : Option Nat), nffs_block_walk s cur chain →
      ∀ x ∈ chain.tail, ∃ i, x ∈ s.nffs_hash i := by
  intro chain
  induction chain with
  | nil => intro s cur _ x hx; cases hx
  | cons b rest ih =>
    intro s cur hw x hx
    obtain ⟨_, block, s1, hdec, hrest⟩ := hw
    obtain ⟨t, ht, hm, hblock⟩ := nffs_block_from_hash_entry_frame s b
    rw [hdec] at ht hblock
    simp only [] at ht hblock
    subst ht
    obtain ⟨_, _, hprev⟩ := hblock block rfl
    simp only [List.tail_cons] at hx
    cases rest with
    | nil => cases hx
    | cons p rest' =>
      rcases List.mem_cons.mp hx with h | h
      · subst h
        exact hprev x hrest.1
      · obtain ⟨i, hi⟩ := ih _ _ hrest x (by simpa using h)
        exact ⟨i, (hm i x).mp hi⟩

/-- A walk without repetition has at most one block more than the hash table has
entries. -/
theorem nffs_block_walk_length (chain : List Nat) (s : nffs_state) (cur : Option Nat)
    (hw : nffs_block_walk s cur chain) (hn : chain.Nodup) :
    chain.length ≤ nffs_hash_count s.nffs_hash + 1 := by
  cases chain with
  | nil => exact Nat.zero_le _
  | cons b rest =>
    have := nffs_hash_count_ge_of_nodup rest s.nffs_hash (List.nodup_cons.mp hn).2
      (nffs_block_walk_linked (b :: rest) s cur hw)
    simp only [List.length_cons]
    omega

/-- The loop of `nffs_inode_calc_data_length` along a walk, with enough iterations
allowed: it decodes each block of the walk once. -/
theorem nffs_inode_calc_data_length_loop_walk :
    ∀ (chain : List Nat) (fuel : Nat) (cur : Option Nat) (out_len : Nat) (s : nffs_state),
      nffs_block_walk s cur chain → chain.length ≤ fuel →
      nffs_inode_calc_data_length_loop fuel cur out_len s
        = nffs_block_decode_each chain out_len s := by
  intro chain
  induction chain with
  | nil =>
    intro fuel cur out_len s hw _
    simp only [nffs_block_walk] at hw
    subst hw
    cases fuel <;> rfl
  | cons b rest ih =>
    intro fuel cur out_len s hw hf
    obtain ⟨hcur, block, s1, hdec, hrest⟩ := hw
    subst hcur
    cases fuel with
    | zero => simp at hf
    | succ fuel =>
      simp only [nffs_inode_calc_data_length_loop, nffs_block_decode_each, hdec]
      exact ih fuel _ _ s1 hrest (by simpa using hf)

/-- The decoding of the blocks of a walk succeeds, adds up the data lengths of their
records, and changes at most the order of the hash chains. -/
theorem nffs_block_decode_each_walk :
    ∀ (chain : List Nat) (cur : Option Nat) (out_len : Nat) (s : nffs_state),
      nffs_block_walk s cur chain → out_len < 2 ^ 32 →
      ∃ t, nffs_block_decode_each chain out_len s
          = (.ok (), (out_len + (chain.map (nffs_block_data_len s)).sum) % 2 ^ 32,
              { s with nffs_hash := t }) ∧
        (∀ i x, x ∈ t i ↔ x ∈ s.nffs_hash i) := by
  intro chain
  induction chain with
  | nil =>
    intro cur out_len s _ hlt
    refine ⟨s.nffs_hash, ?_, fun _ _ => Iff.rfl⟩
    simp only [nffs_block_decode_each, List.map_nil, List.sum_nil, Nat.add_zero,
      Nat.mod_eq_of_lt hlt]
  | cons b rest ih =>
    intro cur out_len s hw _
    obtain ⟨_, block, s1, hdec, hrest⟩ := hw
    obtain ⟨t, ht, hm, hblock⟩ := nffs_block_from_hash_entry_frame s b
    rw [hdec] at ht hblock
    simp only [] at ht hblock
    subst ht
    obtain ⟨_, hlen, _⟩ := hblock block rfl
    obtain ⟨t2, h2, hm2⟩ := ih block.nb_prev ((out_len + block.nb_data_len) % 2 ^ 32) _ hrest
      (Nat.mod_lt _ (by norm_num))
    have hmap : rest.map (nffs_block_data_len { s with nffs_hash := t })
        = rest.map (nffs_block_data_len s) :=
      List.map_congr_left (fun x _ => nffs_block_data_len_hash s t x)
    rw [hmap, Nat.mod_add_mod, Nat.add_assoc, hlen] at h2
    refine ⟨t2, ?_, fun i x => (hm2 i x).trans (hm i x)⟩
    simp only [nffs_block_decode_each, hdec, List.map_cons, List.sum_cons, hlen]
    exact h2

/-- The blocks of a walk that ends at a block that cannot be decoded, and that block,
are linked in the hash table, the first apart. -/
theorem nffs_block_walk_fails_linked :
    ∀ (pre : List Nat) (s : nffs_state) (cur : Option Nat) (b rc : Nat),
      nffs_block_walk_fails s cur b rc pre →
      ∀ x ∈ (pre ++ [b]).tail, ∃ i, x ∈ s.nffs_hash i := by
  intro pre
  induction pre with
  | nil => intro s cur b rc _ x hx; cases hx
  | cons a rest ih =>
    intro s cur b rc hw x hx
    obtain ⟨_, block, s1, hdec, hrest⟩ := hw
    obtain ⟨t, ht, hm, hblock⟩ := nffs_block_from_hash_entry_frame s a
    rw [hdec] at ht hblock
    simp only [] at ht hblock
    subst ht
    obtain ⟨_, _, hprev⟩ := hblock block rfl
    simp only [List.cons_append, List.tail_cons] at hx
    cases rest with
    | nil =>
      simp only [List.nil_append, List.mem_singleton] at hx
      subst hx
      exact hprev x hrest.1
    | cons p rest' =>
      rcases List.mem_cons.mp hx with h | h
      · subst h
        exact hprev x hrest.1
      · obtain ⟨i, hi⟩ := ih _ _ b rc hrest x (by simpa using h)
        exact ⟨i, (hm i x).mp hi⟩

/-- The loop of `nffs_inode_calc_data_length` along a walk that ends at a block that
cannot be decoded, with enough iterations allowed: it returns the error of that block. -/
theorem nffs_inode_calc_data_length_loop_fails :
    ∀ (pre : List Nat) (fuel : Nat) (cur : Option Nat) (out_len : Nat) (s : nffs_state)
      (b rc : Nat), nffs_block_walk_fails s cur b rc pre → pre.length + 1 ≤ fuel →
      (nffs_inode_calc_data_length_loop fuel cur out_len s).1 = .err rc := by
  intro pre
  induction pre with
  | nil =>
    intro fuel cur out_len s b rc hw hf
    obtain ⟨hcur, herr⟩ := hw
    subst hcur
    cases fuel with
    | zero => simp at hf
    | succ fuel =>
      simp only [nffs_inode_calc_data_length_loop]
      cases hd : nffs_block_from_hash_entry s b with
      | mk r s1 =>
        rw [hd] at herr
        simp only [] at herr
        subst herr
        rfl
  | cons a rest ih =>
    intro fuel cur out_len s b rc hw hf
    obtain ⟨hcur, block, s1, hdec, hrest⟩ := hw
    subst hcur
    cases fuel with
    | zero => simp at hf
    | succ fuel =>
      simp only [nffs_inode_calc_data_length_loop, hdec]
      exact ih fuel _ _ s1 b rc hrest (by simpa using hf)

/-- A chain that passes the test by running is a walk. -/
theorem nffs_block_walk_of_check :
    ∀ (chain : List Nat) (s : nffs_state) (cur : Option Nat),
      nffs_block_walk_check s cur chain = true → nffs_block_walk s cur chain := by
  intro chain
  induction chain with
  | nil =>
    intro s cur h
    simpa [nffs_block_walk_check, nffs_block_walk] using h
  | cons b rest ih =>
    intro s cur h
    simp only [nffs_block_walk_check, Bool.and_eq_true, decide_eq_true_eq] at h
    obtain ⟨hc, hr⟩ := h
    cases hd : nffs_block_from_hash_entry s b with
    | mk r s1 =>
      rw [hd] at hr
      cases r with
      | ok block => exact ⟨hc, block, s1, hd, ih s1 _ hr⟩
      | err rc => simp at hr
      | abort => simp at hr
/-- The data lengths of the blocks of a list do not depend on the order of the hash
chains. -/
theorem nffs_block_data_len_map_hash (s : nffs_state) (t : nffs_hash_table) (l : List Nat) :
    l.map (nffs_block_data_len { s with nffs_hash := t }) = l.map (nffs_block_data_len s) :=
  List.map_congr_left (fun x _ => nffs_block_data_len_hash s t x)

/-- The difference of two `uint32_t` values when the second is not the larger. -/
theorem uint32_sub_of_le (a b : Nat) (ha : a < 2 ^ 32) (hb : b ≤ a) : uint32_sub a b = a - b := by
  unfold uint32_sub
  rw [Nat.mod_eq_of_lt ha, Nat.mod_eq_of_lt (Nat.lt_of_le_of_lt hb ha)]
  have : a + 2 ^ 32 - b = (a - b) + 2 ^ 32 := by omega
  rw [this, Nat.add_mod_right]
  exact Nat.mod_eq_of_lt (by omega)

/-- The loop of `nffs_inode_seek` along a walk whose data lengths add up to the offset it
starts at, for a `seek_end` that is not 0, with enough iterations allowed: it returns
the first block of the walk whose first byte is before `seek_end`, decoded, with the sum
of the data lengths of the blocks behind it as the file offset. -/
theorem nffs_inode_seek_loop_walk (seek_end file_size : Nat) (hend : 0 < seek_end) :
    ∀ (chain : List Nat) (fuel : Nat) (cur : Option Nat) (s : nffs_state),
      nffs_block_walk s cur chain → chain.length ≤ fuel → chain ≠ [] →
      (chain.map (nffs_block_data_len s)).sum < 2 ^ 32 →
      ∃ pre b post block s2 t,
        chain = pre ++ b :: post ∧
        nffs_inode_seek_loop seek_end file_size fuel cur
            (chain.map (nffs_block_data_len s)).sum s
          = (.ok { nsi_last_block := block
                   nsi_block_file_off := (post.map (nffs_block_data_len s)).sum
                   nsi_file_len := file_size }, s2) ∧
        nffs_block_from_hash_entry { s with nffs_hash := t } b = (.ok block, s2) ∧
        (∀ i x, x ∈ t i ↔ x ∈ s.nffs_hash i) ∧
        block.nb_hash_entry = b ∧ block.nb_data_len = nffs_block_data_len s b ∧
        (post.map (nffs_block_data_len s)).sum < seek_end ∧
        (pre ≠ [] → seek_end ≤ (post.map (nffs_block_data_len s)).sum
          + nffs_block_data_len s b) := by
  intro chain
  induction chain with
  | nil => intro _ _ _ _ _ hne; exact absurd rfl hne
  | cons b rest ih =>
    intro fuel cur s hw hf _ hsum
    obtain ⟨hcur, block, s1, hdec, hrest⟩ := hw
    subst hcur
    obtain ⟨t, ht, hm, hblock⟩ := nffs_block_from_hash_entry_frame s b
    rw [hdec] at ht hblock
    simp only [] at ht hblock
    obtain ⟨hb, hlen, _⟩ := hblock block rfl
    simp only [List.map_cons, List.sum_cons] at hsum ⊢
    have hsub : uint32_sub (nffs_block_data_len s b + (rest.map (nffs_block_data_len s)).sum)
        block.nb_data_len = (rest.map (nffs_block_data_len s)).sum := by
      rw [uint32_sub_of_le _ _ hsum (by omega), hlen]
      omega
    cases fuel with
    | zero => simp at hf
    | succ fuel =>
      simp only [nffs_inode_seek_loop, hdec, hsub]
      by_cases hgt : seek_end > (rest.map (nffs_block_data_len s)).sum
      · rw [if_pos hgt]
        exact ⟨[], b, rest, block, s1, s.nffs_hash, rfl, rfl, hdec, fun _ _ => Iff.rfl, hb,
          hlen, hgt, fun h => absurd rfl h⟩
      · rw [if_neg hgt]
        have hne : rest ≠ [] := by
          intro h
          subst h
          simp at hgt
          omega
        subst ht
        rw [← nffs_block_data_len_map_hash s t rest] at hsum hgt ⊢
        obtain ⟨pre, b2, post, block2, s2, t2, hch, hloop, hdec2, hm2, hb2, hlen2, hlt, hge⟩ :=
          ih fuel block.nb_prev _ hrest (by simpa using hf) hne (by omega)
        rw [nffs_block_data_len_map_hash s t post] at hloop hlt hge
        rw [nffs_block_data_len_hash s t b2] at hlen2 hge
        refine ⟨b :: pre, b2, post, block2, s2, t2, by rw [hch]; rfl, hloop, hdec2,
          fun i x => (hm2 i x).trans (hm i x), hb2, hlen2, hlt, fun _ => ?_⟩
        by_cases hp : pre = []
        · subst hp
          simp only [List.nil_append] at hch
          subst hch
          simp only [List.map_cons, List.sum_cons, nffs_block_data_len_hash] at hgt
          rw [nffs_block_data_len_map_hash s t post] at hgt
          omega
        · exact hge hp
/-! ## Claim C23: the data length of a file -/

/-- C23: for a file inode, when following the previous-block pointers from
`nie_last_block_entry` on visits the blocks of `chain` without repetition and ends at a
block without predecessor, `nffs_inode_calc_data_length` returns (the bound on the
iterations is not reached), does what decoding each block of the chain once does,
returns 0, leaves the sum of the data lengths of the blocks in `*out_len` as a 32-bit
number (the sum itself when it is below 2^32, 0 for a file without blocks) and changes
at most the order of the hash chains; when the walk ends at a block whose decoding
fails, the function returns the error of that block. -/
theorem nffs_inode_calc_data_length_sum (s : nffs_state) (inode_entry out_len : Nat)
    (hfile : nffs_hash_id_is_file (s.inodes inode_entry).nie_hash_entry.nhe_id = true) :
    (∀ chain, nffs_block_walk s (s.inodes inode_entry).nie_last_block_entry chain →
      chain.Nodup →
      nffs_inode_calc_data_length s inode_entry out_len = nffs_block_decode_each chain 0 s ∧
      (∃ t, nffs_inode_calc_data_length s inode_entry out_len
          = (.ok (), (chain.map (nffs_block_data_len s)).sum % 2 ^ 32,
              { s with nffs_hash := t }) ∧
        ∀ i x, x ∈ t i ↔ x ∈ s.nffs_hash i) ∧
      ((chain.map (nffs_block_data_len s)).sum < 2 ^ 32 →
        (nffs_inode_calc_data_length s inode_entry out_len).2.1
          = (chain.map (nffs_block_data_len s)).sum) ∧
      (chain = [] → nffs_inode_calc_data_length s inode_entry out_len = (.ok (), 0, s))) ∧
    (∀ pre b rc,
      nffs_block_walk_fails s (s.inodes inode_entry).nie_last_block_entry b rc pre →
      (pre ++ [b]).Nodup →
      (nffs_inode_calc_data_length s inode_entry out_len).1 = .err rc) := by
  have hcalc : nffs_inode_calc_data_length s inode_entry out_len
      = nffs_inode_calc_data_length_loop (nffs_hash_count s.nffs_hash + 1)
          (s.inodes inode_entry).nie_last_block_entry 0 s := by
    simp [nffs_inode_calc_data_length, hfile]
  refine ⟨?_, ?_⟩
  · intro chain hw hn
    have heach := nffs_inode_calc_data_length_loop_walk chain _ _ 0 s hw
      (nffs_block_walk_length chain s _ hw hn)
    obtain ⟨t, ht, hm⟩ := nffs_block_decode_each_walk chain _ 0 s hw (by norm_num)
    rw [Nat.zero_add] at ht
    rw [hcalc, heach]
    refine ⟨rfl, ⟨t, ht, hm⟩, ?_, ?_⟩
    · intro hlt
      rw [ht]
      exact Nat.mod_eq_of_lt hlt
    · intro hnil
      subst hnil
      rfl
  · intro pre b rc hw hn
    rw [hcalc]
    refine nffs_inode_calc_data_length_loop_fails pre _ _ 0 s b rc hw ?_
    have hlen := nffs_hash_count_ge_of_nodup (pre ++ [b]).tail s.nffs_hash hn.tail
      (nffs_block_walk_fails_linked pre s _ b rc hw)
    simp only [List.length_tail, List.length_append, List.length_singleton] at hlen
    omega

set_option maxRecDepth 1000000 in
/-- Witness of C23: the file 101 of the example with two blocks, whose chain is the
block 201 and then the block 200, of 1 and 2 bytes; the function gives 3. -/
theorem nffs_inode_calc_data_length_sum_witness :
    nffs_hash_id_is_file (ex_blocks_state.inodes 101).nie_hash_entry.nhe_id = true ∧
    nffs_block_walk ex_blocks_state (ex_blocks_state.inodes 101).nie_last_block_entry
      [201, 200] ∧
    (nffs_inode_calc_data_length ex_blocks_state 101 77).1 = .ok () ∧
    (nffs_inode_calc_data_length ex_blocks_state 101 77).2.1 = 3 := by
  have h := (nffs_inode_calc_data_length_sum ex_blocks_state 101 77 (by decide)).1
    [201, 200]
  have hw : nffs_block_walk ex_blocks_state
      (ex_blocks_state.inodes 101).nie_last_block_entry [201, 200] :=
    nffs_block_walk_of_check _ _ _ (by decide)
  obtain ⟨_, ⟨t, ht, _⟩, hsum, _⟩ := h hw (by decide)
  refine ⟨by decide, hw, by rw [ht], ?_⟩
  rw [hsum (by decide)]
  decide
/-! ## Claim C22: seeking in a file -/

/-- C22, amended: for a file inode whose cached size `S` is the sum of the data lengths
of the blocks of its chain, all of them non-empty, and for `length > 0` with
`offset + length < 2^32`: `nffs_inode_seek` returns `NFFS_ERANGE` exactly when
`offset > S`; for `offset = S` it returns 0 with a zeroed last block (NULL hash entry),
file offset 0 and file length `S`; for `offset < S` it returns 0 with the decoded block
of the chain that holds the file byte `min (offset + length) S - 1`, the file offset of
the first byte of that block, and file length `S`. -/
theorem nffs_inode_seek_block (cenv : nffs_cache_env) (s s1 : nffs_state)
    (inode_entry offset length cache_inode : Nat) (chain : List Nat)
    (hoff : offset < 2 ^ 32) (hlen : length < 2 ^ 32) (hpos : 0 < length)
    (hfile : nffs_hash_id_is_file (s.inodes inode_entry).nie_hash_entry.nhe_id = true)
    (hens : cenv.nffs_cache_inode_ensure s inode_entry = (.ok cache_inode, s1))
    (hS : (s1.cache_inodes cache_inode).nci_file_size < 2 ^ 32)
    (hw : nffs_block_walk s1 (s1.inodes inode_entry).nie_last_block_entry chain)
    (hn : chain.Nodup)
    (hsize : (chain.map (nffs_block_data_len s1)).sum
      = (s1.cache_inodes cache_inode).nci_file_size)
    (hne : ∀ b ∈ chain, 0 < nffs_block_data_len s1 b)
    (hend : offset + length < 2 ^ 32) :
    ((nffs_inode_seek cenv s inode_entry offset length).1 = .err NFFS_ERANGE ↔
      offset > (s1.cache_inodes cache_inode).nci_file_size) ∧
    (offset = (s1.cache_inodes cache_inode).nci_file_size →
      nffs_inode_seek cenv s inode_entry offset length
        = (.ok { nsi_last_block :=
                   { nb_hash_entry := 0, nb_seq := 0, nb_inode_entry := none,
                     nb_prev := none, nb_data_len := 0 }
                 nsi_block_file_off := 0
                 nsi_file_len := (s1.cache_inodes cache_inode).nci_file_size }, s1)) ∧
    (offset < (s1.cache_inodes cache_inode).nci_file_size →
      ∃ pre b post block s2 t,
        chain = pre ++ b :: post ∧
        nffs_inode_seek cenv s inode_entry offset length
          = (.ok { nsi_last_block := block
                   nsi_block_file_off := (post.map (nffs_block_data_len s1)).sum
                   nsi_file_len := (s1.cache_inodes cache_inode).nci_file_size }, s2) ∧
        nffs_block_from_hash_entry { s1 with nffs_hash := t } b = (.ok block, s2) ∧
        (∀ i x, x ∈ t i ↔ x ∈ s1.nffs_hash i) ∧
        block.nb_hash_entry = b ∧
        (post.map (nffs_block_data_len s1)).sum
          ≤ min (offset + length) (s1.cache_inodes cache_inode).nci_file_size - 1 ∧
        min (offset + length) (s1.cache_inodes cache_inode).nci_file_size - 1
          < (post.map (nffs_block_data_len s1)).sum + nffs_block_data_len s1 b) := by
  have hlen0 : ¬ length = 0 := by omega
  have hseek : nffs_inode_seek cenv s inode_entry offset length
      = if offset > (s1.cache_inodes cache_inode).nci_file_size then (.err NFFS_ERANGE, s1)
        else if offset = (s1.cache_inodes cache_inode).nci_file_size then
          (.ok { nsi_last_block :=
                   { nb_hash_entry := 0, nb_seq := 0, nb_inode_entry := none,
                     nb_prev := none, nb_data_len := 0 }
                 nsi_block_file_off := 0
                 nsi_file_len := (s1.cache_inodes cache_inode).nci_file_size }, s1)
        else
          nffs_inode_seek_loop (offset + length)
            (s1.cache_inodes cache_inode).nci_file_size (nffs_hash_count s1.nffs_hash + 1)
            (s1.inodes inode_entry).nie_last_block_entry
            (s1.cache_inodes cache_inode).nci_file_size s1 := by
    simp only [nffs_inode_seek, hlen0, hfile, hens, Nat.mod_eq_of_lt hoff,
      Nat.mod_eq_of_lt hlen, Nat.mod_eq_of_lt hend, if_false, Bool.true_eq_false]
  have hloop : offset < (s1.cache_inodes cache_inode).nci_file_size →
      ∃ pre b post block s2 t,
        chain = pre ++ b :: post ∧
        nffs_inode_seek cenv s inode_entry offset length
          = (.ok { nsi_last_block := block
                   nsi_block_file_off := (post.map (nffs_block_data_len s1)).sum
                   nsi_file_len := (s1.cache_inodes cache_inode).nci_file_size }, s2) ∧
        nffs_block_from_hash_entry { s1 with nffs_hash := t } b = (.ok block, s2) ∧
        (∀ i x, x ∈ t i ↔ x ∈ s1.nffs_hash i) ∧
        block.nb_hash_entry = b ∧
        (post.map (nffs_block_data_len s1)).sum
          ≤ min (offset + length) (s1.cache_inodes cache_inode).nci_file_size - 1 ∧
        min (offset + length) (s1.cache_inodes cache_inode).nci_file_size - 1
          < (post.map (nffs_block_data_len s1)).sum + nffs_block_data_len s1 b := by
    intro hlt
    have hchain : chain ≠ [] := by
      intro h
      subst h
      simp at hsize
      omega
    obtain ⟨pre, b, post, block, s2, t, hch, hl, hdec, hm, hb, _, hlo, hhi⟩ :=
      nffs_inode_seek_loop_walk (offset + length)
        (s1.cache_inodes cache_inode).nci_file_size (by omega) chain
        (nffs_hash_count s1.nffs_hash + 1) _ s1 hw (nffs_block_walk_length chain s1 _ hw hn)
        hchain (by omega)
    rw [hsize] at hl
    refine ⟨pre, b, post, block, s2, t, hch, ?_, hdec, hm, hb, ?_, ?_⟩
    · rw [hseek, if_neg (by omega), if_neg (by omega), hl]
    · have hbpos := hne b (by rw [hch]; simp)
      have hsum : (chain.map (nffs_block_data_len s1)).sum
          = (pre.map (nffs_block_data_len s1)).sum + (nffs_block_data_len s1 b
            + (post.map (nffs_block_data_len s1)).sum) := by
        rw [hch]; simp
      rw [Nat.le_sub_one_iff_lt (by omega), lt_min_iff]
      exact ⟨hlo, by omega⟩
    · have hsum : (chain.map (nffs_block_data_len s1)).sum
          = (pre.map (nffs_block_data_len s1)).sum + (nffs_block_data_len s1 b
            + (post.map (nffs_block_data_len s1)).sum) := by
        rw [hch]; simp
      by_cases hp : pre = []
      · subst hp
        simp only [List.map_nil, List.sum_nil, Nat.zero_add] at hsum
        have := Nat.min_le_right (offset + length)
          (s1.cache_inodes cache_inode).nci_file_size
        omega
      · have := hhi hp
        have := Nat.min_le_left (offset + length)
          (s1.cache_inodes cache_inode).nci_file_size
        omega
  refine ⟨?_, ?_, hloop⟩
  · constructor
    · intro h
      by_contra hle
      rcases Nat.lt_or_ge offset (s1.cache_inodes cache_inode).nci_file_size with hlt | hge
      · obtain ⟨_, _, _, _, _, _, _, hl, _⟩ := hloop hlt
        rw [hl] at h
        cases h
      · have heq : offset = (s1.cache_inodes cache_inode).nci_file_size := by omega
        rw [hseek, if_neg hle, if_pos heq] at h
        cases h
    · intro h
      rw [hseek, if_pos h]
  · intro h
    rw [hseek, if_neg (by omega), if_pos h]

set_option maxRecDepth 1000000 in
/-- Witness of C22: in the file 101 of the example with two blocks (block 200 with the
bytes 0 and 1, block 201 with the byte 2, size 3), seeking to offset 1 with length 1
gives the block 200 at the file offset 0. -/
theorem nffs_inode_seek_block_witness :
    (nffs_inode_seek ex_cache_env ex_blocks_state 101 4 1).1 = .err NFFS_ERANGE ∧
    (nffs_inode_seek ex_cache_env ex_blocks_state 101 1 1).1
      = .ok { nsi_last_block :=
                { nb_hash_entry := 200, nb_seq := 0, nb_inode_entry := some 101,
                  nb_prev := none, nb_data_len := 2 }
              nsi_block_file_off := 0
              nsi_file_len := 3 } ∧
    ∃ pre b post, [201, 200] = pre ++ b :: post ∧
      (post.map (nffs_block_data_len (ex_cache_env.nffs_cache_inode_ensure ex_blocks_state
        101).2)).sum ≤ min (1 + 1) 3 - 1 := by
  have h := nffs_inode_seek_block ex_cache_env ex_blocks_state
    (ex_cache_env.nffs_cache_inode_ensure ex_blocks_state 101).2 101 1 1 500 [201, 200]
    (by decide) (by decide) (by decide) (by decide) rfl (by decide)
    (nffs_block_walk_of_check _ _ _ (by decide)) (by decide) (by decide) (by decide)
    (by decide)
  obtain ⟨_, _, h3⟩ := h
  obtain ⟨pre, b, post, _, _, _, hch, _, _, _, _, hle, _⟩ := h3 (by decide)
  exact ⟨by decide, by decide, pre, b, post, hch, hle⟩

set_option maxRecDepth 1000000 in
/-- Counterexample to C22 as stated: in the file 101 of the example with two blocks, of
size 3, the seek to offset 2 with length 2^32 - 1 adds the two up to 1 in 32 bits and
returns the block 200 at the file offset 0, not the block 201 that holds the file byte
`min (offset + length) 3 - 1 = 2`; the seek to offset 1 with length 2^32 - 1 adds them up
to 0 and walks past the first block of the file. -/
theorem nffs_inode_seek_wraps :
    nffs_hash_id_is_file (ex_blocks_state.inodes 101).nie_hash_entry.nhe_id = true ∧
    (nffs_inode_seek ex_cache_env ex_blocks_state 101 2 (2 ^ 32 - 1)).1
      = .ok { nsi_last_block :=
                { nb_hash_entry := 200, nb_seq := 0, nb_inode_entry := some 101,
                  nb_prev := none, nb_data_len := 2 }
              nsi_block_file_off := 0
              nsi_file_len := 3 } ∧
    min (2 + (2 ^ 32 - 1)) 3 - 1 = 2 ∧
    (nffs_inode_seek ex_cache_env ex_blocks_state 101 1 (2 ^ 32 - 1)).1 = .abort := by
  decide
/-! ## Claim C21: the number of bytes read -/

/-- The mutex of `os_mutex_held`. -/
theorem os_mutex_held_mutex (s : os_state) (mu T j : Nat) :
    (os_mutex_held s mu T j).mutexes mu
      = { mu_head := [], mu_prio := (s.tasks T).t_prio, mu_level := j, mu_owner := some T } := by
  simp [os_mutex_held]

/-- The first `os_mutex_pend` for a mutex that was just initialised. -/
theorem os_mutex_pend_init (env : os_env) (s0 : os_state) (mu T timeout : Nat)
    (hstart : s0.g_os_started ≠ 0) (hcur : s0.g_current_task = some T) :
    os_mutex_pend env (os_mutex_init s0 (some mu)).2 (some mu) timeout
      = (.ok (), os_mutex_held (os_mutex_init s0 (some mu)).2 mu T 1) := by
  simp [os_mutex_pend, os_mutex_init, os_mutex_held, os_sched_get_current_task, hstart, hcur]

/-- An `os_mutex_pend` by the owner of a mutex: the nesting level goes up by one, in the
width of the member. -/
theorem os_mutex_pend_held (env : os_env) (s : os_state) (mu T j timeout : Nat)
    (hstart : s.g_os_started ≠ 0) (hcur : s.g_current_task = some T) (hj : j ≠ 0) :
    os_mutex_pend env (os_mutex_held s mu T j) (some mu) timeout
      = (.ok (), os_mutex_held s mu T ((j + 1) % 2 ^ env.mu_level_bits)) := by
  simp [os_mutex_pend, os_mutex_held, os_sched_get_current_task, hstart, hcur, hj]

/-- An `os_mutex_release` by the owner of a mutex that is held more than once: the
nesting level goes down by one. -/
theorem os_mutex_release_held (env : os_env) (s : os_state) (mu T j : Nat)
    (hstart : s.g_os_started ≠ 0) (hcur : s.g_current_task = some T) (hj : 2 ≤ j)
    (hlt : j < 2 ^ env.mu_level_bits) :
    os_mutex_release env (os_mutex_held s mu T j) (some mu)
      = (.ok (), os_mutex_held s mu T (j - 1)) := by
  have hmod : (j + 2 ^ env.mu_level_bits - 1) % 2 ^ env.mu_level_bits = j - 1 := by
    have : j + 2 ^ env.mu_level_bits - 1 = (j - 1) + 2 ^ env.mu_level_bits := by omega
    rw [this, Nat.add_mod_right]
    exact Nat.mod_eq_of_lt (by omega)
  have hj0 : j ≠ 0 := by omega
  have hj1 : j - 1 ≠ 0 := by omega
  simp [os_mutex_release, os_mutex_held, os_sched_get_current_task, hstart, hcur, hj0, hmod,
    hj1]

/-- The last `os_mutex_release` by the owner of a mutex that no task waits for: the mutex
is free, and the scheduler is called when the task is not the first of the run list. -/
theorem os_mutex_release_last (env : os_env) (s : os_state) (mu T : Nat)
    (hstart : s.g_os_started ≠ 0) (hcur : s.g_current_task = some T)
    (hlt : 1 < 2 ^ env.mu_level_bits) :
    os_mutex_release env (os_mutex_held s mu T 1) (some mu)
      = (.ok (),
          if s.g_os_run_list.head? ≠ some T then
            os_sched env (os_mutex_freed s mu T) s.g_os_run_list.head? 0
          else os_mutex_freed s mu T) := by
  have hmod : (1 + 2 ^ env.mu_level_bits - 1) % 2 ^ env.mu_level_bits = 0 := by
    have : 1 + 2 ^ env.mu_level_bits - 1 = 2 ^ env.mu_level_bits := by omega
    rw [this, Nat.mod_self]
  simp only [os_mutex_release, os_mutex_held, os_sched_get_current_task, hstart, hcur, hmod,
    Function.update_same, Function.update_idem, if_false, ne_eq, not_true_eq_false,
    one_ne_zero, or_self, List.head?_nil, os_sched_next_task, os_mutex_freed]
  split <;> rfl

/-- Calls of `os_mutex_pend` one after the other: `a + b` of them are `a` and then
`b`. -/
theorem os_mutex_pend_times_add (env : os_env) (mu timeout : Nat) :
    ∀ (a b : Nat) (s : os_state),
      os_mutex_pend_times env mu timeout (a + b) s
        = ((os_mutex_pend_times env mu timeout a s).1 ++
            (os_mutex_pend_times env mu timeout b
              (os_mutex_pend_times env mu timeout a s).2).1,
          (os_mutex_pend_times env mu timeout b
            (os_mutex_pend_times env mu timeout a s).2).2) := by
  intro a
  induction a with
  | zero => intro b s; simp [os_mutex_pend_times]
  | succ a ih =>
    intro b s
    rw [Nat.add_right_comm]
    simp only [os_mutex_pend_times, ih, List.cons_append]

/-- The owner of a mutex takes it `n` more times, the nesting level staying in the width
of the member: every call returns 0 and the level goes up by `n`. -/
theorem os_mutex_pend_times_held (env : os_env) (s : os_state) (mu T timeout : Nat)
    (hstart : s.g_os_started ≠ 0) (hcur : s.g_current_task = some T) :
    ∀ (n j : Nat), j ≠ 0 → j + n < 2 ^ env.mu_level_bits →
      os_mutex_pend_times env mu timeout n (os_mutex_held s mu T j)
        = (List.replicate n (.ok ()), os_mutex_held s mu T (j + n)) := by
  intro n
  induction n with
  | zero => intro j _ _; rfl
  | succ n ih =>
    intro j hj hlt
    simp only [os_mutex_pend_times, os_mutex_pend_held env s mu T j timeout hstart hcur hj,
      Nat.mod_eq_of_lt (by omega : j + 1 < 2 ^ env.mu_level_bits)]
    rw [ih (j + 1) (by omega) (by omega)]
    simp only [List.replicate_succ]
    rw [Nat.add_assoc, Nat.add_comm 1 n]

/-- The owner of a mutex releases it `n` times, fewer than the nesting level: every call
returns 0 and the level goes down by `n`. -/
theorem os_mutex_release_times_held (env : os_env) (s : os_state) (mu T : Nat)
    (hstart : s.g_os_started ≠ 0) (hcur : s.g_current_task = some T) :
    ∀ (n j : Nat), n < j → j < 2 ^ env.mu_level_bits →
      os_mutex_release_times env mu n (os_mutex_held s mu T j)
        = (List.replicate n (.ok ()), os_mutex_held s mu T (j - n)) := by
  intro n
  induction n with
  | zero => intro j _ _; rfl
  | succ n ih =>
    intro j hj hlt
    simp only [os_mutex_release_times,
      os_mutex_release_held env s mu T j hstart hcur (by omega) hlt]
    rw [ih (j - 1) (by omega) (by omega)]
    simp only [List.replicate_succ]
    rw [Nat.sub_sub, Nat.add_comm 1 n]

/-- Calls of `os_mutex_release` one after the other: `a + 1` of them are `a` and then
one. -/
theorem os_mutex_release_times_succ (env : os_env) (mu : Nat) :
    ∀ (a : Nat) (s : os_state),
      os_mutex_release_times env mu (a + 1) s
        = ((os_mutex_release_times env mu a s).1 ++
            [(os_mutex_release env (os_mutex_release_times env mu a s).2 (some mu)).1],
          (os_mutex_release env (os_mutex_release_times env mu a s).2 (some mu)).2) := by
  intro a
  induction a with
  | zero => intro s; simp [os_mutex_release_times]
  | succ a ih =>
    intro s
    rw [os_mutex_release_times, ih]
    simp only [os_mutex_release_times, List.cons_append]

/-- The function `os_sched_resort` leaves the mutexes alone. -/
theorem os_sched_resort_mutexes (s s1 : os_state) (t : Nat)
    (h : os_sched_resort s t = some s1) : s1.mutexes = s.mutexes := by
  unfold os_sched_resort at h
  split at h
  · split at h
    · cases h
    · simp only [Option.some.injEq] at h
      subst h
      unfold os_sched_insert
      split <;> rfl
  · simp only [Option.some.injEq] at h
    subst h
    rfl

/-- The function `os_sched_sleep` leaves the mutexes alone. -/
theorem os_sched_sleep_mutexes (s s1 : os_state) (t nticks : Nat)
    (h : os_sched_sleep s t nticks = some s1) : s1.mutexes = s.mutexes := by
  unfold os_sched_sleep at h
  split at h
  · cases h
  · simp only [] at h
    split at h <;>
    · simp only [Option.some.injEq] at h
      subst h
      rfl

/-- The function `os_sched_wakeup` for a task that does not wait for a mutex leaves the
mutexes alone. -/
theorem os_sched_wakeup_mutexes (s s1 : os_state) (t : Nat) (ht : (s.tasks t).t_mutex = none)
    (h : os_sched_wakeup s t = some s1) : s1.mutexes = s.mutexes := by
  unfold os_sched_wakeup at h
  simp only [ht] at h
  split at h
  · cases h
  · simp only [Option.some.injEq] at h
    subst h
    unfold os_sched_insert
    split <;> rfl
/-- The function `os_sched` with `isr = 0` gives the state it is called with or the state
after a context switch. -/
theorem os_sched_cases (env : os_env) (s : os_state) (next_t : Option Nat) :
    os_sched env s next_t 0 = s ∨ ∃ n, os_sched env s next_t 0 = env.os_arch_ctx_sw n s := by
  unfold os_sched
  simp only [ne_eq, not_true_eq_false, if_false]
  generalize (if next_t = none then os_sched_next_task s else next_t) = n
  by_cases h : n = os_sched_get_current_task s
  · left; simp [h]
  · right; exact ⟨n, by simp [h]⟩

/-- The invariant of a mutex after `os_sched`, for context switches that keep it. -/
theorem os_sched_level_owner (env : os_env) (s : os_state) (next_t : Option Nat) (mu : Nat)
    (henv : ∀ n s1, os_mutex_level_owner (s1.mutexes mu) →
      os_mutex_level_owner ((env.os_arch_ctx_sw n s1).mutexes mu))
    (h : os_mutex_level_owner (s.mutexes mu)) :
    os_mutex_level_owner ((os_sched env s next_t 0).mutexes mu) := by
  rcases os_sched_cases env s next_t with h1 | ⟨n, h1⟩
  · rw [h1]; exact h
  · rw [h1]; exact henv n s h

/-- The function `os_mutex_pend` keeps the invariant of the mutex, as long as the nesting
level stays in the width of the member and the context switches keep it. -/
theorem os_mutex_pend_level_owner (env : os_env) (s : os_state) (mu timeout : Nat)
    (hinv : os_mutex_level_owner (s.mutexes mu))
    (hlt : (s.mutexes mu).mu_level + 1 < 2 ^ env.mu_level_bits)
    (henv : ∀ n s1, os_mutex_level_owner (s1.mutexes mu) →
      os_mutex_level_owner ((env.os_arch_ctx_sw n s1).mutexes mu)) :
    os_mutex_level_owner ((os_mutex_pend env s (some mu) timeout).2.mutexes mu) := by
  unfold os_mutex_pend
  by_cases hs : s.g_os_started = 0
  · simp only [hs, if_true]; exact hinv
  simp only [hs, if_false]
  by_cases h0 : (s.mutexes mu).mu_level = 0
  · simp only [h0, if_true]
    cases os_sched_get_current_task s with
    | none => exact hinv
    | some cur => simp [os_mutex_level_owner]
  simp only [h0, if_false]
  have hown : (s.mutexes mu).mu_owner ≠ none := fun h => h0 (hinv.mpr h)
  by_cases ho : (s.mutexes mu).mu_owner = os_sched_get_current_task s
  · rw [if_pos ho]
    simp [os_mutex_level_owner, Nat.mod_eq_of_lt hlt, hown]
  rw [if_neg ho]
  by_cases ht : timeout % 2 ^ 32 = 0
  · rw [if_pos ht]; exact hinv
  rw [if_neg ht]
  split
  · exact hinv
  · exact hinv
  · rename_i owner cur _ _
    generalize hr : (if (s.tasks owner).t_prio > (s.tasks cur).t_prio then
        os_sched_resort
          { s with
            tasks := Function.update s.tasks owner
              { s.tasks owner with t_prio := (s.tasks cur).t_prio } } owner
      else some s) = raised
    cases raised with
    | none => exact hinv
    | some s1 =>
      have hm1 : s1.mutexes = s.mutexes := by
        split at hr
        · exact (os_sched_resort_mutexes _ _ _ hr).trans rfl
        · simp only [Option.some.injEq] at hr
          subst hr
          rfl
      simp only []
      generalize hhead : (if os_mutex_pend_loop s1.tasks cur (s1.mutexes mu).mu_head ≠ 0 then
          SLIST_INSERT_AFTER (s1.mutexes mu).mu_head
            (os_mutex_pend_loop s1.tasks cur (s1.mutexes mu).mu_head) cur
        else SLIST_INSERT_HEAD (s1.mutexes mu).mu_head cur) = head
      have hinv2 : os_mutex_level_owner
          ((Function.update s1.mutexes mu { s1.mutexes mu with mu_head := head }) mu) := by
        rw [Function.update_same, hm1]
        exact hinv
      split
      · exact hinv2
      · rename_i s3 hsl
        have hm3 := os_sched_sleep_mutexes _ _ _ _ hsl
        have hinv3 : os_mutex_level_owner (s3.mutexes mu) := by
          rw [hm3]; exact hinv2
        split <;> exact os_sched_level_owner env s3 none mu henv hinv3
/-- The function `os_mutex_release` keeps the invariant of the mutex when it returns, as
long as the context switches keep it. -/
theorem os_mutex_release_level_owner (env : os_env) (s : os_state) (mu : Nat)
    (hinv : os_mutex_level_owner (s.mutexes mu))
    (hlt : (s.mutexes mu).mu_level < 2 ^ env.mu_level_bits)
    (henv : ∀ n s1, os_mutex_level_owner (s1.mutexes mu) →
      os_mutex_level_owner ((env.os_arch_ctx_sw n s1).mutexes mu))
    (hret : (os_mutex_release env s (some mu)).1 ≠ .abort) :
    os_mutex_level_owner ((os_mutex_release env s (some mu)).2.mutexes mu) := by
  revert hret
  unfold os_mutex_release
  by_cases hs : s.g_os_started = 0
  · simp only [hs, if_true]; exact fun _ => hinv
  simp only [hs, if_false]
  by_cases hbad : (s.mutexes mu).mu_level = 0 ∨
      (s.mutexes mu).mu_owner ≠ os_sched_get_current_task s
  · rw [if_pos hbad]; exact fun _ => hinv
  rw [if_neg hbad]
  push_neg at hbad
  obtain ⟨h0, ho⟩ := hbad
  have hown : (s.mutexes mu).mu_owner ≠ none := fun h => h0 (hinv.mpr h)
  have hmod : ((s.mutexes mu).mu_level + 2 ^ env.mu_level_bits - 1) % 2 ^ env.mu_level_bits
      = (s.mutexes mu).mu_level - 1 := by
    have : (s.mutexes mu).mu_level + 2 ^ env.mu_level_bits - 1
        = ((s.mutexes mu).mu_level - 1) + 2 ^ env.mu_level_bits := by omega
    rw [this, Nat.add_mod_right]
    exact Nat.mod_eq_of_lt (by omega)
  simp only [Function.update_same, hmod]
  by_cases h1 : (s.mutexes mu).mu_level - 1 = 0
  · simp only [h1, ne_eq, not_true_eq_false, if_false]
    split
    · intro h; exact absurd rfl h
    · rename_i cur _
      split
      · intro h; exact absurd rfl h
      · rename_i s2 hr
        have hl2 : (s2.mutexes mu).mu_level = 0 := by
          split at hr
          · rw [os_sched_resort_mutexes _ _ _ hr]
            simp
          · simp only [Option.some.injEq] at hr
            subst hr
            simp
        split
        · intro h; exact absurd rfl h
        · rename_i s5 hwk
          have hlev : (s5.mutexes mu).mu_level = 0 ↔ (s2.mutexes mu).mu_head.head? = none := by
            split at hwk
            · rename_i hnone
              simp only [Option.some.injEq] at hwk
              subst hwk
              simp [hl2, hnone]
            · rename_i r hsome
              split at hwk
              · cases hwk
              · split at hwk
                · cases hwk
                · simp only [Option.some.injEq] at hwk
                  subst hwk
                  simp [hsome]
          intro _
          have hinv6 : os_mutex_level_owner
              ((Function.update s5.mutexes mu
                { s5.mutexes mu with mu_owner := (s2.mutexes mu).mu_head.head? }) mu) := by
            rw [Function.update_same]
            exact hlev
          split
          · exact os_sched_level_owner env _ _ mu henv hinv6
          · exact hinv6
  · simp only [h1, ne_eq, not_false_eq_true, if_true]
    intro _
    simp [os_mutex_level_owner, h1, hown]

/-- The owner of a mutex that no task waits for releases it as often as it holds it:
every call returns 0, and the state after the last is that of the last release. -/
theorem os_mutex_release_times_all (env : os_env) (s : os_state) (mu T : Nat)
    (hstart : s.g_os_started ≠ 0) (hcur : s.g_current_task = some T) (k : Nat) (hk1 : 1 ≤ k)
    (hk : k < 2 ^ env.mu_level_bits) :
    os_mutex_release_times env mu k (os_mutex_held s mu T k)
      = (List.replicate k (.ok ()),
          if s.g_os_run_list.head? ≠ some T then
            os_sched env (os_mutex_freed s mu T) s.g_os_run_list.head? 0
          else os_mutex_freed s mu T) := by
  obtain ⟨n, rfl⟩ : ∃ n, k = n + 1 := ⟨k - 1, by omega⟩
  rw [os_mutex_release_times_succ,
    os_mutex_release_times_held env s mu T hstart hcur n (n + 1) (by omega) hk]
  simp only [Nat.add_sub_cancel_left,
    os_mutex_release_last env s mu T hstart hcur (by omega)]
  rw [List.replicate_succ']

/-- A task takes a mutex that was just initialised `k` times, with `k` in the width of
the nesting level: every call returns 0 and the level is `k`. -/
theorem os_mutex_pend_times_init (env : os_env) (s0 : os_state) (mu T timeout : Nat)
    (hstart : s0.g_os_started ≠ 0) (hcur : s0.g_current_task = some T) (k : Nat)
    (hk1 : 1 ≤ k) (hk : k < 2 ^ env.mu_level_bits) :
    os_mutex_pend_times env mu timeout k (os_mutex_init s0 (some mu)).2
      = (List.replicate k (.ok ()), os_mutex_held (os_mutex_init s0 (some mu)).2 mu T k) := by
  obtain ⟨n, rfl⟩ : ∃ n, k = n + 1 := ⟨k - 1, by omega⟩
  rw [os_mutex_pend_times]
  simp only [os_mutex_pend_init env s0 mu T timeout hstart hcur]
  rw [os_mutex_pend_times_held env (os_mutex_init s0 (some mu)).2 mu T timeout hstart hcur n 1
    (by omega) (by omega)]
  rw [List.replicate_succ, Nat.add_comm 1 n]
/-! ## Claim C30: nested use of a mutex -/

/-- C30, amended: with the kernel started and the task `T` running, for a mutex that was
just initialised and every `k` from 1 up to the largest value of the member `mu_level`:
`k` calls of `os_mutex_pend` one after the other all return 0 and leave the mutex owned
by `T` with the level `k`; of the `k` calls of `os_mutex_release` that follow, all return
0, after `j < k` of them the mutex is owned by `T` with the level `k - j`, and after the
`k`-th the mutex is free (level 0, no owner) when `T` is the first task of the run list
or the context switch leaves the mutex alone.  `os_mutex_init` establishes that the
level is 0 exactly when there is no owner; `os_mutex_pend` keeps this as long as the
level stays below the largest value of the member, and `os_mutex_release` keeps it when
it returns, given that the context switches keep it.  `os_mutex_release` for a mutex
with the level 0 or by a task that is not the owner returns `OS_BAD_MUTEX` and changes
nothing. -/
theorem os_mutex_nesting (env : os_env) (s0 : os_state) (mu T k timeout : Nat)
    (hstart : s0.g_os_started ≠ 0) (hcur : s0.g_current_task = some T)
    (hk1 : 1 ≤ k) (hk : k < 2 ^ env.mu_level_bits) :
    (os_mutex_init s0 (some mu)).1 = .ok () ∧
    os_mutex_pend_times env mu timeout k (os_mutex_init s0 (some mu)).2
      = (List.replicate k (.ok ()), os_mutex_held (os_mutex_init s0 (some mu)).2 mu T k) ∧
    (∀ j, j < k →
      os_mutex_release_times env mu j (os_mutex_held (os_mutex_init s0 (some mu)).2 mu T k)
        = (List.replicate j (.ok ()),
            os_mutex_held (os_mutex_init s0 (some mu)).2 mu T (k - j))) ∧
    (os_mutex_release_times env mu k
      (os_mutex_held (os_mutex_init s0 (some mu)).2 mu T k)).1 = List.replicate k (.ok ()) ∧
    (s0.g_os_run_list.head? = some T →
      (os_mutex_release_times env mu k
        (os_mutex_held (os_mutex_init s0 (some mu)).2 mu T k)).2
        = os_mutex_freed (os_mutex_init s0 (some mu)).2 mu T) ∧
    ((∀ n s1, (env.os_arch_ctx_sw n s1).mutexes mu = s1.mutexes mu) →
      (((os_mutex_release_times env mu k
        (os_mutex_held (os_mutex_init s0 (some mu)).2 mu T k)).2.mutexes mu).mu_level = 0 ∧
      ((os_mutex_release_times env mu k
        (os_mutex_held (os_mutex_init s0 (some mu)).2 mu T k)).2.mutexes mu).mu_owner
          = none)) ∧
    (∀ s : os_state, os_mutex_level_owner ((os_mutex_init s (some mu)).2.mutexes mu)) ∧
    (∀ s : os_state, os_mutex_level_owner (s.mutexes mu) →
      (s.mutexes mu).mu_level + 1 < 2 ^ env.mu_level_bits →
      (∀ n s1, os_mutex_level_owner (s1.mutexes mu) →
        os_mutex_level_owner ((env.os_arch_ctx_sw n s1).mutexes mu)) →
      os_mutex_level_owner ((os_mutex_pend env s (some mu) timeout).2.mutexes mu)) ∧
    (∀ s : os_state, os_mutex_level_owner (s.mutexes mu) →
      (s.mutexes mu).mu_level < 2 ^ env.mu_level_bits →
      (∀ n s1, os_mutex_level_owner (s1.mutexes mu) →
        os_mutex_level_owner ((env.os_arch_ctx_sw n s1).mutexes mu)) →
      (os_mutex_release env s (some mu)).1 ≠ .abort →
      os_mutex_level_owner ((os_mutex_release env s (some mu)).2.mutexes mu)) ∧
    (∀ s : os_state, s.g_os_started ≠ 0 →
      (s.mutexes mu).mu_level = 0 ∨ (s.mutexes mu).mu_owner ≠ s.g_current_task →
      os_mutex_release env s (some mu) = (.err OS_BAD_MUTEX, s)) := by
  have hall := os_mutex_release_times_all env (os_mutex_init s0 (some mu)).2 mu T hstart hcur
    k hk1 hk
  refine ⟨rfl, os_mutex_pend_times_init env s0 mu T timeout hstart hcur k hk1 hk, ?_, ?_, ?_,
    ?_, ?_, ?_, ?_, ?_⟩
  · intro j hj
    exact os_mutex_release_times_held env (os_mutex_init s0 (some mu)).2 mu T hstart hcur j k
      hj hk
  · rw [hall]
  · intro hhead
    rw [hall]
    have : (os_mutex_init s0 (some mu)).2.g_os_run_list.head? = some T := hhead
    rw [if_neg (not_not.mpr this)]
  · intro hsw
    rw [hall]
    have hfree : ((os_mutex_freed (os_mutex_init s0 (some mu)).2 mu T).mutexes mu).mu_level = 0
        ∧ ((os_mutex_freed (os_mutex_init s0 (some mu)).2 mu T).mutexes mu).mu_owner
          = none := by
      simp [os_mutex_freed]
    split
    · rcases os_sched_cases env (os_mutex_freed (os_mutex_init s0 (some mu)).2 mu T)
        (os_mutex_init s0 (some mu)).2.g_os_run_list.head? with h | ⟨n, h⟩
      · rw [h]; exact hfree
      · rw [h, hsw]; exact hfree
    · exact hfree
  · intro s
    simp [os_mutex_init, os_mutex_level_owner]
  · intro s hinv hlt henv
    exact os_mutex_pend_level_owner env s mu timeout hinv hlt henv
  · intro s hinv hlt henv hret
    exact os_mutex_release_level_owner env s mu hinv hlt henv hret
  · intro s hs hbad
    simp only [os_mutex_release, hs, if_false, os_sched_get_current_task, hbad, if_true]

/-- Witness of C30: in the example kernel the task 1 takes the mutex 4 three times and
releases it three times. -/
theorem os_mutex_nesting_witness :
    ex_os_state.g_os_started ≠ 0 ∧ ex_os_state.g_current_task = some 1 ∧
    3 < 2 ^ ex_os_env.mu_level_bits ∧
    os_mutex_pend_times ex_os_env 4 0 3 (os_mutex_init ex_os_state (some 4)).2
      = (List.replicate 3 (.ok ()),
          os_mutex_held (os_mutex_init ex_os_state (some 4)).2 4 1 3) ∧
    (os_mutex_release_times ex_os_env 4 3
      (os_mutex_held (os_mutex_init ex_os_state (some 4)).2 4 1 3)).2
      = os_mutex_freed (os_mutex_init ex_os_state (some 4)).2 4 1 :=
  ⟨by decide, by decide, by decide,
    (os_mutex_nesting ex_os_env ex_os_state 4 1 3 0 (by decide) (by decide) (by decide)
      (by decide)).2.1,
    (os_mutex_nesting ex_os_env ex_os_state 4 1 3 0 (by decide) (by decide) (by decide)
      (by decide)).2.2.2.2.1 (by decide)⟩

/-- Counterexample to C30 as stated: in the example kernel, whose nesting level has 16
bits, 2^16 calls of `os_mutex_pend` by the task 1 for a mutex that was just initialised
all return 0 and leave the mutex owned by the task 1 with the level 0, not 2^16; owner
and level then contradict each other, and the one call of `os_mutex_release` that
follows returns `OS_BAD_MUTEX`. -/
theorem os_mutex_nesting_wraps :
    (os_mutex_pend_times ex_os_env 4 0 (2 ^ 16) (os_mutex_init ex_os_state (some 4)).2).1
      = List.replicate (2 ^ 16) (.ok ()) ∧
    (((os_mutex_pend_times ex_os_env 4 0 (2 ^ 16)
      (os_mutex_init ex_os_state (some 4)).2).2.mutexes 4).mu_level = 0) ∧
    (((os_mutex_pend_times ex_os_env 4 0 (2 ^ 16)
      (os_mutex_init ex_os_state (some 4)).2).2.mutexes 4).mu_owner = some 1) ∧
    ¬ os_mutex_level_owner ((os_mutex_pend_times ex_os_env 4 0 (2 ^ 16)
      (os_mutex_init ex_os_state (some 4)).2).2.mutexes 4) ∧
    (os_mutex_release ex_os_env (os_mutex_pend_times ex_os_env 4 0 (2 ^ 16)
      (os_mutex_init ex_os_state (some 4)).2).2 (some 4)).1 = .err OS_BAD_MUTEX := by
  have hstart : ex_os_state.g_os_started ≠ 0 := by decide
  have hcur : ex_os_state.g_current_task = some 1 := rfl
  have h1 := os_mutex_pend_times_init ex_os_env ex_os_state 4 1 0 hstart hcur (2 ^ 16 - 1)
    (by decide) (by decide)
  have h2 := os_mutex_pend_held ex_os_env (os_mutex_init ex_os_state (some 4)).2 4 1
    (2 ^ 16 - 1) 0 hstart hcur (by decide)
  have hmod : (2 ^ 16 - 1 + 1) % 2 ^ ex_os_env.mu_level_bits = 0 := by decide
  rw [hmod] at h2
  have hall : os_mutex_pend_times ex_os_env 4 0 (2 ^ 16) (os_mutex_init ex_os_state (some 4)).2
      = (List.replicate (2 ^ 16) (.ok ()),
          os_mutex_held (os_mutex_init ex_os_state (some 4)).2 4 1 0) := by
    have hsplit : (2 : Nat) ^ 16 = (2 ^ 16 - 1) + 1 := by norm_num
    rw [hsplit, os_mutex_pend_times_add, h1]
    simp only [os_mutex_pend_times, h2]
    rw [← List.replicate_succ']
  rw [hall]
  refine ⟨rfl, ?_, ?_, ?_, ?_⟩
  · simp [os_mutex_held]
  · simp [os_mutex_held]
  · simp [os_mutex_held, os_mutex_level_owner]
  · simp [os_mutex_release, os_mutex_held, os_sched_get_current_task, os_mutex_init,
      ex_os_state]
/-! ## The run list: lemmas -/

/-- The loop of `os_sched_insert` puts the task behind the entries it passes, whose
priority values are not above its own, and before the first entry with a greater
priority value. -/
theorem os_sched_insert_loop_spec (tasks : Nat → os_task) (t : Nat) :
    ∀ l : List Nat, ∃ pre post, l = pre ++ post ∧
      os_sched_insert_loop tasks t l = pre ++ t :: post ∧
      (∀ x ∈ pre, (tasks x).t_prio ≤ (tasks t).t_prio) ∧
      (∀ y, post.head? = some y → (tasks t).t_prio < (tasks y).t_prio) := by
  intro l
  induction l with
  | nil => exact ⟨[], [], rfl, rfl, fun _ h => (by cases h), fun _ h => (by cases h)⟩
  | cons entry rest ih =>
    by_cases hlt : (tasks t).t_prio < (tasks entry).t_prio
    · refine ⟨[], entry :: rest, rfl, ?_, fun _ h => (by cases h), ?_⟩
      · simp only [os_sched_insert_loop, if_pos hlt, List.nil_append]
      · intro y hy
        simp only [List.head?_cons, Option.some.injEq] at hy
        subst hy
        exact hlt
    · obtain ⟨pre, post, h1, h2, h3, h4⟩ := ih
      refine ⟨entry :: pre, post, by rw [h1]; rfl, ?_, ?_, h4⟩
      · simp only [os_sched_insert_loop, if_neg hlt, h2, List.cons_append]
      · intro x hx
        rcases List.mem_cons.mp hx with h | h
        · subst h; omega
        · exact h3 x h

/-! ## The loop of `nffs_inode_seek`: lemmas -/

/-- A result of the loop of `nffs_inode_seek` that is not an abort is also the result
when more iterations are allowed. -/
theorem nffs_inode_seek_loop_more (seek_end file_size : Nat) :
    ∀ (fuel k : Nat) (cur : Option Nat) (cur_offset : Nat) (s : nffs_state),
      (nffs_inode_seek_loop seek_end file_size fuel cur cur_offset s).1 ≠ .abort →
      nffs_inode_seek_loop seek_end file_size (fuel + k) cur cur_offset s
        = nffs_inode_seek_loop seek_end file_size fuel cur cur_offset s := by
  intro fuel
  induction fuel with
  | zero =>
    intro k cur cur_offset s h
    exact absurd rfl h
  | succ fuel ih =>
    intro k cur cur_offset s h
    rw [Nat.add_right_comm]
    cases cur with
    | none => exact absurd rfl h
    | some c =>
      simp only [nffs_inode_seek_loop] at h ⊢
      cases hd : nffs_block_from_hash_entry s c with
      | mk r s1 =>
        rw [hd] at h
        cases r with
        | abort => rfl
        | err rc => rfl
        | ok block =>
          simp only [] at h ⊢
          split
          · rfl
          · rename_i hgt
            rw [if_neg hgt] at h
            exact ih k _ _ _ h

/-! ## Comparing with a name in RAM: lemmas -/

/-- The function `strncmp` looks at the first `n` bytes of its second argument only. -/
theorem strncmp_take_right (n m : Nat) (a b : List Nat) (h : n ≤ m) :
    strncmp a (b.take m) n = strncmp a b n := by
  rw [← strncmp_take_eq n m a (b.take m) h, List.take_take, Nat.min_self,
    strncmp_take_eq n m a b h]

/-- The function `strncmp` on two buffers of at least `n` bytes, the second without NUL:
either the first `n` bytes are the same, or the sign of the result is the order of the
buffers. -/
theorem strncmp_spec_right : ∀ (n : Nat) (a b : List Nat), n ≤ a.length → n ≤ b.length →
    0 ∉ b →
    (strncmp a b n = 0 ∧ a.take n = b.take n) ∨
    (strncmp a b n ≠ 0 ∧ int_sign (strncmp a b n) = filename_lex a b) := by
  intro n
  induction n with
  | zero => intro a b _ _ _; left; simp [strncmp]
  | succ n ih =>
    intro a b ha hb hz
    cases a with
    | nil => simp at ha
    | cons x a =>
      cases b with
      | nil => simp at hb
      | cons y b =>
        have hy : y ≠ 0 := fun h => hz (h ▸ List.mem_cons_self y b)
        have hzb : 0 ∉ b := fun h => hz (List.mem_cons_of_mem y h)
        simp only [List.length_cons, Nat.add_le_add_iff_right] at ha hb
        simp only [strncmp, List.headD_cons, List.tail_cons, List.take_succ_cons]
        by_cases hxy : x = y
        · subst hxy
          simp only [ne_eq, not_true, if_false, hy, filename_lex, lt_irrefl]
          rcases ih a b ha hb hzb with ⟨h0, ht⟩ | ⟨h0, hs⟩
          · left; exact ⟨h0, by rw [ht]⟩
          · right; exact ⟨h0, hs⟩
        · right
          simp only [ne_eq, hxy, not_false_eq_true, if_true, filename_lex]
          constructor
          · omega
          · unfold int_sign
            rcases Nat.lt_or_gt_of_ne hxy with hlt | hgt
            · have : (x : Int) - (y : Int) < 0 := by omega
              simp [this, hlt]
            · have h1 : ¬ ((x : Int) - (y : Int) < 0) := by omega
              have h2 : ¬ ((x : Int) - (y : Int) = 0) := by omega
              have h3 : ¬ x < y := by omega
              simp [h1, h2, h3, hgt]

/-- The loop of `nffs_inode_filename_cmp_ram` for an inode whose filename `n1` can be
read and a name without NUL: it returns, and either the names agree up to `short_len`
or the sign of the result is their order. -/
theorem nffs_inode_filename_cmp_ram_loop_spec (s : nffs_state) (inode : nffs_inode)
    (n1 name : List Nat) (short_len : Nat)
    (hr1 : ∀ off len, off + len ≤ n1.length →
      nffs_inode_read_filename_chunk s inode off len = .ok ((n1.drop off).take len))
    (hz : 0 ∉ name) (hb1 : ∀ x ∈ n1, x < 256)
    (hs1 : short_len ≤ n1.length) (hs2 : short_len ≤ name.length) :
    ∀ (fuel off : Nat) (result : Int) (st : nffs_state),
      short_len ≤ off + fuel → off ≤ short_len → same_flash s st →
      ((result = 0 ∧ n1.take off = name.take off) ∨
        (result ≠ 0 ∧ int_sign result = filename_lex n1 name)) →
      ∃ r st', nffs_inode_filename_cmp_ram_loop inode name short_len fuel off result st
          = (.ok r, st') ∧ same_flash s st' ∧
        ((r = 0 ∧ n1.take short_len = name.take short_len) ∨
          (r ≠ 0 ∧ int_sign r = filename_lex n1 name)) := by
  intro fuel
  induction fuel with
  | zero =>
    intro off result st hfuel hoff hst hinv
    have : off = short_len := by omega
    subst this
    refine ⟨result, st, ?_, hst, hinv⟩
    simp [nffs_inode_filename_cmp_ram_loop]
  | succ fuel ih =>
    intro off result st hfuel hoff hst hinv
    by_cases hcond : result = 0 ∧ off < short_len
    · obtain ⟨hres, hlt⟩ := hcond
      have hpre : n1.take off = name.take off := by
        rcases hinv with ⟨_, h⟩ | ⟨h, _⟩
        · exact h
        · exact absurd hres h
      obtain ⟨chunk_len, hchunk, hcpos, hcle, hc128⟩ :
          ∃ c, (if short_len - off > NFFS_INODE_FILENAME_BUF_SZ
              then NFFS_INODE_FILENAME_BUF_SZ else short_len - off) = c ∧
            0 < c ∧ off + c ≤ short_len ∧ c ≤ 128 := by
        refine ⟨_, rfl, ?_, ?_, ?_⟩ <;>
          (simp only [NFFS_INODE_FILENAME_BUF_SZ, NFFS_FLASH_BUF_SZ]; split <;> omega)
      obtain ⟨b0, hb0⟩ : ∃ b0, b0 = (n1.drop off).take chunk_len := ⟨_, rfl⟩
      have hlen0 : b0.length = chunk_len := by
        rw [hb0]; simp only [List.length_take, List.length_drop]; omega
      have hbb0 : ∀ x ∈ b0, x < 256 :=
        fun x hx => hb1 x (List.mem_of_mem_drop (List.mem_of_mem_take (hb0 ▸ hx)))
      have hrd0 : mem_read (mem_write st.nffs_flash_buf 0 b0) 0 chunk_len = b0 := by
        have := mem_read_write_same st.nffs_flash_buf 0 b0
        rw [hlen0] at this
        rw [this, map_mod_of_lt _ hbb0]
      have hst1 : same_flash s { st with nffs_flash_buf := mem_write st.nffs_flash_buf 0 b0 } :=
        same_flash_trans hst (same_flash_buf _ _)
      have hstep : nffs_inode_filename_cmp_ram_loop inode name short_len (fuel + 1) off
            result st
          = nffs_inode_filename_cmp_ram_loop inode name short_len fuel (off + chunk_len)
              (strncmp (n1.drop off) (name.drop off) chunk_len)
              { st with nffs_flash_buf := mem_write st.nffs_flash_buf 0 b0 } := by
        rw [nffs_inode_filename_cmp_ram_loop]
        simp only [hres, hlt, and_self, if_true, hchunk]
        rw [nffs_inode_read_filename_chunk_congr hst, hr1 off chunk_len (by omega), ← hb0]
        simp only [hrd0]
        rw [hb0, ← strncmp_take_eq chunk_len chunk_len _ (name.drop off) (Nat.le_refl _),
          List.take_take, Nat.min_self,
          strncmp_take_eq chunk_len chunk_len _ (name.drop off) (Nat.le_refl _)]
      rw [hstep]
      apply ih (off + chunk_len) _ _ (by omega) hcle hst1
      rcases strncmp_spec_right chunk_len (n1.drop off) (name.drop off)
          (by simp only [List.length_drop]; omega) (by simp only [List.length_drop]; omega)
          (not_mem_drop_of_not_mem _ _ hz) with ⟨h0, heq⟩ | ⟨hne, hsign⟩
      · left
        exact ⟨h0, take_add_eq_of _ _ _ _ hpre heq⟩
      · right
        refine ⟨hne, ?_⟩
        rw [hsign, ← filename_lex_drop off n1 name hpre (by omega) (by omega)]
    · refine ⟨result, st, ?_, hst, ?_⟩
      · rw [nffs_inode_filename_cmp_ram_loop, if_neg hcond]
      · rcases hinv with ⟨h0, hpre⟩ | h
        · left
          have : off = short_len := by
            by_contra hne
            exact hcond ⟨h0, by omega⟩
          subst this
          exact ⟨h0, hpre⟩
        · exact Or.inr h

/-- The loop of `nffs_inode_filename_cmp_flash` when the second filename has no NUL:
as `nffs_inode_filename_cmp_flash_loop_spec`. -/
theorem nffs_inode_filename_cmp_flash_loop_spec_right (s : nffs_state) (inode1 inode2 : nffs_inode)
    (n1 n2 : List Nat) (short_len : Nat)
    (hr1 : ∀ off len, off + len ≤ n1.length →
      nffs_inode_read_filename_chunk s inode1 off len = .ok ((n1.drop off).take len))
    (hr2 : ∀ off len, off + len ≤ n2.length →
      nffs_inode_read_filename_chunk s inode2 off len = .ok ((n2.drop off).take len))
    (hz2 : 0 ∉ n2) (hb1 : ∀ x ∈ n1, x < 256) (hb2 : ∀ x ∈ n2, x < 256)
    (hs1 : short_len ≤ n1.length) (hs2 : short_len ≤ n2.length) :
    ∀ (fuel off : Nat) (result : Int) (st : nffs_state),
      short_len ≤ off + fuel → off ≤ short_len → same_flash s st →
      ((result = 0 ∧ n1.take off = n2.take off) ∨
        (result ≠ 0 ∧ int_sign result = filename_lex n1 n2)) →
      ∃ r st', nffs_inode_filename_cmp_flash_loop inode1 inode2 short_len fuel off result st
          = (.ok r, st') ∧ same_flash s st' ∧
        ((r = 0 ∧ n1.take short_len = n2.take short_len) ∨
          (r ≠ 0 ∧ int_sign r = filename_lex n1 n2)) := by
  intro fuel
  induction fuel with
  | zero =>
    intro off result st hfuel hoff hst hinv
    have : off = short_len := by omega
    subst this
    refine ⟨result, st, ?_, hst, hinv⟩
    simp [nffs_inode_filename_cmp_flash_loop]
  | succ fuel ih =>
    intro off result st hfuel hoff hst hinv
    by_cases hcond : result = 0 ∧ off < short_len
    · obtain ⟨hres, hlt⟩ := hcond
      have hpre : n1.take off = n2.take off := by
        rcases hinv with ⟨_, h⟩ | ⟨h, _⟩
        · exact h
        · exact absurd hres h
      -- the chunk of this iteration
      obtain ⟨chunk_len, hchunk, hcpos, hcle, hc128⟩ :
          ∃ c, (if short_len - off > NFFS_INODE_FILENAME_BUF_SZ
              then NFFS_INODE_FILENAME_BUF_SZ else short_len - off) = c ∧
            0 < c ∧ off + c ≤ short_len ∧ c ≤ 128 := by
        refine ⟨_, rfl, ?_, ?_, ?_⟩ <;>
          (simp only [NFFS_INODE_FILENAME_BUF_SZ, NFFS_FLASH_BUF_SZ]; split <;> omega)
      obtain ⟨b0, hb0⟩ : ∃ b0, b0 = (n1.drop off).take chunk_len := ⟨_, rfl⟩
      obtain ⟨b1, hb1'⟩ : ∃ b1, b1 = (n2.drop off).take chunk_len := ⟨_, rfl⟩
      have hlen0 : b0.length = chunk_len := by
        rw [hb0]; simp only [List.length_take, List.length_drop]; omega
      have hlen1 : b1.length = chunk_len := by
        rw [hb1']; simp only [List.length_take, List.length_drop]; omega
      have hbb0 : ∀ x ∈ b0, x < 256 :=
        fun x hx => hb1 x (List.mem_of_mem_drop (List.mem_of_mem_take (hb0 ▸ hx)))
      have hbb1 : ∀ x ∈ b1, x < 256 :=
        fun x hx => hb2 x (List.mem_of_mem_drop (List.mem_of_mem_take (hb1' ▸ hx)))
      obtain ⟨buf2, hbuf2⟩ : ∃ buf2, buf2
          = mem_write (mem_write st.nffs_flash_buf 0 b0) NFFS_INODE_FILENAME_BUF_SZ b1 :=
        ⟨_, rfl⟩
      have hrd0 : mem_read buf2 0 chunk_len = b0 := by
        rw [hbuf2, mem_read_write_disjoint _ _ _ _ _
          (Or.inl (by simp only [NFFS_INODE_FILENAME_BUF_SZ, NFFS_FLASH_BUF_SZ]; omega))]
        have := mem_read_write_same st.nffs_flash_buf 0 b0
        rw [hlen0] at this
        rw [this, map_mod_of_lt _ hbb0]
      have hrd1 : mem_read buf2 NFFS_INODE_FILENAME_BUF_SZ chunk_len = b1 := by
        have := mem_read_write_same (mem_write st.nffs_flash_buf 0 b0)
          NFFS_INODE_FILENAME_BUF_SZ b1
        rw [hlen1] at this
        rw [hbuf2, this, map_mod_of_lt _ hbb1]
      have hst1 : same_flash s { st with nffs_flash_buf := mem_write st.nffs_flash_buf 0 b0 } :=
        same_flash_trans hst (same_flash_buf _ _)
      have hst2 : same_flash s { st with nffs_flash_buf := buf2 } :=
        same_flash_trans hst (same_flash_buf _ _)
      have hstep : nffs_inode_filename_cmp_flash_loop inode1 inode2 short_len (fuel + 1) off
            result st
          = nffs_inode_filename_cmp_flash_loop inode1 inode2 short_len fuel (off + chunk_len)
              (strncmp (n1.drop off) (n2.drop off) chunk_len)
              { st with nffs_flash_buf := buf2 } := by
        rw [nffs_inode_filename_cmp_flash_loop]
        simp only [hres, hlt, and_self, if_true, hchunk]
        rw [nffs_inode_read_filename_chunk_congr hst, hr1 off chunk_len (by omega), ← hb0]
        simp only []
        rw [nffs_inode_read_filename_chunk_congr hst1, hr2 off chunk_len (by omega), ← hb1']
        simp only [← hbuf2, hrd0, hrd1]
        rw [hb0, hb1', strncmp_take_eq chunk_len chunk_len _ _ (Nat.le_refl _)]
      rw [hstep]
      apply ih (off + chunk_len) _ _ (by omega) hcle hst2
      rcases strncmp_spec_right chunk_len (n1.drop off) (n2.drop off)
          (by simp only [List.length_drop]; omega) (by simp only [List.length_drop]; omega)
          (not_mem_drop_of_not_mem _ _ hz2) with ⟨h0, heq⟩ | ⟨hne, hsign⟩
      · left
        exact ⟨h0, take_add_eq_of _ _ _ _ hpre heq⟩
      · right
        refine ⟨hne, ?_⟩
        rw [hsign, ← filename_lex_drop off n1 n2 hpre (by omega) (by omega)]
    · refine ⟨result, st, ?_, hst, ?_⟩
      · rw [nffs_inode_filename_cmp_flash_loop, if_neg hcond]
      · rcases hinv with ⟨h0, hpre⟩ | h
        · left
          have : off = short_len := by
            by_contra hne
            exact hcond ⟨h0, by omega⟩
          subst this
          exact ⟨h0, hpre⟩
        · right; exact h

/-- The comparison of two inodes whose whole filenames can be read, the second without
NUL: it returns 0, the sign of `*result` is the lexicographic order of the names, and only
the static buffer changes. -/
theorem nffs_inode_filename_cmp_flash_spec_right (s : nffs_state) (inode1 inode2 : nffs_inode)
    (n1 n2 : List Nat) (hio : ∀ a l, s.flash_read_fails a l = false)
    (hl1 : inode1.ni_filename_len ≤ 255) (hl2 : inode2.ni_filename_len ≤ 255)
    (h1 : nffs_inode_read_filename_chunk s inode1 0 inode1.ni_filename_len = .ok n1)
    (h2 : nffs_inode_read_filename_chunk s inode2 0 inode2.ni_filename_len = .ok n2)
    (hc1 : inode1.ni_filename = n1.take NFFS_SHORT_FILENAME_LEN)
    (hc2 : inode2.ni_filename = n2.take NFFS_SHORT_FILENAME_LEN)
    (hz2 : 0 ∉ n2) :
    ∃ r s', nffs_inode_filename_cmp_flash s inode1 inode2 = (.ok r, s') ∧
      same_flash s s' ∧ int_sign r = filename_lex n1 n2 := by
  obtain ⟨hlen1, hb1, hr1⟩ := nffs_inode_read_filename_chunk_of_name s inode1 n1 hio hl1 h1
  obtain ⟨hlen2, hb2, hr2⟩ := nffs_inode_read_filename_chunk_of_name s inode2 n2 hio hl2 h2
  obtain ⟨short_len, hshort, hsmin⟩ :
      ∃ k, (if inode1.ni_filename_len < inode2.ni_filename_len then inode1.ni_filename_len
        else inode2.ni_filename_len) = k ∧ k = min n1.length n2.length := by
    refine ⟨_, rfl, ?_⟩
    rw [hlen1, hlen2]
    split <;> omega
  obtain ⟨chunk_len, hchunk, hc3, hcs⟩ :
      ∃ c, (if short_len ≤ NFFS_SHORT_FILENAME_LEN then short_len
        else NFFS_SHORT_FILENAME_LEN) = c ∧ c ≤ NFFS_SHORT_FILENAME_LEN ∧ c ≤ short_len := by
    refine ⟨_, rfl, ?_, ?_⟩ <;> (simp only [NFFS_SHORT_FILENAME_LEN]; split <;> omega)
  have hs1 : short_len ≤ n1.length := by omega
  have hs2 : short_len ≤ n2.length := by omega
  have hinit : (strncmp inode1.ni_filename inode2.ni_filename chunk_len = 0 ∧
        n1.take chunk_len = n2.take chunk_len) ∨
      (strncmp inode1.ni_filename inode2.ni_filename chunk_len ≠ 0 ∧
        int_sign (strncmp inode1.ni_filename inode2.ni_filename chunk_len)
          = filename_lex n1 n2) := by
    rw [hc1, hc2, strncmp_take_eq chunk_len _ n1 n2 hc3]
    exact strncmp_spec_right chunk_len n1 n2 (by omega) (by omega) hz2
  obtain ⟨r, s', hloop, hsf, hfin⟩ :=
    nffs_inode_filename_cmp_flash_loop_spec_right s inode1 inode2 n1 n2 short_len
      (fun off len h => hr1 off len (by omega)) (fun off len h => hr2 off len (by omega))
      hz2 hb1 hb2 hs1 hs2 short_len chunk_len _ s (by omega) hcs (same_flash_refl s) hinit
  simp only [nffs_inode_filename_cmp_flash, hshort, hchunk, hloop]
  rcases hfin with ⟨h0, hpre⟩ | ⟨hne, hsign⟩
  · refine ⟨_, s', by rw [if_pos h0], hsf, ?_⟩
    rw [hsmin] at hpre
    rw [filename_lex_of_common_start n1 n2 hpre, hlen1, hlen2]
  · exact ⟨r, s', by rw [if_neg hne], hsf, hsign⟩

/-- The comparison of an inode whose whole filename `n1` can be read with a name without
NUL: it returns 0, the sign of `*result` is the lexicographic order of the two, and only
the static buffer changes. -/
theorem nffs_inode_filename_cmp_ram_spec (s : nffs_state) (inode : nffs_inode)
    (n1 name : List Nat) (hio : ∀ a l, s.flash_read_fails a l = false)
    (hl1 : inode.ni_filename_len ≤ 255)
    (h1 : nffs_inode_read_filename_chunk s inode 0 inode.ni_filename_len = .ok n1)
    (hc1 : inode.ni_filename = n1.take NFFS_SHORT_FILENAME_LEN)
    (hz : 0 ∉ name) :
    ∃ r s', nffs_inode_filename_cmp_ram s inode name name.length = (.ok r, s') ∧
      same_flash s s' ∧ int_sign r = filename_lex n1 name := by
  obtain ⟨hlen1, hb1, hr1⟩ := nffs_inode_read_filename_chunk_of_name s inode n1 hio hl1 h1
  obtain ⟨short_len, hshort, hsmin⟩ :
      ∃ k, (if name.length < inode.ni_filename_len then name.length
        else inode.ni_filename_len) = k ∧ k = min n1.length name.length := by
    refine ⟨_, rfl, ?_⟩
    rw [hlen1]
    split <;> omega
  obtain ⟨chunk_len, hchunk, hc3, hcs⟩ :
      ∃ c, (if short_len ≤ NFFS_SHORT_FILENAME_LEN then short_len
        else NFFS_SHORT_FILENAME_LEN) = c ∧ c ≤ NFFS_SHORT_FILENAME_LEN ∧ c ≤ short_len := by
    refine ⟨_, rfl, ?_, ?_⟩ <;> (simp only [NFFS_SHORT_FILENAME_LEN]; split <;> omega)
  have hs1 : short_len ≤ n1.length := by omega
  have hs2 : short_len ≤ name.length := by omega
  have hinit : (strncmp inode.ni_filename name chunk_len = 0 ∧
        n1.take chunk_len = name.take chunk_len) ∨
      (strncmp inode.ni_filename name chunk_len ≠ 0 ∧
        int_sign (strncmp inode.ni_filename name chunk_len) = filename_lex n1 name) := by
    rw [hc1, ← strncmp_take_right chunk_len NFFS_SHORT_FILENAME_LEN _ name hc3,
      strncmp_take_eq chunk_len _ n1 name hc3]
    exact strncmp_spec_right chunk_len n1 name (by omega) (by omega) hz
  obtain ⟨r, s', hloop, hsf, hfin⟩ :=
    nffs_inode_filename_cmp_ram_loop_spec s inode n1 name short_len
      (fun off len h => hr1 off len (by omega)) hz hb1 hs1 hs2 short_len chunk_len _ s
      (by omega) hcs (same_flash_refl s) hinit
  simp only [nffs_inode_filename_cmp_ram, hshort, hchunk, hloop]
  rcases hfin with ⟨h0, hpre⟩ | ⟨hne, hsign⟩
  · refine ⟨_, s', by rw [if_pos h0], hsf, ?_⟩
    rw [hsmin] at hpre
    rw [filename_lex_of_common_start n1 name hpre, hlen1]
  · exact ⟨r, s', by rw [if_neg hne], hsf, hsign⟩

/-! ## Lemmas on directory handles that are opened, read and closed -/

theorem nffs_dir_read_iter_add (dir : Nat) :
    ∀ (a b : Nat) (s : nffs_state),
      nffs_dir_read_iter dir (a + b) s = nffs_dir_read_iter dir b (nffs_dir_read_iter dir a s) := by
  intro a
  induction a with
  | zero => intro b s; rw [Nat.zero_add]; rfl
  | succ a ih =>
    intro b s
    rw [Nat.add_right_comm]
    exact ih b _

/-- The calls of `nffs_dir_read` go round the child list: after `k` calls a handle that
was fresh is at the position `k % (cs.length + 1)`. -/
theorem nffs_dir_read_iter_mod (s : nffs_state) (dir : Nat) (cs : List Nat)
    (hfresh : (s.dirs dir).nd_dirent.nde_inode_entry = none)
    (hcs : (s.inodes (s.dirs dir).nd_parent_inode_entry).nie_child_list = cs)
    (hnodup : cs.Nodup)
    (href : ∀ c ∈ cs, 1 ≤ (s.inodes c).nie_refcnt ∧ (s.inodes c).nie_refcnt ≤ 254) :
    ∀ k, nffs_dir_read_iter dir k s
      = nffs_dir_at s dir (nffs_dir_pos cs (k % (cs.length + 1))) := by
  obtain ⟨_, hiter⟩ := nffs_dir_read_iter_at s dir cs hcs hnodup href
  have hs0 : nffs_dir_at s dir (nffs_dir_pos cs 0) = s := nffs_dir_at_none s dir hfresh
  have hit : ∀ k, k ≤ cs.length + 1 →
      nffs_dir_read_iter dir k s = nffs_dir_at s dir (nffs_dir_pos cs k) := by
    intro k hk
    have := hiter k 0 (by omega)
    rw [hs0, Nat.zero_add] at this
    exact this
  have hround : nffs_dir_read_iter dir (cs.length + 1) s = s := by
    rw [hit _ (Nat.le_refl _)]
    have : nffs_dir_pos cs (cs.length + 1) = none := by
      show cs[cs.length]? = none
      exact List.getElem?_eq_none (Nat.le_refl _)
    rw [this]
    exact hs0
  intro k
  induction k using Nat.strong_induction_on with
  | _ k ih =>
    by_cases hk : k < cs.length + 1
    · rw [Nat.mod_eq_of_lt hk]
      exact hit k (by omega)
    · have hk2 : k = (cs.length + 1) + (k - (cs.length + 1)) := by omega
      have hm : k % (cs.length + 1) = (k - (cs.length + 1)) % (cs.length + 1) :=
        Nat.mod_eq_sub_mod (by omega)
      rw [hm, ← ih (k - (cs.length + 1)) (by omega)]
      conv_lhs => rw [hk2]
      rw [nffs_dir_read_iter_add, hround]

/-- Closing a handle that stands at the position `c` of a directory whose count includes
the reference of the handle gives back both references and the block of the handle. -/
theorem nffs_dir_close_at (s : nffs_state) (dir : Nat) (c : Option Nat)
    (hc : ∀ e, c = some e → e ≠ (s.dirs dir).nd_parent_inode_entry ∧
      1 ≤ (s.inodes e).nie_refcnt)
    (hD : 2 ≤ (s.inodes (s.dirs dir).nd_parent_inode_entry).nie_refcnt) :
    nffs_dir_close (nffs_dir_at s dir c) (some dir)
      = (.ok (),
          { nffs_dir_at s dir c with
            inodes := Function.update s.inodes (s.dirs dir).nd_parent_inode_entry
              { s.inodes (s.dirs dir).nd_parent_inode_entry with
                nie_refcnt := (s.inodes (s.dirs dir).nd_parent_inode_entry).nie_refcnt - 1 }
            nffs_dir_pool := dir :: s.nffs_dir_pool }) := by
  cases c with
  | none =>
    have hd := (nffs_dir_at_dirs s dir none).1
    have hp := (nffs_dir_at_dirs s dir none).2
    unfold nffs_dir_close
    simp only [hd]
    have hD2 : 2 ≤ ((nffs_dir_at s dir none).inodes
        ((nffs_dir_at s dir none).dirs dir).nd_parent_inode_entry).nie_refcnt := by
      rw [hp]; exact hD
    rw [nffs_inode_dec_refcnt_many _ _ hD2]
    simp only [nffs_dir_free, os_memblock_put, hp]
    rfl
  | some e =>
    obtain ⟨hne, he1⟩ := hc e rfl
    have hd := (nffs_dir_at_dirs s dir (some e)).1
    have hp := (nffs_dir_at_dirs s dir (some e)).2
    unfold nffs_dir_close
    simp only [hd]
    have he2 : 2 ≤ ((nffs_dir_at s dir (some e)).inodes e).nie_refcnt := by
      simp only [nffs_dir_at, Function.update_same]
      omega
    rw [nffs_inode_dec_refcnt_many _ _ he2]
    simp only []
    have hp2 : (Function.update s.dirs dir
        { s.dirs dir with nd_dirent := { nde_inode_entry := some e } } dir).nd_parent_inode_entry
        = (s.dirs dir).nd_parent_inode_entry := by
      rw [Function.update_same]
    have hback : Function.update (nffs_dir_at s dir (some e)).inodes e
        { (nffs_dir_at s dir (some e)).inodes e with
          nie_refcnt := ((nffs_dir_at s dir (some e)).inodes e).nie_refcnt - 1 } = s.inodes := by
      simp only [nffs_dir_at, Function.update_same, Function.update_idem]
      rw [Function.update_eq_self_iff]
      exact nffs_inode_entry_refcnt_eta _ _ (by simp)
    rw [hback]
    simp only [nffs_dir_at, hp2]
    have h2 := nffs_inode_dec_refcnt_many
      { s with
        dirs := Function.update s.dirs dir
          { s.dirs dir with nd_dirent := { nde_inode_entry := some e } } }
      (s.dirs dir).nd_parent_inode_entry hD
    simp only [] at h2
    simp only [h2, nffs_dir_free, os_memblock_put]

/-! ## Lemmas on `ffs_flash_copy` -/

/-- The loop of `ffs_flash_copy` for a driver that is a memory: `img` gives the cells
after the calls made so far, reads succeed and return the cells, writes succeed and store
their bytes in erased cells, and neither changes a cell outside the written span. -/
theorem ffs_flash_copy_loop_spec (env : ffs_env) (img : List flash_op → Nat → Nat)
    (sf st : Nat) (secf : ffs_sector_info)
    (hsf : sf < 2 ^ 16) (hst : st < 2 ^ 16) (hne : sf ≠ st)
    (hbyte : ∀ ops a, img ops a < 256)
    (hread : ∀ ops addr len, env.flash_read ops addr len = (0, mem_read (img ops) addr len))
    (hread_img : ∀ ops addr len, img (ops ++ [flash_op.flash_read addr len]) = img ops)
    (hwrite : ∀ ops data addr len, env.flash_write ops data addr len = 0)
    (hwrite_out : ∀ ops data addr len a, ¬ (addr ≤ a ∧ a < addr + len) →
      img (ops ++ [flash_op.flash_write data addr len]) a = img ops a)
    (hwrite_in : ∀ ops data addr len a, addr ≤ a → a < addr + len → img ops a = 0xff →
      img (ops ++ [flash_op.flash_write data addr len]) a = data.getD (a - addr) 0 % 256)
    (hf32 : secf.fsi_offset + secf.fsi_length ≤ 2 ^ 32) (hfl : secf.fsi_length < 2 ^ 32) :
    ∀ (fuel len offset_from offset_to : Nat) (buf : List Nat) (s : ffs_state)
      (sect : ffs_sector_info),
      s.ffs_sectors[sf]? = some secf → s.ffs_sectors[st]? = some sect →
      sect.fsi_offset + sect.fsi_length ≤ 2 ^ 32 → sect.fsi_length < 2 ^ 32 →
      (secf.fsi_offset + secf.fsi_length ≤ sect.fsi_offset ∨
        sect.fsi_offset + sect.fsi_length ≤ secf.fsi_offset) →
      offset_from + len ≤ secf.fsi_length → offset_to + len ≤ sect.fsi_length →
      sect.fsi_cur ≤ offset_to →
      (∀ a, sect.fsi_offset + offset_to ≤ a → a < sect.fsi_offset + offset_to + len →
        img s.flash_ops a = 0xff) →
      (len + 255) / 256 < fuel →
      ∃ s2, ffs_flash_copy_loop env sf st fuel buf offset_from offset_to len s = (.ok (), s2) ∧
        s2.flash_ops.length = s.flash_ops.length + 2 * ((len + 255) / 256) ∧
        (∀ i, i < len →
          img s2.flash_ops (sect.fsi_offset + offset_to + i)
            = img s.flash_ops (secf.fsi_offset + offset_from + i)) ∧
        (∀ a, ¬ (sect.fsi_offset + offset_to ≤ a ∧ a < sect.fsi_offset + offset_to + len) →
          img s2.flash_ops a = img s.flash_ops a) ∧
        s2.ffs_sectors
          = (if len = 0 then s.ffs_sectors
             else s.ffs_sectors.set st { sect with fsi_cur := offset_to + len }) ∧
        s2.ffs_scratch_sector_id = s.ffs_scratch_sector_id ∧
        s2.ffs_next_id = s.ffs_next_id ∧ s2.ffs_root_dir = s.ffs_root_dir := by
  intro fuel
  induction fuel with
  | zero => intro len _ _ _ _ _ _ _ _ _ _ _ _ _ _ h; omega
  | succ fuel ih =>
    intro len offset_from offset_to buf s sect hsecf hsect ht32 htl hdisj hfrom hto hcur
      herased hfuel
    by_cases hl : len = 0
    · subst hl
      refine ⟨s, ?_, ?_, ?_, ?_, ?_, rfl, rfl, rfl⟩
      · simp [ffs_flash_copy_loop]
      · simp
      · intro i hi; omega
      · intro a _; rfl
      · simp
    · generalize hchunk : (if len > 256 then 256 else len) = chunk
      have hc1 : 0 < chunk := by rw [← hchunk]; split <;> omega
      have hc2 : chunk ≤ len := by rw [← hchunk]; split <;> omega
      have hc3 : chunk ≤ 256 := by rw [← hchunk]; split <;> omega
      have hc4 : (len - chunk + 255) / 256 + 1 = (len + 255) / 256 := by
        rw [← hchunk]; split <;> omega
      have hm1 : sf % 2 ^ 16 = sf := Nat.mod_eq_of_lt hsf
      have hm2 : st % 2 ^ 16 = st := Nat.mod_eq_of_lt hst
      have hm3 : offset_from % 2 ^ 32 = offset_from := Nat.mod_eq_of_lt (by omega)
      have hm4 : offset_to % 2 ^ 32 = offset_to := Nat.mod_eq_of_lt (by omega)
      have hm5 : chunk % 2 ^ 32 = chunk := Nat.mod_eq_of_lt (by omega)
      have hm6 : (offset_from + chunk) % 2 ^ 32 = offset_from + chunk :=
        Nat.mod_eq_of_lt (by omega)
      have hm7 : (offset_to + chunk) % 2 ^ 32 = offset_to + chunk :=
        Nat.mod_eq_of_lt (by omega)
      have hm8 : (secf.fsi_offset + offset_from) % 2 ^ 32 = secf.fsi_offset + offset_from :=
        Nat.mod_eq_of_lt (by omega)
      have hm9 : (sect.fsi_offset + offset_to) % 2 ^ 32 = sect.fsi_offset + offset_to :=
        Nat.mod_eq_of_lt (by omega)
      generalize hdata : mem_read (img s.flash_ops) (secf.fsi_offset + offset_from) chunk = data
      have hdl : data.length = chunk := by rw [← hdata]; simp [mem_read]
      have hdget : ∀ i, i < chunk →
          data.getD i 0 % 256 = img s.flash_ops (secf.fsi_offset + offset_from + i) := by
        intro i hi
        rw [← hdata]
        simp only [mem_read, List.getD_eq_getElem?_getD, List.getElem?_map,
          List.getElem?_range hi, Option.map_some', Option.getD_some, Nat.mod_mod]
        exact Nat.mod_eq_of_lt (hbyte _ _)
      have htake : (data ++ List.drop data.length buf).take chunk = data := by
        rw [← hdl, List.take_left]
      have hrd : ffs_flash_read env s sf offset_from chunk
          = (.ok data,
              { s with
                flash_ops := s.flash_ops
                  ++ [flash_op.flash_read (secf.fsi_offset + offset_from) chunk] }) := by
        have hnot : ¬ (offset_from + chunk) > secf.fsi_length := by omega
        simp only [ffs_flash_read, hm1, hm3, hm5, hm6, hm8, hsecf, if_neg hnot, hread, hdata,
          ne_eq, not_true_eq_false, if_false]
      generalize hs1 : ({ s with
        flash_ops := s.flash_ops
          ++ [flash_op.flash_read (secf.fsi_offset + offset_from) chunk] } : ffs_state) = s1
        at hrd
      have hs1s : s1.ffs_sectors = s.ffs_sectors := by rw [← hs1]
      have hs1o : s1.flash_ops = s.flash_ops
          ++ [flash_op.flash_read (secf.fsi_offset + offset_from) chunk] := by rw [← hs1]
      have hwr : ffs_flash_write env s1 st offset_to (data ++ List.drop data.length buf) chunk
          = (.ok (),
              { s1 with
                flash_ops := s1.flash_ops
                  ++ [flash_op.flash_write data (sect.fsi_offset + offset_to) chunk]
                ffs_sectors := s1.ffs_sectors.set st
                  { sect with fsi_cur := offset_to + chunk } }) := by
        have hnot : ¬ (offset_to + chunk) > sect.fsi_length := by omega
        have hnc : ¬ offset_to < sect.fsi_cur := by omega
        simp only [ffs_flash_write, hm2, hm4, hm5, hm7, hm9, hs1s, hsect, if_neg hnot,
          if_neg hnc, hwrite, htake, ne_eq, not_true_eq_false, if_false]
      generalize hs2 : ({ s1 with
        flash_ops := s1.flash_ops
          ++ [flash_op.flash_write data (sect.fsi_offset + offset_to) chunk]
        ffs_sectors := s1.ffs_sectors.set st
          { sect with fsi_cur := offset_to + chunk } } : ffs_state) = s2 at hwr
      have hs2s : s2.ffs_sectors
          = s.ffs_sectors.set st { sect with fsi_cur := offset_to + chunk } := by
        rw [← hs2, hs1s]
      have hs2o : s2.flash_ops = s.flash_ops
          ++ [flash_op.flash_read (secf.fsi_offset + offset_from) chunk]
          ++ [flash_op.flash_write data (sect.fsi_offset + offset_to) chunk] := by
        rw [← hs2, hs1o]
      have hs2x : s2.ffs_scratch_sector_id = s.ffs_scratch_sector_id ∧
          s2.ffs_next_id = s.ffs_next_id ∧ s2.ffs_root_dir = s.ffs_root_dir := by
        rw [← hs2, ← hs1]
        exact ⟨rfl, rfl, rfl⟩
      have hstlt : st < s.ffs_sectors.length := by
        by_contra hn
        rw [List.getElem?_eq_none (by omega)] at hsect
        cases hsect
      have himg_out : ∀ a,
          ¬ (sect.fsi_offset + offset_to ≤ a ∧ a < sect.fsi_offset + offset_to + chunk) →
          img s2.flash_ops a = img s.flash_ops a := by
        intro a ha
        rw [hs2o, hwrite_out _ _ _ _ _ ha, hread_img]
      have himg_in : ∀ i, i < chunk →
          img s2.flash_ops (sect.fsi_offset + offset_to + i)
            = img s.flash_ops (secf.fsi_offset + offset_from + i) := by
        intro i hi
        rw [hs2o, hwrite_in _ _ _ _ _ (by omega) (by omega)
          (by rw [hread_img]; exact herased _ (by omega) (by omega))]
        rw [Nat.add_sub_cancel_left]
        exact hdget i hi
      obtain ⟨s3, hloop, hlen3, hin3, hout3, hsec3, hx3⟩ :=
        ih (len - chunk) (offset_from + chunk) (offset_to + chunk)
          (data ++ List.drop data.length buf) s2 { sect with fsi_cur := offset_to + chunk }
          (by rw [hs2s, List.getElem?_set_ne (Ne.symm hne)]; exact hsecf)
          (by rw [hs2s, List.getElem?_set_self hstlt])
          ht32 htl hdisj (by omega)
          (by show offset_to + chunk + (len - chunk) ≤ sect.fsi_length; omega) (Nat.le_refl _)
          (fun a h1 h2 => by
            have h3 : sect.fsi_offset + (offset_to + chunk) ≤ a := h1
            have h4 : a < sect.fsi_offset + (offset_to + chunk) + (len - chunk) := h2
            rw [himg_out a (by omega)]
            exact herased a (by omega) (by omega))
          (by omega)
      simp only [] at hlen3 hin3 hout3 hsec3
      refine ⟨s3, ?_, ?_, ?_, ?_, ?_, ?_⟩
      · rw [ffs_flash_copy_loop, if_pos (by omega), hchunk]
        simp only [hrd, hwr, hm6, hm7]
        exact hloop
      · rw [hlen3, hs2o]
        simp only [List.length_append, List.length_singleton]
        omega
      · intro i hi
        by_cases hic : i < chunk
        · rw [hout3 _ (by omega)]
          exact himg_in i hic
        · have := hin3 (i - chunk) (by omega)
          have e1 : sect.fsi_offset + (offset_to + chunk) + (i - chunk)
              = sect.fsi_offset + offset_to + i := by omega
          have e2 : secf.fsi_offset + (offset_from + chunk) + (i - chunk)
              = secf.fsi_offset + offset_from + i := by omega
          rw [e1, e2] at this
          rw [this]
          exact himg_out _ (by omega)
      · intro a ha
        rw [hout3 a (by omega)]
        exact himg_out a (by omega)
      · rw [hsec3, hs2s, if_neg hl]
        split
        · have : len = chunk := by omega
          rw [this]
        · rw [List.set_set]
          have : offset_to + chunk + (len - chunk) = offset_to + len := by omega
          rw [this]
      · exact ⟨hx3.1.trans hs2x.1, hx3.2.1.trans hs2x.2.1, hx3.2.2.trans hs2x.2.2⟩

/-- One round of the loop of `ffs_flash_copy` for any driver: a read or a write that
fails ends the loop with the error, and no further call is made. -/
theorem ffs_flash_copy_loop_error (env : ffs_env) (sf st fuel : Nat) (buf : List Nat)
    (offset_from offset_to len : Nat) (s : ffs_state) (hlen : 0 < len) :
    (∀ rc s1, ffs_flash_read env s sf offset_from (if len > 256 then 256 else len)
        = (.err rc, s1) →
      ffs_flash_copy_loop env sf st (fuel + 1) buf offset_from offset_to len s
        = (.err rc, s1)) ∧
    (∀ data s1 rc s2, ffs_flash_read env s sf offset_from (if len > 256 then 256 else len)
        = (.ok data, s1) →
      ffs_flash_write env s1 st offset_to (data ++ buf.drop data.length)
        (if len > 256 then 256 else len) = (.err rc, s2) →
      ffs_flash_copy_loop env sf st (fuel + 1) buf offset_from offset_to len s
        = (.err rc, s2)) := by
  constructor
  · intro rc s1 h
    rw [ffs_flash_copy_loop, if_pos hlen]
    simp only [h]
  · intro data s1 rc s2 h1 h2
    rw [ffs_flash_copy_loop, if_pos hlen]
    simp only [h1, h2]

theorem ex_flash_image_snoc (ops : List flash_op) (op : flash_op) :
    ex_flash_image (ops ++ [op])
      = (match op with
         | flash_op.flash_write data addr len =>
           fun a => if addr ≤ a ∧ a < addr + len then data.getD (a - addr) 0 % 256
             else ex_flash_image ops a
         | _ => ex_flash_image ops) := by
  unfold ex_flash_image
  rw [List.foldl_append]
  cases op <;> rfl

theorem ex_flash_image_byte : ∀ (ops : List flash_op) (a : Nat), ex_flash_image ops a < 256 := by
  intro ops
  induction ops using List.reverseRecOn with
  | nil =>
    intro a
    simp only [ex_flash_image, List.foldl_nil]
    split <;> omega
  | append_singleton ops op ih =>
    intro a
    rw [ex_flash_image_snoc]
    cases op with
    | flash_read addr len => exact ih a
    | flash_erase_sector addr => exact ih a
    | flash_write data addr len =>
      simp only []
      split
      · exact Nat.mod_lt _ (by decide)
      · exact ih a

/-! ## The index and the unlink worklist: what each function keeps -/

theorem nffs_unlink_quiet_refl (s : nffs_state) : nffs_unlink_quiet s s :=
  ⟨fun _ => rfl, fun _ _ h => h, fun _ h => h, fun _ h => h, rfl⟩

theorem nffs_unlink_quiet_trans {s s1 s2 : nffs_state} (h1 : nffs_unlink_quiet s s1)
    (h2 : nffs_unlink_quiet s1 s2) : nffs_unlink_quiet s s2 :=
  ⟨fun e => (h2.1 e).trans (h1.1 e),
    fun i e h => h1.2.1 i e (h2.2.1 i e h),
    fun i h => h2.2.2.1 i (h1.2.2.1 i h),
    fun x h => h2.2.2.2.1 x (h1.2.2.2.1 x h),
    h2.2.2.2.2.trans h1.2.2.2.2⟩

theorem nffs_unlink_step_refl (s : nffs_state) : nffs_unlink_step s s :=
  ⟨fun _ => rfl, fun _ _ h => h, fun _ h => h, fun _ h => h, fun h => h⟩

theorem nffs_unlink_step_trans {s s1 s2 : nffs_state} (h1 : nffs_unlink_step s s1)
    (h2 : nffs_unlink_step s1 s2) : nffs_unlink_step s s2 :=
  ⟨fun e => (h2.1 e).trans (h1.1 e),
    fun i e h => h1.2.1 i e (h2.2.1 i e h),
    fun i h => h2.2.2.1 i (h1.2.2.1 i h),
    fun x h => h2.2.2.2.1 x (h1.2.2.2.1 x h),
    fun h => h2.2.2.2.2 (h1.2.2.2.2 h)⟩

/-- Steps that link nothing in the index and put nothing on the worklist keep the
invariant. -/
theorem nffs_unlink_inv_of_shrink {s s2 : nffs_state}
    (hid : ∀ e, (s2.hash_mem e).nhe_id = (s.hash_mem e).nhe_id)
    (hmem : ∀ i, ∀ e ∈ s2.nffs_hash i, e ∈ s.nffs_hash i)
    (hnd : ∀ i, (s.nffs_hash i).Nodup → (s2.nffs_hash i).Nodup)
    (hlist : ∀ e ∈ s2.nffs_inode_unlink_list, e ∈ s.nffs_inode_unlink_list)
    (hinv : nffs_unlink_inv s) : nffs_unlink_inv s2 := by
  obtain ⟨⟨hb, hn⟩, hd⟩ := hinv
  refine ⟨⟨fun i e he => ?_, fun i => hnd i (hn i)⟩, fun e he i hi => ?_⟩
  · rw [hid e]
    exact hb i e (hmem i e he)
  · exact hd e (hlist e he) i (hmem i e hi)

theorem nffs_unlink_step_of_quiet {s s2 : nffs_state} (h : nffs_unlink_quiet s s2) :
    nffs_unlink_step s s2 :=
  ⟨h.1, h.2.1, h.2.2.1, h.2.2.2.1,
    nffs_unlink_inv_of_shrink h.1 h.2.1 h.2.2.1 (fun _ he => h.2.2.2.2 ▸ he)⟩

/-- A change of the state that keeps the hash entries, the index, the pool of inode
entries and the worklist. -/
theorem nffs_unlink_quiet_of_fields {s s2 : nffs_state} (h1 : s2.hash_mem = s.hash_mem)
    (h2 : s2.nffs_hash = s.nffs_hash)
    (h3 : ∀ x ∈ s.nffs_inode_entry_pool, x ∈ s2.nffs_inode_entry_pool)
    (h4 : s2.nffs_inode_unlink_list = s.nffs_inode_unlink_list) : nffs_unlink_quiet s s2 :=
  ⟨fun e => by rw [h1], fun i e h => h2 ▸ h, fun i h => by rw [h2]; exact h, h3, h4⟩

theorem hash_mem_update_keep (s : nffs_state) (ie : Nat) (x : nffs_inode_entry)
    (hx : x.nie_hash_entry = (s.inodes ie).nie_hash_entry) :
    ({ s with inodes := Function.update s.inodes ie x } : nffs_state).hash_mem
      = s.hash_mem := by
  funext a
  by_cases ha : a = ie
  · subst ha; simp [nffs_state.hash_mem, hx]
  · simp [nffs_state.hash_mem, Function.update_noteq ha]

theorem nffs_hash_find_quiet (s : nffs_state) (id : Nat) :
    nffs_unlink_quiet s
      { s with nffs_hash := (nffs_hash_find s.hash_mem s.nffs_hash id).2 } := by
  refine ⟨fun _ => rfl, fun i e h => ((nffs_hash_find_mem _ _ _).1 i e).mp h, ?_,
    fun _ h => h, rfl⟩
  intro i hn
  rcases nffs_hash_find_fst_snd s.hash_mem s.nffs_hash id with ⟨_, h⟩ | ⟨pre, e, post, hl, _, _, h⟩
  · simp only [h]
    exact hn
  · simp only [h]
    by_cases hi : i = nffs_hash_fn id
    · subst hi
      rw [Function.update_same]
      rw [hl] at hn
      exact (List.perm_middle.nodup_iff).mp hn
    · rw [Function.update_noteq hi]
      exact hn

theorem nffs_hash_find_inode_quiet (s : nffs_state) (id : Nat) :
    nffs_unlink_quiet s (nffs_hash_find_inode s id).2 := by
  unfold nffs_hash_find_inode
  split
  · exact nffs_unlink_quiet_refl s
  · exact nffs_hash_find_quiet s id

theorem nffs_hash_find_block_quiet (s : nffs_state) (id : Nat) :
    nffs_unlink_quiet s (nffs_hash_find_block s id).2 := by
  unfold nffs_hash_find_block
  split
  · exact nffs_unlink_quiet_refl s
  · exact nffs_hash_find_quiet s id

/-- A successful `nffs_hash_remove` links nothing, keeps the chains without repetition,
and in a well-formed index the entry is then in no chain. -/
theorem nffs_hash_remove_shrinks (mem : Nat → nffs_hash_entry) (tbl tbl2 : nffs_hash_table)
    (e : Nat) (h : nffs_hash_remove mem tbl e = some tbl2) :
    e ∈ tbl (nffs_hash_fn (mem e).nhe_id) ∧
    (∀ i, ∀ x ∈ tbl2 i, x ∈ tbl i) ∧
    (∀ i, (tbl i).Nodup → (tbl2 i).Nodup) ∧
    (nffs_hash_inv mem tbl → ∀ i, e ∉ tbl2 i) := by
  unfold nffs_hash_remove at h
  cases hr : SLIST_REMOVE (tbl (nffs_hash_fn (mem e).nhe_id)) e with
  | none => simp [hr] at h
  | some l =>
    simp only [hr, Option.some.injEq] at h
    subst h
    have hin := SLIST_REMOVE_some_mem _ _ _ hr
    have hl : l = (tbl (nffs_hash_fn (mem e).nhe_id)).erase e := by
      have := SLIST_REMOVE_eq_erase _ _ hin
      rw [hr] at this
      exact Option.some.inj this
    refine ⟨hin, fun i x hx => ?_, fun i hn => ?_, fun hinv i hi => ?_⟩
    · by_cases hi : i = nffs_hash_fn (mem e).nhe_id
      · subst hi
        rw [Function.update_same, hl] at hx
        exact List.mem_of_mem_erase hx
      · rw [Function.update_noteq hi] at hx
        exact hx
    · by_cases hi : i = nffs_hash_fn (mem e).nhe_id
      · subst hi
        rw [Function.update_same, hl]
        exact hn.erase e
      · rw [Function.update_noteq hi]
        exact hn
    · by_cases hi2 : i = nffs_hash_fn (mem e).nhe_id
      · subst hi2
        rw [Function.update_same, hl] at hi
        exact ((hinv.2 _).mem_erase_iff.mp hi).1 rfl
      · rw [Function.update_noteq hi2] at hi
        exact hi2 (hinv.1 i e hi).symm

theorem nffs_hash_remove_quiet (s : nffs_state) (e : Nat) (tbl : nffs_hash_table)
    (h : nffs_hash_remove s.hash_mem s.nffs_hash e = some tbl) :
    nffs_unlink_quiet s { s with nffs_hash := tbl } := by
  obtain ⟨_, h1, h2, _⟩ := nffs_hash_remove_shrinks _ _ _ _ h
  exact ⟨fun _ => rfl, h1, h2, fun _ hx => hx, rfl⟩

theorem nffs_block_from_hash_entry_quiet (s : nffs_state) (b : Nat) :
    nffs_unlink_quiet s (nffs_block_from_hash_entry s b).2 := by
  unfold nffs_block_from_hash_entry
  simp only []
  cases nffs_block_read_disk s
      (nffs_flash_loc_expand (s.inodes b).nie_hash_entry.nhe_flash_loc).1
      (nffs_flash_loc_expand (s.inodes b).nie_hash_entry.nhe_flash_loc).2 with
  | abort => exact nffs_unlink_quiet_refl s
  | err rc => exact nffs_unlink_quiet_refl s
  | ok d =>
    simp only []
    have h1 := nffs_hash_find_inode_quiet s d.ndb_inode_id
    cases hf : nffs_hash_find_inode s d.ndb_inode_id with
    | mk r s1 =>
      rw [hf] at h1
      simp only [] at h1
      cases r with
      | abort => exact h1
      | err rc => exact h1
      | ok o =>
        cases o with
        | none => exact h1
        | some ie =>
          simp only []
          split
          · have h2 := nffs_hash_find_block_quiet s1 d.ndb_prev_id
            cases hf2 : nffs_hash_find_block s1 d.ndb_prev_id with
            | mk r2 s2 =>
              rw [hf2] at h2
              simp only [] at h2
              have h3 := nffs_unlink_quiet_trans h1 h2
              cases r2 with
              | abort => exact h3
              | err rc => exact h3
              | ok o2 => cases o2 <;> exact h3
          · exact h1

theorem nffs_block_delete_from_ram_quiet (s : nffs_state) (b : Nat) :
    nffs_unlink_quiet s (nffs_block_delete_from_ram s b).2 := by
  unfold nffs_block_delete_from_ram
  have hc := nffs_block_from_hash_entry_quiet s b
  cases hf : nffs_block_from_hash_entry s b with
  | mk r sa =>
    rw [hf] at hc
    simp only [] at hc
    cases r with
    | abort => exact hc
    | err rc => exact hc
    | ok block =>
      simp only []
      cases ho : block.nb_inode_entry with
      | none => exact hc
      | some ie =>
        simp only []
        obtain ⟨s2, hs2⟩ : ∃ s2 : nffs_state, s2 =
            (if (sa.inodes ie).nie_last_block_entry = some b then
              { sa with
                inodes := Function.update sa.inodes ie
                  { sa.inodes ie with nie_last_block_entry := block.nb_prev } }
            else sa) := ⟨_, rfl⟩
        rw [← hs2]
        have h2 : nffs_unlink_quiet sa s2 := by
          rw [hs2]
          split
          · exact nffs_unlink_quiet_of_fields (hash_mem_update_keep sa ie _ rfl) rfl
              (fun _ h => h) rfl
          · exact nffs_unlink_quiet_refl sa
        have h3 := nffs_unlink_quiet_trans hc h2
        cases hrem : nffs_hash_remove s2.hash_mem s2.nffs_hash b with
        | none => exact h3
        | some tbl =>
          simp only []
          have h4 := nffs_unlink_quiet_trans h3 (nffs_hash_remove_quiet s2 b tbl hrem)
          unfold nffs_block_entry_free
          split
          · exact h4
          · exact nffs_unlink_quiet_trans h4
              (nffs_unlink_quiet_of_fields rfl rfl (fun _ h => h) rfl)

theorem nffs_inode_delete_blocks_from_ram_loop_quiet (inode_entry : Nat) :
    ∀ (fuel : Nat) (s : nffs_state),
      nffs_unlink_quiet s (nffs_inode_delete_blocks_from_ram_loop inode_entry fuel s).2 := by
  intro fuel
  induction fuel with
  | zero =>
    intro s
    unfold nffs_inode_delete_blocks_from_ram_loop
    split <;> exact nffs_unlink_quiet_refl s
  | succ fuel ih =>
    intro s
    unfold nffs_inode_delete_blocks_from_ram_loop
    split
    · exact nffs_unlink_quiet_refl s
    · rename_i b _
      have h1 := nffs_block_delete_from_ram_quiet s b
      cases hd : nffs_block_delete_from_ram s b with
      | mk r s1 =>
        rw [hd] at h1
        simp only [] at h1
        cases r with
        | abort => exact h1
        | err rc => exact h1
        | ok u => exact nffs_unlink_quiet_trans h1 (ih s1)

theorem nffs_inode_entry_free_quiet (s : nffs_state) (e : Option Nat) :
    nffs_unlink_quiet s (nffs_inode_entry_free s e).2 ∧
    ((nffs_inode_entry_free s e).1 = .ok () → ∀ x, e = some x →
      x ∈ (nffs_inode_entry_free s e).2.nffs_inode_entry_pool) := by
  unfold nffs_inode_entry_free
  cases e with
  | none => exact ⟨nffs_unlink_quiet_refl s, fun _ x hx => by cases hx⟩
  | some x =>
    simp only []
    split
    · exact ⟨nffs_unlink_quiet_refl s, fun h => by cases h⟩
    · refine ⟨nffs_unlink_quiet_of_fields rfl rfl
        (fun y hy => List.mem_cons_of_mem _ hy) rfl, fun _ y hy => ?_⟩
      cases hy
      exact List.mem_cons_self _ _

theorem nffs_inode_delete_from_ram_quiet (s : nffs_state) (inode_entry : Nat) :
    nffs_unlink_quiet s (nffs_inode_delete_from_ram s inode_entry).2 := by
  unfold nffs_inode_delete_from_ram
  simp only []
  obtain ⟨d, hd⟩ : ∃ d : Res Unit × nffs_state, d =
      (if nffs_hash_id_is_file (s.inodes inode_entry).nie_hash_entry.nhe_id = true then
        nffs_inode_delete_blocks_from_ram s inode_entry
      else (.ok (), s)) := ⟨_, rfl⟩
  rw [← hd]
  have h1 : nffs_unlink_quiet s d.2 := by
    rw [hd]
    split
    · unfold nffs_inode_delete_blocks_from_ram
      split
      · exact nffs_unlink_quiet_refl s
      · exact nffs_inode_delete_blocks_from_ram_loop_quiet _ _ _
    · exact nffs_unlink_quiet_refl s
  cases d with
  | mk r s1 =>
    simp only [] at h1
    cases r with
    | abort => exact h1
    | err rc => exact h1
    | ok u =>
      simp only []
      have h2 : nffs_unlink_quiet s (nffs_cache_inode_delete s1 inode_entry) :=
        nffs_unlink_quiet_trans h1 (nffs_unlink_quiet_of_fields rfl rfl (fun _ h => h) rfl)
      cases hrem : nffs_hash_remove (nffs_cache_inode_delete s1 inode_entry).hash_mem
          (nffs_cache_inode_delete s1 inode_entry).nffs_hash inode_entry with
      | none => exact h2
      | some tbl =>
        simp only []
        exact nffs_unlink_quiet_trans
          (nffs_unlink_quiet_trans h2 (nffs_hash_remove_quiet _ inode_entry tbl hrem))
          (nffs_inode_entry_free_quiet _ _).1

/-- The function `nffs_inode_insert_unlink_list` keeps the invariant: when it returns, the
entry was linked in the bucket of its id, is in no chain any more, and is the first entry
of the worklist, behind which the worklist is as before. -/
theorem nffs_inode_insert_unlink_list_step (s : nffs_state) (e : Nat) :
    nffs_unlink_step s (nffs_inode_insert_unlink_list s e).2 ∧
    (∀ x ∈ s.nffs_inode_unlink_list,
      x ∈ (nffs_inode_insert_unlink_list s e).2.nffs_inode_unlink_list) ∧
    ((nffs_inode_insert_unlink_list s e).1 = .ok () →
      e ∈ s.nffs_hash (nffs_hash_fn (s.hash_mem e).nhe_id) ∧
      (nffs_inode_insert_unlink_list s e).2.nffs_inode_unlink_list
        = e :: s.nffs_inode_unlink_list ∧
      (nffs_hash_inv s.hash_mem s.nffs_hash →
        ∀ i, e ∉ (nffs_inode_insert_unlink_list s e).2.nffs_hash i)) := by
  unfold nffs_inode_insert_unlink_list
  cases hrem : nffs_hash_remove s.hash_mem s.nffs_hash e with
  | none => exact ⟨nffs_unlink_step_refl s, fun _ h => h, fun h => by cases h⟩
  | some tbl =>
    simp only []
    obtain ⟨hin, h1, h2, h3⟩ := nffs_hash_remove_shrinks _ _ _ _ hrem
    refine ⟨⟨fun _ => rfl, h1, h2, fun _ h => h, ?_⟩,
      fun x hx => List.mem_cons_of_mem _ hx, fun _ => ⟨hin, rfl, h3⟩⟩
    intro hinv
    obtain ⟨⟨hb, hn⟩, hd⟩ := hinv
    refine ⟨⟨fun i x hx => hb i x (h1 i x hx), fun i => h2 i (hn i)⟩, fun x hx i hi => ?_⟩
    rcases List.mem_cons.mp hx with rfl | hx
    · exact h3 ⟨hb, hn⟩ i hi
    · exact hd x hx i (h1 i x hi)

/-- The function `nffs_inode_dec_refcnt` keeps the invariant and takes nothing off the
worklist. -/
theorem nffs_inode_dec_refcnt_step (s : nffs_state) (e : Nat) :
    nffs_unlink_step s (nffs_inode_dec_refcnt s e).2 ∧
    (∀ x ∈ s.nffs_inode_unlink_list,
      x ∈ (nffs_inode_dec_refcnt s e).2.nffs_inode_unlink_list) := by
  unfold nffs_inode_dec_refcnt
  split
  · simp only []
    obtain ⟨s1, hs1⟩ : ∃ s1 : nffs_state, s1 =
        { s with
          inodes := Function.update s.inodes e
            { s.inodes e with nie_refcnt := (s.inodes e).nie_refcnt - 1 } } := ⟨_, rfl⟩
    rw [← hs1]
    have hq : nffs_unlink_quiet s s1 := by
      rw [hs1]
      exact nffs_unlink_quiet_of_fields (hash_mem_update_keep s e _ rfl) rfl (fun _ h => h) rfl
    have hl : s1.nffs_inode_unlink_list = s.nffs_inode_unlink_list := hq.2.2.2.2
    split
    · split
      · have h2 := nffs_inode_delete_from_ram_quiet s1 e
        exact ⟨nffs_unlink_step_of_quiet (nffs_unlink_quiet_trans hq h2),
          fun x hx => by rw [h2.2.2.2.2, hl]; exact hx⟩
      · obtain ⟨h2, h3, _⟩ := nffs_inode_insert_unlink_list_step s1 e
        exact ⟨nffs_unlink_step_trans (nffs_unlink_step_of_quiet hq) h2,
          fun x hx => h3 x (by rw [hl]; exact hx)⟩
    · exact ⟨nffs_unlink_step_of_quiet hq, fun x hx => by rw [hl]; exact hx⟩
  · exact ⟨nffs_unlink_step_refl s, fun _ h => h⟩

theorem nffs_inode_process_unlink_list_children_step :
    ∀ (children : List Nat) (inout_next : Option (Option Nat)) (s : nffs_state),
      nffs_unlink_step s (nffs_inode_process_unlink_list_children children inout_next s).2.2 ∧
      (∀ x ∈ s.nffs_inode_unlink_list,
        x ∈ (nffs_inode_process_unlink_list_children children inout_next
          s).2.2.nffs_inode_unlink_list) := by
  intro children
  induction children with
  | nil =>
    intro inout_next s
    exact ⟨nffs_unlink_step_refl s, fun _ h => h⟩
  | cons child rest ih =>
    intro inout_next s
    unfold nffs_inode_process_unlink_list_children
    simp only []
    obtain ⟨h1, h2⟩ := nffs_inode_dec_refcnt_step s child
    cases hd : nffs_inode_dec_refcnt s child with
    | mk r s1 =>
      rw [hd] at h1 h2
      simp only [] at h1 h2
      cases r with
      | abort => exact ⟨h1, h2⟩
      | err rc => exact ⟨h1, h2⟩
      | ok u =>
        simp only []
        obtain ⟨h3, h4⟩ := ih
          (match inout_next with
            | none => none
            | some v => if v = some child then some rest.head? else some v) s1
        exact ⟨nffs_unlink_step_trans h1 h3, fun x hx => h4 x (h2 x hx)⟩

/-- The loop of `nffs_inode_process_unlink_list` keeps the invariant; when it returns 0
the worklist is empty and every entry that was on it is in the pool of inode entries. -/
theorem nffs_inode_process_unlink_list_loop_step :
    ∀ (fuel : Nat) (inout_next : Option (Option Nat)) (s : nffs_state),
      nffs_unlink_step s (nffs_inode_process_unlink_list_loop fuel inout_next s).2.2 ∧
      ((nffs_inode_process_unlink_list_loop fuel inout_next s).1 = .ok () →
        (nffs_inode_process_unlink_list_loop fuel inout_next s).2.2.nffs_inode_unlink_list
          = [] ∧
        ∀ x ∈ s.nffs_inode_unlink_list,
          x ∈ (nffs_inode_process_unlink_list_loop fuel inout_next
            s).2.2.nffs_inode_entry_pool) := by
  intro fuel
  induction fuel with
  | zero =>
    intro inout_next s
    unfold nffs_inode_process_unlink_list_loop
    cases hl : s.nffs_inode_unlink_list with
    | nil => exact ⟨nffs_unlink_step_refl s, fun _ => ⟨hl, fun x hx => by cases hx⟩⟩
    | cons a l => exact ⟨nffs_unlink_step_refl s, fun h => by cases h⟩
  | succ fuel ih =>
    intro inout_next s
    unfold nffs_inode_process_unlink_list_loop
    cases hl : s.nffs_inode_unlink_list with
    | nil => exact ⟨nffs_unlink_step_refl s, fun _ => ⟨hl, fun x hx => by cases hx⟩⟩
    | cons a l =>
      simp only []
      split
      · exact ⟨nffs_unlink_step_refl s, fun h => by cases h⟩
      · obtain ⟨s1, hs1⟩ : ∃ s1 : nffs_state,
            s1 = { s with nffs_inode_unlink_list := l } := ⟨_, rfl⟩
        rw [← hs1]
        have hs1l : s1.nffs_inode_unlink_list = l := by rw [hs1]
        have h1 : nffs_unlink_step s s1 := by
          rw [hs1]
          refine ⟨fun _ => rfl, fun _ _ h => h, fun _ h => h, fun _ h => h, fun hinv => ?_⟩
          exact ⟨hinv.1, fun x hx i hi =>
            hinv.2 x (by rw [hl]; exact List.mem_cons_of_mem _ hx) i hi⟩
        obtain ⟨h2, h3⟩ := nffs_inode_process_unlink_list_children_step
          (s.inodes a).nie_child_list inout_next s1
        cases hc : nffs_inode_process_unlink_list_children (s.inodes a).nie_child_list
            inout_next s1 with
        | mk r rest =>
          cases rest with
          | mk io2 s2 =>
            rw [hc] at h2 h3
            simp only [] at h2 h3
            have h12 := nffs_unlink_step_trans h1 h2
            cases r with
            | abort => exact ⟨h12, fun h => by cases h⟩
            | err rc => exact ⟨h12, fun h => by cases h⟩
            | ok u =>
              simp only []
              obtain ⟨h4, h5⟩ := nffs_inode_entry_free_quiet s2 (some a)
              cases hf : nffs_inode_entry_free s2 (some a) with
              | mk r3 s3 =>
                rw [hf] at h4 h5
                simp only [] at h4 h5
                have h123 := nffs_unlink_step_trans h12 (nffs_unlink_step_of_quiet h4)
                cases r3 with
                | abort => exact ⟨h123, fun h => by cases h⟩
                | err rc => exact ⟨h123, fun h => by cases h⟩
                | ok u3 =>
                  simp only []
                  obtain ⟨h6, h7⟩ := ih io2 s3
                  refine ⟨nffs_unlink_step_trans h123 h6, fun hok => ?_⟩
                  obtain ⟨h8, h9⟩ := h7 hok
                  refine ⟨h8, fun x hx => ?_⟩
                  rcases List.mem_cons.mp hx with rfl | hx
                  · exact h6.2.2.2.1 _ (h5 rfl _ rfl)
                  · apply h9
                    rw [h4.2.2.2.2]
                    exact h3 x (by rw [hs1l]; exact hx)

theorem nffs_inode_remove_child_quiet (s : nffs_state) (child : nffs_inode) :
    nffs_unlink_quiet s (nffs_inode_remove_child s child).2 := by
  unfold nffs_inode_remove_child
  split
  · exact nffs_unlink_quiet_refl s
  · split
    · exact nffs_unlink_quiet_refl s
    · split
      · exact nffs_unlink_quiet_refl s
      · exact nffs_unlink_quiet_of_fields (hash_mem_update_keep s _ _ rfl) rfl
          (fun _ h => h) rfl

theorem nffs_inode_unlink_from_ram_step (s : nffs_state) (inode : nffs_inode)
    (out_next : Option (Option Nat)) :
    nffs_unlink_step s (nffs_inode_unlink_from_ram s inode out_next).2.2 := by
  unfold nffs_inode_unlink_from_ram
  simp only []
  obtain ⟨d, hd⟩ : ∃ d : Res Unit × nffs_state, d =
      (if inode.ni_parent ≠ none then nffs_inode_remove_child s inode else (.ok (), s)) :=
    ⟨_, rfl⟩
  rw [← hd]
  have h1 : nffs_unlink_step s d.2 := by
    rw [hd]
    split
    · exact nffs_unlink_step_of_quiet (nffs_inode_remove_child_quiet s inode)
    · exact nffs_unlink_step_refl s
  cases d with
  | mk r s1 =>
    simp only [] at h1
    cases r with
    | abort => exact h1
    | err rc => exact h1
    | ok u =>
      simp only []
      split
      · have h2 := (nffs_inode_insert_unlink_list_step s1 inode.ni_inode_entry).1
        cases hi : nffs_inode_insert_unlink_list s1 inode.ni_inode_entry with
        | mk r2 s2 =>
          rw [hi] at h2
          simp only [] at h2
          have h12 := nffs_unlink_step_trans h1 h2
          cases r2 with
          | abort => exact h12
          | err rc => exact h12
          | ok u2 =>
            simp only []
            unfold nffs_inode_process_unlink_list
            exact nffs_unlink_step_trans h12
              (nffs_inode_process_unlink_list_loop_step _ out_next s2).1
      · have h2 := (nffs_inode_dec_refcnt_step s1 inode.ni_inode_entry).1
        cases hi : nffs_inode_dec_refcnt s1 inode.ni_inode_entry with
        | mk r2 s2 =>
          rw [hi] at h2
          simp only [] at h2
          have h12 := nffs_unlink_step_trans h1 h2
          cases r2 <;> exact h12

/-- Every reachable state has the invariant of the index and the worklist. -/
theorem nffs_unlink_inv_of_reachable (s : nffs_state) (h : nffs_unlink_reachable s) :
    nffs_unlink_inv s := by
  induction h with
  | init s h1 h2 =>
    refine ⟨⟨fun i e he => ?_, fun i => ?_⟩, fun e he => ?_⟩
    · rw [h1] at he; cases he
    · rw [h1]; exact List.nodup_nil
    · rw [h2] at he; cases he
  | insert s entry _ hfresh hnot ih =>
    obtain ⟨⟨hb, hn⟩, hd⟩ := ih
    refine ⟨⟨fun i e he => ?_, fun i => ?_⟩, fun e he i hi => ?_⟩
    · simp only [nffs_hash_insert, SLIST_INSERT_HEAD] at he
      by_cases hi : i = nffs_hash_fn (s.hash_mem entry).nhe_id
      · subst hi
        rw [Function.update_same] at he
        rcases List.mem_cons.mp he with rfl | he
        · rfl
        · exact hb _ e he
      · rw [Function.update_noteq hi] at he
        exact hb i e he
    · simp only [nffs_hash_insert, SLIST_INSERT_HEAD]
      by_cases hi : i = nffs_hash_fn (s.hash_mem entry).nhe_id
      · subst hi
        rw [Function.update_same]
        exact List.nodup_cons.mpr ⟨hfresh _, hn _⟩
      · rw [Function.update_noteq hi]
        exact hn i
    · simp only [nffs_hash_insert, SLIST_INSERT_HEAD] at hi
      by_cases hi2 : i = nffs_hash_fn (s.hash_mem entry).nhe_id
      · subst hi2
        rw [Function.update_same] at hi
        rcases List.mem_cons.mp hi with rfl | hi
        · exact hnot he
        · exact hd e he _ hi
      · rw [Function.update_noteq hi2] at hi
        exact hd e he i hi
  | find s id _ ih => exact (nffs_unlink_step_of_quiet (nffs_hash_find_quiet s id)).2.2.2.2 ih
  | dec_refcnt s e _ ih => exact (nffs_inode_dec_refcnt_step s e).1.2.2.2.2 ih
  | unlink_from_ram s inode out_next _ ih =>
    exact (nffs_inode_unlink_from_ram_step s inode out_next).2.2.2.2 ih
  | other s s2 _ h1 h2 h3 ih =>
    obtain ⟨⟨hb, hn⟩, hd⟩ := ih
    refine ⟨⟨fun i e he => ?_, fun i => ?_⟩, fun e he i hi => ?_⟩
    · rw [h1] at he
      rw [h3 i e he]
      exact hb i e he
    · rw [h1]; exact hn i
    · rw [h1] at hi
      rw [h2] at he
      exact hd e he i hi

/-- The state after inserting entries that are linked in no list, one after the other, is
reachable. -/
theorem nffs_unlink_reachable_foldl :
    ∀ (l : List Nat) (s : nffs_state), nffs_unlink_reachable s →
      (∀ e ∈ l, ∀ i, e ∉ s.nffs_hash i) → (∀ e ∈ l, e ∉ s.nffs_inode_unlink_list) →
      l.Nodup →
      nffs_unlink_reachable
        { s with
          nffs_hash := l.foldl (fun t e => nffs_hash_insert s.hash_mem t e) s.nffs_hash } := by
  intro l
  induction l with
  | nil => intro s h _ _ _; exact h
  | cons a l ih =>
    intro s h hfresh hnot hn
    rw [List.foldl_cons]
    refine ih { s with nffs_hash := nffs_hash_insert s.hash_mem s.nffs_hash a }
      (nffs_unlink_reachable.insert s a h (hfresh a (List.mem_cons_self a l))
        (hnot a (List.mem_cons_self a l))) ?_ ?_ (List.nodup_cons.mp hn).2
    · intro e he i hei
      have hea : e ≠ a := fun h2 => (List.nodup_cons.mp hn).1 (h2 ▸ he)
      simp only [nffs_hash_insert, SLIST_INSERT_HEAD] at hei
      by_cases hi : i = nffs_hash_fn (s.hash_mem a).nhe_id
      · subst hi
        rw [Function.update_same] at hei
        rcases List.mem_cons.mp hei with h2 | h2
        · exact hea h2
        · exact hfresh e (List.mem_cons_of_mem a he) _ h2
      · rw [Function.update_noteq hi] at hei
        exact hfresh e (List.mem_cons_of_mem a he) _ hei
    · intro e he
      exact hnot e (List.mem_cons_of_mem a he)

/-- In a state with the invariant, an entry that is not in the bucket of its id is in no
chain of the index. -/
theorem nffs_unlink_inv_not_linked (s : nffs_state) (e : Nat) (hinv : nffs_unlink_inv s)
    (h : e ∉ s.nffs_hash (nffs_hash_fn (s.hash_mem e).nhe_id)) : ∀ i, e ∉ s.nffs_hash i := by
  intro i hi
  have := hinv.1.1 i e hi
  rw [this] at h
  exact h hi

/-- The index and the unlink worklist are disjoint: in every state that is reached from
an empty index and an empty worklist by `nffs_hash_insert` (of an entry that is linked in
no list), `nffs_hash_find`, `nffs_inode_dec_refcnt` and `nffs_inode_unlink_from_ram`, no
entry of the unlink worklist is linked in a chain of the index, and no lookup with
`nffs_hash_find` returns an entry of the worklist.  A call of
`nffs_inode_insert_unlink_list` that returns has taken the entry out of the bucket of its
id, after which it is in no chain, and has made it the first entry of the worklist.  A
call of `nffs_inode_process_unlink_list` that returns 0 leaves the worklist empty; every
entry that was on it is in the pool of inode entries and in no chain of the index, and
the index holds no entry that it did not hold before. -/
theorem nffs_hash_unlink_list_disjoint (s : nffs_state) (h : nffs_unlink_reachable s) :
    (∀ e, e ∈ s.nffs_inode_unlink_list → ∀ i, e ∉ s.nffs_hash i) ∧
    (∀ e, e ∈ s.nffs_inode_unlink_list →
      ∀ id, (nffs_hash_find s.hash_mem s.nffs_hash id).1 ≠ some e) ∧
    (∀ e s2, nffs_inode_insert_unlink_list s e = (.ok (), s2) →
      e ∈ s.nffs_hash (nffs_hash_fn (s.hash_mem e).nhe_id) ∧
      (∀ i, e ∉ s2.nffs_hash i) ∧
      s2.nffs_inode_unlink_list = e :: s.nffs_inode_unlink_list) ∧
    (∀ inout_next r s2, nffs_inode_process_unlink_list s inout_next = (.ok (), r, s2) →
      s2.nffs_inode_unlink_list = [] ∧
      (∀ e, e ∈ s.nffs_inode_unlink_list →
        e ∈ s2.nffs_inode_entry_pool ∧ ∀ i, e ∉ s2.nffs_hash i) ∧
      (∀ i, ∀ e ∈ s2.nffs_hash i, e ∈ s.nffs_hash i)) := by
  have hinv := nffs_unlink_inv_of_reachable s h
  refine ⟨hinv.2, ?_, ?_, ?_⟩
  · intro e he id hf
    rcases nffs_hash_find_fst_snd s.hash_mem s.nffs_hash id with
      ⟨_, h1⟩ | ⟨pre, x, post, hl, _, _, h1⟩
    · rw [h1] at hf
      cases hf
    · rw [h1] at hf
      simp only [Option.some.injEq] at hf
      subst hf
      exact hinv.2 x he (nffs_hash_fn id) (by rw [hl]; simp)
  · intro e s2 hs
    obtain ⟨_, _, h3⟩ := nffs_inode_insert_unlink_list_step s e
    rw [hs] at h3
    obtain ⟨h4, h5, h6⟩ := h3 rfl
    exact ⟨h4, h6 hinv.1, h5⟩
  · intro inout_next r s2 hs
    unfold nffs_inode_process_unlink_list at hs
    obtain ⟨h1, h2⟩ := nffs_inode_process_unlink_list_loop_step
      (s.nffs_inode_unlink_list.length + nffs_hash_count s.nffs_hash) inout_next s
    rw [hs] at h1 h2
    obtain ⟨h3, h4⟩ := h2 rfl
    exact ⟨h3, fun e he => ⟨h4 e he, fun i hi => hinv.2 e he i (h1.2.1 i e hi)⟩, h1.2.1⟩

/-! ## Claim C35: the run list stays sorted -/

/-- C35: for a run list sorted by non-decreasing `t_prio` and a task `t` in the state
`OS_TASK_READY` that is not on it, `os_sched_insert(t)` returns 0 and changes the run
list only: the list `pre ++ post` becomes `pre ++ t :: post`, where every task of `pre`
has a `t_prio` not above that of `t` and every task of `post` a greater one, so `t` is
behind every task of the same priority; the new list is sorted, and
`os_sched_next_task` then returns a task whose `t_prio` no task of the list is below.
For a task in another state the call returns `OS_EINVAL` and changes nothing. -/
theorem os_sched_insert_sorted (s : os_state) (t : Nat)
    (hsorted : s.g_os_run_list.Pairwise (fun a b => (s.tasks a).t_prio ≤ (s.tasks b).t_prio))
    (_hnotin : t ∉ s.g_os_run_list) :
    ((s.tasks t).t_state = OS_TASK_READY →
      ∃ pre post, s.g_os_run_list = pre ++ post ∧
        os_sched_insert s t = (.ok (), { s with g_os_run_list := pre ++ t :: post }) ∧
        (∀ x ∈ pre, (s.tasks x).t_prio ≤ (s.tasks t).t_prio) ∧
        (∀ y ∈ post, (s.tasks t).t_prio < (s.tasks y).t_prio) ∧
        (pre ++ t :: post).Pairwise
          (fun a b => (s.tasks a).t_prio ≤ (s.tasks b).t_prio) ∧
        ∃ first, os_sched_next_task (os_sched_insert s t).2 = some first ∧
          ∀ x ∈ (os_sched_insert s t).2.g_os_run_list,
            ((os_sched_insert s t).2.tasks first).t_prio
              ≤ ((os_sched_insert s t).2.tasks x).t_prio) ∧
    ((s.tasks t).t_state ≠ OS_TASK_READY → os_sched_insert s t = (.err OS_EINVAL, s)) := by
  constructor
  · intro hready
    obtain ⟨pre, post, h1, h2, h3, h4⟩ := os_sched_insert_loop_spec s.tasks t s.g_os_run_list
    have hins : os_sched_insert s t = (.ok (), { s with g_os_run_list := pre ++ t :: post }) := by
      simp only [os_sched_insert, hready, ne_eq, not_true_eq_false, if_false, h2]
    rw [h1] at hsorted
    obtain ⟨hpre, hpost, hpp⟩ := List.pairwise_append.mp hsorted
    have hpost_gt : ∀ y ∈ post, (s.tasks t).t_prio < (s.tasks y).t_prio := by
      intro y hy
      cases post with
      | nil => cases hy
      | cons p rest =>
        have hp := h4 p rfl
        rcases List.mem_cons.mp hy with h | h
        · subst h; exact hp
        · have := (List.pairwise_cons.mp hpost).1 y h
          omega
    have hnew : (pre ++ t :: post).Pairwise
        (fun a b => (s.tasks a).t_prio ≤ (s.tasks b).t_prio) := by
      rw [List.pairwise_append]
      refine ⟨hpre, List.pairwise_cons.mpr ⟨fun y hy => Nat.le_of_lt (hpost_gt y hy), hpost⟩,
        ?_⟩
      intro x hx y hy
      rcases List.mem_cons.mp hy with h | h
      · subst h; exact h3 x hx
      · exact hpp x hx y h
    refine ⟨pre, post, h1, hins, h3, hpost_gt, hnew, ?_⟩
    rw [hins]
    cases hl : pre ++ t :: post with
    | nil => simp at hl
    | cons first rest =>
      refine ⟨first, by simp [os_sched_next_task, hl], ?_⟩
      intro x hx
      simp only [hl] at hx
      rw [hl] at hnew
      rcases List.mem_cons.mp hx with h | h
      · subst h; exact Nat.le_refl _
      · exact (List.pairwise_cons.mp hnew).1 x h
  · intro hnot
    simp only [os_sched_insert, hnot, ne_eq, not_false_eq_true, if_true]

/-- Witness of C35: in the example kernel with the ready tasks 1 (priority 5) and 2
(priority 7) on the run list, the ready task 3 of priority 7 goes behind the task 2. -/
theorem os_sched_insert_sorted_witness :
    ex_os_state.g_os_run_list.Pairwise
      (fun a b => (ex_os_state.tasks a).t_prio ≤ (ex_os_state.tasks b).t_prio) ∧
    3 ∉ ex_os_state.g_os_run_list ∧
    (os_sched_insert ex_os_state 3).1 = .ok () ∧
    (os_sched_insert ex_os_state 3).2.g_os_run_list = [1, 2, 3] ∧
    ∃ pre post, ex_os_state.g_os_run_list = pre ++ post ∧
      os_sched_insert ex_os_state 3
        = (.ok (), { ex_os_state with g_os_run_list := pre ++ 3 :: post }) := by
  have hs : ex_os_state.g_os_run_list.Pairwise
      (fun a b => (ex_os_state.tasks a).t_prio ≤ (ex_os_state.tasks b).t_prio) := by
    decide
  obtain ⟨pre, post, h1, h2, _⟩ :=
    (os_sched_insert_sorted ex_os_state 3 hs (by decide)).1 (by decide)
  exact ⟨hs, by decide, by decide, by decide, pre, post, h1, h2⟩

/-! ## Claim C40: the loop of `nffs_inode_seek` ends -/

/-- C40: for a file inode whose block chain `chain` has no repetition and ends at a block
without predecessor, whose cached size `S` is the sum of the data lengths of the blocks,
and for `offset < S`, `length > 0` and `offset + length < 2^32`: the loop of
`nffs_inode_seek` returns 0 when as many iterations are allowed as the chain has blocks,
a NULL block entry is never decoded (allowing more iterations gives the same result),
the block it returns is a block of the chain, and `nffs_inode_seek` returns this
result. -/
theorem nffs_inode_seek_loop_ends (cenv : nffs_cache_env) (s s1 : nffs_state)
    (inode_entry offset length cache_inode : Nat) (chain : List Nat)
    (hoff : offset < 2 ^ 32) (hlen : length < 2 ^ 32) (hpos : 0 < length)
    (hfile : nffs_hash_id_is_file (s.inodes inode_entry).nie_hash_entry.nhe_id = true)
    (hens : cenv.nffs_cache_inode_ensure s inode_entry = (.ok cache_inode, s1))
    (hS : (s1.cache_inodes cache_inode).nci_file_size < 2 ^ 32)
    (hw : nffs_block_walk s1 (s1.inodes inode_entry).nie_last_block_entry chain)
    (hn : chain.Nodup)
    (hsize : (chain.map (nffs_block_data_len s1)).sum
      = (s1.cache_inodes cache_inode).nci_file_size)
    (hlt : offset < (s1.cache_inodes cache_inode).nci_file_size)
    (hend : offset + length < 2 ^ 32) :
    ∃ info s2,
      nffs_inode_seek_loop (offset + length) (s1.cache_inodes cache_inode).nci_file_size
        chain.length (s1.inodes inode_entry).nie_last_block_entry
        (s1.cache_inodes cache_inode).nci_file_size s1 = (.ok info, s2) ∧
      (∀ fuel, chain.length ≤ fuel →
        nffs_inode_seek_loop (offset + length) (s1.cache_inodes cache_inode).nci_file_size
          fuel (s1.inodes inode_entry).nie_last_block_entry
          (s1.cache_inodes cache_inode).nci_file_size s1 = (.ok info, s2)) ∧
      info.nsi_last_block.nb_hash_entry ∈ chain ∧
      nffs_inode_seek cenv s inode_entry offset length = (.ok info, s2) := by
  have hchain : chain ≠ [] := by
    intro h
    subst h
    simp at hsize
    omega
  obtain ⟨pre, b, post, block, s2, t, hch, hl, _, _, hb, _⟩ :=
    nffs_inode_seek_loop_walk (offset + length)
      (s1.cache_inodes cache_inode).nci_file_size (by omega) chain chain.length _ s1 hw
      (Nat.le_refl _) hchain (by omega)
  rw [hsize] at hl
  have hmore : ∀ fuel, chain.length ≤ fuel →
      nffs_inode_seek_loop (offset + length) (s1.cache_inodes cache_inode).nci_file_size
        fuel (s1.inodes inode_entry).nie_last_block_entry
        (s1.cache_inodes cache_inode).nci_file_size s1
        = (.ok { nsi_last_block := block
                 nsi_block_file_off := (post.map (nffs_block_data_len s1)).sum
                 nsi_file_len := (s1.cache_inodes cache_inode).nci_file_size }, s2) := by
    intro fuel hf
    obtain ⟨k, rfl⟩ : ∃ k, fuel = chain.length + k := ⟨fuel - chain.length, by omega⟩
    rw [nffs_inode_seek_loop_more _ _ _ k _ _ _ (by rw [hl]; exact fun h => by cases h), hl]
  refine ⟨_, s2, hl, hmore, ?_, ?_⟩
  · simp only [hb, hch, List.mem_append, List.mem_cons, true_or, or_true]
  · have hlen0 : ¬ length = 0 := by omega
    simp only [nffs_inode_seek, hlen0, hfile, hens, Nat.mod_eq_of_lt hoff,
      Nat.mod_eq_of_lt hlen, Nat.mod_eq_of_lt hend, if_false, Bool.true_eq_false]
    rw [if_neg (by omega), if_neg (by omega)]
    exact hmore _ (nffs_block_walk_length chain s1 _ hw hn)

set_option maxRecDepth 1000000 in
/-- Witness of C40: the file 101 of the example with two blocks (size 3); the seek to
offset 0 with length 1 passes the block 201 and returns the block 200 in the second
iteration. -/
theorem nffs_inode_seek_loop_ends_witness :
    (nffs_inode_seek ex_cache_env ex_blocks_state 101 0 1).1
      = .ok { nsi_last_block :=
                { nb_hash_entry := 200, nb_seq := 0, nb_inode_entry := some 101,
                  nb_prev := none, nb_data_len := 2 }
              nsi_block_file_off := 0
              nsi_file_len := 3 } ∧
    ∃ info s2,
      nffs_inode_seek_loop (0 + 1) 3 2 (some 201) 3
        (ex_cache_env.nffs_cache_inode_ensure ex_blocks_state 101).2 = (.ok info, s2) ∧
      nffs_inode_seek ex_cache_env ex_blocks_state 101 0 1 = (.ok info, s2) := by
  obtain ⟨info, s2, h1, _, _, h4⟩ := nffs_inode_seek_loop_ends ex_cache_env ex_blocks_state
    (ex_cache_env.nffs_cache_inode_ensure ex_blocks_state 101).2 101 0 1 500 [201, 200]
    (by decide) (by decide) (by decide) (by decide) rfl (by decide)
    (nffs_block_walk_of_check _ _ _ (by decide)) (by decide) (by decide) (by decide)
    (by decide)
  exact ⟨by decide, info, s2, h1, h4⟩

/-! ## Claim C36: the invariant of the hash table -/

/-- C36: in every state of the index reached from `nffs_hash_init` by `nffs_hash_insert`
(of an entry that is not linked), `nffs_hash_find` and `nffs_hash_remove` (of an entry
that is linked), every entry in bucket `i` has `nhe_id mod 256 = i`; and
`nffs_hash_find` neither adds nor drops nor duplicates an entry: every bucket holds
afterwards a permutation of what it held, so the number of entries of the table is the
same. -/
theorem nffs_hash_bucket_of_id (mem : Nat → nffs_hash_entry) (tbl : nffs_hash_table)
    (h : nffs_hash_reachable mem tbl) :
    (∀ i, ∀ e ∈ tbl i, (mem e).nhe_id % 256 = i.val) ∧
    (∀ id i, ((nffs_hash_find mem tbl id).2 i).Perm (tbl i)) ∧
    (∀ id, nffs_hash_count (nffs_hash_find mem tbl id).2 = nffs_hash_count tbl) ∧
    (∀ id i, ∀ e ∈ (nffs_hash_find mem tbl id).2 i, (mem e).nhe_id % 256 = i.val) := by
  have hinv := nffs_hash_inv_of_reachable mem tbl h
  have hbucket : ∀ i, ∀ e ∈ tbl i, (mem e).nhe_id % 256 = i.val := by
    intro i e he
    have := hinv.1 i e he
    rw [← this]
    rfl
  have hperm : ∀ id i, ((nffs_hash_find mem tbl id).2 i).Perm (tbl i) := by
    intro id i
    rcases nffs_hash_find_fst_snd mem tbl id with ⟨_, hf⟩ | ⟨pre, e, post, hl, _, _, hf⟩
    · rw [hf]
    · rw [hf]
      by_cases hi : i = nffs_hash_fn id
      · subst hi
        simp only [Function.update_same]
        rw [hl]
        exact List.perm_middle.symm
      · simp only [Function.update_noteq hi]
        exact List.Perm.refl _
  refine ⟨hbucket, hperm, ?_, ?_⟩
  · intro id
    have hfun : (fun i => ((nffs_hash_find mem tbl id).2 i).length)
        = fun i => (tbl i).length := funext (fun i => (hperm id i).length_eq)
    unfold nffs_hash_count
    rw [hfun]
  · intro id i e he
    exact hbucket i e ((hperm id i).mem_iff.mp he)

/-- Witness of C36: the table with the two entries 2 and 1 of id 261 in bucket 5. -/
theorem nffs_hash_bucket_of_id_witness :
    nffs_hash_reachable c6_mem c6_tbl ∧ c6_tbl ⟨5, by decide⟩ = [2, 1] ∧
    (∀ i, ∀ e ∈ c6_tbl i, (c6_mem e).nhe_id % 256 = i.val) ∧
    (∀ id i, ((nffs_hash_find c6_mem c6_tbl id).2 i).Perm (c6_tbl i)) :=
  ⟨c6_tbl_reachable, by decide,
    (nffs_hash_bucket_of_id c6_mem c6_tbl c6_tbl_reachable).1,
    (nffs_hash_bucket_of_id c6_mem c6_tbl c6_tbl_reachable).2.1⟩

/-! ## Claim C34: strictly increasing child names -/

/-- C34 (amended): for a directory whose child list has strictly increasing filenames
(readable C strings) and an entry that is not in the list and whose filename is not the
filename of a child in the list, after `nffs_inode_add_child(parent, child)` returns 0
the child list, which holds the entry in addition, still has strictly increasing
filenames. -/
theorem nffs_inode_add_child_strict (s s' : nffs_state) (parent child : Nat)
    (hnames : ∀ e ∈ child :: (s.inodes parent).nie_child_list, ∃ n, has_filename s e n)
    (hsorted : (s.inodes parent).nie_child_list.Pairwise (filename_lt s))
    (_hnotin : child ∉ (s.inodes parent).nie_child_list)
    (hdist : ∀ x ∈ (s.inodes parent).nie_child_list,
      inode_filename s x ≠ inode_filename s child)
    (hok : nffs_inode_add_child s parent child = (.ok (), s')) :
    (s'.inodes parent).nie_child_list.Pairwise (filename_lt s') ∧
    child ∈ (s'.inodes parent).nie_child_list ∧
    ∀ x ∈ (s.inodes parent).nie_child_list, x ∈ (s'.inodes parent).nie_child_list := by
  obtain ⟨pre, post, h1, h2, h3, h4, _, _, _, _, _, _, h5, _⟩ :=
    nffs_inode_add_child_spec s s' parent child hnames
      (hsorted.imp (fun {a b} hab => filename_le_of_lt s a b hab)) hok
  have hlt : ∀ a b, filename_lt s a b → filename_lt s' a b := by
    intro a b hab
    unfold filename_lt at hab ⊢
    rw [h5 a, h5 b]
    exact hab
  rw [h1] at hsorted hdist
  obtain ⟨hpre, hpost, hpp⟩ := List.pairwise_append.mp hsorted
  have hprec : ∀ x ∈ pre, filename_lt s x child := by
    intro x hx
    obtain ⟨nx, nc, hnx, hnc, hle⟩ := h3 x hx
    refine ⟨nx, nc, hnx, hnc, ?_⟩
    cases hlex : filename_lex nx nc with
    | lt => rfl
    | gt => exact absurd hlex hle
    | eq =>
      have heq := (filename_lex_eq_iff nx nc).mp hlex
      refine absurd ?_ (hdist x (List.mem_append_left post hx))
      rw [hnx, hnc, heq]
  refine ⟨?_, ?_, ?_⟩
  · rw [h2]
    refine List.Pairwise.imp (fun {a b} hab => hlt a b hab) ?_
    rw [List.pairwise_append]
    refine ⟨hpre, List.pairwise_cons.mpr ⟨h4, hpost⟩, ?_⟩
    intro x hx y hy
    rcases List.mem_cons.mp hy with h | h
    · subst h; exact hprec x hx
    · exact hpp x hx y h
  · rw [h2]; simp
  · intro x hx
    rw [h2]
    rw [h1] at hx
    rcases List.mem_append.mp hx with h | h
    · exact List.mem_append_left _ h
    · exact List.mem_append_right _ (List.mem_cons_of_mem _ h)

set_option maxRecDepth 100000 in
/-- Witness of C34: the file "b" (entry 103) is added to the root directory of the
example file system, whose children are "a", "c" and "d". -/
theorem nffs_inode_add_child_strict_witness :
    (nffs_inode_add_child (ex_state 4096) 100 103).1 = .ok () ∧
    (((nffs_inode_add_child (ex_state 4096) 100 103).2).inodes 100).nie_child_list
      = [101, 103, 102, 104] ∧
    (((nffs_inode_add_child (ex_state 4096) 100 103).2).inodes 100).nie_child_list.Pairwise
      (filename_lt (nffs_inode_add_child (ex_state 4096) 100 103).2) := by
  have hn : ∀ e ∈ [103, 101, 102, 104], ∃ n, has_filename (ex_state 4096) e n := by
    intro e he
    simp only [List.mem_cons, List.mem_singleton, List.not_mem_nil, or_false] at he
    rcases he with rfl | rfl | rfl | rfl
    · exact ⟨[98], by decide, by decide⟩
    · exact ⟨[97], by decide, by decide⟩
    · exact ⟨[99], by decide, by decide⟩
    · exact ⟨[100], by decide, by decide⟩
  have hl : ((ex_state 4096).inodes 100).nie_child_list = [101, 102, 104] := by decide
  have hs : ((ex_state 4096).inodes 100).nie_child_list.Pairwise
      (filename_lt (ex_state 4096)) := by
    rw [hl]
    refine List.pairwise_cons.mpr ⟨?_, List.pairwise_cons.mpr ⟨?_, List.pairwise_singleton _ _⟩⟩
    · intro b hb
      simp only [List.mem_cons, List.mem_singleton, List.not_mem_nil, or_false] at hb
      rcases hb with rfl | rfl
      · exact ⟨[97], [99], by decide, by decide, by decide⟩
      · exact ⟨[97], [100], by decide, by decide, by decide⟩
    · intro b hb
      simp only [List.mem_singleton] at hb
      subst hb
      exact ⟨[99], [100], by decide, by decide, by decide⟩
  have hd : ∀ x ∈ ((ex_state 4096).inodes 100).nie_child_list,
      inode_filename (ex_state 4096) x ≠ inode_filename (ex_state 4096) 103 := by
    decide
  exact ⟨by decide, by decide,
    (nffs_inode_add_child_strict (ex_state 4096)
      (nffs_inode_add_child (ex_state 4096) 100 103).2 100 103 hn hs (by decide) hd
      (Prod.ext (by decide) rfl)).1⟩

set_option maxRecDepth 100000 in
/-- Counterexample to C34 as stated: the root directory of `ex_dup_state` has the
children "a", "c" and "d", and the entry 107, which is in no child list, is a file with
the name "c" as well.  `nffs_inode_add_child` returns 0 and puts the entry behind the
child "c": two children of the directory carry the same name. -/
theorem nffs_inode_add_child_same_name :
    (ex_dup_state.inodes 100).nie_child_list = [101, 102, 104] ∧
    [101, 102, 104].map (inode_filename ex_dup_state) = [some [97], some [99], some [100]] ∧
    107 ∉ (ex_dup_state.inodes 100).nie_child_list ∧
    (nffs_inode_add_child ex_dup_state 100 107).1 = .ok () ∧
    ((nffs_inode_add_child ex_dup_state 100 107).2.inodes 100).nie_child_list
      = [101, 102, 107, 104] ∧
    inode_filename (nffs_inode_add_child ex_dup_state 100 107).2 102 = some [99] ∧
    inode_filename (nffs_inode_add_child ex_dup_state 100 107).2 107 = some [99] ∧
    ¬ ((nffs_inode_add_child ex_dup_state 100 107).2.inodes 100).nie_child_list.Pairwise
      (filename_lt (nffs_inode_add_child ex_dup_state 100 107).2) := by
  have h102 : inode_filename (nffs_inode_add_child ex_dup_state 100 107).2 102 = some [99] := by
    decide
  have h107 : inode_filename (nffs_inode_add_child ex_dup_state 100 107).2 107 = some [99] := by
    decide
  have hlist : ((nffs_inode_add_child ex_dup_state 100 107).2.inodes 100).nie_child_list
      = [101, 102, 107, 104] := by decide
  refine ⟨by decide, by decide, by decide, by decide, hlist, h102, h107, ?_⟩
  intro hp
  rw [hlist] at hp
  have h := (List.pairwise_cons.mp (List.pairwise_cons.mp hp).2).1 107 (by simp)
  obtain ⟨na, nb, ha, hb, hlex⟩ := h
  rw [h102] at ha
  rw [h107] at hb
  cases ha
  cases hb
  revert hlex
  decide

/-! ## Claim C31: the Set Advertising Parameters command -/

set_option maxRecDepth 100000 in
/-- C31: for a command of 15 bytes and 16-bit minimum intervals, with `itvl_min` and
`itvl_max` the 16-bit values in the bytes 0-1 and 2-3 of the command:
`ll_adv_set_adv_params` returns `BLE_ERR_CMD_DISALLOWED` when advertising is enabled;
otherwise it returns 0 exactly when `itvl_min < itvl_max`, the type (byte 4) is one of
0..4, `itvl_min` is at least the minimum interval of the type and at most
`BLE_HCI_ADV_ITVL_MAX`, the own address type (byte 5) is at most 3, the peer address
type (byte 6) at most 1, the channel mask (byte 13) in 1..7 and the filter policy
(byte 14) at most 4, and `BLE_ERR_INV_HCI_CMD_PARMS` in every other case.  When it
returns nonzero the state machine is as before; when it returns 0 the stored intervals,
type, address types, channel mask and filter policy are those of the command and the
other members are as before. -/
theorem ll_adv_set_adv_params_checks (env : ll_env) (advsm : ll_adv_sm) (cmd : List Nat)
    (_hlen : cmd.length = BLE_HCI_SET_ADV_PARAM_LEN) (hbytes : ∀ b ∈ cmd, b < 256)
    (hmin : env.BLE_LL_ADV_ITVL_MIN < 2 ^ 16)
    (hnon : env.BLE_LL_ADV_ITVL_NONCONN_MIN < 2 ^ 16) :
    (advsm.enabled ≠ 0 →
      ll_adv_set_adv_params env advsm cmd = (.err BLE_ERR_CMD_DISALLOWED, advsm)) ∧
    (advsm.enabled = 0 →
      ((ll_adv_set_adv_params env advsm cmd).1 = .ok () ↔
        le16toh cmd < le16toh (cmd.drop 2) ∧ cmd.getD 4 0 ≤ 4 ∧
        (if cmd.getD 4 0 = 2 ∨ cmd.getD 4 0 = 3 then env.BLE_LL_ADV_ITVL_NONCONN_MIN
          else env.BLE_LL_ADV_ITVL_MIN) ≤ le16toh cmd ∧
        le16toh cmd ≤ BLE_HCI_ADV_ITVL_MAX ∧
        cmd.getD 5 0 ≤ 3 ∧ cmd.getD 6 0 ≤ 1 ∧
        1 ≤ cmd.getD 13 0 ∧ cmd.getD 13 0 ≤ 7 ∧ cmd.getD 14 0 ≤ 4) ∧
      ((ll_adv_set_adv_params env advsm cmd).1 ≠ .ok () →
        (ll_adv_set_adv_params env advsm cmd).1 = .err BLE_ERR_INV_HCI_CMD_PARMS)) ∧
    ((ll_adv_set_adv_params env advsm cmd).1 ≠ .ok () →
      (ll_adv_set_adv_params env advsm cmd).2 = advsm) ∧
    ((ll_adv_set_adv_params env advsm cmd).1 = .ok () →
      (ll_adv_set_adv_params env advsm cmd).2
        = { advsm with
            adv_itvl_min := le16toh cmd
            adv_itvl_max := le16toh (cmd.drop 2)
            adv_type := cmd.getD 4 0
            own_addr_type := cmd.getD 5 0
            peer_addr_type := cmd.getD 6 0
            adv_chanmask := cmd.getD 13 0
            adv_filter_policy := cmd.getD 14 0 }) := by
  have hb : ∀ i, cmd.getD i 0 < 256 := by
    intro i
    rw [List.getD_eq_getElem?_getD]
    cases h : cmd[i]? with
    | none => simp
    | some v => exact hbytes v (List.mem_iff_getElem?.mpr ⟨i, h⟩)
  have hmask : ∀ m, m < 256 → ((m &&& 0xF8 ≠ 0 ∨ m = 0) ↔ ¬ (1 ≤ m ∧ m ≤ 7)) := by decide
  have hm := hmask _ (hb 13)
  have h4 := hb 4
  have h5 := hb 5
  have h6 := hb 6
  have h14 := hb 14
  have hchar : ll_adv_set_adv_params env advsm cmd
      = if advsm.enabled ≠ 0 then (.err BLE_ERR_CMD_DISALLOWED, advsm)
        else if le16toh cmd < le16toh (cmd.drop 2) ∧ cmd.getD 4 0 ≤ 4 ∧
            (if cmd.getD 4 0 = 2 ∨ cmd.getD 4 0 = 3 then env.BLE_LL_ADV_ITVL_NONCONN_MIN
              else env.BLE_LL_ADV_ITVL_MIN) ≤ le16toh cmd ∧
            le16toh cmd ≤ BLE_HCI_ADV_ITVL_MAX ∧ cmd.getD 5 0 ≤ 3 ∧ cmd.getD 6 0 ≤ 1 ∧
            1 ≤ cmd.getD 13 0 ∧ cmd.getD 13 0 ≤ 7 ∧ cmd.getD 14 0 ≤ 4 then
          (.ok (),
            { advsm with
              adv_itvl_min := le16toh cmd
              adv_itvl_max := le16toh (cmd.drop 2)
              adv_type := cmd.getD 4 0
              own_addr_type := cmd.getD 5 0
              peer_addr_type := cmd.getD 6 0
              adv_chanmask := cmd.getD 13 0
              adv_filter_policy := cmd.getD 14 0 })
        else (.err BLE_ERR_INV_HCI_CMD_PARMS, advsm) := by
    have hlt : le16toh cmd < 2 ^ 16 := Nat.mod_lt _ (by norm_num)
    simp only [ll_adv_set_adv_params, Nat.mod_eq_of_lt h4, Nat.mod_eq_of_lt h5,
      Nat.mod_eq_of_lt h6, Nat.mod_eq_of_lt h14, Nat.mod_eq_of_lt (hb 13),
      Nat.mod_eq_of_lt hmin, Nat.mod_eq_of_lt hnon, BLE_HCI_ADV_TYPE_ADV_IND,
      BLE_HCI_ADV_TYPE_ADV_DIRECT_IND_HD, BLE_HCI_ADV_TYPE_ADV_DIRECT_IND_LD,
      BLE_HCI_ADV_TYPE_ADV_NONCONN_IND, BLE_HCI_ADV_TYPE_ADV_SCAN_IND,
      BLE_HCI_ADV_OWN_ADDR_MAX, BLE_HCI_ADV_PEER_ADDR_MAX, BLE_HCI_ADV_FILT_MAX,
      BLE_HCI_ADV_ITVL_MAX]
    generalize cmd.getD 4 0 = ty at *
    generalize cmd.getD 5 0 = own at *
    generalize cmd.getD 6 0 = peer at *
    generalize cmd.getD 13 0 = mask at *
    generalize cmd.getD 14 0 = filt at *
    generalize le16toh cmd = imin at *
    generalize le16toh (cmd.drop 2) = imax at *
    by_cases hmk : mask &&& 0xF8 ≠ 0 ∨ mask = 0
    · have hmk2 := hm.mp hmk
      split_ifs <;> first | rfl | (exfalso; omega)
    · have hmk2 := not_not.mp (fun h => hmk (hm.mpr h))
      split_ifs <;> first | rfl | (exfalso; omega)
  generalize cmd.getD 4 0 = ty at *
  generalize cmd.getD 5 0 = own at *
  generalize cmd.getD 6 0 = peer at *
  generalize cmd.getD 13 0 = mask at *
  generalize cmd.getD 14 0 = filt at *
  generalize le16toh cmd = imin at *
  generalize le16toh (cmd.drop 2) = imax at *
  rw [hchar]
  generalize (if ty = 2 ∨ ty = 3 then env.BLE_LL_ADV_ITVL_NONCONN_MIN
    else env.BLE_LL_ADV_ITVL_MIN) = mt
  refine ⟨fun h => by rw [if_pos h], fun h => ?_, ?_, ?_⟩
  · rw [if_neg (not_not.mpr h)]
    constructor
    · constructor
      · intro hok
        by_contra hv
        rw [if_neg hv] at hok
        cases hok
      · intro hv
        rw [if_pos hv]
    · intro hne
      split
      · rename_i hv
        rw [if_pos hv] at hne
        exact absurd rfl hne
      · rfl
  · split
    · intro _; rfl
    · split
      · intro hne; exact absurd rfl hne
      · intro _; rfl
  · split
    · intro hok; cases hok
    · split
      · intro _; rfl
      · intro hok; cases hok

/-- Witness of C31: the example command is accepted by the state machine that is not
enabled, and the parameters of the command are stored. -/
theorem ll_adv_set_adv_params_checks_witness :
    ex_ll_adv_cmd.length = BLE_HCI_SET_ADV_PARAM_LEN ∧ (∀ b ∈ ex_ll_adv_cmd, b < 256) ∧
    ll_adv_set_adv_params ex_ll_env ex_ll_adv_sm ex_ll_adv_cmd
      = (.ok (),
          { ex_ll_adv_sm with
            adv_itvl_min := 32, adv_itvl_max := 64, adv_type := 0, own_addr_type := 0,
            peer_addr_type := 0, adv_chanmask := 7, adv_filter_policy := 1 }) ∧
    ((ll_adv_set_adv_params ex_ll_env ex_ll_adv_sm ex_ll_adv_cmd).1 ≠ .ok () →
      (ll_adv_set_adv_params ex_ll_env ex_ll_adv_sm ex_ll_adv_cmd).2 = ex_ll_adv_sm) :=
  ⟨by decide, by decide, by decide,
    (ll_adv_set_adv_params_checks ex_ll_env ex_ll_adv_sm ex_ll_adv_cmd (by decide) (by decide)
      (by decide) (by decide)).2.2.1⟩

/-! ## Claim C33: the record that an unlinked open file references -/

set_option maxRecDepth 1000000 in
/-- C33 (the code at the failing input): in the example file system the file "a" (entry
101, object id 0x10000001) is held open, so its reference count is 2, and its entry
references the record at offset 20 of area 0, which has the sequence number 5.
`nffs_inode_unlink` returns 0 and writes the deletion record of the object, with the
sequence number 6, at offset 125; the entry is still linked in the hash table with the
reference count 1, but its flash location is still that of the record at offset 20: the
entry references the superseded record, not the record with the highest sequence
number, and decoding it gives the inode from before the call, with its parent. -/
theorem nffs_inode_unlink_keeps_old_record :
    nffs_hash_id_is_file (ex_open_state.inodes 101).nie_hash_entry.nhe_id = true ∧
    (ex_open_state.inodes 101).nie_refcnt = 2 ∧
    (nffs_inode_from_entry ex_open_state 101).1 = .ok ex_inode_a ∧
    (ex_open_state.inodes 101).nie_hash_entry.nhe_flash_loc = nffs_flash_loc 0 20 ∧
    (nffs_inode_unlink ex_env ex_open_state ex_inode_a).1 = .ok () ∧
    101 ∈ (nffs_inode_unlink ex_env ex_open_state ex_inode_a).2.2.nffs_hash
      (nffs_hash_fn 0x10000001) ∧
    ((nffs_inode_unlink ex_env ex_open_state ex_inode_a).2.2.inodes 101).nie_refcnt = 1 ∧
    ((nffs_inode_unlink ex_env ex_open_state ex_inode_a).2.2.inodes
      101).nie_hash_entry.nhe_flash_loc = nffs_flash_loc 0 20 ∧
    nffs_inode_read_disk (nffs_inode_unlink ex_env ex_open_state ex_inode_a).2.2 0 20
      = .ok (ex_header 0x10000001 5 0 1) ∧
    nffs_inode_read_disk (nffs_inode_unlink ex_env ex_open_state ex_inode_a).2.2 0 125
      = .ok (ex_header 0x10000001 6 NFFS_ID_NONE 0) ∧
    (nffs_inode_from_entry (nffs_inode_unlink ex_env ex_open_state ex_inode_a).2.2 101).1
      = .ok ex_inode_a := by
  decide

/-! ## Claim C37: the two filename comparisons agree -/

/-- C37: for an inode whose filename `n1` on flash can be read (at most 255 bytes, its
first bytes cached in the inode) and a name without NUL byte, when no flash read fails
`nffs_inode_filename_cmp_ram(inode, name, name_len)` returns 0 and `*result` is
negative, zero or positive as `n1` is lexicographically smaller than, equal to or greater
than `name`; it is 0 exactly when `n1 = name`; and for every inode `other` whose
filename on flash is `name`, `nffs_inode_filename_cmp_flash(inode, other)` returns 0
with a `*result` of the same sign. -/
theorem nffs_inode_filename_cmp_ram_agrees (s : nffs_state) (inode : nffs_inode)
    (n1 name : List Nat) (hio : ∀ a l, s.flash_read_fails a l = false)
    (hl1 : inode.ni_filename_len ≤ 255)
    (h1 : nffs_inode_read_filename_chunk s inode 0 inode.ni_filename_len = .ok n1)
    (hc1 : inode.ni_filename = n1.take NFFS_SHORT_FILENAME_LEN)
    (hz : 0 ∉ name) :
    ∃ r s1, nffs_inode_filename_cmp_ram s inode name name.length = (.ok r, s1) ∧
      int_sign r = filename_lex n1 name ∧ (r = 0 ↔ n1 = name) ∧
      ∀ other : nffs_inode, other.ni_filename_len ≤ 255 →
        nffs_inode_read_filename_chunk s other 0 other.ni_filename_len = .ok name →
        other.ni_filename = name.take NFFS_SHORT_FILENAME_LEN →
        ∃ r2 s2, nffs_inode_filename_cmp_flash s inode other = (.ok r2, s2) ∧
          int_sign r2 = int_sign r := by
  obtain ⟨r, s1, hram, _, hsign⟩ :=
    nffs_inode_filename_cmp_ram_spec s inode n1 name hio hl1 h1 hc1 hz
  refine ⟨r, s1, hram, hsign, ?_, ?_⟩
  · rw [← filename_lex_eq_iff, ← hsign]
    unfold int_sign
    constructor
    · intro h0
      simp [h0]
    · intro h
      by_contra hne
      by_cases hlt : r < 0
      · simp [hlt] at h
      · simp [hlt, hne] at h
  · intro other hl2 h2 hc2
    obtain ⟨r2, s2, hflash, _, hsign2⟩ :=
      nffs_inode_filename_cmp_flash_spec_right s inode other n1 name hio hl1 hl2 h1 h2 hc1 hc2
        hz
    exact ⟨r2, s2, hflash, by rw [hsign2, hsign]⟩

set_option maxRecDepth 100000 in
/-- Witness of C37: in the example file system the inode of the file "a" is compared with
the name "b" and with the inode of the file "b" (entry 103): both results are
negative. -/
theorem nffs_inode_filename_cmp_ram_agrees_witness :
    (nffs_inode_filename_cmp_ram (ex_state 4096) ex_inode_a [98] 1).1 = .ok (-1) ∧
    (nffs_inode_filename_cmp_flash (ex_state 4096) ex_inode_a
      { ni_inode_entry := 103, ni_seq := 0, ni_parent := some 100, ni_filename_len := 1,
        ni_filename := [98] }).1 = .ok (-1) ∧
    ∃ r s1, nffs_inode_filename_cmp_ram (ex_state 4096) ex_inode_a [98] [98].length
        = (.ok r, s1) ∧ int_sign r = filename_lex [97] [98] := by
  obtain ⟨r, s1, h, hs, _⟩ := nffs_inode_filename_cmp_ram_agrees (ex_state 4096) ex_inode_a
    [97] [98] (fun _ _ => rfl) (by decide) (by decide) (by decide) (by decide)
  exact ⟨by decide, by decide, r, s1, h, hs⟩

/-! ## C38: a directory handle that is opened, read and closed -/

/-- C38 (with the bound on the counts): let the pool of directory handles have the free
block `h` first, let the path lookup find the directory `D` and leave the inode entries
and the pool as they are, let the children `cs` of `D` be a list without repetition that
does not hold `D`, and let `D` and its children have reference counts from 1 to 254.
Then `nffs_dir_open` returns 0 with the handle `h`; after any number `k` of calls of
`nffs_dir_read` the count of `D` is one higher than before the open, the handle is not in
the pool, every entry other than `D` and the one the dirent refers to is as before the
open, and the entry the dirent refers to is a child of `D` whose count is one higher;
`nffs_dir_close` then returns 0, and afterwards every inode entry (so every reference
count) and the pool are as before the open. -/
theorem nffs_dir_open_read_close
    (find : nffs_state → List Nat → Res Nat × nffs_state)
    (s s2 : nffs_state) (path : List Nat) (od : Option Nat) (h D : Nat)
    (rest cs : List Nat)
    (hpool : s.nffs_dir_pool = h :: rest)
    (hfind : find (nffs_dir_alloc s).2 path = (.ok D, s2))
    (hframe : s2.inodes = s.inodes ∧ s2.nffs_dir_pool = rest)
    (hcs : (s.inodes D).nie_child_list = cs) (hnodup : cs.Nodup) (hD : D ∉ cs)
    (hrefD : 1 ≤ (s.inodes D).nie_refcnt ∧ (s.inodes D).nie_refcnt ≤ 254)
    (href : ∀ c ∈ cs, 1 ≤ (s.inodes c).nie_refcnt ∧ (s.inodes c).nie_refcnt ≤ 254) :
    ∃ so, nffs_dir_open find s path od = (.ok (), some h, so) ∧
      ∀ k,
        ((nffs_dir_read_iter h k so).inodes D).nie_refcnt = (s.inodes D).nie_refcnt + 1 ∧
        (nffs_dir_read_iter h k so).nffs_dir_pool = rest ∧
        (∀ e, e ≠ D →
          ((nffs_dir_read_iter h k so).dirs h).nd_dirent.nde_inode_entry ≠ some e →
          (nffs_dir_read_iter h k so).inodes e = s.inodes e) ∧
        (∀ c, ((nffs_dir_read_iter h k so).dirs h).nd_dirent.nde_inode_entry = some c →
          c ∈ cs ∧
          ((nffs_dir_read_iter h k so).inodes c).nie_refcnt = (s.inodes c).nie_refcnt + 1) ∧
        ∃ sc, nffs_dir_close (nffs_dir_read_iter h k so) (some h) = (.ok (), sc) ∧
          sc.inodes = s.inodes ∧ sc.nffs_dir_pool = s.nffs_dir_pool := by
  obtain ⟨hin, hpl⟩ := hframe
  have halloc : nffs_dir_alloc s = (some h, (nffs_dir_alloc s).2) := by
    unfold nffs_dir_alloc os_memblock_get
    rw [hpool]
  have hmod : ((s.inodes D).nie_refcnt + 1) % 256 = (s.inodes D).nie_refcnt + 1 :=
    Nat.mod_eq_of_lt (by omega)
  refine ⟨{ s2 with
      dirs := Function.update s2.dirs h
        { nd_parent_inode_entry := D, nd_dirent := { nde_inode_entry := none } }
      inodes := Function.update s.inodes D
        { s.inodes D with nie_refcnt := (s.inodes D).nie_refcnt + 1 } }, ?_, ?_⟩
  · unfold nffs_dir_open
    rw [halloc]
    simp only [hfind, hin, Function.update_same, Function.update_idem, hmod]
  · generalize hso : ({ s2 with
      dirs := Function.update s2.dirs h
        { nd_parent_inode_entry := D, nd_dirent := { nde_inode_entry := none } }
      inodes := Function.update s.inodes D
        { s.inodes D with nie_refcnt := (s.inodes D).nie_refcnt + 1 } } : nffs_state) = so
    have hsd : so.dirs h
        = { nd_parent_inode_entry := D, nd_dirent := { nde_inode_entry := none } } := by
      rw [← hso]; simp
    have hsi : so.inodes = Function.update s.inodes D
        { s.inodes D with nie_refcnt := (s.inodes D).nie_refcnt + 1 } := by
      rw [← hso]
    have hsp : so.nffs_dir_pool = rest := by rw [← hso]; exact hpl
    have hsiD : (so.inodes D).nie_refcnt = (s.inodes D).nie_refcnt + 1 := by
      rw [hsi, Function.update_same]
    have hsie : ∀ e, e ≠ D → so.inodes e = s.inodes e := by
      intro e he
      rw [hsi, Function.update_noteq he]
    have hfresh : (so.dirs h).nd_dirent.nde_inode_entry = none := by rw [hsd]
    have hpar : (so.dirs h).nd_parent_inode_entry = D := by rw [hsd]
    have hcs2 : (so.inodes (so.dirs h).nd_parent_inode_entry).nie_child_list = cs := by
      rw [hpar, hsi, Function.update_same]
      exact hcs
    have href2 : ∀ c ∈ cs, 1 ≤ (so.inodes c).nie_refcnt ∧ (so.inodes c).nie_refcnt ≤ 254 := by
      intro c hc
      have hne : c ≠ D := fun e => hD (e ▸ hc)
      rw [hsie c hne]
      exact href c hc
    intro k
    rw [nffs_dir_read_iter_mod so h cs hfresh hcs2 hnodup href2 k]
    generalize hpos : nffs_dir_pos cs (k % (cs.length + 1)) = c
    have hcmem : ∀ e, c = some e → e ∈ cs := by
      intro e he
      rw [he] at hpos
      cases hj : k % (cs.length + 1) with
      | zero => rw [hj] at hpos; cases hpos
      | succ j =>
        rw [hj] at hpos
        exact List.mem_iff_getElem?.mpr ⟨j, hpos⟩
    have hdir := (nffs_dir_at_dirs so h c).1
    have hclose := nffs_dir_close_at so h c
      (fun e he => by
        have hm := hcmem e he
        have hne : e ≠ D := fun x => hD (x ▸ hm)
        rw [hpar, hsie e hne]
        exact ⟨hne, (href e hm).1⟩)
      (by rw [hpar, hsiD]; omega)
    refine ⟨?_, ?_, ?_, ?_, ?_⟩
    · cases c with
      | none => exact hsiD
      | some e =>
        have hne : D ≠ e := fun x => hD (x ▸ hcmem e rfl)
        simp only [nffs_dir_at, Function.update_noteq hne]
        exact hsiD
    · cases c <;> exact hsp
    · intro e he hne
      rw [hdir] at hne
      cases c with
      | none => exact hsie e he
      | some e2 =>
        have hne2 : e ≠ e2 := fun x => hne (by rw [x])
        simp only [nffs_dir_at, Function.update_noteq hne2]
        exact hsie e he
    · intro e he
      rw [hdir] at he
      subst he
      have hm := hcmem e rfl
      have hne : e ≠ D := fun x => hD (x ▸ hm)
      refine ⟨hm, ?_⟩
      simp only [nffs_dir_at, Function.update_same]
      rw [hsie e hne]
    · rw [hclose]
      refine ⟨_, rfl, ?_, ?_⟩
      · simp only [hpar, hsi, Function.update_same, Function.update_idem]
        rw [Function.update_eq_self_iff]
        exact nffs_inode_entry_refcnt_eta _ _ (by simp)
      · simp only [hsp, hpool]

theorem nffs_dir_open_read_close_witness :
    ∃ so, nffs_dir_open ex_path_find_root ex_pool_state [] none = (.ok (), some 300, so) ∧
      ∀ k,
        ((nffs_dir_read_iter 300 k so).inodes 100).nie_refcnt
          = (ex_pool_state.inodes 100).nie_refcnt + 1 ∧
        (nffs_dir_read_iter 300 k so).nffs_dir_pool = [301] ∧
        (∀ e, e ≠ 100 →
          ((nffs_dir_read_iter 300 k so).dirs 300).nd_dirent.nde_inode_entry ≠ some e →
          (nffs_dir_read_iter 300 k so).inodes e = ex_pool_state.inodes e) ∧
        (∀ c, ((nffs_dir_read_iter 300 k so).dirs 300).nd_dirent.nde_inode_entry = some c →
          c ∈ [101, 102, 104] ∧
          ((nffs_dir_read_iter 300 k so).inodes c).nie_refcnt
            = (ex_pool_state.inodes c).nie_refcnt + 1) ∧
        ∃ sc, nffs_dir_close (nffs_dir_read_iter 300 k so) (some 300) = (.ok (), sc) ∧
          sc.inodes = ex_pool_state.inodes ∧
          sc.nffs_dir_pool = ex_pool_state.nffs_dir_pool :=
  nffs_dir_open_read_close ex_path_find_root ex_pool_state (nffs_dir_alloc ex_pool_state).2
    [] none 300 100 [301] [101, 102, 104] rfl rfl ⟨rfl, rfl⟩ rfl (by decide) (by decide)
    (by decide) (by decide)

/-- C38 fails for a directory that holds 255 references: `nffs_dir_open` returns 0 and
leaves the 8-bit count of the directory at 0, not one higher, and `nffs_dir_close` of the
handle then stops at the assertion of `nffs_inode_dec_refcnt`. -/
theorem nffs_dir_open_refcnt_wraps :
    (ex_full_refcnt_state.inodes 100).nie_refcnt = 255 ∧
    (nffs_dir_open ex_path_find_root ex_full_refcnt_state [] none).1 = .ok () ∧
    (nffs_dir_open ex_path_find_root ex_full_refcnt_state [] none).2.1 = some 300 ∧
    ((nffs_dir_open ex_path_find_root ex_full_refcnt_state [] none).2.2.inodes 100).nie_refcnt
      = 0 ∧
    (nffs_dir_close (nffs_dir_open ex_path_find_root ex_full_refcnt_state [] none).2.2
      (some 300)).1 = .abort := by
  decide

/-! ## C39: `ffs_flash_copy` -/

/-- C39: let the driver be a memory of bytes (`img` gives the cells after the calls made
so far; reads succeed and return the cells, writes succeed and store their bytes in
erased cells, and no call changes a cell outside a written span).  For two distinct valid
sector ids whose sectors lie in the 32-bit address space and do not overlap, a source span
inside the source sector and a destination span inside the destination sector that is
erased and starts at or after the cursor, `ffs_flash_copy` returns 0 after
`(len + 255) / 256` rounds of one driver read and one driver write; afterwards the
destination bytes are the source bytes, every cell outside the destination span (so the
source sector) is as before, the cursor of the destination is `offset_to + len`, and for
`len = 0` the table of sectors is unchanged.  For every driver, a round whose read or
write fails ends the loop with that error, and so does the function when its first read
fails. -/
theorem ffs_flash_copy_copies (env : ffs_env) (img : List flash_op → Nat → Nat)
    (s : ffs_state) (buf : List Nat)
    (sector_id_from offset_from sector_id_to offset_to len : Nat)
    (secf sect : ffs_sector_info)
    (hsf : sector_id_from < 2 ^ 16) (hst : sector_id_to < 2 ^ 16)
    (hne : sector_id_from ≠ sector_id_to)
    (hsecf : s.ffs_sectors[sector_id_from]? = some secf)
    (hsect : s.ffs_sectors[sector_id_to]? = some sect)
    (hf32 : secf.fsi_offset + secf.fsi_length ≤ 2 ^ 32) (hfl : secf.fsi_length < 2 ^ 32)
    (ht32 : sect.fsi_offset + sect.fsi_length ≤ 2 ^ 32) (htl : sect.fsi_length < 2 ^ 32)
    (hdisj : secf.fsi_offset + secf.fsi_length ≤ sect.fsi_offset ∨
      sect.fsi_offset + sect.fsi_length ≤ secf.fsi_offset)
    (hfrom : offset_from + len ≤ secf.fsi_length) (hto : offset_to + len ≤ sect.fsi_length)
    (hcur : sect.fsi_cur ≤ offset_to)
    (herased : ∀ a, sect.fsi_offset + offset_to ≤ a → a < sect.fsi_offset + offset_to + len →
      img s.flash_ops a = 0xff)
    (hbyte : ∀ ops a, img ops a < 256)
    (hread : ∀ ops addr len, env.flash_read ops addr len = (0, mem_read (img ops) addr len))
    (hread_img : ∀ ops addr len, img (ops ++ [flash_op.flash_read addr len]) = img ops)
    (hwrite : ∀ ops data addr len, env.flash_write ops data addr len = 0)
    (hwrite_out : ∀ ops data addr len a, ¬ (addr ≤ a ∧ a < addr + len) →
      img (ops ++ [flash_op.flash_write data addr len]) a = img ops a)
    (hwrite_in : ∀ ops data addr len a, addr ≤ a → a < addr + len → img ops a = 0xff →
      img (ops ++ [flash_op.flash_write data addr len]) a = data.getD (a - addr) 0 % 256) :
    (∃ s2, ffs_flash_copy env s buf sector_id_from offset_from sector_id_to offset_to len
        = (.ok (), s2) ∧
      s2.flash_ops.length = s.flash_ops.length + 2 * ((len + 255) / 256) ∧
      (∀ i, i < len →
        img s2.flash_ops (sect.fsi_offset + offset_to + i)
          = img s.flash_ops (secf.fsi_offset + offset_from + i)) ∧
      mem_read (img s2.flash_ops) (sect.fsi_offset + offset_to) len
        = mem_read (img s.flash_ops) (secf.fsi_offset + offset_from) len ∧
      (∀ a, ¬ (sect.fsi_offset + offset_to ≤ a ∧ a < sect.fsi_offset + offset_to + len) →
        img s2.flash_ops a = img s.flash_ops a) ∧
      (∀ a, secf.fsi_offset ≤ a → a < secf.fsi_offset + secf.fsi_length →
        img s2.flash_ops a = img s.flash_ops a) ∧
      s2.ffs_sectors
        = (if len = 0 then s.ffs_sectors
           else s.ffs_sectors.set sector_id_to { sect with fsi_cur := offset_to + len }) ∧
      s2.ffs_sectors[sector_id_from]? = some secf ∧
      s2.ffs_sectors[sector_id_to]?
        = some (if len = 0 then sect else { sect with fsi_cur := offset_to + len })) ∧
    (∀ (env2 : ffs_env) (fuel : Nat) (buf2 : List Nat) (off_from off_to len2 : Nat)
        (s0 : ffs_state), 0 < len2 →
      (∀ rc s1, ffs_flash_read env2 s0 sector_id_from off_from
          (if len2 > 256 then 256 else len2) = (.err rc, s1) →
        ffs_flash_copy_loop env2 sector_id_from sector_id_to (fuel + 1) buf2 off_from off_to
          len2 s0 = (.err rc, s1)) ∧
      (∀ data s1 rc s2, ffs_flash_read env2 s0 sector_id_from off_from
          (if len2 > 256 then 256 else len2) = (.ok data, s1) →
        ffs_flash_write env2 s1 sector_id_to off_to (data ++ buf2.drop data.length)
          (if len2 > 256 then 256 else len2) = (.err rc, s2) →
        ffs_flash_copy_loop env2 sector_id_from sector_id_to (fuel + 1) buf2 off_from off_to
          len2 s0 = (.err rc, s2))) ∧
    (∀ (env2 : ffs_env) rc s1, 0 < len →
      ffs_flash_read env2 s sector_id_from offset_from (if len > 256 then 256 else len)
        = (.err rc, s1) →
      ffs_flash_copy env2 s buf sector_id_from offset_from sector_id_to offset_to len
        = (.err rc, s1)) := by
  have hm1 : sector_id_from % 2 ^ 16 = sector_id_from := Nat.mod_eq_of_lt hsf
  have hm2 : sector_id_to % 2 ^ 16 = sector_id_to := Nat.mod_eq_of_lt hst
  have hm3 : offset_from % 2 ^ 32 = offset_from := Nat.mod_eq_of_lt (by omega)
  have hm4 : offset_to % 2 ^ 32 = offset_to := Nat.mod_eq_of_lt (by omega)
  have hm5 : len % 2 ^ 32 = len := Nat.mod_eq_of_lt (by omega)
  have hcopy : ∀ env2, ffs_flash_copy env2 s buf sector_id_from offset_from sector_id_to
      offset_to len
      = ffs_flash_copy_loop env2 sector_id_from sector_id_to ((len + 255) / 256 + 1) buf
          offset_from offset_to len s := by
    intro env2
    simp only [ffs_flash_copy, hm1, hm2, hm3, hm4, hm5]
  refine ⟨?_, ?_, ?_⟩
  · obtain ⟨s2, hloop, hlen2, hin, hout, hsec, _⟩ :=
      ffs_flash_copy_loop_spec env img sector_id_from sector_id_to secf hsf hst hne hbyte hread
        hread_img hwrite hwrite_out hwrite_in hf32 hfl ((len + 255) / 256 + 1) len offset_from
        offset_to buf s sect hsecf hsect ht32 htl hdisj hfrom hto hcur herased (by omega)
    have hstlt : sector_id_to < s.ffs_sectors.length := by
      by_contra hn
      rw [List.getElem?_eq_none (by omega)] at hsect
      cases hsect
    refine ⟨s2, (hcopy env).trans hloop, hlen2, hin, ?_, hout, ?_, hsec, ?_, ?_⟩
    · unfold mem_read
      apply List.map_congr_left
      intro i hi
      rw [hin i (List.mem_range.mp hi)]
    · intro a h1 h2
      exact hout a (by omega)
    · rw [hsec]
      split
      · exact hsecf
      · rw [List.getElem?_set_ne (Ne.symm hne)]
        exact hsecf
    · rw [hsec]
      split
      · exact hsect
      · rw [List.getElem?_set_self hstlt]
  · intro env2 fuel buf2 off_from off_to len2 s0 hlen2
    exact ffs_flash_copy_loop_error env2 sector_id_from sector_id_to fuel buf2 off_from off_to
      len2 s0 hlen2
  · intro env2 rc s1 hlen h
    rw [hcopy env2]
    exact (ffs_flash_copy_loop_error env2 sector_id_from sector_id_to ((len + 255) / 256) buf
      offset_from offset_to len s hlen).1 rc s1 h

set_option maxRecDepth 100000 in
/-- Witness of C39: 300 bytes are copied from offset 16 of the first sector of the example
table to offset 16 of its second sector, in two rounds. -/
theorem ffs_flash_copy_copies_witness :
    (∃ s2, ffs_flash_copy ex_copy_env ex_ffs_state [] 0 16 1 16 300 = (.ok (), s2) ∧
      s2.flash_ops.length = ex_ffs_state.flash_ops.length + 2 * ((300 + 255) / 256) ∧
      (∀ i, i < 300 →
        ex_flash_image s2.flash_ops (4096 + 16 + i)
          = ex_flash_image ex_ffs_state.flash_ops (0 + 16 + i)) ∧
      mem_read (ex_flash_image s2.flash_ops) (4096 + 16) 300
        = mem_read (ex_flash_image ex_ffs_state.flash_ops) (0 + 16) 300 ∧
      (∀ a, ¬ (4096 + 16 ≤ a ∧ a < 4096 + 16 + 300) →
        ex_flash_image s2.flash_ops a = ex_flash_image ex_ffs_state.flash_ops a) ∧
      (∀ a, 0 ≤ a → a < 0 + 4096 →
        ex_flash_image s2.flash_ops a = ex_flash_image ex_ffs_state.flash_ops a) ∧
      s2.ffs_sectors
        = (if 300 = 0 then ex_ffs_state.ffs_sectors
           else ex_ffs_state.ffs_sectors.set 1
            { fsi_offset := 4096, fsi_length := 8192, fsi_cur := 16 + 300 }) ∧
      s2.ffs_sectors[0]? = some { fsi_offset := 0, fsi_length := 4096, fsi_cur := 16 } ∧
      s2.ffs_sectors[1]?
        = some (if 300 = 0 then { fsi_offset := 4096, fsi_length := 8192, fsi_cur := 16 }
            else { fsi_offset := 4096, fsi_length := 8192, fsi_cur := 16 + 300 })) ∧
    (ffs_flash_copy ex_copy_env ex_ffs_state [] 0 16 1 16 300).2.flash_ops
      = [flash_op.flash_read 16 256,
          flash_op.flash_write (mem_read (ex_flash_image []) 16 256) 4112 256,
          flash_op.flash_read 272 44,
          flash_op.flash_write (mem_read (ex_flash_image []) 272 44) 4368 44] ∧
    ffs_flash_copy ex_fail_env ex_ffs_state [] 0 16 1 16 300
      = (.err 5, { ex_ffs_state with flash_ops := [flash_op.flash_read 16 256] }) :=
  have h := ffs_flash_copy_copies ex_copy_env ex_flash_image ex_ffs_state [] 0 16 1 16 300
    { fsi_offset := 0, fsi_length := 4096, fsi_cur := 16 }
    { fsi_offset := 4096, fsi_length := 8192, fsi_cur := 16 }
    (by decide) (by decide) (by decide) rfl rfl (by decide) (by decide) (by decide)
    (by decide) (by decide) (by decide) (by decide) (by decide)
    (fun a h1 h2 => by
      have h3 : ¬ a < 4096 := by
        have : 4096 + 16 ≤ a := h1
        omega
      simp only [ex_ffs_state, ex_flash_image, List.foldl_nil, if_neg h3])
    ex_flash_image_byte (fun _ _ _ => rfl)
    (fun ops addr len => ex_flash_image_snoc ops (flash_op.flash_read addr len))
    (fun _ _ _ _ => rfl)
    (fun ops data addr len a ha => by
      rw [ex_flash_image_snoc]
      simp only [if_neg ha])
    (fun ops data addr len a h1 h2 _ => by
      rw [ex_flash_image_snoc]
      simp only [if_pos (And.intro h1 h2)])
  ⟨h.1, rfl, h.2.2 ex_fail_env 5 _ (by decide) rfl⟩

/-! ## C32: an entry that is taken off the unlink worklist -/

set_option maxRecDepth 1000000 in
/-- C32 (the code at the failing input): in the tree of `ex_leak_state`, a state reached
by inserting its five entries in the empty index, the directory "d" (entry 104) holds the
file 101, whose block 201 the flash driver cannot read.  When "d" loses its only
reference, `nffs_inode_dec_refcnt` takes it out of the index and puts it on the unlink
worklist.  `nffs_inode_process_unlink_list` then takes it off the worklist and returns
`NFFS_EFLASH_ERROR` from the deletion of the file: the worklist is empty, but the entry
has not been freed, it is neither in the pool of inode entries nor in a chain of the index.
`nffs_inode_unlink_from_ram` of the directory ends in the same way. -/
theorem nffs_inode_process_unlink_list_leaks :
    nffs_unlink_reachable ex_leak_state ∧
    104 ∈ ex_leak_state.nffs_hash (nffs_hash_fn 1) ∧
    (nffs_inode_dec_refcnt ex_leak_state 104).1 = .ok () ∧
    (nffs_inode_dec_refcnt ex_leak_state 104).2.nffs_inode_unlink_list = [104] ∧
    (∀ i, 104 ∉ (nffs_inode_dec_refcnt ex_leak_state 104).2.nffs_hash i) ∧
    (nffs_inode_process_unlink_list (nffs_inode_dec_refcnt ex_leak_state 104).2 none).1
      = .err NFFS_EFLASH_ERROR ∧
    (nffs_inode_process_unlink_list (nffs_inode_dec_refcnt ex_leak_state 104).2
      none).2.2.nffs_inode_unlink_list = [] ∧
    (nffs_inode_process_unlink_list (nffs_inode_dec_refcnt ex_leak_state 104).2
      none).2.2.nffs_inode_entry_pool = [] ∧
    (∀ i, 104 ∉ (nffs_inode_process_unlink_list (nffs_inode_dec_refcnt ex_leak_state 104).2
      none).2.2.nffs_hash i) ∧
    (nffs_inode_unlink_from_ram ex_leak_state ex_leak_dir none).1 = .err NFFS_EFLASH_ERROR ∧
    (nffs_inode_unlink_from_ram ex_leak_state ex_leak_dir none).2.2.nffs_inode_unlink_list
      = [] ∧
    (nffs_inode_unlink_from_ram ex_leak_state ex_leak_dir none).2.2.nffs_inode_entry_pool
      = [] ∧
    (∀ i, 104 ∉ (nffs_inode_unlink_from_ram ex_leak_state ex_leak_dir none).2.2.nffs_hash
      i) := by
  have hreach : nffs_unlink_reachable ex_leak_state :=
    nffs_unlink_reachable_foldl [100, 104, 101, 200, 201] ex_leak_start
      (nffs_unlink_reachable.init ex_leak_start rfl rfl)
      (fun _ _ _ hx => by cases hx) (fun _ _ hx => by cases hx) (by decide)
  have hreach1 := nffs_unlink_reachable.dec_refcnt ex_leak_state 104 hreach
  have hinv1 := nffs_unlink_inv_of_reachable _ hreach1
  have hinv2 := (nffs_inode_process_unlink_list_loop_step
    ((nffs_inode_dec_refcnt ex_leak_state 104).2.nffs_inode_unlink_list.length
      + nffs_hash_count (nffs_inode_dec_refcnt ex_leak_state 104).2.nffs_hash)
    none (nffs_inode_dec_refcnt ex_leak_state 104).2).1.2.2.2.2 hinv1
  have hinv3 := nffs_unlink_inv_of_reachable _
    (nffs_unlink_reachable.unlink_from_ram ex_leak_state ex_leak_dir none hreach)
  refine ⟨hreach, by decide, by decide, by decide, ?_, by decide, by decide, by decide, ?_,
    by decide, by decide, by decide, ?_⟩
  · exact nffs_unlink_inv_not_linked _ 104 hinv1 (by decide)
  · exact nffs_unlink_inv_not_linked _ 104 hinv2 (by decide)
  · exact nffs_unlink_inv_not_linked _ 104 hinv3 (by decide)

end Nffs
